import Mathlib

/-!
# MAO: entry stream, sections, function discovery, relaxation sizes, passes

A shallow embedding of the parts of `MaoUnit.cc` and `MaoRelax.cc` that build the
intermediate representation and compute per-entry sizes, of the two passes
`MaoDCE.cc` (dead blocks) and `MaoRedundantMemMove.cc` (redundant memory moves), and
of the driver `mao.cc` (command line, output of the IR).

Conventions of the embedding:

* Heap objects (`MaoEntry`, `SubSection`, `Section`) live in lists; a C++ pointer is
  the position of the object in its list and a null pointer is `none`.  Entry
  objects are numbered in allocation order.
* A fatal assertion (`MAO_ASSERT`) or the dereference of a null pointer makes the
  operation return `none`.
* Loops that follow `next` pointers take a fuel argument; running out of fuel stands
  for a loop that does not terminate.
-/

namespace Mao

/-! ## Expressions, operands, instructions, entries -/

/-- The expression tags of the assembler front end that the source mentions; every
other tag is `O_other`. -/
inductive operatorT where
  | O_illegal
  | O_absent
  | O_constant
  | O_symbol
  | O_big
  | O_add
  | O_subtract
  | O_other (tag : Nat)
deriving DecidableEq, Repr

/-- The fields of `expressionS` the source reads.  Symbols are given by name. -/
structure expressionS where
  X_op : operatorT
  X_add_number : Int
  X_unsigned : Bool
  X_add_symbol : Option String
  X_op_symbol : Option String
deriving DecidableEq, Repr

/-- The directive opcodes, `DirectiveEntry::Opcode`. -/
inductive Opcode where
  | FILE | SECTION | GLOBAL | LOCAL | WEAK | TYPE | SIZE
  | BYTE | WORD | LONG | QUAD | RVA
  | ASCII | STRING8 | STRING16 | STRING32 | STRING64
  | SLEB128 | ULEB128
  | P2ALIGN | P2ALIGNW | P2ALIGNL
  | SPACE | DS_B | DS_W | DS_L | DS_D | DS_X
  | COMM | IDENT | SET | EQUIV | WEAKREF | ARCH
  | NUM_OPCODES
deriving DecidableEq, Repr

/-- A directive operand, `DirectiveEntry::Operand`: the type tag with its payload. -/
inductive Operand where
  | NO_OPERAND
  | STRING (str : String)
  | INT (i : Int)
  | SYMBOL (sym : String)
  | EXPRESSION (expr : expressionS)
  | EMPTY_OPERAND
deriving DecidableEq, Repr

/-- The fields of `i386_insn` read by the relaxer: the mnemonic, the template's jump
modifier and base opcode, the data-size prefix slot, the displacement expression of
operand 0 and its relocation. -/
structure i386_insn where
  op : Nat
  jump : Bool
  base_opcode : Nat
  data_prefix_slot : Nat
  disps0 : Option expressionS
  reloc0 : Nat
deriving DecidableEq, Repr

/-- The payload of an entry; the constructor is the value of `MaoEntry::Type()`. -/
inductive EntryData where
  | UNDEFINED
  | INSTRUCTION (instruction : i386_insn)
  | LABEL (name : String)
  | DIRECTIVE (op : Opcode) (operands : List Operand)
  | DEBUG (key : String) (value : String)
deriving DecidableEq, Repr

/-- An entry object: `id_`, the two links of the chain, and the payload. -/
structure MaoEntry where
  id_ : Nat
  next_ : Option Nat
  prev_ : Option Nat
  data : EntryData
deriving DecidableEq, Repr

/-- The constructor `MaoEntry::MaoEntry`: id 0 and both links null. -/
def MaoEntry.new (data : EntryData) : MaoEntry :=
  { id_ := 0, next_ := none, prev_ := none, data := data }

/-! ## Subsections, sections, symbols, the unit -/

/-- A subsection: `section_` points to the owning section. -/
structure SubSection where
  id_ : Nat
  number_ : Nat
  name_ : String
  section_ : Nat
  first_entry_ : Option Nat
  last_entry_ : Option Nat
  start_section_ : Bool
deriving DecidableEq, Repr

/-- A section: its name, id and the subsections it owns (pointers, creation order). -/
structure Section where
  name_ : String
  id_ : Nat
  subsections_ : List Nat
deriving DecidableEq, Repr

/-- The symbol kinds used by the unit. -/
inductive SymbolType where
  | OBJECT_SYMBOL
  | FUNCTION_SYMBOL
  | NOTYPE_SYMBOL
deriving DecidableEq, Repr

/-- Modelled from the spec: the `Symbol` record, whose class is declared outside the
given sources: name, id, defining section, type flag, size, and the attributes of a
common symbol. -/
structure Symbol where
  name : String
  id : Nat
  section_ : Option Nat
  symbol_type : SymbolType
  size : Nat
  common : Bool
  common_size : Nat
  common_align : Nat
deriving DecidableEq, Repr

/-- A discovered function: the closed range `first_entry_ .. last_entry_`. -/
structure Function where
  name_ : String
  id_ : Nat
  first_entry_ : Option Nat
  last_entry_ : Option Nat
deriving DecidableEq, Repr

/-- The state of a `MaoUnit` together with the entry objects it points to. -/
structure MaoUnit where
  heap : List MaoEntry
  entry_vector_ : List Nat
  sub_sections_ : List SubSection
  sections_ : List Section
  current_subsection_ : Option Nat
  labels_ : List (String × Nat)
  symbol_table_ : List Symbol
  functions_ : List Function
deriving DecidableEq, Repr

/-- The constructor `MaoUnit::MaoUnit`: no entries, no sections, no current
subsection. -/
def MaoUnit.empty : MaoUnit :=
  { heap := [], entry_vector_ := [], sub_sections_ := [], sections_ := [],
    current_subsection_ := none, labels_ := [], symbol_table_ := [], functions_ := [] }

/-- Modelled from the spec: `DEFAULT_SECTION_NAME`, a constant of the header, is the
explicit default section `.text`. -/
def DEFAULT_SECTION_NAME : String := ".text"

/-! ## Entry links -/

/-- The setter `entry->set_id(v)`; the entry pointer must be valid. -/
def set_id (heap : List MaoEntry) (entry : Nat) (v : Nat) : Option (List MaoEntry) :=
  match heap[entry]? with
  | some e => some (heap.set entry { e with id_ := v })
  | none => none

/-- The setter `entry->set_next(v)`. -/
def set_next (heap : List MaoEntry) (entry : Nat) (v : Option Nat) :
    Option (List MaoEntry) :=
  match heap[entry]? with
  | some e => some (heap.set entry { e with next_ := v })
  | none => none

/-- The setter `entry->set_prev(v)`. -/
def set_prev (heap : List MaoEntry) (entry : Nat) (v : Option Nat) :
    Option (List MaoEntry) :=
  match heap[entry]? with
  | some e => some (heap.set entry { e with prev_ := v })
  | none => none

/-- The getter `entry->next()`; `none` when the entry pointer itself is null or
invalid, `some none` when the entry has no successor. -/
def next (heap : List MaoEntry) (entry : Option Nat) : Option (Option Nat) :=
  match entry with
  | none => none
  | some p => (heap[p]?).map MaoEntry.next_

/-- The getter `entry->prev()`. -/
def prev (heap : List MaoEntry) (entry : Option Nat) : Option (Option Nat) :=
  match entry with
  | none => none
  | some p => (heap[p]?).map MaoEntry.prev_

/-! ## Sections and subsections -/

/-- Lookup in `sections_` by name (the map compares names as strings, `ltstr`). -/
def findSection : List Section → String → Option Nat
  | [], _ => none
  | s :: rest, section_name =>
    if s.name_ = section_name then some 0
    else (findSection rest section_name).map Nat.succ

/-- The method `MaoUnit::FindOrCreateAndFind`: the section of that name, created with
id `sections_.size()` when absent; the flag tells whether it was created. -/
def FindOrCreateAndFind (u : MaoUnit) (section_name : String) : MaoUnit × Bool × Nat :=
  match findSection u.sections_ section_name with
  | some i => (u, false, i)
  | none =>
    ({ u with sections_ := u.sections_ ++
          [{ name_ := section_name, id_ := u.sections_.length, subsections_ := [] }] },
      true, u.sections_.length)

/-- The method `Section::GetLastSubSection`: null for a section without subsections. -/
def Section.GetLastSubSection (s : Section) : Option Nat :=
  s.subsections_.getLast?

/-- The method `Section::AddSubSection`. -/
def Section.AddSubSection (s : Section) (subsection : Nat) : Section :=
  { s with subsections_ := s.subsections_ ++ [subsection] }

/-- The method `SubSection::set_last_entry`: links the old last entry to the new one
unless the new one is the first entry of the subsection. -/
def SubSection.set_last_entry (ss : SubSection) (heap : List MaoEntry) (entry : Nat) :
    Option (SubSection × List MaoEntry) :=
  if ss.first_entry_ = some entry then
    some ({ ss with last_entry_ := some entry }, heap)
  else
    match ss.last_entry_ with
    | none => none
    | some last =>
      match set_next heap last (some entry) with
      | none => none
      | some h1 =>
        match set_prev h1 entry (some last) with
        | none => none
        | some h2 => some ({ ss with last_entry_ := some entry }, h2)

/-- The method `MaoUnit::SetSubSection`: opens a fresh subsection of the named section
at `entry`, makes it current, and links `entry` behind the last entry of the
section's previous last subsection, if there is one. -/
def SetSubSection (u : MaoUnit) (section_name : String) (subsection_number : Nat)
    (entry : Nat) : Option (MaoUnit × Bool) :=
  match FindOrCreateAndFind u section_name with
  | (u1, new_section, sec) =>
    match u1.sections_[sec]? with
    | none => none
    | some s =>
      let ssid := u1.sub_sections_.length
      let subsection : SubSection :=
        { id_ := ssid, number_ := subsection_number, name_ := section_name,
          section_ := sec, first_entry_ := none, last_entry_ := none,
          start_section_ := false }
      let last_subsection := s.GetLastSubSection
      match SubSection.set_last_entry { subsection with first_entry_ := some entry }
          u1.heap entry with
      | none => none
      | some (current, h) =>
        let u2 : MaoUnit :=
          { u1 with
            heap := h
            sub_sections_ := u1.sub_sections_ ++ [current]
            sections_ := u1.sections_.set sec (s.AddSubSection ssid)
            current_subsection_ := some ssid }
        match last_subsection with
        | none => some (u2, new_section)
        | some ls =>
          match u2.sub_sections_[ls]? with
          | none => none
          | some lss =>
            match lss.last_entry_ with
            | none => none
            | some last_entry =>
              match set_next u2.heap last_entry (some entry) with
              | none => none
              | some h1 =>
                match set_prev h1 entry (some last_entry) with
                | none => none
                | some h2 => some ({ u2 with heap := h2 }, new_section)

/-- The call `current_subsection_->set_start_section(v)`. -/
def set_start_section (u : MaoUnit) (v : Bool) : Option MaoUnit :=
  match u.current_subsection_ with
  | none => none
  | some c =>
    match u.sub_sections_[c]? with
    | none => none
    | some ss =>
      some { u with sub_sections_ := u.sub_sections_.set c { ss with start_section_ := v } }

/-! ## Labels and symbols -/

/-- Lookup in the `labels_` map. -/
def findLabel : List (String × Nat) → String → Option Nat
  | [], _ => none
  | (n, e) :: rest, label_name => if n = label_name then some e else findLabel rest label_name

/-- The method `MaoUnit::GetLabelEntry`: asserts that the label exists. -/
def GetLabelEntry (u : MaoUnit) (label_name : String) : Option Nat :=
  findLabel u.labels_ label_name

/-- Lookup in the symbol table by name, `SymbolTable::Find`. -/
def SymbolTable.Find : List Symbol → String → Option Symbol
  | [], _ => none
  | s :: rest, n => if s.name = n then some s else SymbolTable.Find rest n

/-- Modelled from the spec: `find_or_create(name, section)` of the symbol table, whose
class is outside the given sources: an existing symbol of that name is kept, else a
symbol with the next id, defined in `sec`, is added. -/
def SymbolTable.FindOrCreateAndFind (t : List Symbol) (n : String) (sec : Option Nat) :
    List Symbol :=
  match SymbolTable.Find t n with
  | some _ => t
  | none =>
    t ++ [{ name := n, id := t.length, section_ := sec, symbol_type := .NOTYPE_SYMBOL,
            size := 0, common := false, common_size := 0, common_align := 0 }]

/-- Modelled from the spec: the flag "function" of a symbol, set by the front end for
a `.type name, @function` directive (the setter is outside the given sources). -/
def SymbolTable.set_symbol_type (t : List Symbol) (n : String) (ty : SymbolType) :
    List Symbol :=
  t.map (fun s => if s.name = n then { s with symbol_type := ty } else s)

/-- The method `Symbol::IsFunction`. -/
def Symbol.IsFunction (s : Symbol) : Bool :=
  decide (s.symbol_type = .FUNCTION_SYMBOL)

/-! ## Adding entries -/

/-- The first part of `MaoUnit::AddEntry`: opening `mao_start_section` or the default
section when there is no usable current subsection. -/
def AddEntry.openDefault (u : MaoUnit) (entry : Nat) (create_default_section : Bool) :
    Option MaoUnit :=
  let u1 : Option MaoUnit :=
    if u.current_subsection_ = none ∧ create_default_section = false then
      match SetSubSection u "mao_start_section" 0 entry with
      | none => none
      | some (u', _) => set_start_section u' true
    else some u
  match u1 with
  | none => none
  | some u1 =>
    if create_default_section = true then
      match u1.current_subsection_ with
      | none => (SetSubSection u1 DEFAULT_SECTION_NAME 0 entry).map Prod.fst
      | some c =>
        match u1.sub_sections_[c]? with
        | none => none
        | some ss =>
          if ss.start_section_ = true then
            (SetSubSection u1 DEFAULT_SECTION_NAME 0 entry).map Prod.fst
          else some u1
    else some u1

/-- The `switch (entry->Type())` of `MaoUnit::AddEntry`. -/
def AddEntry.dispatch (u : MaoUnit) (entry : Nat) : Option MaoUnit :=
  match u.heap[entry]? with
  | none => none
  | some e =>
    match e.data with
    | .INSTRUCTION _ => some u
    | .LABEL label_name =>
      match findLabel u.labels_ label_name with
      | some _ => none
      | none =>
        match u.current_subsection_ with
        | none => none
        | some c =>
          match u.sub_sections_[c]? with
          | none => none
          | some ss =>
            some { u with
              labels_ := u.labels_ ++ [(label_name, entry)]
              symbol_table_ :=
                SymbolTable.FindOrCreateAndFind u.symbol_table_ label_name (some ss.section_) }
    | .DEBUG _ _ => some u
    | .DIRECTIVE op operands =>
      if op = Opcode.SECTION then
        match operands with
        | [] => none
        | Operand.STRING s_section_name :: _ =>
          (SetSubSection u s_section_name 0 entry).map Prod.fst
        | _ :: _ => none
      else some u
    | .UNDEFINED => some u

/-- The end of `MaoUnit::AddEntry`: the entry is pushed on the entry vector and becomes
the last entry of the current subsection. -/
def AddEntry.finish (u : MaoUnit) (entry : Nat) : Option MaoUnit :=
  let u4 : MaoUnit := { u with entry_vector_ := u.entry_vector_ ++ [entry] }
  match u4.current_subsection_ with
  | none => some u4
  | some c =>
    match u4.sub_sections_[c]? with
    | none => none
    | some ss =>
      match ss.set_last_entry u4.heap entry with
      | none => none
      | some (ss1, h) =>
        some { u4 with heap := h, sub_sections_ := u4.sub_sections_.set c ss1 }

/-- The method `MaoUnit::AddEntry(entry, create_default_section)`. -/
def AddEntry (u : MaoUnit) (entry : Nat) (create_default_section : Bool) :
    Option MaoUnit :=
  let entry_index := u.entry_vector_.length
  match set_id u.heap entry entry_index with
  | none => none
  | some h0 =>
    match AddEntry.openDefault { u with heap := h0 } entry create_default_section with
    | none => none
    | some u2 =>
      match AddEntry.dispatch u2 entry with
      | none => none
      | some u3 => AddEntry.finish u3 entry

/-- One step of the front end: it allocates a new entry object for `data` and hands
it to `AddEntry`. -/
def addNew (u : MaoUnit) (data : EntryData) (create_default_section : Bool) :
    Option MaoUnit :=
  AddEntry { u with heap := u.heap ++ [MaoEntry.new data] } u.heap.length
    create_default_section

/-- A sequence of `AddEntry` calls on new entries, starting from `u`; it stops with
`none` at the first fatal error. -/
def addAll (u : MaoUnit) : List (EntryData × Bool) → Option MaoUnit
  | [] => some u
  | (data, cds) :: rest =>
    match addNew u data cds with
    | none => none
    | some u' => addAll u' rest

/-- The unit built from an empty one by a sequence of `AddEntry` calls. -/
def build (calls : List (EntryData × Bool)) : Option MaoUnit :=
  addAll MaoUnit.empty calls

/-! ## Iterating entries -/

/-- The loop `for (it = begin; it != end; ++it)` over a `SectionEntryIterator`: the
entries visited, in order.  Incrementing a null iterator is a crash. -/
def iterate (heap : List MaoEntry) : Nat → Option Nat → Option Nat → Option (List Nat)
  | 0, _, _ => none
  | fuel + 1, cur, stop =>
    if cur = stop then some []
    else
      match cur with
      | none => none
      | some p =>
        match heap[p]? with
        | none => none
        | some e => (iterate heap fuel e.next_ stop).map (List.cons p)

/-- The method `SubSection::EntryBegin`. -/
def SubSection.EntryBegin (ss : SubSection) : Option Nat :=
  ss.first_entry_

/-- The method `SubSection::EntryEnd`: the successor of the last entry. -/
def SubSection.EntryEnd (ss : SubSection) (heap : List MaoEntry) : Option (Option Nat) :=
  match ss.last_entry_ with
  | none => some none
  | some l => next heap (some l)

/-- The entries visited by iterating a subsection from `EntryBegin()` to
`EntryEnd()`. -/
def SubSection.entries (ss : SubSection) (heap : List MaoEntry) (fuel : Nat) :
    Option (List Nat) :=
  match ss.EntryEnd heap with
  | none => none
  | some stop => iterate heap fuel ss.EntryBegin stop

/-- The method `Section::EntryEnd`. -/
def Section.EntryEnd (_s : Section) : Option Nat :=
  none

/-- The method `Section::EntryBegin`: the first entry of the first subsection. -/
def Section.EntryBegin (s : Section) (u : MaoUnit) : Option (Option Nat) :=
  match s.subsections_ with
  | [] => some s.EntryEnd
  | ss :: _ => (u.sub_sections_[ss]?).map SubSection.first_entry_

/-- The entries visited by iterating a section from `EntryBegin()` to `EntryEnd()`. -/
def Section.entries (s : Section) (u : MaoUnit) (fuel : Nat) : Option (List Nat) :=
  match s.EntryBegin u with
  | none => none
  | some b => iterate u.heap fuel b s.EntryEnd

/-! ## Function discovery -/

/-- The `while (entry_tail->next())` loop of `MaoUnit::FindFunctions`: moves
`entry_tail` forward until its successor is null or a label whose symbol is a
function. -/
def FindFunctions.scan (u : MaoUnit) : Nat → Nat → Option Nat
  | 0, _ => none
  | fuel + 1, entry_tail =>
    match u.heap[entry_tail]? with
    | none => none
    | some t =>
      match t.next_ with
      | none => some entry_tail
      | some n =>
        match u.heap[n]? with
        | none => none
        | some ne =>
          match ne.data with
          | .LABEL label_name =>
            match SymbolTable.Find u.symbol_table_ label_name with
            | none => none
            | some l_symbol =>
              if l_symbol.IsFunction then some entry_tail
              else FindFunctions.scan u fuel n
          | _ => FindFunctions.scan u fuel n

/-- The body of the loop of `MaoUnit::FindFunctions` for one symbol flagged as a
function: the new `Function`, or `none` when an assertion fails. -/
def FindFunctions.one (u : MaoUnit) (fuel : Nat) (symbol : Symbol) (fid : Nat) :
    Option Function :=
  match GetLabelEntry u symbol.name with
  | none => none
  | some entry =>
    match u.heap[entry]? with
    | none => none
    | some e =>
      match e.data with
      | .LABEL _ =>
        match e.next_ with
        | none => none
        | some entry_tail =>
          match prev u.heap (some entry_tail) with
          | none => none
          | some pr =>
            if pr = some entry then
              match FindFunctions.scan u fuel entry_tail with
              | none => none
              | some last =>
                some { name_ := symbol.name, id_ := fid, first_entry_ := some entry,
                       last_entry_ := some last }
            else none
      | _ => none

/-- The loop of `MaoUnit::FindFunctions` over the symbols of the symbol table. -/
def FindFunctions.loop (u : MaoUnit) (fuel : Nat) :
    List Symbol → List Function → Option (List Function)
  | [], fs => some fs
  | symbol :: rest, fs =>
    if symbol.IsFunction then
      match FindFunctions.one u fuel symbol fs.length with
      | none => none
      | some f => FindFunctions.loop u fuel rest (fs ++ [f])
    else FindFunctions.loop u fuel rest fs

/-- The method `MaoUnit::FindFunctions`. -/
def FindFunctions (u : MaoUnit) (fuel : Nat) : Option MaoUnit :=
  match FindFunctions.loop u fuel u.symbol_table_ u.functions_ with
  | none => none
  | some fs => some { u with functions_ := fs }

/-! ## Relaxation: fragments and sizes

Byte counts and addresses are integers.  The conversions to `int` that the code
makes wrap around as on the machine: string lengths, `.space` counts, and the variable
part of a fragment, which `Relax` stores in an `int`.  The value type of the size map
and the address types of a fragment are declared outside the given sources; the sums
`fr_fix += size` and `size_map[e] += var_size` are exact. -/

/-- The conversion of an integer to a 32-bit `int`. -/
def toInt32 (x : Int) : Int :=
  (x + 2147483648) % 4294967296 - 2147483648

/-- The relax types of the fragment chain contract. -/
inductive relax_stateT where
  | rs_fill
  | rs_align
  | rs_align_code
  | rs_org
  | rs_machine_dependent
  | rs_space
  | rs_leb128
deriving DecidableEq, Repr

/-- A symbol attached to a fragment: a symbol of the assembly text, or the anchor that
`make_expr_symbol` makes for an expression. -/
inductive symbolS where
  | named (name : String)
  | expr_symbol (expr : expressionS)
deriving DecidableEq, Repr

/-- A fragment.  The chain is a list of fragments and `fr_next` is the next element
of the list; `fr_opcode` holds the opcode the pointer refers to. -/
structure frag where
  fr_address : Int
  fr_fix : Int
  fr_var : Int
  fr_type : relax_stateT
  fr_subtype : Nat
  fr_symbol : Option symbolS
  fr_offset : Int
  fr_opcode : Option Nat
deriving DecidableEq, Repr

/-- Modelled from the spec: `NewFragment`, defined in the header: a fragment with
no bytes accumulated so far and all fields zero. -/
def NewFragment : frag :=
  { fr_address := 0, fr_fix := 0, fr_var := 0, fr_type := .rs_fill, fr_subtype := 0,
    fr_symbol := none, fr_offset := 0, fr_opcode := none }

/-- The external collaborators of the relaxer: the instruction size oracle, the
LEB128 length functions and bignum conversion of the assembler, and its global
flags. -/
structure Env where
  SizeOfInstruction : i386_insn → Int × Bool
  sizeof_leb128 : Int → Bool → Int
  output_big_leb128 : expressionS → Bool → Int
  convert_to_bignum : expressionS → expressionS
  flag_code_16bit : Bool
  cpui386 : Bool
  JUMP_PC_RELATIVE : Nat

/-- The map `SizeMap` from entries to sizes; the first pair of a key is its binding. -/
abbrev SizeMap := List (Nat × Int)

/-- The read `size_map[e]`; 0 for an entry without a binding. -/
def SizeMap.get (m : SizeMap) (e : Nat) : Int :=
  (m.lookup e).getD 0

/-- The assignment `size_map[e] = v`. -/
def SizeMap.set (m : SizeMap) (e : Nat) (v : Int) : SizeMap :=
  (e, v) :: m

/-- The update `size_map[e] += v`. -/
def SizeMap.add (m : SizeMap) (e : Nat) (v : Int) : SizeMap :=
  (e, m.get e + v) :: m

/-- The state of `BuildFragments`: the entry objects (an expression may be converted
in place), the fragments already ended, the current fragment, and the two maps.  A
fragment pointer is the position of the fragment in the chain. -/
structure BuildState where
  heap : List MaoEntry
  ended : List frag
  frag : frag
  size_map : SizeMap
  relax_map : List (Nat × Nat)
deriving DecidableEq, Repr

/-- The helper `MaoRelaxer::FragVar`: fills in the variable part of the current
fragment; with `new_frag` the chain continues with a fresh fragment. -/
def FragVar (type : relax_stateT) (var : Int) (subtype : Nat) (symbol : Option symbolS)
    (offset : Int) (opcode : Option Nat) (st : BuildState) (new_frag : Bool) :
    BuildState :=
  let f : frag :=
    { st.frag with fr_var := var, fr_type := type, fr_subtype := subtype,
                   fr_symbol := symbol, fr_offset := offset, fr_opcode := opcode }
  if new_frag then { st with ended := st.ended ++ [f], frag := NewFragment }
  else { st with frag := f }

/-- The helper `MaoRelaxer::EndFragmentInstruction`. -/
def EndFragmentInstruction (env : Env) (insn : i386_insn) (st : BuildState)
    (new_frag : Bool) : Option BuildState :=
  if insn.jump = false then none
  else
    let code16 : Nat := if env.flag_code_16bit then 1 else 0
    let code16 : Nat := if insn.data_prefix_slot ≠ 0 then code16 ^^^ 1 else code16
    let subtype : Nat :=
      if insn.base_opcode = env.JUMP_PC_RELATIVE then (0 <<< 2) ||| 0
      else if env.cpui386 then (1 <<< 2) ||| 0
      else (2 <<< 2) ||| 0
    let subtype := subtype ||| code16
    match insn.disps0 with
    | none => none
    | some disps =>
      let sym : Option symbolS :=
        if disps.X_op ≠ .O_constant ∧ disps.X_op ≠ .O_symbol then
          some (symbolS.expr_symbol disps)
        else disps.X_add_symbol.map symbolS.named
      let off : Int :=
        if disps.X_op ≠ .O_constant ∧ disps.X_op ≠ .O_symbol then 0
        else disps.X_add_number
      match sym with
      | none => none
      | some _ =>
        some (FragVar .rs_machine_dependent insn.reloc0 subtype sym off
                (some insn.base_opcode) st new_frag)

/-- The helper `MaoRelaxer::EndFragmentAlign`; the cast of `max` to the unsigned
`relax_substateT` wraps around. -/
def EndFragmentAlign (code : Bool) (alignment : Int) (max : Int) (st : BuildState)
    (new_frag : Bool) : BuildState :=
  let state : relax_stateT := if code then .rs_align_code else .rs_align_code
  FragVar state 1 (max % 4294967296).toNat none alignment none st new_frag

/-- The helper `MaoRelaxer::EndFragmentLeb128`. -/
def EndFragmentLeb128 (value : expressionS) (is_signed : Bool) (st : BuildState)
    (new_frag : Bool) : BuildState :=
  FragVar .rs_leb128 0 (if is_signed then 1 else 0) (some (symbolS.expr_symbol value)) 0
    none st new_frag

/-- The helper `MaoRelaxer::StringSize`: the arithmetic is that of `size_t`, the
result an `int`. -/
def StringSize (operands : List Operand) (multiplier : Int) (null_terminate : Bool) :
    Option Int :=
  match operands with
  | [Operand.STRING str] =>
    some (toInt32 (multiplier * (((str.utf8ByteSize : Int) - 2) +
      (if null_terminate then 1 else 0))))
  | _ => none

/-- The helper `MaoRelaxer::HandleString`. -/
def HandleString (entry : Nat) (operands : List Operand) (multiplier : Int)
    (null_terminate : Bool) (st : BuildState) : Option BuildState :=
  match StringSize operands multiplier null_terminate with
  | none => none
  | some size =>
    some { st with size_map := st.size_map.set entry size,
                   frag := { st.frag with fr_fix := st.frag.fr_fix + size } }

/-- The helper `MaoRelaxer::HandleSpace`. -/
def HandleSpace (entry : Nat) (operands : List Operand) (mult : Int) (st : BuildState)
    (new_frag : Bool) : Option BuildState :=
  match operands with
  | [Operand.EXPRESSION size, _] =>
    if size.X_op = .O_constant then
      let increment := toInt32 (size.X_add_number * (if mult ≠ 0 then mult else 1))
      if increment > 0 then
        some { st with frag := { st.frag with fr_fix := st.frag.fr_fix + increment },
                       size_map := st.size_map.set entry increment }
      else none
    else if mult = 0 ∨ mult = 1 then
      let st1 : BuildState :=
        { st with size_map := st.size_map.set entry 0,
                  relax_map := (st.ended.length, entry) :: st.relax_map }
      some (FragVar .rs_space 1 0 (some (symbolS.expr_symbol size)) 0 none st1 new_frag)
    else none
  | _ => none

/-- Adds `size` fixed bytes for `entry` to the current fragment. -/
def BuildState.addFixed (st : BuildState) (entry : Nat) (size : Int) : BuildState :=
  { st with frag := { st.frag with fr_fix := st.frag.fr_fix + size },
            size_map := st.size_map.set entry size }

/-- The start of the case `SLEB128` / `ULEB128` of `BuildFragments`: a signed constant
whose sign disagrees with its unsigned flag is converted to a bignum, in place. -/
def BuildFragments.convert (env : Env) (entry : Nat) (e : MaoEntry) (op : Opcode)
    (expr : expressionS) (is_signed : Bool) (st : BuildState) :
    expressionS × BuildState :=
  if expr.X_op = .O_constant ∧ is_signed = true ∧
      (decide (expr.X_add_number < 0) != !expr.X_unsigned) = true then
    let expr1 : expressionS := env.convert_to_bignum expr
    let e1 : MaoEntry := { e with data := .DIRECTIVE op [Operand.EXPRESSION expr1] }
    (expr1, { st with heap := st.heap.set entry e1 })
  else (expr, st)

/-- The case `SLEB128` / `ULEB128` of `BuildFragments`. -/
def BuildFragments.leb128 (env : Env) (entry : Nat) (e : MaoEntry) (op : Opcode)
    (operands : List Operand) (st : BuildState) : Option BuildState :=
  let is_signed : Bool := decide (op = Opcode.SLEB128)
  match operands with
  | [Operand.EXPRESSION expr0] =>
    match BuildFragments.convert env entry e op expr0 is_signed st with
    | (expr, st) =>
      if expr.X_op = .O_constant then
        some (st.addFixed entry (env.sizeof_leb128 expr.X_add_number is_signed))
      else if expr.X_op = .O_big then
        some (st.addFixed entry (env.output_big_leb128 expr is_signed))
      else
        let st1 : BuildState :=
          { st with size_map := st.size_map.set entry 0,
                    relax_map := (st.ended.length, entry) :: st.relax_map }
        some (EndFragmentLeb128 expr is_signed st1 true)
  | _ => none

/-- The case `P2ALIGN` / `P2ALIGNW` / `P2ALIGNL` of `BuildFragments`. -/
def BuildFragments.p2align (is_text : Bool) (entry : Nat) (operands : List Operand)
    (st : BuildState) : Option BuildState :=
  match operands with
  | [Operand.INT alignment, _, Operand.INT max] =>
    some (EndFragmentAlign is_text alignment max
      { st with size_map := st.size_map.set entry 0,
                relax_map := (st.ended.length, entry) :: st.relax_map } true)
  | _ => none

/-- The body of the loop of `BuildFragments` for one entry. -/
def BuildFragments.step (env : Env) (is_text : Bool) (st : BuildState) (entry : Nat) :
    Option BuildState :=
  match st.heap[entry]? with
  | none => none
  | some e =>
    match e.data with
    | .INSTRUCTION insn =>
      let size_pair := env.SizeOfInstruction insn
      let st1 := st.addFixed entry size_pair.1
      if size_pair.2 then
        EndFragmentInstruction env insn
          { st1 with relax_map := (st1.ended.length, entry) :: st1.relax_map } true
      else some st1
    | .DIRECTIVE op operands =>
      match op with
      | .P2ALIGN | .P2ALIGNW | .P2ALIGNL => BuildFragments.p2align is_text entry operands st
      | .SLEB128 | .ULEB128 => BuildFragments.leb128 env entry e op operands st
      | .BYTE => some (st.addFixed entry 1)
      | .WORD => some (st.addFixed entry 2)
      | .RVA | .LONG => some (st.addFixed entry 4)
      | .QUAD => some (st.addFixed entry 8)
      | .ASCII => HandleString entry operands 1 false st
      | .STRING8 => HandleString entry operands 1 true st
      | .STRING16 => HandleString entry operands 2 true st
      | .STRING32 => HandleString entry operands 4 true st
      | .STRING64 => HandleString entry operands 8 true st
      | .SPACE => HandleSpace entry operands 0 st true
      | .DS_B => HandleSpace entry operands 1 st true
      | .DS_W => HandleSpace entry operands 2 st true
      | .DS_L => HandleSpace entry operands 4 st true
      | .DS_D => HandleSpace entry operands 8 st true
      | .DS_X => HandleSpace entry operands 12 st true
      | .COMM | .IDENT => some { st with size_map := st.size_map.set entry 0 }
      | .FILE | .SECTION | .GLOBAL | .LOCAL | .WEAK | .TYPE | .SIZE | .SET | .EQUIV
      | .WEAKREF | .ARCH | .NUM_OPCODES =>
        some { st with size_map := st.size_map.set entry 0 }
    | .LABEL _ => some st
    | .DEBUG _ _ => some st
    | .UNDEFINED => none

/-- The loop of `BuildFragments` over the entries that the section iterator yields. -/
def BuildFragments.loop (env : Env) (is_text : Bool) :
    BuildState → List Nat → Option BuildState
  | st, [] => some st
  | st, entry :: rest =>
    match BuildFragments.step env is_text st entry with
    | none => none
    | some st1 => BuildFragments.loop env is_text st1 rest

/-- The method `MaoRelaxer::BuildFragments` on the entries of a section: the loop,
then the closing of the tail fragment with alignment 0. -/
def BuildFragments (env : Env) (heap : List MaoEntry) (section_name : String)
    (entries : List Nat) (size_map : SizeMap) : Option BuildState :=
  let is_text : Bool := decide (section_name = ".text")
  match BuildFragments.loop env is_text
      { heap := heap, ended := [], frag := NewFragment, size_map := size_map,
        relax_map := [] } entries with
  | none => none
  | some st => some (EndFragmentAlign is_text 0 0 st false)

/-- The chain of fragments that `BuildFragments` returns, head first, tail last. -/
def BuildState.fragments (st : BuildState) : List Mao.frag :=
  st.ended ++ [st.frag]

/-- The loop `for (change = 1, pass = 0; change; pass++)` of `MaoRelaxer::Relax`
around the external `relax_segment`, which returns the chain as it leaves it and
whether anything changed. -/
def Relax.loop (relax_segment : List frag → Nat → List frag × Bool) :
    Nat → Nat → List frag → Option (List frag)
  | 0, _, _ => none
  | fuel + 1, pass, fragments =>
    match relax_segment fragments pass with
    | (fragments1, change) =>
      if change then Relax.loop relax_segment fuel (pass + 1) fragments1
      else some fragments1

/-- The loop "update sizes based on relaxation" of `MaoRelaxer::Relax`, at the
fragment with pointer `i` and the rest of the chain behind it.  The variable part is
held in the `int var_size`. -/
def Relax.updateSizes (relax_map : List (Nat × Nat)) :
    Nat → List frag → SizeMap → Option SizeMap
  | _, [], m => some m
  | i, f :: rest, m =>
    match relax_map.lookup i with
    | none => Relax.updateSizes relax_map (i + 1) rest m
    | some entry =>
      match rest with
      | [] => none
      | fr_next :: _ =>
        let var_size : Int := toInt32 (fr_next.fr_address - f.fr_address - f.fr_fix)
        Relax.updateSizes relax_map (i + 1) rest (m.add entry var_size)

/-- The result of `MaoRelaxer::Relax` together with the chain of fragments as it is
just before it is freed. -/
structure RelaxResult where
  heap : List MaoEntry
  fragments : List frag
  size_map : SizeMap
deriving DecidableEq, Repr

/-- The method `MaoRelaxer::Relax` on the entries of a section. -/
def Relax.onEntries (env : Env) (relax_segment : List frag → Nat → List frag × Bool)
    (fuel : Nat) (heap : List MaoEntry) (section_name : String) (entries : List Nat)
    (size_map : SizeMap) : Option RelaxResult :=
  match BuildFragments env heap section_name entries size_map with
  | none => none
  | some st =>
    match Relax.loop relax_segment fuel 0 st.fragments with
    | none => none
    | some fragments =>
      match Relax.updateSizes st.relax_map 0 fragments st.size_map with
      | none => none
      | some m => some { heap := st.heap, fragments := fragments, size_map := m }

/-- The method `MaoRelaxer::Relax(mao, section, size_map)`: the entries are those the
section iterator yields. -/
def Relax (env : Env) (relax_segment : List frag → Nat → List frag × Bool)
    (fuel : Nat) (u : MaoUnit) (sec : Nat) (size_map : SizeMap) : Option RelaxResult :=
  match u.sections_[sec]? with
  | none => none
  | some s =>
    match s.entries u fuel with
    | none => none
    | some entries =>
      Relax.onEntries env relax_segment fuel u.heap s.name_ entries size_map

/-! ## Inputs and predicates used in the statements -/

/-- The entry for the directive `.section name`. -/
def sectionDirective (section_name : String) : EntryData :=
  .DIRECTIVE .SECTION [.STRING section_name]

/-- An instruction entry that is not a jump (a `nop`). -/
def nopInstruction : EntryData :=
  .INSTRUCTION { op := 0, jump := false, base_opcode := 144, data_prefix_slot := 0,
                 disps0 := none, reloc0 := 0 }

/-- The effect of the directive `.type name, @function` on the symbol table of a
unit. -/
def markFunction (u : MaoUnit) (symbol_name : String) : MaoUnit :=
  { u with symbol_table_ :=
      SymbolTable.set_symbol_type u.symbol_table_ symbol_name .FUNCTION_SYMBOL }

/-- Entry `e` lies in the range `[first_entry, last_entry]` of the subsection with
pointer `i`: iterating that subsection visits it. -/
def inSubSection (u : MaoUnit) (fuel : Nat) (i : Nat) (e : Nat) : Bool :=
  match u.sub_sections_[i]? with
  | none => false
  | some ss =>
    match ss.entries u.heap fuel with
    | none => false
    | some l => l.contains e

/-- The subsections in whose range entry `e` lies. -/
def subSectionsOf (u : MaoUnit) (fuel : Nat) (e : Nat) : List Nat :=
  (List.range u.sub_sections_.length).filter (fun i => inSubSection u fuel i e)

/-- Entry `e` is a label whose symbol is flagged as a function. -/
def isFunctionLabel (u : MaoUnit) (e : Nat) : Bool :=
  match u.heap[e]? with
  | some { data := .LABEL label_name, .. } =>
    match SymbolTable.Find u.symbol_table_ label_name with
    | some s => s.IsFunction
    | none => false
  | _ => false

/-- The part of an entry object that linking does not touch: its id and payload. -/
def MaoEntry.core (e : MaoEntry) : Nat × EntryData :=
  (e.id_, e.data)

/-- The pointers of the unit are valid: the current subsection exists, the first and
last entry of every subsection are entry objects, and the subsections a section
lists exist. -/
structure WF (u : MaoUnit) : Prop where
  cur : ∀ c : Nat, u.current_subsection_ = some c → c < u.sub_sections_.length
  sub : ∀ (i : Nat) (ss : SubSection), u.sub_sections_[i]? = some ss →
    (∃ f, ss.first_entry_ = some f ∧ f < u.heap.length) ∧
    (∃ l, ss.last_entry_ = some l ∧ l < u.heap.length)
  sec : ∀ (j : Nat) (s : Section), u.sections_[j]? = some s →
    ∀ i ∈ s.subsections_, i < u.sub_sections_.length

/-- The subsection that `SetSubSection` creates for `entry` in section `sec`, with
the flag "start section" set to `st`. -/
def freshSubSection (u : MaoUnit) (section_name : String) (subsection_number : Nat)
    (sec : Nat) (entry : Nat) (st : Bool) : SubSection :=
  { id_ := u.sub_sections_.length, number_ := subsection_number, name_ := section_name,
    section_ := sec, first_entry_ := some entry, last_entry_ := some entry,
    start_section_ := st }

/-- What a successful `SetSubSection u section_name subsection_number entry` leaves:
`u1` is the unit afterwards, `sec` the section of the new subsection, `st` the flag
"start section" of the new subsection. -/
structure SetSubSectionPost (u : MaoUnit) (section_name : String)
    (subsection_number : Nat) (entry : Nat) (u1 : MaoUnit) (sec : Nat) (st : Bool) :
    Prop where
  wf : WF u1
  core : u1.heap.map MaoEntry.core = u.heap.map MaoEntry.core
  entry_vector : u1.entry_vector_ = u.entry_vector_
  labels : u1.labels_ = u.labels_
  symbols : u1.symbol_table_ = u.symbol_table_
  functions : u1.functions_ = u.functions_
  current : u1.current_subsection_ = some u.sub_sections_.length
  subs : u1.sub_sections_ =
    u.sub_sections_ ++ [freshSubSection u section_name subsection_number sec entry st]
  find : ∀ n, findSection u1.sections_ n =
    if n = section_name then some sec else findSection u.sections_ n
  reuse : ∀ j, findSection u.sections_ section_name = some j → sec = j
  create : findSection u.sections_ section_name = none → sec = u.sections_.length
  sec_subs : ∃ s, u1.sections_[sec]? = some s ∧ s.name_ = section_name ∧
    s.subsections_.getLast? = some u.sub_sections_.length
  sec_len : u.sections_.length ≤ u1.sections_.length
  grow : ∀ (j : Nat) (s : Section), u.sections_[j]? = some s →
    ∃ s1, u1.sections_[j]? = some s1 ∧ s1.name_ = s.name_ ∧
      ∀ i ∈ s.subsections_, i ∈ s1.subsections_

/-- The entries that `AddEntry` rejects with a fatal error: a label whose name is in
the label map already, and a SECTION directive whose first operand is not a
string. -/
def AddEntry.fatal (u : MaoUnit) (data : EntryData) : Bool :=
  match data with
  | .LABEL label_name => (findLabel u.labels_ label_name).isSome
  | .DIRECTIVE .SECTION (.STRING _ :: _) => false
  | .DIRECTIVE .SECTION _ => true
  | _ => false

/-- Whether the entry is a SECTION directive. -/
def EntryData.isSection (data : EntryData) : Bool :=
  match data with
  | .DIRECTIVE .SECTION _ => true
  | _ => false

/-- The label map after a successful `AddEntry` of `entry` with payload `data`. -/
def labelsAfter (labels : List (String × Nat)) (data : EntryData) (entry : Nat) :
    List (String × Nat) :=
  match data with
  | .LABEL label_name => labels ++ [(label_name, entry)]
  | _ => labels

/-- What a successful `AddEntry` of a new entry with payload `data` leaves: `u1` is
the unit afterwards; the new entry has pointer `u.heap.length`. -/
structure AddNewPost (u : MaoUnit) (data : EntryData) (cds : Bool) (u1 : MaoUnit) :
    Prop where
  wf : WF u1
  core : u1.heap.map MaoEntry.core =
    u.heap.map MaoEntry.core ++ [(u.entry_vector_.length, data)]
  entry_vector : u1.entry_vector_ = u.entry_vector_ ++ [u.heap.length]
  labels : u1.labels_ = labelsAfter u.labels_ data u.heap.length
  functions : u1.functions_ = u.functions_
  current : ∃ c ss, u1.current_subsection_ = some c ∧ u1.sub_sections_[c]? = some ss ∧
    ss.last_entry_ = some u.heap.length
  opened : ∀ name st,
    ((cds = false ∧ u.current_subsection_ = none ∧ name = "mao_start_section" ∧
        st = true) ∨
     (cds = true ∧ name = DEFAULT_SECTION_NAME ∧ st = false ∧
        (u.current_subsection_ = none ∨
          ∃ c ss, u.current_subsection_ = some c ∧ u.sub_sections_[c]? = some ss ∧
            ss.start_section_ = true))) →
    ∃ sec s, u1.sub_sections_[u.sub_sections_.length]? =
        some (freshSubSection u name 0 sec u.heap.length st) ∧
      findSection u1.sections_ name = some sec ∧ u1.sections_[sec]? = some s ∧
      s.name_ = name ∧ u.sub_sections_.length ∈ s.subsections_
  sect : ∀ S rest, data = .DIRECTIVE .SECTION (.STRING S :: rest) →
    ∃ c sec s, u1.current_subsection_ = some c ∧ u.sub_sections_.length ≤ c ∧
      u1.sub_sections_.length = c + 1 ∧
      u1.sub_sections_[c]? = some
        { id_ := c, number_ := 0, name_ := S, section_ := sec,
          first_entry_ := some u.heap.length, last_entry_ := some u.heap.length,
          start_section_ := false } ∧
      findSection u1.sections_ S = some sec ∧ u1.sections_[sec]? = some s ∧
      s.name_ = S ∧ s.subsections_.getLast? = some c ∧
      (∀ j, findSection u.sections_ S = some j → sec = j) ∧
      (findSection u.sections_ S = none → u.sections_.length ≤ sec)
  append : data.isSection = false → ∀ c ss, u.current_subsection_ = some c →
    u.sub_sections_[c]? = some ss → (cds = false ∨ ss.start_section_ = false) →
    u1.current_subsection_ = some c ∧
    u1.sub_sections_ = u.sub_sections_.set c { ss with last_entry_ := some u.heap.length } ∧
    u1.sections_ = u.sections_ ∧
    ∀ l, ss.last_entry_ = some l →
      next u1.heap (some l) = some (some u.heap.length) ∧
      prev u1.heap (some u.heap.length) = some (some l)

/-- The invariant of a unit built from the empty unit by the successful `AddEntry`
calls `calls`: the pointers are valid, the entry vector lists the entry objects in
allocation order, the object of the k-th call has id k and the payload of that call,
and the label map holds exactly the names of the labels added. -/
structure Built (calls : List (EntryData × Bool)) (u : MaoUnit) : Prop where
  wf : WF u
  len : u.heap.length = calls.length
  entry_vector : u.entry_vector_ = List.range calls.length
  ids : ∀ (k : Nat) (e : MaoEntry), u.heap[k]? = some e →
    e.id_ = k ∧ (calls[k]?).map Prod.fst = some e.data
  labels : ∀ n : String, (findLabel u.labels_ n).isSome = true ↔
    ∃ c ∈ calls, c.1 = EntryData.LABEL n

/-- The three ways in which one entry changes the state of `BuildFragments`: not at
all, by `v` fixed bytes, or by `v` fixed bytes and the end of the current
fragment. -/
def StepShape (st : BuildState) (entry : Nat) (st1 : BuildState) : Prop :=
  (st1.size_map = st.size_map ∧ st1.ended = st.ended ∧
    st1.frag.fr_fix = st.frag.fr_fix ∧ st1.relax_map = st.relax_map) ∨
  (∃ v, st1.size_map = st.size_map.set entry v ∧ st1.ended = st.ended ∧
    st1.frag.fr_fix = st.frag.fr_fix + v ∧ st1.relax_map = st.relax_map) ∨
  (∃ v f, st1.size_map = st.size_map.set entry v ∧ st1.ended = st.ended ++ [f] ∧
    f.fr_fix = st.frag.fr_fix + v ∧ st1.frag.fr_fix = 0 ∧
    st1.relax_map = (st.ended.length, entry) :: st.relax_map)

/-- A jump `jmp L` to a label, two bytes long in its short form. -/
def jumpInstruction : EntryData :=
  .INSTRUCTION { op := 1, jump := true, base_opcode := 235, data_prefix_slot := 0,
                 disps0 := some { X_op := .O_symbol, X_add_number := 0,
                                  X_unsigned := false, X_add_symbol := some "L",
                                  X_op_symbol := none },
                 reloc0 := 0 }

/-- An assembler environment for the examples: jumps take 2 fixed bytes and are
variable, other instructions take 1 byte; LEB128 constants take 1 byte. -/
def exampleEnv : Env :=
  { SizeOfInstruction := fun insn => if insn.jump then (2, true) else (1, false),
    sizeof_leb128 := fun _ _ => 1,
    output_big_leb128 := fun _ _ => 1,
    convert_to_bignum := fun e => { e with X_op := .O_big },
    flag_code_16bit := false,
    cpui386 := true,
    JUMP_PC_RELATIVE := 235 }

/-- Lays the fragments out one behind the other from address `a`, giving the
variable part of every fragment that has a successor 4 bytes. -/
def layout : Int → List frag → List frag
  | _, [] => []
  | a, [f] => [{ f with fr_address := a }]
  | a, f :: g :: rest =>
    { f with fr_address := a } :: layout (a + f.fr_fix + 4) (g :: rest)

/-- An outcome of `relax_segment` for the examples: the layout above, reached in the
first pass and reported as unchanged in the second. -/
def exampleRelax : List frag → Nat → List frag × Bool :=
  fun fragments pass => (layout 0 fragments, decide (pass = 0))

/-- The unit built by an instruction and the label `f`. -/
def labelUnit : MaoUnit :=
  (build [(nopInstruction, true), (EntryData.LABEL "f", true)]).getD MaoUnit.empty

/-! ## Relaxation: further predicates and example inputs -/

/-- What the loop of `BuildFragments` keeps true of `relax_map` after the entries `P`:
the keys are the fragments already ended, each bound to an entry of `P`, and no entry
is bound to two fragments. -/
structure RelaxKeys (st : BuildState) (P : List Nat) : Prop where
  bound : ∀ i : Nat, i < st.ended.length → ∃ e, st.relax_map.lookup i = some e ∧ e ∈ P
  free : ∀ i : Nat, st.ended.length ≤ i → st.relax_map.lookup i = none
  inj : ∀ (i j e : Nat), st.relax_map.lookup i = some e → st.relax_map.lookup j = some e →
    i = j

/-- The string operand of a string directive still has its two quotes and is shorter
than 256 MiB, so that its size fits an `int`; true of every other payload. -/
def EntryData.quoted : EntryData → Bool
  | .DIRECTIVE op [Operand.STRING str] =>
    if op = .ASCII ∨ op = .STRING8 ∨ op = .STRING16 ∨ op = .STRING32 ∨ op = .STRING64 then
      decide (2 ≤ str.utf8ByteSize ∧ str.utf8ByteSize < 268435456)
    else true
  | _ => true

/-- The constant expression `c`. -/
def constant (c : Int) (is_unsigned : Bool) : expressionS :=
  { X_op := .O_constant, X_add_number := c, X_unsigned := is_unsigned,
    X_add_symbol := none, X_op_symbol := none }

/-- The entry for `.space c` and its relatives `.ds.b c` to `.ds.x c`, with fill 0. -/
def spaceDirective (op : Opcode) (c : Int) : EntryData :=
  .DIRECTIVE op [.EXPRESSION (constant c false), .EXPRESSION (constant 0 false)]

/-- The state in which `BuildFragments` starts on the entry objects `heap`. -/
def startState (heap : List MaoEntry) : BuildState :=
  { heap := heap, ended := [], frag := NewFragment, size_map := [], relax_map := [] }

/-- The loop of the assembler's `sizeof_sleb128` on a 64-bit value: one byte for every
7 bits, until the rest of the value is the sign extension of bit 6 of the byte. -/
def sizeof_sleb128.loop : Nat → Int → Int → Int
  | 0, _, size => size
  | fuel + 1, value, size =>
    let byte := value % 128
    let value1 := value / 128
    if (value1 = 0 ∧ byte < 64) ∨ (value1 = -1 ∧ 64 ≤ byte) then size + 1
    else sizeof_sleb128.loop fuel value1 (size + 1)

/-- Modelled from the spec: the length of the signed LEB128 encoding of a 64-bit
value, the function `sizeof_sleb128` of the assembler. -/
def sizeof_sleb128 (value : Int) : Int :=
  sizeof_sleb128.loop 10 value 0

/-- The loop of the assembler's `sizeof_uleb128`: one byte for every 7 bits. -/
def sizeof_uleb128.loop : Nat → Nat → Int → Int
  | 0, _, size => size
  | fuel + 1, value, size =>
    if value / 128 = 0 then size + 1 else sizeof_uleb128.loop fuel (value / 128) (size + 1)

/-- Modelled from the spec: the length of the unsigned LEB128 encoding of a 64-bit
value, the function `sizeof_uleb128` of the assembler. -/
def sizeof_uleb128 (value : Int) : Int :=
  sizeof_uleb128.loop 10 (value % 18446744073709551616).toNat 0

/-- Modelled from the spec: the function `sizeof_leb128 (value, sign)` of the
assembler. -/
def sizeof_leb128 (value : Int) (sign : Bool) : Int :=
  if sign then sizeof_sleb128 value else sizeof_uleb128 value

/-- The example environment with the LEB128 lengths of the assembler. -/
def gasEnv : Env :=
  { exampleEnv with sizeof_leb128 := sizeof_leb128 }

/-- The entry for `.sleb128 c` with a constant whose unsigned flag agrees with its
sign: the flag is set exactly when `c` is not negative. -/
def sleb128Directive (c : Int) : EntryData :=
  .DIRECTIVE .SLEB128 [.EXPRESSION (constant c (decide (0 ≤ c)))]

/-- The calls for a section `.text` that holds `.sleb128 -1`, `.sleb128 63` and
`.sleb128 64`. -/
def lebCalls : List (EntryData × Bool) :=
  [(sleb128Directive (-1), true), (sleb128Directive 63, true), (sleb128Directive 64, true)]

/-- The unit built by `lebCalls`. -/
def lebUnit : MaoUnit :=
  (build lebCalls).getD MaoUnit.empty

/-- The calls for a section `.text` that holds one `.byte`, `jmp L` and one `.long`. -/
def byteJumpLongCalls : List (EntryData × Bool) :=
  [(.DIRECTIVE .BYTE [.INT 144], true), (jumpInstruction, true),
   (.DIRECTIVE .LONG [.INT 0], true)]

/-- The unit built by `byteJumpLongCalls`. -/
def byteJumpLongUnit : MaoUnit :=
  (build byteJumpLongCalls).getD MaoUnit.empty

/-- One entry leaves the string operands quoted and binds at most the entry itself, to
a size that is not negative. -/
def StepNonneg (st : BuildState) (entry : Nat) (st1 : BuildState) : Prop :=
  (∀ e ∈ st1.heap, e.data.quoted = true) ∧
  (st1.size_map = st.size_map ∨ ∃ v : Int, 0 ≤ v ∧ st1.size_map = st.size_map.set entry v)

/-! ## The passes over the control-flow graph: dead blocks -/

/-- Modelled from the spec: a basic block, whose class is declared outside the given
sources: its id, its entries from `first_entry` to `last_entry`, and the destination
blocks of its out-edges, in the order of the edge iterator.  A block pointer is the
position of the block in the graph. -/
structure BasicBlock where
  id_ : Nat
  entries_ : List Nat
  out_edges_ : List Nat
deriving DecidableEq, Repr

/-- Modelled from the spec: the control-flow graph, whose class is declared outside
the given sources: the blocks in iteration order; `Begin()` is the first of them. -/
abbrev CFG := List BasicBlock

/-- The map `BasicBlockMap` from block pointers to marks; the first pair of a key is
its binding. -/
abbrev BasicBlockMap := List (Nat × Bool)

/-- The read `bbmap[bb]`; a block without a binding reads `false`. -/
def BasicBlockMap.get (m : BasicBlockMap) (bb : Nat) : Bool :=
  (m.lookup bb).getD false

/-- The assignment `bbmap[bb] = v`. -/
def BasicBlockMap.set (m : BasicBlockMap) (bb : Nat) (v : Bool) : BasicBlockMap :=
  (bb, v) :: m

/-- The recursive function `Visit` of `MaoDCE.cc`.  The fuel bounds the depth of the
recursion. -/
def Visit (cfg : CFG) : Nat → Nat → BasicBlockMap → Option BasicBlockMap
  | 0, _, _ => none
  | fuel + 1, bb, bbmap =>
    if bbmap.get bb then some bbmap
    else
      match cfg[bb]? with
      | none => none
      | some b =>
        b.out_edges_.foldl
          (fun acc target =>
            match acc with
            | none => none
            | some m => Visit cfg fuel target m)
          (some (bbmap.set bb true))

/-- The four messages with which `DeadCodeElimPass::DoElim` reports a dead block. -/
inductive DeadBlock where
  | empty_block
  | single_label
  | single_insn
  | block (id : Nat) (num : Nat)
deriving DecidableEq, Repr

/-- The message of `DeadCodeElimPass::DoElim` for the dead block `b`. -/
def DeadCodeElimPass.DoElim.message (heap : List MaoEntry) (b : BasicBlock) :
    Option DeadBlock :=
  let num := b.entries_.length
  if num = 0 then some .empty_block
  else if num = 1 then
    match b.entries_.head? with
    | none => none
    | some first_entry =>
      match heap[first_entry]? with
      | none => none
      | some e =>
        match e.data with
        | .LABEL _ => some .single_label
        | _ => some .single_insn
  else some (.block b.id_ num)

/-- The second loop of `DeadCodeElimPass::DoElim`: the blocks whose mark is false,
each with its message. -/
def DeadCodeElimPass.DoElim.report (cfg : CFG) (heap : List MaoEntry)
    (bbmap : BasicBlockMap) :
    List Nat → Option (List (Nat × DeadBlock))
  | [] => some []
  | bb :: rest =>
    if !bbmap.get bb then
      match cfg[bb]? with
      | none => none
      | some b =>
        match DeadCodeElimPass.DoElim.message heap b with
        | none => none
        | some msg =>
          match DeadCodeElimPass.DoElim.report cfg heap bbmap rest with
          | none => none
          | some found => some ((bb, msg) :: found)
    else DeadCodeElimPass.DoElim.report cfg heap bbmap rest

/-- The method `DeadCodeElimPass::DoElim`: the blocks it reports as dead. -/
def DeadCodeElimPass.DoElim (cfg : CFG) (heap : List MaoEntry) (fuel : Nat) :
    Option (List (Nat × DeadBlock)) :=
  let bbmap : BasicBlockMap :=
    (List.range cfg.length).foldl (fun m bb => m.set bb false) []
  match cfg with
  | [] => none
  | _ :: _ =>
    match Visit cfg fuel 0 bbmap with
    | none => none
    | some bbmap1 => DeadCodeElimPass.DoElim.report cfg heap bbmap1 (List.range cfg.length)

/-- The block `b` can be reached from the block `a` by following out-edges. -/
inductive Reachable (cfg : CFG) : Nat → Nat → Prop where
  | refl (a : Nat) : Reachable cfg a a
  | step {a b c : Nat} (blk : BasicBlock) :
    Reachable cfg a b → cfg[b]? = some blk → c ∈ blk.out_edges_ → Reachable cfg a c

/-- The blocks of the graph that are not marked in `bbmap`. -/
def unmarked (cfg : CFG) (bbmap : BasicBlockMap) : Finset Nat :=
  (Finset.range cfg.length).filter (fun bb => bbmap.get bb = false)

/-- What a call `Visit(bb, bbmap)` that returns `bbmap1` has done: the marks are kept,
`bb` is marked, and every block newly marked can be reached from `bb` and has all
blocks of its out-edges marked. -/
structure Visited (cfg : CFG) (bb : Nat) (bbmap bbmap1 : BasicBlockMap) : Prop where
  mono : ∀ x, bbmap.get x = true → bbmap1.get x = true
  self : bbmap1.get bb = true
  fresh : ∀ x, bbmap1.get x = true → bbmap.get x = false →
    Reachable cfg bb x ∧ x < cfg.length ∧
    ∀ blk, cfg[x]? = some blk → ∀ t ∈ blk.out_edges_, bbmap1.get t = true

/-- A graph with a loop and a dead block: block 0 jumps to block 2, block 2 to itself
and to block 0; block 1 has no in-edge. -/
def exampleCFG : CFG :=
  [{ id_ := 0, entries_ := [0], out_edges_ := [2] },
   { id_ := 1, entries_ := [1], out_edges_ := [2] },
   { id_ := 2, entries_ := [2, 3], out_edges_ := [2, 0] }]

/-- The entries of `exampleCFG`: `jmp L`, a `.byte`, the label `L` and `jmp L`. -/
def exampleCFGHeap : List MaoEntry :=
  [MaoEntry.new jumpInstruction, MaoEntry.new (.DIRECTIVE .BYTE [.INT 144]),
   MaoEntry.new (.LABEL "L"), MaoEntry.new jumpInstruction]

/-! ## The passes over the control-flow graph: redundant memory moves -/

/-- Modelled from the spec: the enumerators of `MaoOpcode`, whose generated header is
outside the given sources, numbered here in the order in which the source names them;
`nop` is 0 and `jmp` is 1. -/
def OP_jmp : Nat := 1

/-- The mnemonic `ljmp`. -/
def OP_ljmp : Nat := 2

/-- The mnemonic `call`. -/
def OP_call : Nat := 3

/-- The mnemonic `lcall`. -/
def OP_lcall : Nat := 4

/-- The mnemonic `vmcall`. -/
def OP_vmcall : Nat := 5

/-- The mnemonic `syscall`. -/
def OP_syscall : Nat := 6

/-- The mnemonic `vmmcall`. -/
def OP_vmmcall : Nat := 7

/-- The mnemonic `ret`. -/
def OP_ret : Nat := 8

/-- The mnemonic `lret`. -/
def OP_lret : Nat := 9

/-- The mnemonic `retf`. -/
def OP_retf : Nat := 10

/-- The mnemonic `iret`. -/
def OP_iret : Nat := 11

/-- The mnemonic `sysret`. -/
def OP_sysret : Nat := 12

/-- The method `InstructionEntry::IsInList`: the loop over the list of opcodes. -/
def InstructionEntry.IsInList (opcode : Nat) : List Nat → Bool
  | [] => false
  | o :: rest => if opcode = o then true else InstructionEntry.IsInList opcode rest

/-- The method `InstructionEntry::IsCall`. -/
def InstructionEntry.IsCall (insn : i386_insn) : Bool :=
  InstructionEntry.IsInList insn.op [OP_call, OP_lcall, OP_vmcall, OP_syscall, OP_vmmcall]

/-- The method `InstructionEntry::IsReturn`. -/
def InstructionEntry.IsReturn (insn : i386_insn) : Bool :=
  InstructionEntry.IsInList insn.op [OP_ret, OP_lret, OP_retf, OP_iret, OP_sysret]

/-- Modelled from the spec: what the pass asks of an instruction entry through
functions declared outside the given sources: the operand tests and the comparison of
two memory operands of `InstructionEntry`, the test for a control transfer, the
register definition masks of `MaoDefs`, and the sentinel `REG_ALL`.  An instruction is
given by its entry pointer. -/
structure DefsEnv where
  IsOpMov : Nat → Bool
  IsRegisterOperand : Nat → Nat → Bool
  IsMemOperand : Nat → Nat → Bool
  IsControlTransfer : Nat → Bool
  GetRegisterDefMask : Nat → Nat
  GetBaseRegister : Nat → Option String
  GetIndexRegister : Nat → Option String
  GetMaskForRegister : Option String → Nat
  CompareMemOperand : Nat → Nat → Nat → Nat → Bool
  REG_ALL : Nat

/-- Modelled from the spec: `nextInstruction`, declared outside the given sources: the
first instruction entry behind the entry `p` on the chain of next pointers, null when
there is none. -/
def nextInstruction (heap : List MaoEntry) : Nat → Nat → Option (Option Nat)
  | 0, _ => none
  | fuel + 1, p =>
    match heap[p]? with
    | none => none
    | some e =>
      match e.next_ with
      | none => some none
      | some q =>
        match heap[q]? with
        | none => none
        | some e1 =>
          match e1.data with
          | .INSTRUCTION _ => some (some q)
          | _ => nextInstruction heap fuel q

/-- The test `IsOpMov() && IsRegisterOperand(1) && IsMemOperand(0)` of
`RedMemMovElimPass::DoElim`: a move from memory to a register. -/
def RedMemMovElimPass.isLoad (env : DefsEnv) (p : Nat) : Bool :=
  env.IsOpMov p && env.IsRegisterOperand p 1 && env.IsMemOperand p 0

/-- The loop `while (checked < look_ahead_ && next)` of `RedMemMovElimPass::DoElim`.
The first argument is `look_ahead_ - checked`, the number of instructions that may
still be examined.  `found` lists the pairs `(insn, next)` for which the two memory
operands compared equal, at the call of `Trace`.  With a tracing level above 0 the
loop that prints the instructions from `insn` to `next` advances the variable `insn`
itself until it is `next`. -/
def RedMemMovElimPass.scan (env : DefsEnv) (heap : List MaoEntry) (fuel : Nat)
    (tracing_level : Int) (mask : Nat) :
    Nat → Nat → Option Nat → List (Nat × Nat) → Option (List (Nat × Nat))
  | 0, _, _, found => some found
  | _ + 1, _, none, found => some found
  | remaining + 1, insn, some next, found =>
    match heap[next]? with
    | none => none
    | some e =>
      match e.data with
      | .INSTRUCTION next_insn =>
        if env.IsControlTransfer next || InstructionEntry.IsCall next_insn ||
            InstructionEntry.IsReturn next_insn then some found
        else
          let defs := env.GetRegisterDefMask next
          if defs = 0 ∨ defs = env.REG_ALL then some found
          else
            let same : Bool :=
              RedMemMovElimPass.isLoad env next && env.CompareMemOperand insn 0 next 0
            let found1 := if same then found ++ [(insn, next)] else found
            let insn1 := if same ∧ tracing_level > 0 then next else insn
            if defs &&& mask ≠ 0 then some found1
            else
              match nextInstruction heap fuel next with
              | none => none
              | some next1 =>
                RedMemMovElimPass.scan env heap fuel tracing_level mask remaining insn1
                  next1 found1
      | _ => none

/-- The body of the loop over the entries of a block in `RedMemMovElimPass::DoElim`,
for the entry `entry`: the pairs found by the scan that starts there. -/
def RedMemMovElimPass.scanFrom (env : DefsEnv) (heap : List MaoEntry) (fuel : Nat)
    (tracing_level : Int) (look_ahead_ : Int) (entry : Nat) : Option (List (Nat × Nat)) :=
  match heap[entry]? with
  | none => none
  | some e =>
    match e.data with
    | .INSTRUCTION _ =>
      let insn := entry
      if RedMemMovElimPass.isLoad env insn then
        let mask := env.GetRegisterDefMask insn
        let base_index_mask :=
          env.GetMaskForRegister (env.GetBaseRegister insn) |||
            env.GetMaskForRegister (env.GetIndexRegister insn)
        if mask &&& base_index_mask ≠ 0 then some []
        else
          match nextInstruction heap fuel insn with
          | none => none
          | some next =>
            RedMemMovElimPass.scan env heap fuel tracing_level (mask ||| base_index_mask)
              look_ahead_.toNat insn next []
      else some []
    | _ => some []

/-- The loop `FORALL_BB_ENTRY` of `RedMemMovElimPass::DoElim` over the entries of one
block. -/
def RedMemMovElimPass.block (env : DefsEnv) (heap : List MaoEntry) (fuel : Nat)
    (tracing_level : Int) (look_ahead_ : Int) :
    List Nat → Option (List (Nat × Nat))
  | [] => some []
  | entry :: rest =>
    match RedMemMovElimPass.scanFrom env heap fuel tracing_level look_ahead_ entry with
    | none => none
    | some found =>
      match RedMemMovElimPass.block env heap fuel tracing_level look_ahead_ rest with
      | none => none
      | some found1 => some (found ++ found1)

/-- The method `RedMemMovElimPass::DoElim`: the pairs it finds, block after block. -/
def RedMemMovElimPass.DoElim (env : DefsEnv) (heap : List MaoEntry) (fuel : Nat)
    (tracing_level : Int) (look_ahead_ : Int) : CFG → Option (List (Nat × Nat))
  | [] => some []
  | b :: rest =>
    match RedMemMovElimPass.block env heap fuel tracing_level look_ahead_ b.entries_ with
    | none => none
    | some found =>
      match RedMemMovElimPass.DoElim env heap fuel tracing_level look_ahead_ rest with
      | none => none
      | some found1 => some (found ++ found1)

/-- The facts about one instruction from which the example environments are made: the
three operand tests, the test for a control transfer, the definition mask, the base and
index register, and the text of the memory operand. -/
structure InsnFacts where
  is_mov : Bool
  register_operand1 : Bool
  mem_operand0 : Bool
  control_transfer : Bool
  def_mask : Nat
  base : Option String
  index : Option String
  mem : String
deriving DecidableEq, Repr

/-- The facts of an entry that is not in the table: no move, no operands, mask 0. -/
def InsnFacts.unknown : InsnFacts :=
  { is_mov := false, register_operand1 := false, mem_operand0 := false,
    control_transfer := false, def_mask := 0, base := none, index := none, mem := "" }

/-- Register masks for the examples: one bit for each of `rax`, `rcx`, `rdx`, `rbx`,
`rsp`; 0 for the absent register. -/
def exampleRegisterMask : Option String → Nat
  | none => 0
  | some r =>
    if r = "rax" then 1 else if r = "rcx" then 2 else if r = "rdx" then 4
    else if r = "rbx" then 8 else if r = "rsp" then 16 else 32

/-- The environment in which the entry with pointer `p` has the facts `table[p]`; two
memory operands compare equal when their texts are equal. -/
def tableEnv (table : List InsnFacts) : DefsEnv :=
  { IsOpMov := fun p => (table.getD p InsnFacts.unknown).is_mov,
    IsRegisterOperand := fun p i =>
      decide (i = 1) && (table.getD p InsnFacts.unknown).register_operand1,
    IsMemOperand := fun p i =>
      decide (i = 0) && (table.getD p InsnFacts.unknown).mem_operand0,
    IsControlTransfer := fun p => (table.getD p InsnFacts.unknown).control_transfer,
    GetRegisterDefMask := fun p => (table.getD p InsnFacts.unknown).def_mask,
    GetBaseRegister := fun p => (table.getD p InsnFacts.unknown).base,
    GetIndexRegister := fun p => (table.getD p InsnFacts.unknown).index,
    GetMaskForRegister := exampleRegisterMask,
    CompareMemOperand := fun p _ q _ =>
      decide ((table.getD p InsnFacts.unknown).mem = (table.getD q InsnFacts.unknown).mem),
    REG_ALL := 18446744073709551615 }

/-- The facts of the load `movq 24(%rsp), %reg`. -/
def loadFacts (reg : String) : InsnFacts :=
  { is_mov := true, register_operand1 := true, mem_operand0 := true,
    control_transfer := false, def_mask := exampleRegisterMask (some reg),
    base := some "rsp", index := none, mem := "24(%rsp)" }

/-- The facts of `addq $1, %rax`. -/
def addFacts : InsnFacts :=
  { is_mov := false, register_operand1 := true, mem_operand0 := false,
    control_transfer := false, def_mask := 1, base := none, index := none, mem := "" }

/-- An instruction entry with the mnemonic `op` that is no jump. -/
def plainInstruction (op : Nat) : EntryData :=
  .INSTRUCTION { op := op, jump := false, base_opcode := 0, data_prefix_slot := 0,
                 disps0 := none, reloc0 := 0 }

/-- The entry objects of three instructions in a row, none of them a call or a
return. -/
def threeInstructions : List MaoEntry :=
  ((build [(plainInstruction 100, true), (plainInstruction 101, true),
    (plainInstruction 100, true)]).getD MaoUnit.empty).heap

/-- The graph with the single block that holds the three instructions. -/
def oneBlock : CFG :=
  [{ id_ := 0, entries_ := [0, 1, 2], out_edges_ := [] }]

/-- The facts of `movq 24(%rsp), %rdx; addq $1, %rax; movq 24(%rsp), %rcx`. -/
def loadAddLoad : List InsnFacts :=
  [loadFacts "rdx", addFacts, loadFacts "rcx"]

/-- The facts of `movq 24(%rsp), %rdx; movq 24(%rsp), %rcx; movq 24(%rsp), %rbx`. -/
def threeLoads : List InsnFacts :=
  [loadFacts "rdx", loadFacts "rcx", loadFacts "rbx"]

/-- Each instruction of the list is the one that `nextInstruction` yields behind the
one before it. -/
def linked (heap : List MaoEntry) (fuel : Nat) : List Nat → Prop
  | [] => True
  | [_] => True
  | a :: b :: rest => nextInstruction heap fuel a = some (some b) ∧ linked heap fuel (b :: rest)

/-- The instruction `k` is no control transfer, call or return and its definition mask
is neither 0 nor `REG_ALL`: the scan examines it for a match. -/
def RedMemMovElimPass.examined (env : DefsEnv) (heap : List MaoEntry) (k : Nat) : Bool :=
  match heap[k]? with
  | none => false
  | some e =>
    match e.data with
    | .INSTRUCTION insn =>
      !(env.IsControlTransfer k || InstructionEntry.IsCall insn ||
          InstructionEntry.IsReturn insn) &&
        decide (env.GetRegisterDefMask k ≠ 0 ∧ env.GetRegisterDefMask k ≠ env.REG_ALL)
    | _ => false

/-- The instruction `k` is examined and defines no register of `mask`: the scan goes
on behind it. -/
def RedMemMovElimPass.crossed (env : DefsEnv) (heap : List MaoEntry) (mask : Nat)
    (k : Nat) : Bool :=
  RedMemMovElimPass.examined env heap k && decide (env.GetRegisterDefMask k &&& mask = 0)

/-! ## Instruction classification -/

/-- The mnemonic `jo`. -/
def OP_jo : Nat := 13

/-- The mnemonic `jno`. -/
def OP_jno : Nat := 14

/-- The mnemonic `jb`. -/
def OP_jb : Nat := 15

/-- The mnemonic `jc`. -/
def OP_jc : Nat := 16

/-- The mnemonic `jnae`. -/
def OP_jnae : Nat := 17

/-- The mnemonic `jnb`. -/
def OP_jnb : Nat := 18

/-- The mnemonic `jnc`. -/
def OP_jnc : Nat := 19

/-- The mnemonic `jae`. -/
def OP_jae : Nat := 20

/-- The mnemonic `je`. -/
def OP_je : Nat := 21

/-- The mnemonic `jz`. -/
def OP_jz : Nat := 22

/-- The mnemonic `jne`. -/
def OP_jne : Nat := 23

/-- The mnemonic `jnz`. -/
def OP_jnz : Nat := 24

/-- The mnemonic `jbe`. -/
def OP_jbe : Nat := 25

/-- The mnemonic `jna`. -/
def OP_jna : Nat := 26

/-- The mnemonic `jnbe`. -/
def OP_jnbe : Nat := 27

/-- The mnemonic `ja`. -/
def OP_ja : Nat := 28

/-- The mnemonic `js`. -/
def OP_js : Nat := 29

/-- The mnemonic `jns`. -/
def OP_jns : Nat := 30

/-- The mnemonic `jp`. -/
def OP_jp : Nat := 31

/-- The mnemonic `jpe`. -/
def OP_jpe : Nat := 32

/-- The mnemonic `jnp`. -/
def OP_jnp : Nat := 33

/-- The mnemonic `jpo`. -/
def OP_jpo : Nat := 34

/-- The mnemonic `jl`. -/
def OP_jl : Nat := 35

/-- The mnemonic `jnge`. -/
def OP_jnge : Nat := 36

/-- The mnemonic `jnl`. -/
def OP_jnl : Nat := 37

/-- The mnemonic `jge`. -/
def OP_jge : Nat := 38

/-- The mnemonic `jle`. -/
def OP_jle : Nat := 39

/-- The mnemonic `jng`. -/
def OP_jng : Nat := 40

/-- The mnemonic `jnle`. -/
def OP_jnle : Nat := 41

/-- The mnemonic `jg`. -/
def OP_jg : Nat := 42

/-- The mnemonic `jcxz`. -/
def OP_jcxz : Nat := 43

/-- The mnemonic `jecxz`. -/
def OP_jecxz : Nat := 44

/-- The mnemonic `jrcxz`. -/
def OP_jrcxz : Nat := 45

/-- The mnemonic `loop`. -/
def OP_loop : Nat := 46

/-- The mnemonic `loopz`. -/
def OP_loopz : Nat := 47

/-- The mnemonic `loope`. -/
def OP_loope : Nat := 48

/-- The mnemonic `loopnz`. -/
def OP_loopnz : Nat := 49

/-- The mnemonic `loopne`. -/
def OP_loopne : Nat := 50

/-- The table `cond_jumps`: the conditional jumps, `jecxz` listed twice as in the
source, and the loop variants. -/
def cond_jumps : List Nat :=
  [OP_jo, OP_jno, OP_jb, OP_jc, OP_jnae, OP_jnb, OP_jnc, OP_jae, OP_je,
   OP_jz, OP_jne, OP_jnz, OP_jbe, OP_jna, OP_jnbe, OP_ja, OP_js, OP_jns,
   OP_jp, OP_jpe, OP_jnp, OP_jpo, OP_jl, OP_jnge, OP_jnl, OP_jge, OP_jle,
   OP_jng, OP_jnle, OP_jg,
   OP_jcxz, OP_jecxz, OP_jecxz, OP_jrcxz,
   OP_loop, OP_loopz, OP_loope, OP_loopnz, OP_loopne]

/-- The method `InstructionEntry::HasTarget`. -/
def InstructionEntry.HasTarget (insn : i386_insn) : Bool :=
  if InstructionEntry.IsInList insn.op [OP_jmp, OP_ljmp] then true
  else if InstructionEntry.IsInList insn.op cond_jumps then true
  else false

/-- The method `InstructionEntry::HasFallThrough`. -/
def InstructionEntry.HasFallThrough (insn : i386_insn) : Bool :=
  if InstructionEntry.IsReturn insn then false
  else if !InstructionEntry.HasTarget insn then true
  else if InstructionEntry.IsCall insn then true
  else if InstructionEntry.IsInList insn.op cond_jumps then true
  else false

/-- The fields of one operand of `i386_insn` that `GetTarget` reads: the
displacement and base-index bits of `types[i]` and the displacement expression
`op[i].disps`. -/
structure i386_operand where
  disp8 : Bool
  disp16 : Bool
  disp32 : Bool
  disp32s : Bool
  disp64 : Bool
  baseindex : Bool
  disps : Option expressionS
deriving DecidableEq, Repr

/-- The static method `InstructionEntry::IsMemOperand` on the type bits of one operand
(the loop of `GetTarget` keeps the index below `operands`, so its assertion holds). -/
def i386_operand.IsMemOperand (t : i386_operand) : Bool :=
  t.disp8 || t.disp16 || t.disp32 || t.disp32s || t.disp64 || t.baseindex

/-- The method `InstructionEntry::GetTarget` on the operands of the instruction, in
order; `none` stands for the dereference of a null displacement or symbol. -/
def InstructionEntry.GetTarget : List i386_operand → Option String
  | [] => some "<UKNOWN>"
  | t :: rest =>
    if t.IsMemOperand then
      if t.disp8 || t.disp16 || t.disp32 || t.disp32s || t.disp64 then
        match t.disps with
        | none => none
        | some disps =>
          if disps.X_op = .O_symbol then
            match disps.X_add_symbol with
            | none => none
            | some name => some name
          else InstructionEntry.GetTarget rest
      else InstructionEntry.GetTarget rest
    else InstructionEntry.GetTarget rest

/-- An operand without displacement: a register or an immediate. -/
def plainOperand : i386_operand :=
  { disp8 := false, disp16 := false, disp32 := false, disp32s := false, disp64 := false,
    baseindex := false, disps := none }

/-- The operand of a jump to the label `name`: a 32-bit displacement with the
expression `name + 0`. -/
def labelOperand (name : String) : i386_operand :=
  { plainOperand with
    disp32 := true,
    disps := some { X_op := .O_symbol, X_add_number := 0, X_unsigned := false,
                    X_add_symbol := some name, X_op_symbol := none } }

/-- The facts of the load `movq (%base), %reg`. -/
def loadFromFacts (base : String) (reg : String) : InsnFacts :=
  { is_mov := true, register_operand1 := true, mem_operand0 := true,
    control_transfer := false, def_mask := exampleRegisterMask (some reg),
    base := some base, index := none, mem := "(%" ++ base ++ ")" }

/-- The facts of `movq (%rax), %rax; movq (%rax), %rbx`. -/
def overlapLoads : List InsnFacts :=
  [loadFromFacts "rax" "rax", loadFromFacts "rax" "rbx"]

/-- The entry objects of two instructions in a row. -/
def twoInstructions : List MaoEntry :=
  ((build [(plainInstruction 100, true), (plainInstruction 100, true)]).getD
    MaoUnit.empty).heap

/-- The graph with the single block that holds the two instructions. -/
def twoInstructionBlock : CFG :=
  [{ id_ := 0, entries_ := [0, 1], out_edges_ := [] }]

/-- The entry `b` is reached from the entry `a` by following next pointers, one step
at least. -/
inductive NextReach (heap : List MaoEntry) : Nat → Nat → Prop where
  | one {a b : Nat} {e : MaoEntry} :
    heap[a]? = some e → e.next_ = some b → NextReach heap a b
  | more {a b c : Nat} {e : MaoEntry} :
    NextReach heap a b → heap[b]? = some e → e.next_ = some c → NextReach heap a c

/-- The entry `last` has no successor, or its successor is a label whose symbol is
flagged as a function. -/
def endsFunction (u : MaoUnit) (last : Nat) : Prop :=
  ∃ le, u.heap[last]? = some le ∧
    (le.next_ = none ∨ ∃ n, le.next_ = some n ∧ isFunctionLabel u n = true)

/-- The function `f` is one that `FindFunctions` makes for a symbol of `u` flagged as
a function: it starts at the label entry of that name and ends at an entry reached
from there that ends a function. -/
def foundFunction (u : MaoUnit) (f : Function) : Prop :=
  ∃ symbol first last e label_name,
    symbol ∈ u.symbol_table_ ∧ symbol.IsFunction = true ∧ f.name_ = symbol.name ∧
    GetLabelEntry u symbol.name = some first ∧ f.first_entry_ = some first ∧
    u.heap[first]? = some e ∧ e.data = .LABEL label_name ∧
    f.last_entry_ = some last ∧ NextReach u.heap first last ∧ endsFunction u last

/-- The calls for `f: nop; g: nop` in the section `.text`. -/
def twoFunctionCalls : List (EntryData × Bool) :=
  [(EntryData.LABEL "f", true), (nopInstruction, true), (EntryData.LABEL "g", true),
   (nopInstruction, true)]

/-- The unit built by `twoFunctionCalls`, with the symbols `f` and `g` flagged as
functions. -/
def twoFunctionUnit : MaoUnit :=
  markFunction (markFunction ((build twoFunctionCalls).getD MaoUnit.empty) "f") "g"

/-! ## The driver: command line and output of the IR -/

/-- Modelled from the spec: the options record `MaoOptions`, whose class is declared
outside the given sources: whether and where to write the assembly and the IR. -/
structure MaoOptions where
  write_assembly : Bool
  assembly_output_file_name : String
  write_ir : Bool
  ir_output_file_name : String
deriving DecidableEq, Repr

/-- Modelled from the spec: the setter `set_assembly_output_file_name`: the assembly
is written, to the file named. -/
def MaoOptions.set_assembly_output_file_name (o : MaoOptions) (file_name : String) :
    MaoOptions :=
  { o with write_assembly := true, assembly_output_file_name := file_name }

/-- Modelled from the spec: the setter `set_ir_output_file_name`: the IR is written,
to the file named. -/
def MaoOptions.set_ir_output_file_name (o : MaoOptions) (file_name : String) : MaoOptions :=
  { o with write_ir := true, ir_output_file_name := file_name }

/-- The loop of `remove_arg` at index `i`, with `argc - i` iterations to go: the
argument behind `i` is copied to `i` while there is one. -/
def remove_arg.loop (argc : Nat) : Nat → Nat → List String → Option (List String)
  | 0, _, argv => some argv
  | n + 1, i, argv =>
    if i + 1 < argc then
      match argv[i + 1]? with
      | none => none
      | some a =>
        if i < argv.length then remove_arg.loop argc n (i + 1) (argv.set i a) else none
    else remove_arg.loop argc n (i + 1) argv

/-- The function `remove_arg`: the new `argc` and the array `argv`, which keeps its
length.  The two assertions fail for an index that is not below `argc`. -/
def remove_arg (argc : Nat) (argv : List String) (index_to_remove : Nat) :
    Option (Nat × List String) :=
  if index_to_remove < argc then
    match remove_arg.loop argc (argc - index_to_remove) index_to_remove argv with
    | none => none
    | some argv1 => some (argc - 1, argv1)
  else none

/-- The local variables of `process_command_line_arguments` together with `argc` and
`argv`. -/
structure ArgState where
  argc : Nat
  argv : List String
  v_flag : Bool
  o_flag : Bool
  ir_flag : Bool
  o_value : Option String
  ir_value : Option String
  current_flag : Nat
deriving DecidableEq, Repr

/-- The loop `while (current_flag < *argc)` of `process_command_line_arguments`. -/
def process_command_line_arguments.loop : Nat → ArgState → Option ArgState
  | 0, _ => none
  | fuel + 1, s =>
    if s.current_flag < s.argc then
      match s.argv[s.current_flag]? with
      | none => none
      | some arg =>
        if arg = "-mao_v" then
          match remove_arg s.argc s.argv s.current_flag with
          | none => none
          | some (argc1, argv1) =>
            process_command_line_arguments.loop fuel
              { s with argc := argc1, argv := argv1, v_flag := true }
        else if arg = "-mao_o" then
          if s.current_flag + 1 < s.argc then
            match s.argv[s.current_flag + 1]? with
            | none => none
            | some value =>
              match remove_arg s.argc s.argv s.current_flag with
              | none => none
              | some (argc1, argv1) =>
                match remove_arg argc1 argv1 s.current_flag with
                | none => none
                | some (argc2, argv2) =>
                  process_command_line_arguments.loop fuel
                    { s with argc := argc2, argv := argv2, o_flag := true,
                             o_value := some value }
          else none
        else if arg = "-mao_ir" then
          if s.current_flag + 1 < s.argc then
            match s.argv[s.current_flag + 1]? with
            | none => none
            | some value =>
              match remove_arg s.argc s.argv s.current_flag with
              | none => none
              | some (argc1, argv1) =>
                match remove_arg argc1 argv1 s.current_flag with
                | none => none
                | some (argc2, argv2) =>
                  process_command_line_arguments.loop fuel
                    { s with argc := argc2, argv := argv2, ir_flag := true,
                             ir_value := some value }
          else none
        else
          process_command_line_arguments.loop fuel
            { s with current_flag := s.current_flag + 1 }
    else some s

/-- What `process_command_line_arguments` leaves: `argc`, `argv`, the options, and
whether it has printed the usage and called `exit(0)` instead of returning. -/
structure ArgResult where
  argc : Nat
  argv : List String
  options : MaoOptions
  exited : Bool
deriving DecidableEq, Repr

/-- The function `process_command_line_arguments`; `none` stands for a failed
assertion. -/
def process_command_line_arguments (fuel : Nat) (argc : Nat) (argv : List String)
    (in_out_options : MaoOptions) : Option ArgResult :=
  match process_command_line_arguments.loop fuel
      { argc := argc, argv := argv, v_flag := false, o_flag := false, ir_flag := false,
        o_value := none, ir_value := none, current_flag := 0 } with
  | none => none
  | some s =>
    let options1 :=
      if s.o_flag then
        in_out_options.set_assembly_output_file_name (s.o_value.getD "")
      else in_out_options
    let options2 :=
      if s.ir_flag then options1.set_ir_output_file_name (s.ir_value.getD "") else options1
    some { argc := s.argc, argv := s.argv, options := options2, exited := s.v_flag }

/-- The arguments that are passed on: those of `args` without every `-mao_v` met and
without every `-mao_o` or `-mao_ir` met together with the argument behind it. -/
def forwarded : List String → List String
  | [] => []
  | [a] => if a = "-mao_v" ∨ a = "-mao_o" ∨ a = "-mao_ir" then [] else [a]
  | a :: b :: rest =>
    if a = "-mao_v" then forwarded (b :: rest)
    else if a = "-mao_o" ∨ a = "-mao_ir" then forwarded rest
    else a :: forwarded (b :: rest)

/-- Every `-mao_o` and `-mao_ir` that is met as an option is followed by another
argument. -/
def optionsHaveValues : List String → Bool
  | [] => true
  | [a] => !(a = "-mao_o" ∨ a = "-mao_ir")
  | a :: b :: rest =>
    if a = "-mao_v" then optionsHaveValues (b :: rest)
    else if a = "-mao_o" ∨ a = "-mao_ir" then optionsHaveValues rest
    else optionsHaveValues (b :: rest)

/-- The options before the command line is read: nothing is written. -/
def MaoOptions.initial : MaoOptions :=
  { write_assembly := false, assembly_output_file_name := "", write_ir := false,
    ir_output_file_name := "" }

/-- The files written and the standard output, each with the text it holds in the
end; the first pair of a file name is its binding. -/
structure Output where
  files : List (String × String)
  stdout : String
deriving DecidableEq, Repr

/-- The texts that `PrintMaoUnit`, `SymbolTable::Print` and `PrintIR(FILE *)` write for
the unit. -/
structure UnitText where
  mao_unit : String
  symbol_table : String
  ir : String
deriving DecidableEq, Repr

/-- The call `fopen(file_name, "w")`, taken to succeed: the file is created or cut to
length 0. -/
def Output.fopen_w (out : Output) (file_name : String) : Output :=
  { out with files := (file_name, "") :: out.files }

/-- Writing `text` to the open file `file_name`. -/
def Output.fprintf (out : Output) (file_name : String) (text : String) : Output :=
  { out with files := (file_name, (out.files.lookup file_name).getD "" ++ text) :: out.files }

/-- The content of the file `file_name`, if it exists. -/
def Output.content (out : Output) (file_name : String) : Option String :=
  out.files.lookup file_name

/-- The method `MaoUnit::PrintIR` without a file argument: it calls the overload with
`stdout`. -/
def MaoUnit.PrintIR (text : UnitText) (out : Output) : Output :=
  { out with stdout := out.stdout ++ text.ir }

/-- The function `ir_ready` of `mao.cc`. -/
def ir_ready (mao_options : MaoOptions) (text : UnitText) (out : Output) : Output :=
  let out1 :=
    if mao_options.write_assembly then
      let outfile := mao_options.assembly_output_file_name
      let o1 := out.fopen_w outfile
      let o2 := o1.fprintf outfile "# MaoUnit:\n"
      let o3 := o2.fprintf outfile text.mao_unit
      let o4 := o3.fprintf outfile "# Symbol table:\n"
      let o5 := o4.fprintf outfile text.symbol_table
      o5.fprintf outfile "# Done\n"
    else out
  if mao_options.write_ir then
    let o1 := out1.fopen_w mao_options.ir_output_file_name
    MaoUnit.PrintIR text o1
  else out1

/-- Texts for the examples. -/
def exampleText : UnitText :=
  { mao_unit := "\tnop\n", symbol_table := "f\n", ir := "[0] nop\n" }

/-! ## Printing of directive operands -/

/-- The method `DirectiveEntry::GetDotOrSymbol` on the name of the symbol: the symbol
`L0\001` of the current location is shown as a dot. -/
def DirectiveEntry.GetDotOrSymbol (s : String) : String :=
  if s = "L0\x01" then "." else s

/-- The text that `<<` makes of a symbol that may be null, followed by `sign`; nothing
for a null symbol. -/
def DirectiveEntry.symbolText (symbol : Option String) (sign : String) : String :=
  match symbol with
  | some s => DirectiveEntry.GetDotOrSymbol s ++ sign
  | none => ""

/-- The method `DirectiveEntry::OperandExpressionToString`: the string `out` with the
text of the expression appended; `none` for the fatal assertion of the unsupported
tags.  The number is written in decimal. -/
def DirectiveEntry.OperandExpressionToString (expr : expressionS) (out : String) :
    Option String :=
  match expr.X_op with
  | .O_constant => some (out ++ toString expr.X_add_number)
  | .O_symbol =>
    some (out ++ (DirectiveEntry.symbolText expr.X_add_symbol "+" ++
      toString expr.X_add_number))
  | .O_add =>
    some (out ++ (DirectiveEntry.symbolText expr.X_add_symbol "+" ++
      DirectiveEntry.symbolText expr.X_op_symbol "+" ++ toString expr.X_add_number))
  | .O_subtract =>
    some (out ++ (DirectiveEntry.symbolText expr.X_add_symbol "-" ++
      DirectiveEntry.symbolText expr.X_op_symbol "+" ++ toString expr.X_add_number))
  | _ => none

/-- What `Visit` writes: `m1` is `m` with new bindings in front, each binding marks a
block that was unmarked, and no block is bound twice. -/
def Visit.Writes (m m1 : BasicBlockMap) : Prop :=
  ∃ added : List (Nat × Bool), m1 = added ++ m ∧ (added.map Prod.fst).Nodup ∧
    ∀ p ∈ added, p.2 = true ∧ m.get p.1 = false

/-- The facts of `movq 24(%rsp), %rdx; movq 24(%rsp), %rdx; movq 24(%rsp), %rcx`: the
second load defines the destination of the first again. -/
def redefinedLoads : List InsnFacts :=
  [loadFacts "rdx", loadFacts "rdx", loadFacts "rcx"]

/-! ## Common symbols -/

/-- Modelled from the spec: `SymbolTable::Exists`, of the class declared outside the
given sources: whether the table maps the name to a symbol. -/
def SymbolTable.Exists (t : List Symbol) (n : String) : Bool :=
  (SymbolTable.Find t n).isSome

/-- Modelled from the spec: `SymbolTable::Size`, the number of symbols. -/
def SymbolTable.Size (t : List Symbol) : Nat :=
  t.length

/-- Modelled from the spec: the constructor `Symbol(name, id, section)`, declared
outside the given sources: no type, size 0, not common, common size and alignment 0. -/
def Symbol.new (n : String) (id : Nat) (sec : Option Nat) : Symbol :=
  { name := n, id := id, section_ := sec, symbol_type := .NOTYPE_SYMBOL, size := 0,
    common := false, common_size := 0, common_align := 0 }

/-- Modelled from the spec: the setter `Symbol::set_symbol_type`. -/
def Symbol.set_symbol_type (s : Symbol) (ty : SymbolType) : Symbol :=
  { s with symbol_type := ty }

/-- Modelled from the spec: `SymbolTable::Add`, which binds the name of the symbol to
the new symbol object. -/
def SymbolTable.Add (t : List Symbol) (s : Symbol) : List Symbol :=
  t ++ [s]

/-- The symbol object that `Find` returns for the name `n` after the setters have
made it `s`: the writes go through the pointer into the table. -/
def SymbolTable.store : List Symbol → String → Symbol → List Symbol
  | [], _, _ => []
  | x :: rest, n, s => if x.name = n then s :: rest else x :: SymbolTable.store rest n s

/-- The second half of `MaoUnit::AddCommSymbol`, on the symbol object found or
created: the flag, the common size with the assertion on the size, the alignment. -/
def AddCommSymbol.update (symbol : Symbol) (common_size common_align : Nat) :
    Option Symbol :=
  let symbol : Symbol := { symbol with common := true }
  let sized : Option Symbol :=
    if symbol.common_size < common_size then
      let symbol : Symbol := { symbol with common_size := common_size }
      if symbol.size < symbol.common_size then
        some { symbol with size := symbol.common_size }
      else none
    else some symbol
  match sized with
  | none => none
  | some symbol =>
    if symbol.common_align < common_align then
      some { symbol with common_align := common_align }
    else some symbol

/-- The method `MaoUnit::AddCommSymbol(name, common_size, common_align)`; `none` is
the failure of its assertion (or a current subsection that is no subsection). -/
def AddCommSymbol (u : MaoUnit) (name : String) (common_size common_align : Nat) :
    Option MaoUnit :=
  let table : Option (List Symbol) :=
    if SymbolTable.Exists u.symbol_table_ name = false then
      let sec : Option (Option Nat) :=
        match u.current_subsection_ with
        | none => some none
        | some c => (u.sub_sections_[c]?).map (fun ss => some ss.section_)
      sec.map (fun sec =>
        SymbolTable.Add u.symbol_table_
          ((Symbol.new name (SymbolTable.Size u.symbol_table_) sec).set_symbol_type
            .OBJECT_SYMBOL))
    else some u.symbol_table_
  match table with
  | none => none
  | some t =>
    match SymbolTable.Find t name with
    | none => none
    | some symbol =>
      match AddCommSymbol.update symbol common_size common_align with
      | none => none
      | some symbol1 => some { u with symbol_table_ := SymbolTable.store t name symbol1 }

/-- A unit whose symbol table holds the symbol `x` with size 16, as
`FindOrCreateAndFindSymbol("x")` followed by `set_size(16)` leaves it. -/
def sizedSymbolUnit : MaoUnit :=
  { MaoUnit.empty with
    symbol_table_ := [{ Symbol.new "x" 0 none with size := 16 }] }

/-! ## Relaxation: the variable parts as `int`, the entries that end a fragment -/

/-- Lays the fragments out one behind the other from address `a`; every fragment that
has a successor gets `grow` more fixed bytes and a variable part of `var` bytes. -/
def layoutWith (grow var : Int) : Int → List frag → List frag
  | _, [] => []
  | a, [f] => [{ f with fr_address := a }]
  | a, f :: g :: rest =>
    { f with fr_address := a, fr_fix := f.fr_fix + grow } ::
      layoutWith grow var (a + f.fr_fix + grow + var) (g :: rest)

/-- An outcome of `relax_segment` that puts the successor of every fragment 4 GiB and
4 bytes behind the fixed part of the fragment. -/
def farRelax : List frag → Nat → List frag × Bool :=
  fun fragments _ => (layoutWith 0 4294967300 0 fragments, false)

/-- The expression of a LEB128 directive as `BuildFragments` goes on with it: the
bignum made of a signed constant whose sign disagrees with its unsigned flag, the
expression itself otherwise. -/
def BuildFragments.converted (env : Env) (expr : expressionS) (is_signed : Bool) :
    expressionS :=
  if expr.X_op = .O_constant ∧ is_signed = true ∧
      (decide (expr.X_add_number < 0) != !expr.X_unsigned) = true then
    env.convert_to_bignum expr
  else expr

/-- Whether `HandleSpace` takes the way of a count that is not a constant. -/
def HandleSpace.varies : List Operand → Bool
  | [Operand.EXPRESSION size, _] => decide (size.X_op ≠ .O_constant)
  | _ => false

/-- Whether the case `SLEB128` / `ULEB128` of `BuildFragments` takes the way of an
expression that is neither a constant nor a bignum. -/
def BuildFragments.leb128Varies (env : Env) (op : Opcode) : List Operand → Bool
  | [Operand.EXPRESSION expr0] =>
    decide
      ((BuildFragments.converted env expr0 (decide (op = Opcode.SLEB128))).X_op ≠
          .O_constant ∧
        (BuildFragments.converted env expr0 (decide (op = Opcode.SLEB128))).X_op ≠ .O_big)
  | _ => false

/-- Whether the body of the loop of `BuildFragments` binds the entry in `relax_map`
and ends the current fragment, for an entry with the payload `data`: an instruction
that the size helper reports as variable, `.p2align*`, a LEB128 directive whose
expression is neither a constant nor a bignum, and a `.space` or `.ds.*` directive
whose count is not a constant. -/
def BuildFragments.endsFragment (env : Env) : EntryData → Bool
  | .INSTRUCTION insn => (env.SizeOfInstruction insn).2
  | .DIRECTIVE op operands =>
    match op with
    | .P2ALIGN | .P2ALIGNW | .P2ALIGNL => true
    | .SLEB128 | .ULEB128 => BuildFragments.leb128Varies env op operands
    | .SPACE | .DS_B | .DS_W | .DS_L | .DS_D | .DS_X => HandleSpace.varies operands
    | _ => false
  | _ => false

theorem map_set_keep {α β : Type} (f : α → β) :
    ∀ (l : List α) (p : Nat) (e e1 : α), l[p]? = some e → f e1 = f e →
      (l.set p e1).map f = l.map f := by
  intro l
  induction l with
  | nil => intro p e e1 h; simp at h
  | cons a t ih =>
    intro p e e1 h hf
    cases p with
    | zero =>
      simp at h
      subst h
      simp [hf]
    | succ n =>
      simp at h
      simp [ih n e e1 h hf]

theorem set_next_ok (h : List MaoEntry) (p : Nat) (v : Option Nat) (hp : p < h.length) :
    ∃ h1, set_next h p v = some h1 ∧ h1.map MaoEntry.core = h.map MaoEntry.core ∧
      h1.length = h.length := by
  obtain ⟨e, he⟩ : ∃ e, h[p]? = some e := ⟨h[p], List.getElem?_eq_getElem hp⟩
  refine ⟨h.set p { e with next_ := v }, ?_, ?_, ?_⟩
  · simp [set_next, he]
  · exact map_set_keep _ _ _ e _ he rfl
  · simp

theorem set_prev_ok (h : List MaoEntry) (p : Nat) (v : Option Nat) (hp : p < h.length) :
    ∃ h1, set_prev h p v = some h1 ∧ h1.map MaoEntry.core = h.map MaoEntry.core ∧
      h1.length = h.length := by
  obtain ⟨e, he⟩ : ∃ e, h[p]? = some e := ⟨h[p], List.getElem?_eq_getElem hp⟩
  refine ⟨h.set p { e with prev_ := v }, ?_, ?_, ?_⟩
  · simp [set_prev, he]
  · exact map_set_keep _ _ _ e _ he rfl
  · simp

theorem findSection_some {l : List Section} {n : String} {j : Nat}
    (h : findSection l n = some j) : ∃ s, l[j]? = some s ∧ s.name_ = n := by
  induction l generalizing j with
  | nil => simp [findSection] at h
  | cons a t ih =>
    unfold findSection at h
    split at h
    · rename_i hn
      simp at h
      subst h
      exact ⟨a, by simp, hn⟩
    · cases hr : findSection t n with
      | none => simp [hr] at h
      | some k =>
        simp [hr] at h
        subst h
        obtain ⟨s, hs, hsn⟩ := ih hr
        exact ⟨s, by simpa using hs, hsn⟩

theorem findSection_append (l : List Section) (s : Section) (n : String) :
    findSection (l ++ [s]) n =
      match findSection l n with
      | some j => some j
      | none => if s.name_ = n then some l.length else none := by
  induction l with
  | nil => simp [findSection]
  | cons a t ih =>
    simp only [List.cons_append, findSection]
    split
    · rfl
    · simp only [List.append_eq]
      rw [ih]
      cases hr : findSection t n with
      | none =>
        simp only [Option.map_none']
        split <;> simp
      | some k => simp

theorem findSection_set (l : List Section) (j : Nat) (s s1 : Section) (n : String)
    (hj : l[j]? = some s) (hn : s1.name_ = s.name_) :
    findSection (l.set j s1) n = findSection l n := by
  induction l generalizing j with
  | nil => simp at hj
  | cons a t ih =>
    cases j with
    | zero =>
      simp at hj
      subst hj
      simp [findSection, hn]
    | succ k =>
      simp at hj
      simp [findSection, ih k hj]


/-- The section that `FindOrCreateAndFind` returns exists, carries the name asked for,
and lookups by any other name are unchanged. -/
theorem FindOrCreateAndFind_spec (u : MaoUnit) (name : String) (hwf : WF u) :
    ∃ s, (FindOrCreateAndFind u name).1.sections_[(FindOrCreateAndFind u name).2.2]? = some s ∧
      s.name_ = name ∧
      (∀ n, findSection (FindOrCreateAndFind u name).1.sections_ n =
        if n = name then some (FindOrCreateAndFind u name).2.2 else findSection u.sections_ n) ∧
      (∀ (j : Nat) (t : Section), (FindOrCreateAndFind u name).1.sections_[j]? = some t →
        ∀ i ∈ t.subsections_, i < u.sub_sections_.length) ∧
      (∀ j, findSection u.sections_ name = some j → (FindOrCreateAndFind u name).2.2 = j) ∧
      (findSection u.sections_ name = none →
        (FindOrCreateAndFind u name).2.2 = u.sections_.length) ∧
      u.sections_.length ≤ (FindOrCreateAndFind u name).1.sections_.length ∧
      (FindOrCreateAndFind u name).1.heap = u.heap ∧
      (FindOrCreateAndFind u name).1.entry_vector_ = u.entry_vector_ ∧
      (FindOrCreateAndFind u name).1.sub_sections_ = u.sub_sections_ ∧
      (FindOrCreateAndFind u name).1.labels_ = u.labels_ ∧
      (FindOrCreateAndFind u name).1.symbol_table_ = u.symbol_table_ ∧
      (FindOrCreateAndFind u name).1.functions_ = u.functions_ ∧
      (∀ (j : Nat) (t : Section), u.sections_[j]? = some t →
        ∃ t1, (FindOrCreateAndFind u name).1.sections_[j]? = some t1 ∧ t1.name_ = t.name_ ∧
          ∀ i ∈ t.subsections_, i ∈ t1.subsections_) := by
  unfold FindOrCreateAndFind
  cases hfs : findSection u.sections_ name with
  | some j =>
    obtain ⟨s, hs, hsn⟩ := findSection_some hfs
    refine ⟨s, by simpa using hs, hsn, ?_, ?_, ?_, ?_, ?_⟩
    · intro n
      by_cases hn : n = name
      · simp [hn, hfs]
      · simp [hn]
    · intro k t ht i hi
      exact hwf.sec k t (by simpa using ht) i hi
    · intro k hk
      simp at hk
      simp [hk]
    · intro hk
      simp at hk
    · simp only [le_refl, true_and]
      intro k t ht
      exact ⟨t, ht, rfl, fun i hi => hi⟩
  | none =>
    refine ⟨{ name_ := name, id_ := u.sections_.length, subsections_ := [] }, by simp, rfl,
      ?_, ?_, ?_, ?_, ?_⟩
    · intro n
      simp only [findSection_append]
      by_cases hn : n = name
      · subst hn
        simp [hfs]
      · have hn1 : ¬ name = n := fun h => hn h.symm
        cases hr : findSection u.sections_ n <;> simp [hn, hn1]
    · intro k t ht i hi
      simp only [List.getElem?_append] at ht
      split at ht
      · exact hwf.sec k t ht i hi
      · rename_i hlt
        have hk : k - u.sections_.length = 0 ∨ 0 < k - u.sections_.length := by omega
        rcases hk with hk | hk
        · rw [hk] at ht
          simp at ht
          subst ht
          simp at hi
        · obtain ⟨m, hm⟩ : ∃ m, k - u.sections_.length = m + 1 := ⟨_, (Nat.succ_pred_eq_of_pos hk).symm⟩
          rw [hm] at ht
          simp at ht
    · intro k hk
      simp at hk
    · intro _
      rfl
    · simp only [List.length_append, List.length_singleton, Nat.le_add_right, true_and]
      intro k t ht
      have hk : k < u.sections_.length := (List.getElem?_eq_some.mp ht).1
      exact ⟨t, by rw [List.getElem?_append_left hk]; exact ht, rfl, fun i hi => hi⟩

theorem SetSubSection_spec (u : MaoUnit) (name : String) (num entry : Nat)
    (hwf : WF u) (he : entry < u.heap.length) :
    ∃ u1 b sec, SetSubSection u name num entry = some (u1, b) ∧
      SetSubSectionPost u name num entry u1 sec false := by
  have hspec := FindOrCreateAndFind_spec u name hwf
  unfold SetSubSection
  rcases hr : FindOrCreateAndFind u name with ⟨u1, b, sec⟩
  rw [hr] at hspec
  simp only at hspec
  obtain ⟨s, hs, hsn, hfind, hsec, hreuse, hcreate, hlen, hheap, hev, hsubs, hlab, hsym,
    hfun, hgrow⟩ := hspec
  have hseclt : sec < u1.sections_.length := by
    rcases List.getElem?_eq_some.mp hs with ⟨h1, _⟩
    exact h1
  have key : ∀ h : List MaoEntry, h.map MaoEntry.core = u.heap.map MaoEntry.core →
      SetSubSectionPost u name num entry
        { heap := h, entry_vector_ := u1.entry_vector_,
          sub_sections_ := u1.sub_sections_ ++
            [{ id_ := u1.sub_sections_.length, number_ := num, name_ := name, section_ := sec,
               first_entry_ := some entry, last_entry_ := some entry,
               start_section_ := false }],
          sections_ := u1.sections_.set sec (s.AddSubSection u1.sub_sections_.length),
          current_subsection_ := some u1.sub_sections_.length, labels_ := u1.labels_,
          symbol_table_ := u1.symbol_table_, functions_ := u1.functions_ } sec false := by
    intro h hh
    have hlenh : h.length = u.heap.length := by
      have := congrArg List.length hh
      simpa using this
    refine
      { wf := ?_, core := hh, entry_vector := hev, labels := hlab, symbols := hsym,
        functions := hfun, current := by simp [hsubs],
        subs := by simp [hsubs, freshSubSection], find := ?_, reuse := hreuse,
        create := hcreate, sec_subs := ?_, sec_len := by simpa using hlen, grow := ?_ }
    · refine { cur := ?_, sub := ?_, sec := ?_ }
      · intro c hc
        simp at hc
        simp
        omega
      · intro i ss hss
        simp only [List.getElem?_append] at hss
        split at hss
        · rw [hsubs] at hss
          obtain ⟨⟨f, hf, hfl⟩, ⟨l, hl, hll⟩⟩ := hwf.sub i ss hss
          exact ⟨⟨f, hf, by simp only [hlenh]; exact hfl⟩, ⟨l, hl, by simp only [hlenh]; exact hll⟩⟩
        · have hk : i - u1.sub_sections_.length = 0 ∨ 0 < i - u1.sub_sections_.length := by
            omega
          rcases hk with hk | hk
          · rw [hk] at hss
            simp at hss
            subst hss
            exact ⟨⟨entry, rfl, by simp only [hlenh]; exact he⟩,
              ⟨entry, rfl, by simp only [hlenh]; exact he⟩⟩
          · obtain ⟨m, hm⟩ : ∃ m, i - u1.sub_sections_.length = m + 1 :=
              ⟨_, (Nat.succ_pred_eq_of_pos hk).symm⟩
            rw [hm] at hss
            simp at hss
      · intro j t ht i hi
        simp only [List.getElem?_set] at ht
        simp only [List.length_append, List.length_singleton]
        split at ht
        · rename_i hj
          simp only [hseclt, if_true, Option.some.injEq] at ht
          subst ht
          simp only [Section.AddSubSection, List.mem_append, List.mem_singleton] at hi
          rcases hi with hi | hi
          · have := hsec sec s hs i hi
            rw [hsubs]
            omega
          · omega
        · have := hsec j t ht i hi
          rw [hsubs]
          omega
    · intro n
      simp only []
      rw [findSection_set u1.sections_ sec s (s.AddSubSection u1.sub_sections_.length) n hs rfl]
      exact hfind n
    · refine ⟨s.AddSubSection u1.sub_sections_.length, ?_, hsn, ?_⟩
      · simp [List.getElem?_set, hseclt]
      · simp [Section.AddSubSection, hsubs]
    · intro j t ht
      obtain ⟨t1, ht1, hn1, hg1⟩ := hgrow j t ht
      simp only [List.getElem?_set]
      by_cases hj : sec = j
      · subst hj
        rw [hs] at ht1
        simp only [Option.some.injEq] at ht1
        subst ht1
        refine ⟨s.AddSubSection u1.sub_sections_.length, by simp [hseclt], hn1, ?_⟩
        intro i hi
        simp only [Section.AddSubSection, List.mem_append, List.mem_singleton]
        exact Or.inl (hg1 i hi)
      · exact ⟨t1, by simp [hj, ht1], hn1, hg1⟩
  simp only [hs, SubSection.set_last_entry, if_true]
  cases hls : s.GetLastSubSection with
  | none =>
    exact ⟨_, b, sec, rfl, key u1.heap (by rw [hheap])⟩
  | some ls =>
    have hlsmem : ls ∈ s.subsections_ := List.mem_of_mem_getLast? hls
    have hlslt : ls < u.sub_sections_.length := hsec sec s hs ls hlsmem
    obtain ⟨lss, hlss⟩ : ∃ lss, u.sub_sections_[ls]? = some lss :=
      ⟨_, List.getElem?_eq_getElem hlslt⟩
    obtain ⟨_, ⟨l, hl, hll⟩⟩ := hwf.sub ls lss hlss
    obtain ⟨h1, hs1, hc1, hl1⟩ := set_next_ok u1.heap l (some entry) (by rw [hheap]; exact hll)
    obtain ⟨h2, hs2, hc2, hl2⟩ := set_prev_ok h1 entry (some l) (by rw [hl1, hheap]; exact he)
    have hget : (u1.sub_sections_ ++
        [({ id_ := u1.sub_sections_.length, number_ := num, name_ := name, section_ := sec,
            first_entry_ := some entry, last_entry_ := some entry,
            start_section_ := false } : SubSection)])[ls]? = some lss := by
      rw [List.getElem?_append_left (by rw [hsubs]; exact hlslt), hsubs]
      exact hlss
    simp only [hget, hl, hs1, hs2]
    exact ⟨_, b, sec, rfl, key h2 (by rw [hc2, hc1, hheap])⟩

theorem set_append_last {α : Type} (l : List α) (a b : α) :
    (l ++ [a]).set l.length b = l ++ [b] := by
  induction l with
  | nil => rfl
  | cons x t ih => simp [ih]

theorem getElem?_singleton_some {α : Type} {a b : α} {k : Nat} (h : [a][k]? = some b) :
    k = 0 ∧ b = a := by
  cases k with
  | zero => simp at h; exact ⟨rfl, h.symm⟩
  | succ m => simp at h

/-- Changing the entry vector, the label map, the symbols or the functions keeps the
pointers valid, as long as the heap keeps its length. -/
theorem WF.transfer {u u1 : MaoUnit} (h : WF u) (hlen : u1.heap.length = u.heap.length)
    (hcur : u1.current_subsection_ = u.current_subsection_)
    (hsub : u1.sub_sections_ = u.sub_sections_) (hsec : u1.sections_ = u.sections_) :
    WF u1 := by
  refine { cur := ?_, sub := ?_, sec := ?_ }
  · intro c hc
    rw [hsub]
    exact h.cur c (by rw [← hcur]; exact hc)
  · intro i ss hss
    rw [hlen]
    exact h.sub i ss (by rw [← hsub]; exact hss)
  · intro j s hs i hi
    rw [hsub]
    exact h.sec j s (by rw [← hsec]; exact hs) i hi

theorem set_start_section_spec {u u1 : MaoUnit} {name : String} {num entry sec : Nat}
    (hp : SetSubSectionPost u name num entry u1 sec false) :
    ∃ u2, set_start_section u1 true = some u2 ∧
      SetSubSectionPost u name num entry u2 sec true := by
  have hget : u1.sub_sections_[u.sub_sections_.length]? =
      some (freshSubSection u name num sec entry false) := by
    rw [hp.subs]
    exact List.getElem?_concat_length _ _
  refine ⟨{ u1 with sub_sections_ :=
      u.sub_sections_ ++ [freshSubSection u name num sec entry true] }, ?_, ?_⟩
  · simp only [set_start_section, hp.current, hget]
    congr 2
    rw [hp.subs]
    exact set_append_last _ _ _
  · have hwf := hp.wf
    refine
      { wf := ?_, core := hp.core, entry_vector := hp.entry_vector, labels := hp.labels,
        symbols := hp.symbols, functions := hp.functions, current := hp.current,
        subs := rfl, find := hp.find, reuse := hp.reuse, create := hp.create,
        sec_subs := hp.sec_subs, sec_len := hp.sec_len, grow := hp.grow }
    refine { cur := ?_, sub := ?_, sec := ?_ }
    · intro c hc
      have := hwf.cur c hc
      rw [hp.subs] at this
      simpa using this
    · intro i ss hss
      simp only [List.getElem?_append] at hss
      split at hss
      · rename_i hlt
        exact hwf.sub i ss (by rw [hp.subs, List.getElem?_append_left hlt]; exact hss)
      · obtain ⟨_, hss2⟩ := getElem?_singleton_some hss
        subst hss2
        have := hwf.sub u.sub_sections_.length _ hget
        simpa [freshSubSection] using this
    · intro j s hs i hi
      have := hwf.sec j s hs i hi
      rw [hp.subs] at this
      simpa using this

/-- The first part of `AddEntry` either opens a subsection at the entry (the start
section, or the default section) or leaves the unit as it is. -/
theorem openDefault_spec (u : MaoUnit) (entry : Nat) (cds : Bool) (hwf : WF u)
    (he : entry < u.heap.length) :
    (∃ u2 sec name st, AddEntry.openDefault u entry cds = some u2 ∧
        SetSubSectionPost u name 0 entry u2 sec st ∧
        ((cds = false ∧ u.current_subsection_ = none ∧ name = "mao_start_section" ∧
            st = true) ∨
         (cds = true ∧ name = DEFAULT_SECTION_NAME ∧ st = false ∧
            (u.current_subsection_ = none ∨
              ∃ c ss, u.current_subsection_ = some c ∧ u.sub_sections_[c]? = some ss ∧
                ss.start_section_ = true)))) ∨
    (AddEntry.openDefault u entry cds = some u ∧
      ∃ c ss, u.current_subsection_ = some c ∧ u.sub_sections_[c]? = some ss ∧
        (cds = false ∨ ss.start_section_ = false)) := by
  cases hc : u.current_subsection_ with
  | none =>
    cases cds with
    | false =>
      left
      obtain ⟨u1, b, sec, h1, hp1⟩ := SetSubSection_spec u "mao_start_section" 0 entry hwf he
      obtain ⟨u2, h2, hp2⟩ := set_start_section_spec hp1
      refine ⟨u2, sec, _, true, ?_, hp2, Or.inl ⟨rfl, rfl, rfl, rfl⟩⟩
      simp [AddEntry.openDefault, hc, h1, h2]
    | true =>
      left
      obtain ⟨u1, b, sec, h1, hp1⟩ := SetSubSection_spec u DEFAULT_SECTION_NAME 0 entry hwf he
      refine ⟨u1, sec, _, false, ?_, hp1, Or.inr ⟨rfl, rfl, rfl, Or.inl rfl⟩⟩
      simp [AddEntry.openDefault, hc, h1]
  | some c =>
    have hclt := hwf.cur c hc
    obtain ⟨ss, hss⟩ : ∃ ss, u.sub_sections_[c]? = some ss :=
      ⟨_, List.getElem?_eq_getElem hclt⟩
    cases cds with
    | false =>
      right
      refine ⟨?_, c, ss, rfl, hss, Or.inl rfl⟩
      simp [AddEntry.openDefault, hc]
    | true =>
      cases hst : ss.start_section_ with
      | false =>
        right
        refine ⟨?_, c, ss, rfl, hss, Or.inr hst⟩
        simp [AddEntry.openDefault, hc, hss, hst]
      | true =>
        left
        obtain ⟨u1, b, sec, h1, hp1⟩ :=
          SetSubSection_spec u DEFAULT_SECTION_NAME 0 entry hwf he
        refine ⟨u1, sec, _, false, ?_, hp1, Or.inr ⟨rfl, rfl, rfl, Or.inr ⟨c, ss, rfl, hss, hst⟩⟩⟩
        simp [AddEntry.openDefault, hc, hss, hst, h1]

theorem set_next_eq {h : List MaoEntry} {p : Nat} {e : MaoEntry} (v : Option Nat)
    (he : h[p]? = some e) : set_next h p v = some (h.set p { e with next_ := v }) := by
  simp [set_next, he]

theorem set_prev_eq {h : List MaoEntry} {p : Nat} {e : MaoEntry} (v : Option Nat)
    (he : h[p]? = some e) : set_prev h p v = some (h.set p { e with prev_ := v }) := by
  simp [set_prev, he]

/-- The end of `AddEntry` on a unit with valid pointers and a current subsection. -/
theorem finish_spec (u : MaoUnit) (entry c : Nat) (ss : SubSection) (hwf : WF u)
    (he : entry < u.heap.length) (hc : u.current_subsection_ = some c)
    (hss : u.sub_sections_[c]? = some ss) :
    ∃ u1, AddEntry.finish u entry = some u1 ∧ WF u1 ∧
      u1.heap.map MaoEntry.core = u.heap.map MaoEntry.core ∧
      u1.entry_vector_ = u.entry_vector_ ++ [entry] ∧
      u1.labels_ = u.labels_ ∧ u1.symbol_table_ = u.symbol_table_ ∧
      u1.functions_ = u.functions_ ∧ u1.sections_ = u.sections_ ∧
      u1.current_subsection_ = some c ∧
      u1.sub_sections_ = u.sub_sections_.set c { ss with last_entry_ := some entry } ∧
      (ss.first_entry_ ≠ some entry → ∀ l, ss.last_entry_ = some l → l ≠ entry →
        next u1.heap (some l) = some (some entry) ∧
        prev u1.heap (some entry) = some (some l)) := by
  have hclt : c < u.sub_sections_.length := hwf.cur c hc
  obtain ⟨⟨f, hf, hfl⟩, ⟨l, hl, hll⟩⟩ := hwf.sub c ss hss
  have wf_of : ∀ h : List MaoEntry, h.length = u.heap.length →
      WF { heap := h, entry_vector_ := u.entry_vector_ ++ [entry],
           sub_sections_ := u.sub_sections_.set c { ss with last_entry_ := some entry },
           sections_ := u.sections_, current_subsection_ := u.current_subsection_,
           labels_ := u.labels_, symbol_table_ := u.symbol_table_,
           functions_ := u.functions_ } := by
    intro h hh
    refine { cur := ?_, sub := ?_, sec := ?_ }
    · intro d hd
      simpa using hwf.cur d hd
    · intro i t ht
      simp only [List.getElem?_set] at ht
      simp only [hh]
      split at ht
      · simp only [hclt, if_true, Option.some.injEq] at ht
        subst ht
        exact ⟨⟨f, hf, hfl⟩, ⟨entry, rfl, he⟩⟩
      · exact hwf.sub i t ht
    · intro j s hs i hi
      simpa using hwf.sec j s hs i hi
  by_cases hfe : ss.first_entry_ = some entry
  · refine ⟨_, ?_, wf_of u.heap rfl, rfl, rfl, rfl, rfl, rfl, rfl, hc, rfl, ?_⟩
    · simp [AddEntry.finish, hc, hss, SubSection.set_last_entry, hfe]
    · intro h
      exact absurd hfe h
  · obtain ⟨el, hel⟩ : ∃ el, u.heap[l]? = some el := ⟨_, List.getElem?_eq_getElem hll⟩
    have hs1 := set_next_eq (some entry) hel
    have hlen1 : (u.heap.set l { el with next_ := some entry }).length = u.heap.length := by
      simp
    obtain ⟨e1, he1⟩ : ∃ e1, (u.heap.set l { el with next_ := some entry })[entry]? = some e1 :=
      ⟨_, List.getElem?_eq_getElem (by rw [hlen1]; exact he)⟩
    have hs2 := set_prev_eq (some l) he1
    refine ⟨_, ?_, wf_of ((u.heap.set l { el with next_ := some entry }).set entry
      { e1 with prev_ := some l }) (by simp), ?_, rfl, rfl, rfl, rfl, rfl, hc, rfl, ?_⟩
    · simp [AddEntry.finish, hc, hss, SubSection.set_last_entry, hfe, hl, hs1, hs2]
    · exact (map_set_keep MaoEntry.core _ entry e1 { e1 with prev_ := some l } he1 rfl).trans
        (map_set_keep MaoEntry.core _ l el { el with next_ := some entry } hel rfl)
    · intro _ l1 hl1 hne
      rw [hl] at hl1
      simp only [Option.some.injEq] at hl1
      subst hl1
      constructor
      · simp [next, List.getElem?_set, Ne.symm hne, hll]
      · simp [prev, List.getElem?_set, he]

theorem core_getElem {h h1 : List MaoEntry} (hc : h1.map MaoEntry.core = h.map MaoEntry.core)
    {p : Nat} {e : MaoEntry} (he : h[p]? = some e) :
    ∃ e1, h1[p]? = some e1 ∧ e1.id_ = e.id_ ∧ e1.data = e.data := by
  have h2 := congrArg (fun l => l[p]?) hc
  simp only [List.getElem?_map, he, Option.map_some'] at h2
  cases h1p : h1[p]? with
  | none => simp [h1p] at h2
  | some e1 =>
    simp only [h1p, Option.map_some', Option.some.injEq, MaoEntry.core, Prod.mk.injEq] at h2
    exact ⟨e1, rfl, h2.1, h2.2⟩

theorem core_length {h h1 : List MaoEntry}
    (hc : h1.map MaoEntry.core = h.map MaoEntry.core) : h1.length = h.length := by
  have := congrArg List.length hc
  simpa using this

theorem fatal_congr {u u1 : MaoUnit} (h : u1.labels_ = u.labels_) (data : EntryData) :
    AddEntry.fatal u1 data = AddEntry.fatal u data := by
  unfold AddEntry.fatal
  rw [h]

/-- The `switch` of `AddEntry` at an entry with payload `data`. -/
theorem dispatch_spec (u : MaoUnit) (entry : Nat) (e : MaoEntry) (hwf : WF u)
    (he : u.heap[entry]? = some e) (c : Nat) (hc : u.current_subsection_ = some c) :
    (AddEntry.fatal u e.data = true → AddEntry.dispatch u entry = none) ∧
    (∀ S rest, e.data = .DIRECTIVE .SECTION (.STRING S :: rest) →
      ∃ u1 sec, AddEntry.dispatch u entry = some u1 ∧
        SetSubSectionPost u S 0 entry u1 sec false) ∧
    (AddEntry.fatal u e.data = false → e.data.isSection = false →
      ∃ u1, AddEntry.dispatch u entry = some u1 ∧ u1.heap = u.heap ∧
        u1.entry_vector_ = u.entry_vector_ ∧ u1.sub_sections_ = u.sub_sections_ ∧
        u1.sections_ = u.sections_ ∧ u1.current_subsection_ = u.current_subsection_ ∧
        u1.functions_ = u.functions_ ∧
        u1.labels_ = labelsAfter u.labels_ e.data entry) := by
  have helt : entry < u.heap.length := (List.getElem?_eq_some.mp he).1
  have hclt := hwf.cur c hc
  obtain ⟨ss, hss⟩ : ∃ ss, u.sub_sections_[c]? = some ss :=
    ⟨_, List.getElem?_eq_getElem hclt⟩
  refine ⟨?_, ?_, ?_⟩
  · intro hf
    unfold AddEntry.dispatch
    simp only [he]
    cases hd : e.data with
    | UNDEFINED => simp [AddEntry.fatal, hd] at hf
    | INSTRUCTION i => simp [AddEntry.fatal, hd] at hf
    | LABEL n =>
      simp only [AddEntry.fatal, hd, Option.isSome_iff_exists] at hf
      obtain ⟨x, hx⟩ := hf
      simp [hx]
    | DEBUG k v => simp [AddEntry.fatal, hd] at hf
    | DIRECTIVE op ops =>
      by_cases hop : op = Opcode.SECTION
      · subst hop
        cases ops with
        | nil => simp
        | cons o rest =>
          cases o <;> simp [AddEntry.fatal, hd] at hf ⊢
      · exfalso
        cases op <;> simp [AddEntry.fatal, hd] at hf hop
  · intro S rest hd
    obtain ⟨u1, b, sec, h1, hp1⟩ := SetSubSection_spec u S 0 entry hwf helt
    refine ⟨u1, sec, ?_, hp1⟩
    simp [AddEntry.dispatch, he, hd, h1]
  · intro hf hns
    unfold AddEntry.dispatch labelsAfter
    simp only [he]
    cases hd : e.data with
    | UNDEFINED => exact ⟨u, rfl, rfl, rfl, rfl, rfl, rfl, rfl, rfl⟩
    | INSTRUCTION i => exact ⟨u, rfl, rfl, rfl, rfl, rfl, rfl, rfl, rfl⟩
    | LABEL n =>
      have hfl : findLabel u.labels_ n = none := by
        simp only [AddEntry.fatal, hd] at hf
        cases hx : findLabel u.labels_ n with
        | none => rfl
        | some x => simp [hx] at hf
      simp only [hfl, hc, hss]
      exact ⟨_, rfl, rfl, rfl, rfl, rfl, rfl, rfl, rfl⟩
    | DEBUG k v => exact ⟨u, rfl, rfl, rfl, rfl, rfl, rfl, rfl, rfl⟩
    | DIRECTIVE op ops =>
      have hop : op ≠ Opcode.SECTION := by
        intro h
        subst h
        simp [EntryData.isSection, hd] at hns
      simp only [hop, if_false]
      exact ⟨u, rfl, rfl, rfl, rfl, rfl, rfl, rfl, rfl⟩

theorem set_id_append (h : List MaoEntry) (data : EntryData) (v : Nat) :
    set_id (h ++ [MaoEntry.new data]) h.length v =
      some (h ++ [{ id_ := v, next_ := none, prev_ := none, data := data }]) := by
  simp [set_id, MaoEntry.new, set_append_last]

theorem section_form {u : MaoUnit} {data : EntryData} (hf : AddEntry.fatal u data = false)
    (hs : data.isSection = true) :
    ∃ S rest, data = .DIRECTIVE .SECTION (.STRING S :: rest) := by
  cases data with
  | UNDEFINED => simp [EntryData.isSection] at hs
  | INSTRUCTION i => simp [EntryData.isSection] at hs
  | LABEL n => simp [EntryData.isSection] at hs
  | DEBUG k v => simp [EntryData.isSection] at hs
  | DIRECTIVE op ops =>
    cases op <;> simp [EntryData.isSection] at hs
    cases ops with
    | nil => simp [AddEntry.fatal] at hf
    | cons o rest =>
      cases o <;> simp [AddEntry.fatal] at hf
      exact ⟨_, _, rfl⟩

theorem section_isSection {data : EntryData} {S : String} {rest : List Operand}
    (h : data = .DIRECTIVE .SECTION (.STRING S :: rest)) : data.isSection = true := by
  subst h
  rfl

theorem addNew_eq (u : MaoUnit) (data : EntryData) (cds : Bool) :
    addNew u data cds =
      match AddEntry.openDefault
          { u with heap := u.heap ++
              [{ id_ := u.entry_vector_.length, next_ := none, prev_ := none, data := data }] }
          u.heap.length cds with
      | none => none
      | some u2 =>
        match AddEntry.dispatch u2 u.heap.length with
        | none => none
        | some u3 => AddEntry.finish u3 u.heap.length := by
  simp only [addNew, AddEntry, set_id_append]

theorem addNew_fatal (u : MaoUnit) (data : EntryData) (cds : Bool) (hwf : WF u)
    (hf : AddEntry.fatal u data = true) : addNew u data cds = none := by
  rw [addNew_eq]
  have hwf0 : WF { u with heap := u.heap ++
      [{ id_ := u.entry_vector_.length, next_ := none, prev_ := none, data := data }] } := by
    refine { cur := hwf.cur, sub := ?_, sec := hwf.sec }
    intro i ss hss
    obtain ⟨⟨f, hf1, hf2⟩, ⟨l, hl1, hl2⟩⟩ := hwf.sub i ss hss
    exact ⟨⟨f, hf1, by simp; omega⟩, ⟨l, hl1, by simp; omega⟩⟩
  have he0 := List.getElem?_concat_length u.heap
    ({ id_ := u.entry_vector_.length, next_ := none, prev_ := none, data := data } : MaoEntry)
  rcases openDefault_spec _ u.heap.length cds hwf0 (by simp) with
    ⟨u2, sec, nm, st, ho, hpost, _⟩ | ⟨ho, c, ss, hc, hss, _⟩
  · obtain ⟨e2, he2, _, hd2⟩ := core_getElem hpost.core he0
    obtain ⟨hfat, _, _⟩ := dispatch_spec u2 u.heap.length e2 hpost.wf he2 _ hpost.current
    have : AddEntry.fatal u2 e2.data = true := by
      rw [hd2, fatal_congr hpost.labels]
      exact hf
    simp only [ho, hfat this]
  · obtain ⟨hfat, _, _⟩ := dispatch_spec _ u.heap.length _ hwf0 he0 c hc
    simp only [ho, hfat hf]

theorem WF.alloc {u : MaoUnit} (hwf : WF u) (e : MaoEntry) :
    WF { u with heap := u.heap ++ [e] } := by
  refine { cur := hwf.cur, sub := ?_, sec := hwf.sec }
  intro i ss hss
  obtain ⟨⟨f, hf1, hf2⟩, ⟨l, hl1, hl2⟩⟩ := hwf.sub i ss hss
  exact ⟨⟨f, hf1, by simp; omega⟩, ⟨l, hl1, by simp; omega⟩⟩

theorem set_same {α : Type} (l : List α) (i : Nat) (a : α) (h : l[i]? = some a) :
    l.set i a = l := by
  induction l generalizing i with
  | nil => rfl
  | cons x t ih =>
    cases i with
    | zero => simp at h; simp [h]
    | succ k => simp at h; simp [ih k h]

theorem addNew_ok (u : MaoUnit) (data : EntryData) (cds : Bool) (hwf : WF u)
    (hf : AddEntry.fatal u data = false) :
    ∃ u1, addNew u data cds = some u1 ∧ AddNewPost u data cds u1 := by
  rw [addNew_eq]
  have hwf0 := WF.alloc hwf
    ({ id_ := u.entry_vector_.length, next_ := none, prev_ := none, data := data } : MaoEntry)
  have he0 := List.getElem?_concat_length u.heap
    ({ id_ := u.entry_vector_.length, next_ := none, prev_ := none, data := data } : MaoEntry)
  have hcore0 : List.map MaoEntry.core (u.heap ++
      [({ id_ := u.entry_vector_.length, next_ := none, prev_ := none, data := data } : MaoEntry)])
      = u.heap.map MaoEntry.core ++ [(u.entry_vector_.length, data)] := by
    simp [MaoEntry.core]
  rcases openDefault_spec _ u.heap.length cds hwf0 (by simp) with
    ⟨u2, sec, nm, st, ho, hpost, hcase⟩ | ⟨ho, c, ss, hc, hss, hcond⟩
  · -- a subsection was opened at the entry
    obtain ⟨e2, he2, hid2, hd2⟩ := core_getElem hpost.core he0
    simp only [] at hd2
    obtain ⟨_, hsect, hother⟩ :=
      dispatch_spec u2 u.heap.length e2 hpost.wf he2 _ hpost.current
    have hf2 : AddEntry.fatal u2 e2.data = false := by
      rw [hd2, fatal_congr hpost.labels]
      exact hf
    have hlen2 : u2.heap.length = u.heap.length + 1 := by
      rw [core_length hpost.core]
      simp
    have hsubs2 := hpost.subs
    simp only [] at hsubs2
    have hcur2 := hpost.current
    simp only [] at hcur2
    simp only [ho]
    by_cases hsec : data.isSection = true
    · obtain ⟨S, rest, hd⟩ := section_form hf hsec
      subst hd
      obtain ⟨u3, sec3, hd3, hpost3⟩ := hsect S rest hd2
      simp only [hd3]
      have hget3 : u3.sub_sections_[u2.sub_sections_.length]? =
          some (freshSubSection u2 S 0 sec3 u.heap.length false) := by
        rw [hpost3.subs]
        exact List.getElem?_concat_length _ _
      have hlen3 : u3.heap.length = u.heap.length + 1 := by
        rw [core_length hpost3.core, hlen2]
      obtain ⟨u1, hfin, hwf1, hcore1, hev1, hlab1, hsym1, hfun1, hsecs1, hcur1, hsubs1, _⟩ :=
        finish_spec u3 u.heap.length _ _ hpost3.wf (by omega) hpost3.current hget3
      have hsubs1' : u1.sub_sections_ = u3.sub_sections_ := by
        rw [hsubs1]
        exact set_same _ _ _ hget3
      refine ⟨u1, hfin, ?_⟩
      refine { wf := hwf1, core := ?_, entry_vector := ?_, labels := ?_, functions := ?_,
               current := ?_, opened := ?_, sect := ?_, append := ?_ }
      · rw [hcore1, hpost3.core, hpost.core]
        exact hcore0
      · rw [hev1, hpost3.entry_vector, hpost.entry_vector]
      · rw [hlab1, hpost3.labels, hpost.labels]
        rfl
      · rw [hfun1, hpost3.functions, hpost.functions]
      · exact ⟨u2.sub_sections_.length, _, hcur1, by rw [hsubs1']; exact hget3, rfl⟩
      · intro name st1 hprem
        have hnm : name = nm ∧ st1 = st := by
          rcases hcase with ⟨h1, _, h3, h4⟩ | ⟨h1, h3, h4, _⟩ <;>
            rcases hprem with ⟨g1, _, g3, g4⟩ | ⟨g1, g3, g4, _⟩
          · exact ⟨g3.trans h3.symm, g4.trans h4.symm⟩
          · rw [h1] at g1
            cases g1
          · rw [h1] at g1
            cases g1
          · exact ⟨g3.trans h3.symm, g4.trans h4.symm⟩
        obtain ⟨hn, hs⟩ := hnm
        subst hn
        subst hs
        obtain ⟨s2, hs2, hs2n, hs2l⟩ := hpost.sec_subs
        obtain ⟨s3, hs3, hs3n, hs3g⟩ := hpost3.grow sec s2 hs2
        refine ⟨sec, s3, ?_, ?_, by rw [hsecs1]; exact hs3, hs3n.trans hs2n,
          hs3g _ (List.mem_of_mem_getLast? hs2l)⟩
        · rw [hsubs1', hpost3.subs, List.getElem?_append_left (by rw [hsubs2]; simp), hsubs2]
          exact List.getElem?_concat_length _ _
        · rw [hsecs1, hpost3.find]
          have hfind2 : findSection u2.sections_ name = some sec := by
            rw [hpost.find]
            simp
          split
          · rename_i hnS
            rw [hnS] at hfind2
            rw [hpost3.reuse sec hfind2]
          · exact hfind2
      · intro S1 rest1 hd1
        have hSS : S1 = S := by
          injection hd1 with _ h2
          injection h2 with h3 _
          injection h3 with h4
          exact h4.symm
        subst hSS
        obtain ⟨s3, hs3, hs3n, hs3l⟩ := hpost3.sec_subs
        refine ⟨u2.sub_sections_.length, sec3, s3, hcur1, by rw [hsubs2]; simp, ?_, ?_, ?_,
          by rw [hsecs1]; exact hs3, hs3n, hs3l, ?_, ?_⟩
        · rw [hsubs1', hpost3.subs]
          simp
        · rw [hsubs1']
          exact hget3
        · rw [hsecs1, hpost3.find]
          simp
        · intro j hj
          apply hpost3.reuse
          rw [hpost.find]
          split
          · rename_i hnS
            rw [hnS] at hj
            rw [hpost.reuse j hj]
          · exact hj
        · intro hnone
          have h2 : findSection u2.sections_ S1 = some sec ∨ findSection u2.sections_ S1 = none := by
            rw [hpost.find]
            split
            · exact Or.inl rfl
            · exact Or.inr hnone
          rcases h2 with h2 | h2
          · rw [hpost3.reuse sec h2]
            have hsecS : S1 = nm := by
              by_contra hne
              rw [hpost.find, if_neg hne] at h2
              rw [hnone] at h2
              cases h2
            rw [hsecS] at hnone
            rw [hpost.create hnone]
          · rw [hpost3.create h2]
            exact hpost.sec_len
      · intro hns
        rw [hsec] at hns
        cases hns
    · have hns : data.isSection = false := by
        cases h : data.isSection
        · rfl
        · exact absurd h hsec
      obtain ⟨u3, hd3, hheap3, hev3, hsubs3, hsecs3, hcur3, hfun3, hlab3⟩ :=
        hother hf2 (by rw [hd2]; exact hns)
      simp only [hd3]
      have hget3 : u3.sub_sections_[u.sub_sections_.length]? =
          some (freshSubSection u nm 0 sec u.heap.length st) := by
        rw [hsubs3, hsubs2]
        exact List.getElem?_concat_length _ _
      have hwf3 : WF u3 := WF.transfer hpost.wf (by rw [hheap3]) hcur3 hsubs3 hsecs3
      obtain ⟨u1, hfin, hwf1, hcore1, hev1, hlab1, hsym1, hfun1, hsecs1, hcur1, hsubs1, _⟩ :=
        finish_spec u3 u.heap.length _ _ hwf3 (by rw [hheap3]; omega) (hcur3.trans hcur2) hget3
      have hsubs1' : u1.sub_sections_ = u3.sub_sections_ := by
        rw [hsubs1]
        exact set_same _ _ _ hget3
      refine ⟨u1, hfin, ?_⟩
      refine { wf := hwf1, core := ?_, entry_vector := ?_, labels := ?_, functions := ?_,
               current := ?_, opened := ?_, sect := ?_, append := ?_ }
      · rw [hcore1, hheap3, hpost.core]
        exact hcore0
      · rw [hev1, hev3, hpost.entry_vector]
      · rw [hlab1, hlab3, hd2, hpost.labels]
      · rw [hfun1, hfun3, hpost.functions]
      · exact ⟨u.sub_sections_.length, _, hcur1, by rw [hsubs1']; exact hget3, rfl⟩
      · intro name st1 hprem
        have hnm : name = nm ∧ st1 = st := by
          rcases hcase with ⟨h1, _, h3, h4⟩ | ⟨h1, h3, h4, _⟩ <;>
            rcases hprem with ⟨g1, _, g3, g4⟩ | ⟨g1, g3, g4, _⟩
          · exact ⟨g3.trans h3.symm, g4.trans h4.symm⟩
          · rw [h1] at g1
            cases g1
          · rw [h1] at g1
            cases g1
          · exact ⟨g3.trans h3.symm, g4.trans h4.symm⟩
        obtain ⟨hn, hs⟩ := hnm
        subst hn
        subst hs
        obtain ⟨s2, hs2, hs2n, hs2l⟩ := hpost.sec_subs
        refine ⟨sec, s2, ?_, ?_, by rw [hsecs1, hsecs3]; exact hs2, hs2n,
          List.mem_of_mem_getLast? hs2l⟩
        · rw [hsubs1']
          exact hget3
        · rw [hsecs1, hsecs3, hpost.find]
          simp
      · intro S1 rest1 hd1
        rw [section_isSection hd1] at hns
        cases hns
      · intro _ c ss hc hss hcond
        exfalso
        rcases hcase with ⟨h1, h2, _, _⟩ | ⟨h1, _, _, h4⟩
        · simp only [] at h2
          rw [hc] at h2
          cases h2
        · rcases hcond with hcond | hcond
          · rw [h1] at hcond
            cases hcond
          · rcases h4 with h4 | ⟨c1, ss1, hc1, hss1, hst1⟩
            · simp only [] at h4
              rw [hc] at h4
              cases h4
            · simp only [] at hc1 hss1
              rw [hc] at hc1
              injection hc1 with hc1
              subst hc1
              rw [hss] at hss1
              injection hss1 with hss1
              subst hss1
              rw [hcond] at hst1
              cases hst1
  · -- no subsection was opened
    simp only [] at hc hss
    obtain ⟨_, hsect, hother⟩ := dispatch_spec _ u.heap.length _ hwf0 he0 c hc
    simp only [ho]
    have hnopen : ∀ name st,
        ((cds = false ∧ u.current_subsection_ = none ∧ name = "mao_start_section" ∧
            st = true) ∨
         (cds = true ∧ name = DEFAULT_SECTION_NAME ∧ st = false ∧
            (u.current_subsection_ = none ∨
              ∃ c ss, u.current_subsection_ = some c ∧ u.sub_sections_[c]? = some ss ∧
                ss.start_section_ = true))) → False := by
      intro name st hprem
      rcases hprem with ⟨_, h2, _, _⟩ | ⟨h1, _, _, h4⟩
      · rw [hc] at h2
        cases h2
      · rcases hcond with hcond | hcond
        · rw [h1] at hcond
          cases hcond
        · rcases h4 with h4 | ⟨c1, ss1, hc1, hss1, hst1⟩
          · rw [hc] at h4
            cases h4
          · rw [hc] at hc1
            injection hc1 with hc1
            subst hc1
            rw [hss] at hss1
            injection hss1 with hss1
            subst hss1
            rw [hcond] at hst1
            cases hst1
    by_cases hsec : data.isSection = true
    · obtain ⟨S, rest, hd⟩ := section_form hf hsec
      subst hd
      obtain ⟨u3, sec3, hd3, hpost3⟩ := hsect S rest rfl
      simp only [hd3]
      have hsubs3 := hpost3.subs
      simp only [] at hsubs3
      have hcur3 := hpost3.current
      simp only [] at hcur3
      have hget3 : u3.sub_sections_[u.sub_sections_.length]? =
          some (freshSubSection u S 0 sec3 u.heap.length false) := by
        rw [hsubs3]
        exact List.getElem?_concat_length _ _
      have hlen3 : u3.heap.length = u.heap.length + 1 := by
        rw [core_length hpost3.core]
        simp
      obtain ⟨u1, hfin, hwf1, hcore1, hev1, hlab1, hsym1, hfun1, hsecs1, hcur1, hsubs1, _⟩ :=
        finish_spec u3 u.heap.length _ _ hpost3.wf (by omega) hcur3 hget3
      have hsubs1' : u1.sub_sections_ = u3.sub_sections_ := by
        rw [hsubs1]
        exact set_same _ _ _ hget3
      refine ⟨u1, hfin, ?_⟩
      refine { wf := hwf1, core := ?_, entry_vector := ?_, labels := ?_, functions := ?_,
               current := ?_, opened := ?_, sect := ?_, append := ?_ }
      · rw [hcore1, hpost3.core]
        exact hcore0
      · rw [hev1, hpost3.entry_vector]
      · rw [hlab1, hpost3.labels]
        rfl
      · rw [hfun1, hpost3.functions]
      · exact ⟨u.sub_sections_.length, _, hcur1, by rw [hsubs1']; exact hget3, rfl⟩
      · intro name st hprem
        exact absurd hprem (hnopen name st)
      · intro S1 rest1 hd1
        have hSS : S1 = S := by
          injection hd1 with _ h2
          injection h2 with h3 _
          injection h3 with h4
          exact h4.symm
        subst hSS
        obtain ⟨s3, hs3, hs3n, hs3l⟩ := hpost3.sec_subs
        refine ⟨u.sub_sections_.length, sec3, s3, hcur1, le_refl _, ?_, ?_, ?_,
          by rw [hsecs1]; exact hs3, hs3n, hs3l, hpost3.reuse, ?_⟩
        · rw [hsubs1', hsubs3]
          simp
        · rw [hsubs1']
          exact hget3
        · rw [hsecs1, hpost3.find]
          simp
        · intro hnone
          rw [hpost3.create hnone]
      · intro hns
        rw [hsec] at hns
        cases hns
    · have hns : data.isSection = false := by
        cases h : data.isSection
        · rfl
        · exact absurd h hsec
      obtain ⟨u3, hd3, hheap3, hev3, hsubs3, hsecs3, hcur3, hfun3, hlab3⟩ := hother hf hns
      simp only [] at hheap3 hev3 hsubs3 hsecs3 hcur3 hfun3 hlab3
      simp only [hd3]
      have hwf3 : WF u3 := WF.transfer hwf0 (by rw [hheap3]) hcur3 hsubs3 hsecs3
      obtain ⟨⟨f, hf1, hf2⟩, ⟨l, hl1, hl2⟩⟩ := hwf.sub c ss hss
      obtain ⟨u1, hfin, hwf1, hcore1, hev1, hlab1, hsym1, hfun1, hsecs1, hcur1, hsubs1, hlink⟩ :=
        finish_spec u3 u.heap.length c ss hwf3 (by rw [hheap3]; simp) (hcur3.trans hc)
          (by rw [hsubs3]; exact hss)
      refine ⟨u1, hfin, ?_⟩
      refine { wf := hwf1, core := ?_, entry_vector := ?_, labels := ?_, functions := ?_,
               current := ?_, opened := ?_, sect := ?_, append := ?_ }
      · rw [hcore1, hheap3]
        exact hcore0
      · rw [hev1, hev3]
      · rw [hlab1, hlab3]
      · rw [hfun1, hfun3]
      · refine ⟨c, { ss with last_entry_ := some u.heap.length }, hcur1, ?_, rfl⟩
        rw [hsubs1, hsubs3]
        exact List.getElem?_set_self (hwf.cur c hc)
      · intro name st hprem
        exact absurd hprem (hnopen name st)
      · intro S1 rest1 hd1
        rw [section_isSection hd1] at hns
        cases hns
      · intro _ c1 ss1 hc1 hss1 _
        rw [hc] at hc1
        injection hc1 with hc1
        subst hc1
        rw [hss] at hss1
        injection hss1 with hss1
        subst hss1
        refine ⟨hcur1, by rw [hsubs1, hsubs3], by rw [hsecs1, hsecs3], ?_⟩
        intro l1 hl
        rw [hl1] at hl
        injection hl with hl
        subst hl
        exact hlink (by rw [hf1]; intro h; injection h with h; omega) l hl1 (by omega)

/-! ## The invariant of units built by `AddEntry` -/

theorem findLabel_append (l : List (String × Nat)) (n1 n : String) (p : Nat) :
    findLabel (l ++ [(n1, p)]) n =
      match findLabel l n with
      | some e => some e
      | none => if n1 = n then some p else none := by
  induction l with
  | nil => simp [findLabel]
  | cons a t ih =>
    obtain ⟨a1, a2⟩ := a
    simp only [List.cons_append, findLabel]
    split
    · rfl
    · exact ih

theorem Built.empty_unit : Built [] MaoUnit.empty := by
  refine { wf := ?_, len := rfl, entry_vector := rfl, ids := ?_, labels := ?_ }
  · refine { cur := ?_, sub := ?_, sec := ?_ }
    · intro c hc
      simp [MaoUnit.empty] at hc
    · intro i ss hss
      simp [MaoUnit.empty] at hss
    · intro j s hs
      simp [MaoUnit.empty] at hs
  · intro k e he
    simp [MaoUnit.empty] at he
  · intro n
    simp [MaoUnit.empty, findLabel]

theorem Built.not_fatal {calls : List (EntryData × Bool)} {u : MaoUnit} (hb : Built calls u)
    {data : EntryData} {cds : Bool} {u1 : MaoUnit} (h : addNew u data cds = some u1) :
    AddEntry.fatal u data = false := by
  cases hf : AddEntry.fatal u data with
  | false => rfl
  | true =>
    rw [addNew_fatal u data cds hb.wf hf] at h
    cases h

theorem Built.step_addNew {calls : List (EntryData × Bool)} {u : MaoUnit} (hb : Built calls u)
    {data : EntryData} {cds : Bool} {u1 : MaoUnit} (h : addNew u data cds = some u1) :
    Built (calls ++ [(data, cds)]) u1 := by
  obtain ⟨u2, h2, hp⟩ := addNew_ok u data cds hb.wf (hb.not_fatal h)
  rw [h] at h2
  injection h2 with h2
  subst h2
  have hevlen : u.entry_vector_.length = calls.length := by
    rw [hb.entry_vector]
    simp
  refine { wf := hp.wf, len := ?_, entry_vector := ?_, ids := ?_, labels := ?_ }
  · have := congrArg List.length hp.core
    simp only [List.length_map, List.length_append, List.length_singleton] at this
    rw [this, hb.len]
    simp
  · rw [hp.entry_vector, hb.entry_vector, hb.len]
    simp [List.range_succ]
  · intro k e he
    have hk := congrArg (fun l => l[k]?) hp.core
    simp only [List.getElem?_map, he, Option.map_some', List.getElem?_append,
      List.length_map] at hk
    split at hk
    · rename_i hlt
      cases hu : u.heap[k]? with
      | none => simp [hu] at hk
      | some e0 =>
        simp only [hu, Option.map_some', Option.some.injEq, MaoEntry.core, Prod.mk.injEq] at hk
        obtain ⟨h1, h2⟩ := hb.ids k e0 hu
        refine ⟨hk.1.trans h1, ?_⟩
        rw [List.getElem?_append_left (by rw [← hb.len]; exact hlt), hk.2]
        exact h2
    · obtain ⟨hk0, hk1⟩ := getElem?_singleton_some hk.symm
      simp only [MaoEntry.core, Prod.mk.injEq] at hk1
      have hkn : k = calls.length := by
        have : k < u.heap.length + 1 := by
          have h3 := (List.getElem?_eq_some.mp he).1
          have h4 := congrArg List.length hp.core
          simp only [List.length_map, List.length_append, List.length_singleton] at h4
          omega
        rw [← hb.len]
        omega
      refine ⟨by rw [hk1.1, hevlen, hkn], ?_⟩
      rw [hkn, List.getElem?_concat_length]
      simp [hk1.2]
  · intro n
    rw [hp.labels]
    have hold := hb.labels n
    cases data with
    | LABEL m =>
      simp only [labelsAfter, findLabel_append, List.mem_append, List.mem_singleton]
      cases hfl : findLabel u.labels_ n with
      | some e =>
        have : ∃ c ∈ calls, c.1 = EntryData.LABEL n := hold.mp (by simp [hfl])
        obtain ⟨c, hc, hcn⟩ := this
        simp only [Option.isSome_some, true_iff]
        exact ⟨c, Or.inl hc, hcn⟩
      | none =>
        have hno : ¬ ∃ c ∈ calls, c.1 = EntryData.LABEL n := by
          intro hex
          have := hold.mpr hex
          simp [hfl] at this
        by_cases hmn : m = n
        · subst hmn
          simp only [if_true, Option.isSome_some, true_iff]
          exact ⟨_, Or.inr rfl, rfl⟩
        · simp only [hmn, if_false, Option.isSome_none, Bool.false_eq_true, false_iff]
          rintro ⟨c, hc | hc, hcn⟩
          · exact hno ⟨c, hc, hcn⟩
          · subst hc
            simp only [EntryData.LABEL.injEq] at hcn
            exact hmn hcn
    | _ =>
      simp only [labelsAfter, List.mem_append, List.mem_singleton]
      rw [hold]
      constructor
      · rintro ⟨c, hc, hcn⟩
        exact ⟨c, Or.inl hc, hcn⟩
      · rintro ⟨c, hc | hc, hcn⟩
        · exact ⟨c, hc, hcn⟩
        · subst hc
          cases hcn

theorem Built.addAll_calls {calls2 : List (EntryData × Bool)} :
    ∀ {calls1 : List (EntryData × Bool)} {u u1 : MaoUnit}, Built calls1 u →
      addAll u calls2 = some u1 → Built (calls1 ++ calls2) u1 := by
  induction calls2 with
  | nil =>
    intro calls1 u u1 hb h
    simp only [Mao.addAll, Option.some.injEq] at h
    subst h
    simpa using hb
  | cons c rest ih =>
    intro calls1 u u1 hb h
    obtain ⟨data, cds⟩ := c
    simp only [Mao.addAll] at h
    cases h2 : addNew u data cds with
    | none => simp [h2] at h
    | some u2 =>
      simp only [h2] at h
      have := ih (hb.step_addNew h2) h
      simpa using this

theorem Built.of_build {calls : List (EntryData × Bool)} {u : MaoUnit}
    (h : build calls = some u) : Built calls u := by
  have := Built.addAll_calls Built.empty_unit h
  simpa using this

/-! ## Entry ids and labels (C7, C8) -/

theorem exists_getElem? {α : Type} {l : List α} {k : Nat} (h : k < l.length) :
    ∃ e, l[k]? = some e :=
  ⟨l[k], List.getElem?_eq_getElem h⟩

/-- C7: the k-th successful `AddEntry` call gives its entry the id k and stores it at
index k of the entry vector; the ids of the entries are pairwise distinct and are
0..n-1; a further `AddEntry` changes neither the id nor the vector position of an
earlier entry. -/
theorem C7_entry_ids_dense (calls : List (EntryData × Bool)) (u : MaoUnit)
    (h : build calls = some u) :
    u.entry_vector_.length = calls.length ∧
    (∀ k, k < calls.length → ∃ p e, u.entry_vector_[k]? = some p ∧ u.heap[p]? = some e ∧
      e.id_ = k ∧ (calls[k]?).map Prod.fst = some e.data) ∧
    u.entry_vector_.filterMap (fun p => (u.heap[p]?).map MaoEntry.id_) =
      List.range calls.length ∧
    (∀ data cds u1, addNew u data cds = some u1 →
      u1.entry_vector_ = u.entry_vector_ ++ [u.heap.length] ∧
      ∀ (k p : Nat), u.entry_vector_[k]? = some p →
        u1.entry_vector_[k]? = some p ∧
        (u1.heap[p]?).map MaoEntry.id_ = (u.heap[p]?).map MaoEntry.id_) := by
  have hb := Built.of_build h
  have hget : ∀ k, k < calls.length → ∃ e, u.heap[k]? = some e ∧ e.id_ = k ∧
      (calls[k]?).map Prod.fst = some e.data := by
    intro k hk
    have hk2 : k < u.heap.length := by rw [hb.len]; exact hk
    obtain ⟨e, he⟩ := exists_getElem? hk2
    obtain ⟨h1, h2⟩ := hb.ids k e he
    exact ⟨e, he, h1, h2⟩
  refine ⟨by rw [hb.entry_vector]; simp, ?_, ?_, ?_⟩
  · intro k hk
    obtain ⟨e, he, hid, hd⟩ := hget k hk
    exact ⟨k, e, by rw [hb.entry_vector]; exact List.getElem?_range hk, he, hid, hd⟩
  · rw [hb.entry_vector]
    have : ∀ n, n ≤ calls.length →
        (List.range n).filterMap (fun p => (u.heap[p]?).map MaoEntry.id_) = List.range n := by
      intro n
      induction n with
      | zero => intro _; rfl
      | succ m ih =>
        intro hm
        obtain ⟨e, he, hid, _⟩ := hget m (by omega)
        rw [List.range_succ, List.filterMap_append, ih (by omega)]
        simp [he, hid]
    exact this _ (le_refl _)
  · intro data cds u1 h1
    have hb1 := hb.step_addNew h1
    obtain ⟨u2, h2, hp⟩ := addNew_ok u data cds hb.wf (hb.not_fatal h1)
    rw [h1] at h2
    injection h2 with h2
    subst h2
    refine ⟨hp.entry_vector, ?_⟩
    intro k p hkp
    have hklt : k < u.entry_vector_.length := (List.getElem?_eq_some.mp hkp).1
    refine ⟨by rw [hp.entry_vector, List.getElem?_append_left hklt]; exact hkp, ?_⟩
    have hpk : p = k := by
      rw [hb.entry_vector] at hkp hklt
      simp only [List.length_range] at hklt
      rw [List.getElem?_range hklt] at hkp
      injection hkp with hkp
      exact hkp.symm
    subst hpk
    have hplt : p < u.heap.length := by
      rw [hb.entry_vector] at hklt
      simpa [hb.len] using hklt
    obtain ⟨e, he⟩ := exists_getElem? hplt
    have hc := congrArg (fun l => l[p]?) hp.core
    simp only [List.getElem?_map, List.getElem?_append, List.length_map, hplt, if_true,
      he, Option.map_some'] at hc
    cases h1p : u1.heap[p]? with
    | none => simp [h1p] at hc
    | some e1 =>
      simp only [h1p, Option.map_some', Option.some.injEq, MaoEntry.core, Prod.mk.injEq] at hc
      simp [he, hc.1]

/-- C7, witness: two calls, an instruction and a label. -/
theorem C7_entry_ids_dense_witness :
    build [(nopInstruction, true), (EntryData.LABEL "f", true)] = some labelUnit ∧
    labelUnit.entry_vector_.length = 2 :=
  ⟨rfl, (C7_entry_ids_dense [(nopInstruction, true), (EntryData.LABEL "f", true)]
    labelUnit rfl).1⟩

/-- C8: `AddEntry` of a label is a fatal error if and only if a label of the same name
was added before; when it succeeds, `GetLabelEntry` of the name returns the new label
entry. -/
theorem C8_label_duplicate_fatal (calls : List (EntryData × Bool)) (u : MaoUnit)
    (h : build calls = some u) (label_name : String) (cds : Bool) :
    (addNew u (.LABEL label_name) cds = none ↔
      ∃ c ∈ calls, c.1 = EntryData.LABEL label_name) ∧
    (∀ u1, addNew u (.LABEL label_name) cds = some u1 →
      GetLabelEntry u1 label_name = some u.heap.length ∧
      ∃ e, u1.heap[u.heap.length]? = some e ∧ e.data = .LABEL label_name) := by
  have hb := Built.of_build h
  constructor
  · rw [← hb.labels label_name]
    constructor
    · intro hnone
      cases hf : AddEntry.fatal u (.LABEL label_name) with
      | true => simpa [AddEntry.fatal] using hf
      | false =>
        obtain ⟨u1, h1, _⟩ := addNew_ok u (.LABEL label_name) cds hb.wf hf
        rw [hnone] at h1
        cases h1
    · intro hsome
      exact addNew_fatal u _ cds hb.wf (by simpa [AddEntry.fatal] using hsome)
  · intro u1 h1
    have hf := hb.not_fatal h1
    obtain ⟨u2, h2, hp⟩ := addNew_ok u (.LABEL label_name) cds hb.wf hf
    rw [h1] at h2
    injection h2 with h2
    subst h2
    constructor
    · have hnone : findLabel u.labels_ label_name = none := by
        cases hx : findLabel u.labels_ label_name with
        | none => rfl
        | some x => simp [AddEntry.fatal, hx] at hf
      simp [GetLabelEntry, hp.labels, labelsAfter, findLabel_append, hnone]
    · have hb1 := hb.step_addNew h1
      have hlt : u.heap.length < u1.heap.length := by
        rw [hb1.len, hb.len]
        simp
      obtain ⟨e, he⟩ := exists_getElem? hlt
      obtain ⟨_, h4⟩ := hb1.ids u.heap.length e he
      refine ⟨e, he, ?_⟩
      rw [hb.len, List.getElem?_concat_length] at h4
      simpa using h4.symm

/-- C8, witness: a second label `f` after an instruction and a label `f` is
rejected. -/
theorem C8_label_duplicate_fatal_witness :
    build [(nopInstruction, true), (EntryData.LABEL "f", true)] = some labelUnit ∧
    addNew labelUnit (.LABEL "f") true = none :=
  ⟨rfl, (C8_label_duplicate_fatal [(nopInstruction, true), (EntryData.LABEL "f", true)]
    labelUnit rfl "f" true).1.mpr ⟨(EntryData.LABEL "f", true), by simp, rfl⟩⟩

/-! ## Opening subsections (C9, C10) -/

/-- C9: on a unit without a current subsection `AddEntry(e, false)` opens subsection 0
of `mao_start_section`, flagged as start section, with `e` as first and last entry;
`AddEntry(e, true)` without a current subsection, or with a current one flagged as
start section, opens subsection 0 of `.text` with `e` as first entry; in every other
case an entry that is not a SECTION directive is appended to the current subsection,
which stays the current one.  The entry `e` is any entry that `AddEntry` does not
reject. -/
theorem C9_default_subsections (calls : List (EntryData × Bool)) (u : MaoUnit)
    (h : build calls = some u) (data : EntryData) (hf : AddEntry.fatal u data = false) :
    (u.current_subsection_ = none →
      ∃ u1 sec s, addNew u data false = some u1 ∧
        u1.sub_sections_[u.sub_sections_.length]? = some
          { id_ := u.sub_sections_.length, number_ := 0, name_ := "mao_start_section",
            section_ := sec, first_entry_ := some u.heap.length,
            last_entry_ := some u.heap.length, start_section_ := true } ∧
        findSection u1.sections_ "mao_start_section" = some sec ∧
        u1.sections_[sec]? = some s ∧ s.name_ = "mao_start_section" ∧
        u.sub_sections_.length ∈ s.subsections_) ∧
    ((u.current_subsection_ = none ∨
        ∃ c ss, u.current_subsection_ = some c ∧ u.sub_sections_[c]? = some ss ∧
          ss.start_section_ = true) →
      ∃ u1 sec s, addNew u data true = some u1 ∧
        u1.sub_sections_[u.sub_sections_.length]? = some
          { id_ := u.sub_sections_.length, number_ := 0, name_ := ".text",
            section_ := sec, first_entry_ := some u.heap.length,
            last_entry_ := some u.heap.length, start_section_ := false } ∧
        findSection u1.sections_ ".text" = some sec ∧
        u1.sections_[sec]? = some s ∧ s.name_ = ".text" ∧
        u.sub_sections_.length ∈ s.subsections_) ∧
    (∀ cds c ss, u.current_subsection_ = some c → u.sub_sections_[c]? = some ss →
      (cds = false ∨ ss.start_section_ = false) → data.isSection = false →
      ∃ u1, addNew u data cds = some u1 ∧
        u1.current_subsection_ = some c ∧
        u1.sub_sections_ =
          u.sub_sections_.set c { ss with last_entry_ := some u.heap.length } ∧
        u1.sections_ = u.sections_ ∧
        ∀ l, ss.last_entry_ = some l →
          next u1.heap (some l) = some (some u.heap.length) ∧
          prev u1.heap (some u.heap.length) = some (some l)) := by
  have hb := Built.of_build h
  refine ⟨?_, ?_, ?_⟩
  · intro hc
    obtain ⟨u1, h1, hp⟩ := addNew_ok u data false hb.wf hf
    obtain ⟨sec, s, hs1, hs2, hs3, hs4, hs5⟩ :=
      hp.opened "mao_start_section" true (Or.inl ⟨rfl, hc, rfl, rfl⟩)
    exact ⟨u1, sec, s, h1, hs1, hs2, hs3, hs4, hs5⟩
  · intro hc
    obtain ⟨u1, h1, hp⟩ := addNew_ok u data true hb.wf hf
    obtain ⟨sec, s, hs1, hs2, hs3, hs4, hs5⟩ :=
      hp.opened DEFAULT_SECTION_NAME false (Or.inr ⟨rfl, rfl, rfl, hc⟩)
    exact ⟨u1, sec, s, h1, hs1, hs2, hs3, hs4, hs5⟩
  · intro cds c ss hc hss hcond hns
    obtain ⟨u1, h1, hp⟩ := addNew_ok u data cds hb.wf hf
    exact ⟨u1, h1, hp.append hns c ss hc hss hcond⟩

/-- C9, witness: the first entry of a unit, an instruction, added with
`create_default_section = false`. -/
theorem C9_default_subsections_witness :
    build [] = some MaoUnit.empty ∧ AddEntry.fatal MaoUnit.empty nopInstruction = false ∧
    ∃ u1 sec s, addNew MaoUnit.empty nopInstruction false = some u1 ∧
      u1.sub_sections_[0]? = some
        { id_ := 0, number_ := 0, name_ := "mao_start_section", section_ := sec,
          first_entry_ := some 0, last_entry_ := some 0, start_section_ := true } ∧
      findSection u1.sections_ "mao_start_section" = some sec ∧
      u1.sections_[sec]? = some s ∧ s.name_ = "mao_start_section" ∧ 0 ∈ s.subsections_ :=
  ⟨rfl, rfl, (C9_default_subsections [] MaoUnit.empty rfl nopInstruction rfl).1 rfl⟩

/-- C10: `AddEntry` of a SECTION directive whose first operand is the string `S` makes
a freshly created subsection with number 0 of the section named `S` the current one;
the section is the existing section of that name, or a new one when there is none;
first and last entry of the subsection are the directive.  A SECTION directive
without operand, or whose first operand is not a string, is a fatal error. -/
theorem C10_section_directive (calls : List (EntryData × Bool)) (u : MaoUnit)
    (h : build calls = some u) (S : String) (rest : List Operand) (cds : Bool) :
    (∃ u1 c sec s,
      addNew u (.DIRECTIVE .SECTION (.STRING S :: rest)) cds = some u1 ∧
      u1.current_subsection_ = some c ∧ u.sub_sections_.length ≤ c ∧
      u1.sub_sections_.length = c + 1 ∧
      u1.sub_sections_[c]? = some
        { id_ := c, number_ := 0, name_ := S, section_ := sec,
          first_entry_ := some u.heap.length, last_entry_ := some u.heap.length,
          start_section_ := false } ∧
      findSection u1.sections_ S = some sec ∧ u1.sections_[sec]? = some s ∧
      s.name_ = S ∧ s.subsections_.getLast? = some c ∧
      (∀ j, findSection u.sections_ S = some j → sec = j) ∧
      (findSection u.sections_ S = none → u.sections_.length ≤ sec)) ∧
    addNew u (.DIRECTIVE .SECTION []) cds = none ∧
    (∀ o rest1, (∀ str, o ≠ Operand.STRING str) →
      addNew u (.DIRECTIVE .SECTION (o :: rest1)) cds = none) := by
  have hb := Built.of_build h
  refine ⟨?_, ?_, ?_⟩
  · obtain ⟨u1, h1, hp⟩ :=
      addNew_ok u (.DIRECTIVE .SECTION (.STRING S :: rest)) cds hb.wf rfl
    obtain ⟨c, sec, s, hs⟩ := hp.sect S rest rfl
    exact ⟨u1, c, sec, s, h1, hs⟩
  · exact addNew_fatal u _ cds hb.wf rfl
  · intro o rest1 ho
    apply addNew_fatal u _ cds hb.wf
    cases o with
    | STRING str => exact absurd rfl (ho str)
    | _ => rfl

/-- C10, witness: on a new unit, with the section name `.data` for the first part, a
SECTION directive without operand is rejected. -/
theorem C10_section_directive_witness :
    build [] = some MaoUnit.empty ∧
    addNew MaoUnit.empty (.DIRECTIVE .SECTION []) false = none :=
  ⟨rfl, (C10_section_directive [] MaoUnit.empty rfl ".data" [] false).2.1⟩

/-! ## Relaxation: the sizes add up -/

theorem StepShape.fixed (st : BuildState) (entry : Nat) (v : Int) :
    StepShape st entry (st.addFixed entry v) :=
  Or.inr (Or.inl ⟨v, rfl, rfl, rfl, rfl⟩)

theorem StepShape.zero (st : BuildState) (entry : Nat) :
    StepShape st entry { st with size_map := st.size_map.set entry 0 } :=
  Or.inr (Or.inl ⟨0, rfl, rfl, by simp, rfl⟩)

theorem StepShape.ended (st : BuildState) (entry : Nat) (v : Int) (type : relax_stateT)
    (var : Int) (subtype : Nat) (symbol : Option symbolS) (offset : Int)
    (opcode : Option Nat) (h0 : List MaoEntry) :
    StepShape st entry
      (FragVar type var subtype symbol offset opcode
        { heap := h0, ended := st.ended,
          frag := { st.frag with fr_fix := st.frag.fr_fix + v },
          size_map := st.size_map.set entry v,
          relax_map := (st.ended.length, entry) :: st.relax_map } true) := by
  refine Or.inr (Or.inr ⟨v,
    { st.frag with fr_fix := st.frag.fr_fix + v, fr_var := var, fr_type := type,
                   fr_subtype := subtype, fr_symbol := symbol, fr_offset := offset,
                   fr_opcode := opcode }, ?_, ?_, ?_, ?_, ?_⟩) <;>
    simp [FragVar, NewFragment]

theorem StepShape.ended0 (st : BuildState) (entry : Nat) (type : relax_stateT)
    (var : Int) (subtype : Nat) (symbol : Option symbolS) (offset : Int)
    (opcode : Option Nat) (h0 : List MaoEntry) :
    StepShape st entry
      (FragVar type var subtype symbol offset opcode
        { heap := h0, ended := st.ended, frag := st.frag,
          size_map := st.size_map.set entry 0,
          relax_map := (st.ended.length, entry) :: st.relax_map } true) := by
  refine Or.inr (Or.inr ⟨0,
    { st.frag with fr_var := var, fr_type := type,
                   fr_subtype := subtype, fr_symbol := symbol, fr_offset := offset,
                   fr_opcode := opcode }, ?_, ?_, ?_, ?_, ?_⟩) <;>
    simp [FragVar, NewFragment]

theorem HandleString_shape {entry : Nat} {operands : List Operand} {m : Int} {t : Bool}
    {st st1 : BuildState} (h : HandleString entry operands m t st = some st1) :
    StepShape st entry st1 := by
  unfold HandleString at h
  cases hs : StringSize operands m t with
  | none => simp [hs] at h
  | some size =>
    simp only [hs, Option.some.injEq] at h
    subst h
    exact Or.inr (Or.inl ⟨size, rfl, rfl, rfl, rfl⟩)

theorem HandleSpace_shape {entry : Nat} {operands : List Operand} {mult : Int}
    {st st1 : BuildState} (h : HandleSpace entry operands mult st true = some st1) :
    StepShape st entry st1 := by
  rcases operands with _ | ⟨o1, _ | ⟨o2, _ | ⟨o3, r⟩⟩⟩ <;>
    try (solve | simp [HandleSpace] at h)
  cases o1 <;> try (solve | simp [HandleSpace] at h)
  rename_i size
  unfold HandleSpace at h
  simp only [] at h
  by_cases hc : size.X_op = .O_constant
  · simp only [hc, if_true] at h
    by_cases hpos : toInt32 (size.X_add_number * (if mult ≠ 0 then mult else 1)) > 0
    · simp only [hpos, if_true, Option.some.injEq] at h
      subst h
      exact Or.inr (Or.inl ⟨_, rfl, rfl, rfl, rfl⟩)
    · simp only [hpos, if_false] at h
      cases h
  · simp only [hc, if_false] at h
    by_cases hm : mult = 0 ∨ mult = 1
    · simp only [hm, if_true, Option.some.injEq] at h
      subst h
      exact StepShape.ended0 st entry _ _ _ _ _ _ _
    · simp only [hm, if_false] at h
      cases h

theorem EndFragmentInstruction_shape {env : Env} {insn : i386_insn} {st st1 : BuildState}
    {entry : Nat} {v : Int}
    (h : EndFragmentInstruction env insn
      { st.addFixed entry v with
        relax_map := ((st.addFixed entry v).ended.length, entry) ::
          (st.addFixed entry v).relax_map } true = some st1) :
    StepShape st entry st1 := by
  unfold EndFragmentInstruction at h
  by_cases hj : insn.jump = false
  · simp only [if_pos hj] at h
    cases h
  · simp only [if_neg hj] at h
    cases hd : insn.disps0 with
    | none =>
      simp only [hd] at h
      cases h
    | some disps =>
      simp only [hd] at h
      by_cases hcond : disps.X_op ≠ .O_constant ∧ disps.X_op ≠ .O_symbol
      · simp only [if_pos hcond, Option.some.injEq] at h
        subst h
        exact StepShape.ended st entry v _ _ _ _ _ _ _
      · simp only [if_neg hcond] at h
        cases hx : disps.X_add_symbol with
        | none =>
          simp only [hx, Option.map_none'] at h
          cases h
        | some nm =>
          simp only [hx, Option.map_some', Option.some.injEq] at h
          subst h
          exact StepShape.ended st entry v _ _ _ _ _ _ _

theorem convert_same (env : Env) (entry : Nat) (e : MaoEntry) (op : Opcode)
    (expr : expressionS) (is_signed : Bool) (st : BuildState) :
    (BuildFragments.convert env entry e op expr is_signed st).2.ended = st.ended ∧
    (BuildFragments.convert env entry e op expr is_signed st).2.frag = st.frag ∧
    (BuildFragments.convert env entry e op expr is_signed st).2.size_map = st.size_map ∧
    (BuildFragments.convert env entry e op expr is_signed st).2.relax_map = st.relax_map := by
  unfold BuildFragments.convert
  split <;> exact ⟨rfl, rfl, rfl, rfl⟩

theorem leb128_shape {env : Env} {entry : Nat} {e : MaoEntry} {op : Opcode}
    {operands : List Operand} {st st1 : BuildState}
    (h : BuildFragments.leb128 env entry e op operands st = some st1) :
    StepShape st entry st1 := by
  rcases operands with _ | ⟨o1, _ | ⟨o2, r⟩⟩ <;>
    try (solve | simp [BuildFragments.leb128] at h)
  cases o1 <;> try (solve | simp [BuildFragments.leb128] at h)
  rename_i expr0
  unfold BuildFragments.leb128 at h
  simp only [] at h
  obtain ⟨h1, h2, h3, h4⟩ :=
    convert_same env entry e op expr0 (decide (op = Opcode.SLEB128)) st
  rcases hcv : BuildFragments.convert env entry e op expr0 (decide (op = Opcode.SLEB128)) st
    with ⟨expr, st2⟩
  rw [hcv] at h h1 h2 h3 h4
  simp only [] at h h1 h2 h3 h4
  by_cases hc : expr.X_op = .O_constant
  · simp only [hc, if_true, Option.some.injEq] at h
    subst h
    refine Or.inr (Or.inl ⟨env.sizeof_leb128 expr.X_add_number (decide (op = Opcode.SLEB128)),
      ?_, ?_, ?_, ?_⟩) <;> simp [BuildState.addFixed, h1, h2, h3, h4]
  · simp only [hc, if_false] at h
    by_cases hb : expr.X_op = .O_big
    · simp only [hb, if_true, Option.some.injEq] at h
      subst h
      refine Or.inr (Or.inl ⟨env.output_big_leb128 expr (decide (op = Opcode.SLEB128)),
        ?_, ?_, ?_, ?_⟩) <;> simp [BuildState.addFixed, h1, h2, h3, h4]
    · simp only [hb, if_false, Option.some.injEq] at h
      subst h
      have := StepShape.ended0 st entry .rs_leb128 0
        (if decide (op = Opcode.SLEB128) = true then 1 else 0)
        (some (symbolS.expr_symbol expr)) 0 none st2.heap
      simpa [EndFragmentLeb128, h1, h2, h3, h4] using this


theorem p2align_shape {is_text : Bool} {entry : Nat} {operands : List Operand}
    {st st1 : BuildState} (h : BuildFragments.p2align is_text entry operands st = some st1) :
    StepShape st entry st1 := by
  unfold BuildFragments.p2align at h
  split at h
  · injection h with h
    subst h
    exact StepShape.ended0 st entry _ _ _ _ _ _ _
  · cases h

/-- Every entry changes the state of `BuildFragments` in one of the three ways. -/
theorem BuildFragments.step_shape {env : Env} {is_text : Bool} {st st1 : BuildState}
    {entry : Nat} (h : BuildFragments.step env is_text st entry = some st1) :
    StepShape st entry st1 := by
  unfold BuildFragments.step at h
  cases he : st.heap[entry]? with
  | none => simp [he] at h
  | some e =>
    simp only [he] at h
    cases hd : e.data with
    | UNDEFINED => simp [hd] at h
    | LABEL n =>
      simp only [hd, Option.some.injEq] at h
      subst h
      exact Or.inl ⟨rfl, rfl, rfl, rfl⟩
    | DEBUG k v =>
      simp only [hd, Option.some.injEq] at h
      subst h
      exact Or.inl ⟨rfl, rfl, rfl, rfl⟩
    | INSTRUCTION insn =>
      simp only [hd] at h
      by_cases hv : (env.SizeOfInstruction insn).2 = true
      · simp only [if_pos hv] at h
        exact EndFragmentInstruction_shape h
      · simp only [if_neg hv, Option.some.injEq] at h
        subst h
        exact StepShape.fixed _ _ _
    | DIRECTIVE op ops =>
      simp only [hd] at h
      cases op <;> simp only [] at h <;>
        first
        | exact HandleString_shape h
        | exact HandleSpace_shape h
        | exact leb128_shape h
        | exact p2align_shape h
        | (injection h with h
           subst h
           first
           | exact StepShape.fixed _ _ _
           | exact StepShape.zero _ _)


theorem SizeMap.get_set_self (m : SizeMap) (e : Nat) (v : Int) : (m.set e v).get e = v := by
  simp [SizeMap.get, SizeMap.set, List.lookup]

theorem SizeMap.get_set_ne (m : SizeMap) {e e1 : Nat} (v : Int) (h : e1 ≠ e) :
    (m.set e v).get e1 = m.get e1 := by
  have : (e1 == e) = false := by simpa using h
  simp [SizeMap.get, SizeMap.set, List.lookup, this]

theorem SizeMap.get_add_self (m : SizeMap) (e : Nat) (v : Int) :
    (m.add e v).get e = m.get e + v := by
  simp [SizeMap.get, SizeMap.add, List.lookup]

theorem SizeMap.get_add_ne (m : SizeMap) {e e1 : Nat} (v : Int) (h : e1 ≠ e) :
    (m.add e v).get e1 = m.get e1 := by
  have : (e1 == e) = false := by simpa using h
  simp only [SizeMap.get, SizeMap.add, List.lookup, this]

theorem toInt32_id {x : Int} (h1 : -2147483648 ≤ x) (h2 : x < 2147483648) : toInt32 x = x := by
  unfold toInt32
  rw [Int.emod_eq_of_lt (by omega) (by omega)]
  omega

/-- The loop that updates the sizes never reads the successor of the tail fragment:
it returns whenever the last fragment of the chain is not a key of `relax_map`. -/
theorem Relax.updateSizes_total (rm : List (Nat × Nat)) :
    ∀ (fs : List frag) (i : Nat) (m : SizeMap),
      (∀ j, j + 1 = i + fs.length → rm.lookup j = none) →
      ∃ m1, Relax.updateSizes rm i fs m = some m1 := by
  intro fs
  induction fs with
  | nil =>
    intro i m _
    exact ⟨m, rfl⟩
  | cons f rest ih =>
    intro i m hnone
    have hrest : ∀ m2, ∃ m1, Relax.updateSizes rm (i + 1) rest m2 = some m1 := fun m2 =>
      ih (i + 1) m2 (fun j hj => hnone j (by simp at hj ⊢; omega))
    cases hl : rm.lookup i with
    | none =>
      simp only [Relax.updateSizes, hl]
      exact hrest m
    | some e =>
      cases rest with
      | nil =>
        have := hnone i (by simp)
        rw [this] at hl
        cases hl
      | cons g t =>
        simp only [Relax.updateSizes, hl]
        exact hrest _

theorem iterate_det (heap : List MaoEntry) (stop : Option Nat) :
    ∀ (f1 f2 : Nat) (cur : Option Nat) (l1 l2 : List Nat),
      iterate heap f1 cur stop = some l1 → iterate heap f2 cur stop = some l2 → l1 = l2 := by
  intro f1
  induction f1 with
  | zero =>
    intro f2 cur l1 l2 h1 _
    simp [iterate] at h1
  | succ n ih =>
    intro f2 cur l1 l2 h1 h2
    cases f2 with
    | zero => simp [iterate] at h2
    | succ k =>
      simp only [iterate] at h1 h2
      by_cases hc : cur = stop
      · simp only [if_pos hc, Option.some.injEq] at h1 h2
        rw [← h1, ← h2]
      · simp only [if_neg hc] at h1 h2
        cases cur with
        | none => simp at h1
        | some p =>
          simp only [] at h1 h2
          cases he : heap[p]? with
          | none => simp [he] at h1
          | some e =>
            simp only [he] at h1 h2
            cases hr1 : iterate heap n e.next_ stop with
            | none => simp [hr1] at h1
            | some r1 =>
              cases hr2 : iterate heap k e.next_ stop with
              | none => simp [hr2] at h2
              | some r2 =>
                simp only [hr1, hr2, Option.map_some', Option.some.injEq] at h1 h2
                rw [← h1, ← h2, ih k _ _ _ hr1 hr2]

theorem iterate_suffix (heap : List MaoEntry) (stop : Option Nat) :
    ∀ (fuel : Nat) (cur : Option Nat) (l : List Nat) (q : Nat),
      iterate heap fuel cur stop = some l → q ∈ l →
      ∃ fuel1 l1, iterate heap fuel1 (some q) stop = some l1 ∧ l1.length ≤ l.length := by
  intro fuel
  induction fuel with
  | zero =>
    intro cur l q h _
    simp [iterate] at h
  | succ n ih =>
    intro cur l q h hq
    have h0 := h
    simp only [iterate] at h
    by_cases hc : cur = stop
    · simp only [if_pos hc, Option.some.injEq] at h
      subst h
      simp at hq
    · simp only [if_neg hc] at h
      cases cur with
      | none => simp at h
      | some p =>
        simp only [] at h
        cases he : heap[p]? with
        | none => simp [he] at h
        | some e =>
          simp only [he] at h
          cases hr : iterate heap n e.next_ stop with
          | none => simp [hr] at h
          | some r =>
            simp only [hr, Option.map_some', Option.some.injEq] at h
            subst h
            rcases List.mem_cons.mp hq with h1 | h1
            · subst h1
              exact ⟨n + 1, _, h0, le_refl _⟩
            · obtain ⟨f1, l1, hl1, hlen⟩ := ih _ _ _ hr h1
              exact ⟨f1, l1, hl1, by simp; omega⟩

/-- An iteration that terminates visits no entry twice. -/
theorem iterate_nodup (heap : List MaoEntry) (stop : Option Nat) :
    ∀ (fuel : Nat) (cur : Option Nat) (l : List Nat),
      iterate heap fuel cur stop = some l → l.Nodup := by
  intro fuel
  induction fuel with
  | zero =>
    intro cur l h
    simp [iterate] at h
  | succ n ih =>
    intro cur l h
    have h0 := h
    simp only [iterate] at h
    by_cases hc : cur = stop
    · simp only [if_pos hc, Option.some.injEq] at h
      subst h
      exact List.nodup_nil
    · simp only [if_neg hc] at h
      cases cur with
      | none => simp at h
      | some p =>
        simp only [] at h
        cases he : heap[p]? with
        | none => simp [he] at h
        | some e =>
          simp only [he] at h
          cases hr : iterate heap n e.next_ stop with
          | none => simp [hr] at h
          | some r =>
            simp only [hr, Option.map_some', Option.some.injEq] at h
            subst h
            refine List.nodup_cons.mpr ⟨?_, ih _ _ hr⟩
            intro hp
            obtain ⟨f1, l1, hl1, hlen⟩ := iterate_suffix heap stop _ _ _ _ hr hp
            have := iterate_det heap stop _ _ _ _ _ hl1 h0
            rw [this] at hlen
            simp at hlen

theorem Section.entries_nodup {s : Section} {u : MaoUnit} {fuel : Nat} {es : List Nat}
    (h : s.entries u fuel = some es) : es.Nodup := by
  unfold Section.entries at h
  cases hb : s.EntryBegin u with
  | none => simp [hb] at h
  | some b =>
    simp only [hb] at h
    exact iterate_nodup _ _ _ _ _ h

/-! ## Sizes after relaxation (C1) and the entry chain on corner inputs (C2 to C6) -/

theorem layout_fix : ∀ (fs : List frag) (a : Int),
    (layout a fs).map frag.fr_fix = fs.map frag.fr_fix := by
  intro fs
  induction fs with
  | nil => intro a; rfl
  | cons f rest ih =>
    intro a
    cases rest with
    | nil => rfl
    | cons g t =>
      simp only [layout, List.map_cons]
      rw [ih]
      rfl

/-- C2 (the code breaks the claim): after the single call
`AddEntry(.section .data, false)` on a new unit the directive lies in the range of two
subsections, subsection 0 of `mao_start_section` and subsection 0 of `.data`, hence
in two sections. -/
theorem C2_section_directive_in_two_subsections :
    (build [(sectionDirective ".data", false)]).map
      (fun u => (subSectionsOf u 2 0,
        u.sub_sections_.map
          (fun ss => (ss.name_, ss.section_, ss.first_entry_, ss.last_entry_)))) =
      some ([0, 1],
        [("mao_start_section", 0, some 0, some 0), (".data", 1, some 0, some 0)]) := by
  rfl

/-- C3 (the code breaks the claim): for the adjacent function labels `f:` `g:`
followed by one instruction, `FindFunctions` gives `f` the range from entry 0 to
entry 2, which holds the label `g` (entry 1), a label whose symbol is a function. -/
theorem C3_adjacent_function_labels :
    (build [(EntryData.LABEL "f", true), (EntryData.LABEL "g", true),
        (nopInstruction, true)]).bind
      (fun u => (FindFunctions (markFunction (markFunction u "f") "g") 3).map
        (fun v => (v.functions_, isFunctionLabel v 1))) =
      some ([{ name_ := "f", id_ := 0, first_entry_ := some 0, last_entry_ := some 2 },
             { name_ := "g", id_ := 1, first_entry_ := some 1, last_entry_ := some 2 }],
            true) := by
  rfl

/-- C4 (the code breaks the claim): after `AddEntry(.section .text, true)` on a new
unit, iterating the two subsections that hold the directive (entry 0) visits
nothing; after one more entry the directive is its own predecessor, but the successor
of entry 0 is entry 1.  The same happens with `.section mao_start_section` added with
`create_default_section = false`. -/
theorem C4_next_of_prev_is_another_entry :
    (build [(sectionDirective ".text", true)]).map
      (fun u => u.sub_sections_.map (fun ss => (ss.first_entry_, ss.entries u.heap 2))) =
      some [(some 0, some []), (some 0, some [])] ∧
    (build [(sectionDirective ".text", true), (nopInstruction, true)]).map
      (fun u => (prev u.heap (some 0), next u.heap (some 0))) =
      some (some (some 0), some (some 1)) ∧
    (build [(sectionDirective "mao_start_section", false), (nopInstruction, false)]).map
      (fun u => (prev u.heap (some 0), next u.heap (some 0))) =
      some (some (some 0), some (some 1)) :=
  ⟨rfl, rfl, rfl⟩

/-- C5 (the code breaks the claim): after `AddEntry(.section .text, true)` and one
more entry, the section `.text` has the subsections 0 and 1, created in this order;
the last entry of subsection 0 is entry 0 and its successor is entry 1, while the
first entry of subsection 1 is entry 0.  The same happens in the section
`mao_start_section` with `.section mao_start_section` added with
`create_default_section = false`. -/
theorem C5_consecutive_subsections_not_linked :
    (build [(sectionDirective ".text", true), (nopInstruction, true)]).map
      (fun u => (u.sections_.map Section.subsections_,
        u.sub_sections_.map (fun ss => (ss.first_entry_, ss.last_entry_)),
        next u.heap (some 0))) =
      some ([[0, 1]], [(some 0, some 0), (some 0, some 1)], some (some 1)) ∧
    (build [(sectionDirective "mao_start_section", false), (nopInstruction, false)]).map
      (fun u => (u.sections_.map Section.subsections_,
        u.sub_sections_.map (fun ss => (ss.first_entry_, ss.last_entry_)),
        next u.heap (some 0))) =
      some ([[0, 1]], [(some 0, some 0), (some 0, some 1)], some (some 1)) :=
  ⟨rfl, rfl⟩

/-- C6 (the code breaks the claim): after `AddEntry(.section .data, false)` and one
instruction, iterating the section `mao_start_section` yields the entries 0 and 1,
while its only subsection holds entry 0 alone; entry 1 belongs to the subsection of
`.data`. -/
theorem C6_section_iteration_leaves_the_section :
    (build [(sectionDirective ".data", false), (nopInstruction, false)]).map
      (fun u => (u.sections_.map (fun s => (s.name_, s.subsections_, s.entries u 3)),
        u.sub_sections_.map (fun ss => (ss.section_, ss.entries u.heap 3)))) =
      some ([("mao_start_section", [0], some [0, 1]), (".data", [1], some [0, 1])],
            [(0, some [0]), (1, some [0, 1])]) := by
  rfl

/-! ## Sizes recorded by the relaxer (C11 to C18) -/

/-- C17: for an entry `.byte`, `.word`, `.long`, `.quad` or `.rva` the loop body of
`BuildFragments` adds 1, 2, 4, 8 or 4 to `fr_fix` of the current fragment and changes
nothing else of it, binds the entry to that size in `size_map` and leaves the other
bindings, and leaves the ended fragments, `relax_map` and the entry objects as they
are. -/
theorem C17_data_directive_sizes (env : Env) (is_text : Bool) (st : BuildState)
    (entry : Nat) (e : MaoEntry) (op : Opcode) (operands : List Operand) (n : Int)
    (he : st.heap[entry]? = some e) (hd : e.data = .DIRECTIVE op operands)
    (hop : (op, n) ∈ [(Opcode.BYTE, (1 : Int)), (Opcode.WORD, 2), (Opcode.LONG, 4),
      (Opcode.QUAD, 8), (Opcode.RVA, 4)]) :
    ∃ st1, BuildFragments.step env is_text st entry = some st1 ∧
      st1.frag = { st.frag with fr_fix := st.frag.fr_fix + n } ∧
      st1.size_map.get entry = n ∧
      (∀ e1, e1 ≠ entry → st1.size_map.get e1 = st.size_map.get e1) ∧
      st1.ended = st.ended ∧ st1.relax_map = st.relax_map ∧ st1.heap = st.heap := by
  have key : BuildFragments.step env is_text st entry = some (st.addFixed entry n) := by
    simp only [List.mem_cons, Prod.mk.injEq, List.mem_singleton, List.not_mem_nil,
      or_false] at hop
    rcases hop with ⟨h1, h2⟩ | ⟨h1, h2⟩ | ⟨h1, h2⟩ | ⟨h1, h2⟩ | ⟨h1, h2⟩ <;>
      subst h1 <;> subst h2 <;> simp only [BuildFragments.step, he, hd]
  refine ⟨_, key, rfl, SizeMap.get_set_self _ _ _, ?_, rfl, rfl, rfl⟩
  intro e1 h1
  exact SizeMap.get_set_ne _ _ h1

/-- C17, witness: `.quad` as the first entry of a section. -/
theorem C17_data_directive_sizes_witness :
    ∃ st1, BuildFragments.step exampleEnv true
        (startState [MaoEntry.new (.DIRECTIVE .QUAD [.INT 7])]) 0 = some st1 ∧
      st1.frag = { NewFragment with fr_fix := NewFragment.fr_fix + 8 } ∧
      st1.size_map.get 0 = 8 ∧
      (∀ e1, e1 ≠ 0 → st1.size_map.get e1 = SizeMap.get [] e1) ∧
      st1.ended = [] ∧ st1.relax_map = [] ∧
      st1.heap = [MaoEntry.new (.DIRECTIVE .QUAD [.INT 7])] :=
  C17_data_directive_sizes exampleEnv true
    (startState [MaoEntry.new (.DIRECTIVE .QUAD [.INT 7])]) 0
    (MaoEntry.new (.DIRECTIVE .QUAD [.INT 7])) .QUAD [.INT 7] 8 rfl rfl (by decide)

/-- C13 (as stated, fails): the directive `.space 0` is a fatal error in
`BuildFragments`: `HandleSpace` asserts that the increment is positive. -/
theorem C13_space_zero_is_fatal :
    BuildFragments.step exampleEnv true
      (startState [MaoEntry.new (spaceDirective .SPACE 0)]) 0 = none ∧
    BuildFragments exampleEnv [MaoEntry.new (spaceDirective .SPACE 0)] ".text" [0] [] = none :=
  ⟨rfl, rfl⟩

/-- C13, amended: for `.space`, `.ds.b`, `.ds.w`, `.ds.l`, `.ds.d`, `.ds.x` with a
constant count `c` the loop body of `BuildFragments` takes the multiplier 1, 1, 2, 4,
8, 12; when `c * multiplier` is positive and fits an `int` it adds `c * multiplier` to
`fr_fix` of the current fragment, binds the entry to it in `size_map`, and ends no
fragment; when `c * multiplier` is zero or negative the entry is a fatal error. -/
theorem C13_space_constant (env : Env) (is_text : Bool) (st : BuildState) (entry : Nat)
    (e : MaoEntry) (op : Opcode) (size : expressionS) (fill : Operand) (mult : Int)
    (he : st.heap[entry]? = some e)
    (hd : e.data = .DIRECTIVE op [Operand.EXPRESSION size, fill])
    (hop : (op, mult) ∈ [(Opcode.SPACE, (1 : Int)), (Opcode.DS_B, 1), (Opcode.DS_W, 2),
      (Opcode.DS_L, 4), (Opcode.DS_D, 8), (Opcode.DS_X, 12)])
    (hc : size.X_op = .O_constant) (hmax : size.X_add_number * mult < 2147483648) :
    (0 < size.X_add_number * mult →
      ∃ st1, BuildFragments.step env is_text st entry = some st1 ∧
        st1.frag = { st.frag with fr_fix := st.frag.fr_fix + size.X_add_number * mult } ∧
        st1.size_map.get entry = size.X_add_number * mult ∧
        (∀ e1, e1 ≠ entry → st1.size_map.get e1 = st.size_map.get e1) ∧
        st1.ended = st.ended ∧ st1.relax_map = st.relax_map ∧ st1.heap = st.heap) ∧
    (-2147483648 ≤ size.X_add_number * mult → size.X_add_number * mult ≤ 0 →
      BuildFragments.step env is_text st entry = none) := by
  have key : ∃ m0 : Int, (if m0 ≠ 0 then m0 else 1) = mult ∧
      BuildFragments.step env is_text st entry = HandleSpace entry
        [Operand.EXPRESSION size, fill] m0 st true := by
    simp only [List.mem_cons, Prod.mk.injEq, List.mem_singleton, List.not_mem_nil,
      or_false] at hop
    rcases hop with ⟨h1, h2⟩ | ⟨h1, h2⟩ | ⟨h1, h2⟩ | ⟨h1, h2⟩ | ⟨h1, h2⟩ | ⟨h1, h2⟩ <;>
      subst h1 <;> subst h2
    · exact ⟨0, by decide, by simp only [BuildFragments.step, he, hd]⟩
    · exact ⟨1, by decide, by simp only [BuildFragments.step, he, hd]⟩
    · exact ⟨2, by decide, by simp only [BuildFragments.step, he, hd]⟩
    · exact ⟨4, by decide, by simp only [BuildFragments.step, he, hd]⟩
    · exact ⟨8, by decide, by simp only [BuildFragments.step, he, hd]⟩
    · exact ⟨12, by decide, by simp only [BuildFragments.step, he, hd]⟩
  obtain ⟨m0, hm0, hstep⟩ := key
  constructor
  · intro hpos
    have hid := toInt32_id (by omega : -2147483648 ≤ size.X_add_number * mult) hmax
    have hs : BuildFragments.step env is_text st entry =
        some (st.addFixed entry (size.X_add_number * mult)) := by
      rw [hstep]
      simp only [HandleSpace, hc, if_true, hm0, hid, gt_iff_lt, if_pos hpos]
      rfl
    refine ⟨_, hs, rfl, SizeMap.get_set_self _ _ _, ?_, rfl, rfl, rfl⟩
    intro e1 h1
    exact SizeMap.get_set_ne _ _ h1
  · intro hmin hle
    have hid := toInt32_id hmin hmax
    rw [hstep]
    simp only [HandleSpace, hc, if_true, hm0, hid, gt_iff_lt, if_neg (not_lt.mpr hle)]

/-- C13, witness: `.ds.w 3` adds 6 bytes. -/
theorem C13_space_constant_witness :
    ∃ st1, BuildFragments.step exampleEnv true
        (startState [MaoEntry.new (spaceDirective .DS_W 3)]) 0 = some st1 ∧
      st1.frag = { NewFragment with fr_fix := NewFragment.fr_fix + 3 * 2 } ∧
      st1.size_map.get 0 = 3 * 2 ∧
      (∀ e1, e1 ≠ 0 → st1.size_map.get e1 = SizeMap.get [] e1) ∧
      st1.ended = [] ∧ st1.relax_map = [] ∧
      st1.heap = [MaoEntry.new (spaceDirective .DS_W 3)] :=
  (C13_space_constant exampleEnv true (startState [MaoEntry.new (spaceDirective .DS_W 3)]) 0
    (MaoEntry.new (spaceDirective .DS_W 3)) .DS_W (constant 3 false)
    (.EXPRESSION (constant 0 false)) 2 rfl rfl (by decide) rfl (by decide)).1 (by decide)


/-- C14: for `.ascii`, `.string`, `.string16`, `.string32`, `.string64` with a single
string operand of length `L >= 2` (the quotes counted) `StringSize` is called with
`(m, t)` = (1, 0), (1, 1), (2, 1), (4, 1), (8, 1) and returns `m * (L - 2 + t)` when
that fits an `int`; the loop body of `BuildFragments` adds this value to `fr_fix` of
the current fragment and binds the entry to it in `size_map`, changing nothing
else. -/
theorem C14_string_size (env : Env) (is_text : Bool) (st : BuildState) (entry : Nat)
    (e : MaoEntry) (op : Opcode) (str : String) (m : Int) (t : Bool)
    (he : st.heap[entry]? = some e) (hd : e.data = .DIRECTIVE op [Operand.STRING str])
    (hop : (op, m, t) ∈ [(Opcode.ASCII, (1 : Int), false), (Opcode.STRING8, 1, true),
      (Opcode.STRING16, 2, true), (Opcode.STRING32, 4, true), (Opcode.STRING64, 8, true)])
    (hL : 2 ≤ str.utf8ByteSize)
    (hmax : m * ((str.utf8ByteSize : Int) - 2 + (if t then 1 else 0)) < 2147483648) :
    StringSize [Operand.STRING str] m t =
      some (m * ((str.utf8ByteSize : Int) - 2 + (if t then 1 else 0))) ∧
    ∃ st1, BuildFragments.step env is_text st entry = some st1 ∧
      st1.frag = { st.frag with fr_fix := st.frag.fr_fix +
        m * ((str.utf8ByteSize : Int) - 2 + (if t then 1 else 0)) } ∧
      st1.size_map.get entry = m * ((str.utf8ByteSize : Int) - 2 + (if t then 1 else 0)) ∧
      (∀ e1, e1 ≠ entry → st1.size_map.get e1 = st.size_map.get e1) ∧
      st1.ended = st.ended ∧ st1.relax_map = st.relax_map ∧ st1.heap = st.heap := by
  have hm : 0 ≤ m := by
    simp only [List.mem_cons, Prod.mk.injEq, List.mem_singleton, List.not_mem_nil,
      or_false] at hop
    rcases hop with ⟨_, h, _⟩ | ⟨_, h, _⟩ | ⟨_, h, _⟩ | ⟨_, h, _⟩ | ⟨_, h, _⟩ <;> omega
  have hnn : 0 ≤ m * ((str.utf8ByteSize : Int) - 2 + (if t then 1 else 0)) := by
    apply mul_nonneg hm
    have : (0 : Int) ≤ (if t then 1 else 0) := by split <;> decide
    omega
  have hid := toInt32_id (by omega) hmax
  have hsz : StringSize [Operand.STRING str] m t =
      some (m * ((str.utf8ByteSize : Int) - 2 + (if t then 1 else 0))) := by
    simp only [StringSize, hid]
  have hstep : BuildFragments.step env is_text st entry =
      HandleString entry [Operand.STRING str] m t st := by
    simp only [List.mem_cons, Prod.mk.injEq, List.mem_singleton, List.not_mem_nil,
      or_false] at hop
    rcases hop with ⟨h1, h2, h3⟩ | ⟨h1, h2, h3⟩ | ⟨h1, h2, h3⟩ | ⟨h1, h2, h3⟩ |
      ⟨h1, h2, h3⟩ <;> subst h1 <;> subst h2 <;> subst h3 <;>
      simp only [BuildFragments.step, he, hd]
  refine ⟨hsz, st.addFixed entry _, ?_, rfl, SizeMap.get_set_self _ _ _, ?_, rfl, rfl, rfl⟩
  · rw [hstep]
    simp only [HandleString, hsz]
    rfl
  · intro e1 h1
    exact SizeMap.get_set_ne _ _ h1


/-- C14, witness: `.string16 "ab"`, whose operand has 4 bytes with the quotes, takes
2 * (4 - 2 + 1) = 6 bytes. -/
theorem C14_string_size_witness :
    StringSize [Operand.STRING "\"ab\""] 2 true = some 6 ∧
    ∃ st1, BuildFragments.step exampleEnv true
        (startState [MaoEntry.new (.DIRECTIVE .STRING16 [.STRING "\"ab\""])]) 0 = some st1 ∧
      st1.frag = { NewFragment with fr_fix := 6 } ∧ st1.size_map.get 0 = 6 := by
  have h := C14_string_size exampleEnv true
    (startState [MaoEntry.new (.DIRECTIVE .STRING16 [.STRING "\"ab\""])]) 0
    (MaoEntry.new (.DIRECTIVE .STRING16 [.STRING "\"ab\""])) .STRING16 "\"ab\"" 2 true
    rfl rfl (by decide) (by decide) (by decide)
  obtain ⟨h1, st1, h2, h3, h4, _⟩ := h
  exact ⟨h1, st1, h2, h3, h4⟩

/-- C18: for an instruction entry for which the size oracle returns `(n, v)`, the loop
body of `BuildFragments` adds `n` to `fr_fix` of the current fragment and binds the
entry to `n` in `size_map`.  With `v` false the fragment stays the current one and
`relax_map` is unchanged.  With `v` true every result has the fragment ended as
`rs_machine_dependent`, bound to the entry in `relax_map`, and a fresh current
fragment; there is a result exactly when the instruction is a jump whose displacement
is present and is a complex expression or has a symbol (otherwise the assertion of
`EndFragmentInstruction` or a null pointer stops the run). -/
theorem C18_instruction_entry (env : Env) (is_text : Bool) (st : BuildState) (entry : Nat)
    (e : MaoEntry) (insn : i386_insn) (n : Int) (v : Bool)
    (he : st.heap[entry]? = some e) (hd : e.data = .INSTRUCTION insn)
    (hs : env.SizeOfInstruction insn = (n, v)) :
    (v = false →
      ∃ st1, BuildFragments.step env is_text st entry = some st1 ∧
        st1.frag = { st.frag with fr_fix := st.frag.fr_fix + n } ∧
        st1.size_map = st.size_map.set entry n ∧
        st1.ended = st.ended ∧ st1.relax_map = st.relax_map) ∧
    (v = true →
      (∀ st1, BuildFragments.step env is_text st entry = some st1 →
        ∃ f, st1.ended = st.ended ++ [f] ∧ f.fr_fix = st.frag.fr_fix + n ∧
          f.fr_type = .rs_machine_dependent ∧
          st1.relax_map = (st.ended.length, entry) :: st.relax_map ∧
          st1.frag = NewFragment ∧ st1.size_map = st.size_map.set entry n) ∧
      ((∃ st1, BuildFragments.step env is_text st entry = some st1) ↔
        insn.jump = true ∧ ∃ disps, insn.disps0 = some disps ∧
          ((disps.X_op ≠ .O_constant ∧ disps.X_op ≠ .O_symbol) ∨
            disps.X_add_symbol ≠ none))) := by
  constructor
  · intro hv
    subst hv
    refine ⟨st.addFixed entry n, ?_, rfl, rfl, rfl, rfl⟩
    simp [BuildFragments.step, he, hd, hs]
  · intro hv
    subst hv
    have hstep : BuildFragments.step env is_text st entry =
        EndFragmentInstruction env insn
          { st.addFixed entry n with
            relax_map := (st.ended.length, entry) :: st.relax_map } true := by
      simp [BuildFragments.step, he, hd, hs, BuildState.addFixed]
    rw [hstep]
    by_cases hj : insn.jump = true
    · cases hdi : insn.disps0 with
      | none =>
        refine ⟨?_, ?_⟩
        · intro st1 h
          simp [EndFragmentInstruction, hj, hdi] at h
        · simp [EndFragmentInstruction, hj, hdi]
      | some disps =>
        by_cases hcx : disps.X_op ≠ .O_constant ∧ disps.X_op ≠ .O_symbol
        · refine ⟨?_, ?_⟩
          · intro st1 h
            simp only [EndFragmentInstruction, hj, hdi, if_pos hcx, Bool.true_eq_false,
              if_false, Option.some.injEq] at h
            subst h
            exact ⟨_, rfl, rfl, rfl, rfl, rfl, rfl⟩
          · simp only [EndFragmentInstruction, hj, hdi, if_pos hcx, Bool.true_eq_false,
              if_false]
            simp [hcx]
        · cases hsym : disps.X_add_symbol with
          | none =>
            refine ⟨?_, ?_⟩
            · intro st1 h
              simp [EndFragmentInstruction, hj, hdi, if_neg hcx, hsym] at h
            · simp only [EndFragmentInstruction, hj, hdi, if_neg hcx, hsym,
                Bool.true_eq_false, if_false, Option.map_none']
              simp [hcx, hsym]
          | some name =>
            refine ⟨?_, ?_⟩
            · intro st1 h
              simp only [EndFragmentInstruction, hj, hdi, if_neg hcx, hsym,
                Bool.true_eq_false, if_false, Option.map_some', Option.some.injEq] at h
              subst h
              exact ⟨_, rfl, rfl, rfl, rfl, rfl, rfl⟩
            · simp only [EndFragmentInstruction, hj, hdi, if_neg hcx, hsym,
                Bool.true_eq_false, if_false, Option.map_some']
              simp [hsym]
    · have hjf : insn.jump = false := by simpa using hj
      refine ⟨?_, ?_⟩
      · intro st1 h
        simp [EndFragmentInstruction, hjf] at h
      · simp [EndFragmentInstruction, hjf]

/-- C18, witness: `jmp L`, for which the example oracle returns `(2, true)`, ends the
first fragment with 2 fixed bytes. -/
theorem C18_instruction_entry_witness :
    ∃ st1, BuildFragments.step exampleEnv true
        (startState [MaoEntry.new jumpInstruction]) 0 = some st1 ∧
      ∃ f, st1.ended = [f] ∧ f.fr_fix = 2 ∧ f.fr_type = .rs_machine_dependent ∧
        st1.relax_map = [(0, 0)] ∧ st1.frag = NewFragment ∧ st1.size_map = [(0, 2)] :=
  ⟨_, rfl, ((C18_instruction_entry exampleEnv true (startState [MaoEntry.new jumpInstruction])
    0 (MaoEntry.new jumpInstruction) _ 2 true rfl rfl rfl).2 rfl).1 _ rfl⟩

/-- C16: in the section `.text` that holds only `.sleb128 -1`, `.sleb128 63` and
`.sleb128 64` (constants whose unsigned flag agrees with their sign), with
`sizeof_leb128` the signed LEB128 length of the assembler, `BuildFragments` binds the
three entries to the sizes 1, 1 and 2, ends no fragment and binds none in `relax_map`,
leaves the entry objects (hence the expressions) as they are, and returns a single
fragment with `fr_fix` 4. -/
theorem C16_sleb128_sizes (env : Env)
    (henv : ∀ value, env.sizeof_leb128 value true = sizeof_sleb128 value) :
    ∃ s st, build lebCalls = some lebUnit ∧ lebUnit.sections_ = [s] ∧
      s.entries lebUnit 4 = some [0, 1, 2] ∧
      lebUnit.heap.map MaoEntry.data = lebCalls.map Prod.fst ∧
      BuildFragments env lebUnit.heap s.name_ [0, 1, 2] [] = some st ∧
      st.size_map.get 0 = 1 ∧ st.size_map.get 1 = 1 ∧ st.size_map.get 2 = 2 ∧
      st.ended = [] ∧ st.relax_map = [] ∧ st.heap = lebUnit.heap ∧
      st.frag.fr_fix = 4 ∧ st.fragments.length = 1 := by
  have hb : BuildFragments env lebUnit.heap ".text" [0, 1, 2] [] =
      some (EndFragmentAlign true 0 0
        ((((startState lebUnit.heap).addFixed 0 (env.sizeof_leb128 (-1) true)).addFixed 1
          (env.sizeof_leb128 63 true)).addFixed 2 (env.sizeof_leb128 64 true)) false) := rfl
  refine ⟨{ name_ := ".text", id_ := 0, subsections_ := [0] }, _, rfl, rfl, rfl, rfl, hb,
    ?_, ?_, ?_, rfl, rfl, rfl, ?_, rfl⟩
  · show env.sizeof_leb128 (-1) true = 1
    rw [henv]
    rfl
  · show env.sizeof_leb128 63 true = 1
    rw [henv]
    rfl
  · show env.sizeof_leb128 64 true = 2
    rw [henv]
    rfl
  · show (0 : Int) + env.sizeof_leb128 (-1) true + env.sizeof_leb128 63 true +
      env.sizeof_leb128 64 true = 4
    rw [henv, henv, henv]
    rfl

/-- C16, witness: the example environment with the LEB128 lengths of the
assembler. -/
theorem C16_sleb128_sizes_witness :
    ∃ st, BuildFragments gasEnv lebUnit.heap ".text" [0, 1, 2] [] = some st ∧
      st.size_map = [(2, 2), (1, 1), (0, 1)] ∧ st.ended = [] ∧ st.frag.fr_fix = 4 := by
  obtain ⟨s, st, _, hs, _, _, hb, _⟩ := C16_sleb128_sizes gasEnv (fun _ => rfl)
  exact ⟨_, rfl, rfl, rfl, rfl⟩

theorem HandleString_nonneg {entry : Nat} {operands : List Operand} {m : Int} {t : Bool}
    {st st1 : BuildState} (hm : 0 ≤ m ∧ m ≤ 8)
    (hq : ∀ str, operands = [Operand.STRING str] →
      2 ≤ str.utf8ByteSize ∧ str.utf8ByteSize < 268435456)
    (hh : ∀ e ∈ st.heap, e.data.quoted = true)
    (h : HandleString entry operands m t st = some st1) : StepNonneg st entry st1 := by
  rcases operands with _ | ⟨o1, _ | ⟨o2, r⟩⟩ <;>
    try (solve | simp [HandleString, StringSize] at h)
  cases o1 <;> try (solve | simp [HandleString, StringSize] at h)
  rename_i str
  obtain ⟨h2, h3⟩ := hq str rfl
  simp only [HandleString, StringSize, Option.some.injEq] at h
  subst h
  refine ⟨hh, Or.inr ⟨_, ?_, rfl⟩⟩
  have ht : (0 : Int) ≤ (if t then 1 else 0) ∧ (if t then (1 : Int) else 0) ≤ 1 := by
    split <;> decide
  obtain ⟨hm1, hm2⟩ := hm
  have hx : 0 ≤ m * ((str.utf8ByteSize : Int) - 2 + (if t then 1 else 0)) :=
    mul_nonneg hm1 (by omega)
  have hy : m * ((str.utf8ByteSize : Int) - 2 + (if t then 1 else 0)) < 2147483648 := by
    have : m * ((str.utf8ByteSize : Int) - 2 + (if t then 1 else 0)) ≤
        8 * ((str.utf8ByteSize : Int) - 2 + (if t then 1 else 0)) :=
      mul_le_mul_of_nonneg_right hm2 (by omega)
    omega
  rw [toInt32_id (by omega) hy]
  exact hx

theorem HandleSpace_nonneg {entry : Nat} {operands : List Operand} {mult : Int}
    {st st1 : BuildState} (hh : ∀ e ∈ st.heap, e.data.quoted = true)
    (h : HandleSpace entry operands mult st true = some st1) : StepNonneg st entry st1 := by
  rcases operands with _ | ⟨o1, _ | ⟨o2, _ | ⟨o3, r⟩⟩⟩ <;>
    try (solve | simp [HandleSpace] at h)
  cases o1 <;> try (solve | simp [HandleSpace] at h)
  rename_i size
  unfold HandleSpace at h
  simp only [] at h
  by_cases hc : size.X_op = .O_constant
  · simp only [hc, if_true] at h
    by_cases hpos : toInt32 (size.X_add_number * (if mult ≠ 0 then mult else 1)) > 0
    · simp only [hpos, if_true, Option.some.injEq] at h
      subst h
      exact ⟨hh, Or.inr ⟨_, le_of_lt hpos, rfl⟩⟩
    · simp only [hpos, if_false] at h
      cases h
  · simp only [hc, if_false] at h
    by_cases hm : mult = 0 ∨ mult = 1
    · simp only [hm, if_true, Option.some.injEq] at h
      subst h
      exact ⟨hh, Or.inr ⟨0, le_refl _, rfl⟩⟩
    · simp only [hm, if_false] at h
      cases h

theorem convert_quoted (env : Env) (entry : Nat) (e : MaoEntry) (op : Opcode)
    (expr : expressionS) (is_signed : Bool) (st : BuildState)
    (hh : ∀ e ∈ st.heap, e.data.quoted = true) :
    ∀ e1 ∈ (BuildFragments.convert env entry e op expr is_signed st).2.heap,
      e1.data.quoted = true := by
  unfold BuildFragments.convert
  split
  · intro e1 h1
    rcases List.mem_or_eq_of_mem_set h1 with h2 | h2
    · exact hh e1 h2
    · subst h2
      rfl
  · exact hh

theorem leb128_nonneg {env : Env} {entry : Nat} {e : MaoEntry} {op : Opcode}
    {operands : List Operand} {st st1 : BuildState}
    (hleb : ∀ value sign, 0 ≤ env.sizeof_leb128 value sign)
    (hbig : ∀ value sign, 0 ≤ env.output_big_leb128 value sign)
    (hh : ∀ e ∈ st.heap, e.data.quoted = true)
    (h : BuildFragments.leb128 env entry e op operands st = some st1) :
    StepNonneg st entry st1 := by
  rcases operands with _ | ⟨o1, _ | ⟨o2, r⟩⟩ <;>
    try (solve | simp [BuildFragments.leb128] at h)
  cases o1 <;> try (solve | simp [BuildFragments.leb128] at h)
  rename_i expr0
  unfold BuildFragments.leb128 at h
  simp only [] at h
  obtain ⟨h1, h2, h3, h4⟩ :=
    convert_same env entry e op expr0 (decide (op = Opcode.SLEB128)) st
  have h5 := convert_quoted env entry e op expr0 (decide (op = Opcode.SLEB128)) st hh
  rcases hcv : BuildFragments.convert env entry e op expr0 (decide (op = Opcode.SLEB128)) st
    with ⟨expr, st2⟩
  rw [hcv] at h h1 h2 h3 h4 h5
  simp only [] at h h1 h2 h3 h4 h5
  by_cases hc : expr.X_op = .O_constant
  · simp only [hc, if_true, Option.some.injEq] at h
    subst h
    exact ⟨h5, Or.inr ⟨env.sizeof_leb128 expr.X_add_number (decide (op = Opcode.SLEB128)),
      hleb _ _, by simp [BuildState.addFixed, h3]⟩⟩
  · simp only [hc, if_false] at h
    by_cases hb : expr.X_op = .O_big
    · simp only [hb, if_true, Option.some.injEq] at h
      subst h
      exact ⟨h5, Or.inr ⟨env.output_big_leb128 expr (decide (op = Opcode.SLEB128)),
        hbig _ _, by simp [BuildState.addFixed, h3]⟩⟩
    · simp only [hb, if_false, Option.some.injEq] at h
      subst h
      exact ⟨h5, Or.inr ⟨0, le_refl _, by simp [EndFragmentLeb128, FragVar, h3]⟩⟩

theorem p2align_nonneg {is_text : Bool} {entry : Nat} {operands : List Operand}
    {st st1 : BuildState} (hh : ∀ e ∈ st.heap, e.data.quoted = true)
    (h : BuildFragments.p2align is_text entry operands st = some st1) :
    StepNonneg st entry st1 := by
  unfold BuildFragments.p2align at h
  split at h
  · injection h with h
    subst h
    exact ⟨hh, Or.inr ⟨0, le_refl _, rfl⟩⟩
  · cases h

theorem EndFragmentInstruction_keeps {env : Env} {insn : i386_insn} {st st1 : BuildState}
    (h : EndFragmentInstruction env insn st true = some st1) :
    st1.heap = st.heap ∧ st1.size_map = st.size_map := by
  unfold EndFragmentInstruction at h
  by_cases hj : insn.jump = false
  · simp only [if_pos hj] at h
    cases h
  · simp only [if_neg hj] at h
    cases hd : insn.disps0 with
    | none =>
      simp only [hd] at h
      cases h
    | some disps =>
      simp only [hd] at h
      split at h
      · cases h
      · injection h with h
        subst h
        exact ⟨rfl, rfl⟩

theorem BuildFragments.step_nonneg {env : Env} {is_text : Bool} {st st1 : BuildState}
    {entry : Nat} (hins : ∀ insn, 0 ≤ (env.SizeOfInstruction insn).1)
    (hleb : ∀ value sign, 0 ≤ env.sizeof_leb128 value sign)
    (hbig : ∀ value sign, 0 ≤ env.output_big_leb128 value sign)
    (hh : ∀ e ∈ st.heap, e.data.quoted = true)
    (h : BuildFragments.step env is_text st entry = some st1) : StepNonneg st entry st1 := by
  unfold BuildFragments.step at h
  cases he : st.heap[entry]? with
  | none => simp [he] at h
  | some e =>
    simp only [he] at h
    have hqe : e.data.quoted = true := hh e (List.mem_iff_getElem?.mpr ⟨entry, he⟩)
    cases hd : e.data with
    | UNDEFINED => simp [hd] at h
    | LABEL n =>
      simp only [hd, Option.some.injEq] at h
      subst h
      exact ⟨hh, Or.inl rfl⟩
    | DEBUG k v =>
      simp only [hd, Option.some.injEq] at h
      subst h
      exact ⟨hh, Or.inl rfl⟩
    | INSTRUCTION insn =>
      simp only [hd] at h
      by_cases hv : (env.SizeOfInstruction insn).2 = true
      · simp only [if_pos hv] at h
        obtain ⟨h1, h2⟩ := EndFragmentInstruction_keeps h
        refine ⟨?_, Or.inr ⟨(env.SizeOfInstruction insn).1, hins insn, ?_⟩⟩
        · rw [h1]
          exact hh
        · rw [h2]
          rfl
      · simp only [if_neg hv, Option.some.injEq] at h
        subst h
        exact ⟨hh, Or.inr ⟨_, hins insn, rfl⟩⟩
    | DIRECTIVE op ops =>
      simp only [hd] at h
      rw [hd] at hqe
      have hq : ∀ str, ops = [Operand.STRING str] →
          (op = .ASCII ∨ op = .STRING8 ∨ op = .STRING16 ∨ op = .STRING32 ∨ op = .STRING64) →
          2 ≤ str.utf8ByteSize ∧ str.utf8ByteSize < 268435456 := by
        intro str hs hop
        subst hs
        simpa [EntryData.quoted, hop] using hqe
      cases op <;> simp only [] at h <;>
        first
        | exact HandleString_nonneg (by decide) (fun str hs => hq str hs (by simp)) hh h
        | exact HandleSpace_nonneg hh h
        | exact leb128_nonneg hleb hbig hh h
        | exact p2align_nonneg hh h
        | (injection h with h
           subst h
           exact ⟨hh, Or.inr ⟨_, by decide, rfl⟩⟩)

theorem BuildFragments.loop_nonneg {env : Env} {is_text : Bool}
    (hins : ∀ insn, 0 ≤ (env.SizeOfInstruction insn).1)
    (hleb : ∀ value sign, 0 ≤ env.sizeof_leb128 value sign)
    (hbig : ∀ value sign, 0 ≤ env.output_big_leb128 value sign) :
    ∀ (es : List Nat) (st st1 : BuildState), (∀ e ∈ st.heap, e.data.quoted = true) →
      (∀ p ∈ st.size_map, 0 ≤ p.2) → BuildFragments.loop env is_text st es = some st1 →
      ∀ p ∈ st1.size_map, 0 ≤ p.2 := by
  intro es
  induction es with
  | nil =>
    intro st st1 _ hm h
    simp only [BuildFragments.loop, Option.some.injEq] at h
    subst h
    exact hm
  | cons e rest ih =>
    intro st st1 hh hm h
    simp only [BuildFragments.loop] at h
    cases hs : BuildFragments.step env is_text st e with
    | none => simp [hs] at h
    | some st2 =>
      simp only [hs] at h
      obtain ⟨h1, h2⟩ := BuildFragments.step_nonneg hins hleb hbig hh hs
      refine ih st2 st1 h1 ?_ h
      rcases h2 with h2 | ⟨v, hv, h2⟩
      · rw [h2]
        exact hm
      · rw [h2]
        intro p hp
        rcases List.mem_cons.mp hp with h3 | h3
        · subst h3
          exact hv
        · exact hm p h3

/-- C15 (as stated, fails): with the example oracle, whose sizes are not negative,
`BuildFragments` binds the directive `.ascii` whose string operand is the single
character `x` to the size -1: `StringSize` subtracts 2 for the quotes from every
string. -/
theorem C15_short_string_has_negative_size :
    (∀ insn, 0 ≤ (exampleEnv.SizeOfInstruction insn).1) ∧
    ∃ st, BuildFragments exampleEnv [MaoEntry.new (.DIRECTIVE .ASCII [.STRING "x"])]
        ".text" [0] [] = some st ∧ st.size_map = [(0, -1)] ∧ st.size_map.get 0 < 0 := by
  refine ⟨?_, _, rfl, rfl, by decide⟩
  intro insn
  show 0 ≤ (if insn.jump then ((2 : Int), true) else (1, false)).1
  split <;> decide

/-- C15, amended: when the instruction size oracle and the LEB128 length functions of
the assembler return sizes that are not negative and every string operand of a string
directive still has its two quotes (length at least 2, below 256 MiB), every size that
`BuildFragments` binds in `size_map` is not negative. -/
theorem C15_sizes_not_negative (env : Env)
    (hins : ∀ insn, 0 ≤ (env.SizeOfInstruction insn).1)
    (hleb : ∀ value sign, 0 ≤ env.sizeof_leb128 value sign)
    (hbig : ∀ value sign, 0 ≤ env.output_big_leb128 value sign)
    (heap : List MaoEntry) (section_name : String) (entries : List Nat)
    (hq : ∀ e ∈ heap, e.data.quoted = true) (st : BuildState)
    (hb : BuildFragments env heap section_name entries [] = some st) :
    ∀ p ∈ st.size_map, 0 ≤ p.2 := by
  unfold BuildFragments at hb
  simp only [] at hb
  cases hlo : BuildFragments.loop env (decide (section_name = ".text"))
      { heap := heap, ended := [], frag := NewFragment, size_map := [],
        relax_map := [] } entries with
  | none => simp [hlo] at hb
  | some st0 =>
    simp only [hlo, Option.some.injEq] at hb
    subst hb
    exact BuildFragments.loop_nonneg hins hleb hbig entries _ st0 hq (by simp) hlo

/-- C15, witness: the section that holds `.string16 "ab"` and `.ds.w 3`, with the sizes
6 and 6. -/
theorem C15_sizes_not_negative_witness :
    (BuildFragments exampleEnv
        [MaoEntry.new (.DIRECTIVE .STRING16 [.STRING "\"ab\""]),
         MaoEntry.new (spaceDirective .DS_W 3)] ".text" [0, 1] []).map BuildState.size_map =
      some [(1, 6), (0, 6)] ∧
    ∃ st, BuildFragments exampleEnv
        [MaoEntry.new (.DIRECTIVE .STRING16 [.STRING "\"ab\""]),
         MaoEntry.new (spaceDirective .DS_W 3)] ".text" [0, 1] [] = some st ∧
      ∀ p ∈ st.size_map, 0 ≤ p.2 := by
  refine ⟨rfl, ?_⟩
  obtain ⟨st, hst⟩ : ∃ st, BuildFragments exampleEnv
      [MaoEntry.new (.DIRECTIVE .STRING16 [.STRING "\"ab\""]),
       MaoEntry.new (spaceDirective .DS_W 3)] ".text" [0, 1] [] = some st := ⟨_, rfl⟩
  exact ⟨st, hst, C15_sizes_not_negative exampleEnv
    (fun insn => by
      show 0 ≤ (if insn.jump then ((2 : Int), true) else (1, false)).1
      split <;> decide)
    (fun _ _ => show (0 : Int) ≤ 1 by decide) (fun _ _ => show (0 : Int) ≤ 1 by decide) _
    ".text" [0, 1] (by decide) st hst⟩

theorem RelaxKeys.step_keys {env : Env} {is_text : Bool} {st st1 : BuildState} {entry : Nat}
    {P : List Nat} (hinv : RelaxKeys st P) (hnot : entry ∉ P)
    (h : BuildFragments.step env is_text st entry = some st1) :
    RelaxKeys st1 (P ++ [entry]) := by
  rcases BuildFragments.step_shape h with
    ⟨_, h2, _, h4⟩ | ⟨v, _, h2, _, h4⟩ | ⟨v, f, _, h2, _, _, h5⟩
  · refine { bound := ?_, free := ?_, inj := ?_ }
    · intro i hi
      rw [h2] at hi
      obtain ⟨e, he1, he2⟩ := hinv.bound i hi
      exact ⟨e, by rw [h4]; exact he1, List.mem_append_left _ he2⟩
    · intro i hi
      rw [h2] at hi
      rw [h4]
      exact hinv.free i hi
    · rw [h4]
      exact hinv.inj
  · refine { bound := ?_, free := ?_, inj := ?_ }
    · intro i hi
      rw [h2] at hi
      obtain ⟨e, he1, he2⟩ := hinv.bound i hi
      exact ⟨e, by rw [h4]; exact he1, List.mem_append_left _ he2⟩
    · intro i hi
      rw [h2] at hi
      rw [h4]
      exact hinv.free i hi
    · rw [h4]
      exact hinv.inj
  · have hold : ∀ i e, st.relax_map.lookup i = some e → i < st.ended.length ∧ e ∈ P := by
      intro i e hl
      have hi : i < st.ended.length := by
        by_contra hc
        rw [hinv.free i (by omega)] at hl
        cases hl
      obtain ⟨e1, h1, h2⟩ := hinv.bound i hi
      rw [hl] at h1
      cases h1
      exact ⟨hi, h2⟩
    have hlook : ∀ i, st1.relax_map.lookup i =
        if i = st.ended.length then some entry else st.relax_map.lookup i := by
      intro i
      rw [h5]
      by_cases hin : i = st.ended.length
      · subst hin
        simp [List.lookup]
      · have hb : (i == st.ended.length) = false := by simpa using hin
        simp only [List.lookup, hb, if_neg hin]
    refine { bound := ?_, free := ?_, inj := ?_ }
    · intro i hi
      rw [h2] at hi
      simp only [List.length_append, List.length_singleton] at hi
      rw [hlook]
      by_cases hin : i = st.ended.length
      · exact ⟨entry, by simp [hin], by simp⟩
      · obtain ⟨e, he1, he2⟩ := hinv.bound i (by omega)
        exact ⟨e, by simp only [if_neg hin]; exact he1, List.mem_append_left _ he2⟩
    · intro i hi
      rw [h2] at hi
      simp only [List.length_append, List.length_singleton] at hi
      rw [hlook, if_neg (by omega)]
      exact hinv.free i (by omega)
    · intro i j e hi hj
      rw [hlook] at hi hj
      by_cases h1 : i = st.ended.length
      · by_cases h3 : j = st.ended.length
        · omega
        · simp only [if_pos h1, Option.some.injEq] at hi
          simp only [if_neg h3] at hj
          subst hi
          exact absurd (hold j _ hj).2 hnot
      · by_cases h3 : j = st.ended.length
        · simp only [if_pos h3, Option.some.injEq] at hj
          simp only [if_neg h1] at hi
          subst hj
          exact absurd (hold i _ hi).2 hnot
        · simp only [if_neg h1] at hi
          simp only [if_neg h3] at hj
          exact hinv.inj i j e hi hj

theorem RelaxKeys.loop_keys {env : Env} {is_text : Bool} :
    ∀ (es : List Nat) {st st1 : BuildState} {P : List Nat}, RelaxKeys st P →
      (P ++ es).Nodup → BuildFragments.loop env is_text st es = some st1 →
      RelaxKeys st1 (P ++ es) := by
  intro es
  induction es with
  | nil =>
    intro st st1 P hinv _ h
    simp only [BuildFragments.loop, Option.some.injEq] at h
    subst h
    simpa using hinv
  | cons e rest ih =>
    intro st st1 P hinv hnd h
    simp only [BuildFragments.loop] at h
    cases hs : BuildFragments.step env is_text st e with
    | none => simp [hs] at h
    | some st2 =>
      simp only [hs] at h
      have hnot : e ∉ P := by
        intro hm
        have := List.nodup_append.mp hnd
        exact this.2.2 hm (by simp)
      have h2 := ih (hinv.step_keys hnot hs) (by simpa using hnd) h
      simpa using h2

/-- The invariant of `relax_map` holds of the state that `BuildFragments` returns. -/
theorem RelaxKeys.of_BuildFragments {env : Env} {heap : List MaoEntry}
    {section_name : String} {entries : List Nat} {m0 : SizeMap} {st : BuildState}
    (hnd : entries.Nodup)
    (hb : BuildFragments env heap section_name entries m0 = some st) :
    RelaxKeys st entries := by
  unfold BuildFragments at hb
  simp only [] at hb
  cases hlo : BuildFragments.loop env (decide (section_name = ".text"))
      { heap := heap, ended := [], frag := NewFragment, size_map := m0,
        relax_map := [] } entries with
  | none => simp [hlo] at hb
  | some st0 =>
    simp only [hlo, Option.some.injEq] at hb
    have hinit : RelaxKeys
        { heap := heap, ended := [], frag := NewFragment, size_map := m0,
          relax_map := [] } [] := by
      refine { bound := ?_, free := ?_, inj := ?_ }
      · intro i hi
        simp at hi
      · intro i _
        simp [List.lookup]
      · intro i j e hi
        simp [List.lookup] at hi
    have h0 := RelaxKeys.loop_keys entries hinit (by simpa using hnd) hlo
    simp only [List.nil_append] at h0
    subst hb
    exact { bound := h0.bound, free := h0.free, inj := h0.inj }

theorem Relax.loop_length {relax_segment : List frag → Nat → List frag × Bool}
    (hlen : ∀ fs pass, (relax_segment fs pass).1.length = fs.length) :
    ∀ (fuel pass : Nat) (fs fs1 : List frag),
      Relax.loop relax_segment fuel pass fs = some fs1 → fs1.length = fs.length := by
  intro fuel
  induction fuel with
  | zero =>
    intro pass fs fs1 h
    simp [Relax.loop] at h
  | succ n ih =>
    intro pass fs fs1 h
    simp only [Relax.loop] at h
    have hf := hlen fs pass
    rcases hr : relax_segment fs pass with ⟨fs2, change⟩
    rw [hr] at h hf
    simp only [] at h hf
    cases change with
    | true =>
      simp only [if_true] at h
      rw [ih _ _ _ h, hf]
    | false =>
      simp only [Bool.false_eq_true, if_false, Option.some.injEq] at h
      subst h
      exact hf

/-- The loop that updates the sizes leaves the size of an entry that is bound to none
of the fragments it visits. -/
theorem Relax.updateSizes_other (rm : List (Nat × Nat)) (e : Nat) :
    ∀ (fs : List frag) (i : Nat) (m m1 : SizeMap),
      Relax.updateSizes rm i fs m = some m1 →
      (∀ j, i ≤ j → rm.lookup j ≠ some e) → m1.get e = m.get e := by
  intro fs
  induction fs with
  | nil =>
    intro i m m1 h _
    simp only [Relax.updateSizes, Option.some.injEq] at h
    subst h
    rfl
  | cons f rest ih =>
    intro i m m1 h hno
    cases hl : rm.lookup i with
    | none =>
      simp only [Relax.updateSizes, hl] at h
      exact ih (i + 1) m m1 h (fun j hj => hno j (by omega))
    | some e0 =>
      cases rest with
      | nil => simp [Relax.updateSizes, hl] at h
      | cons g t =>
        simp only [Relax.updateSizes, hl] at h
        have hne : e ≠ e0 := by
          intro he
          subst he
          exact hno i (le_refl _) hl
        rw [ih (i + 1) _ m1 h (fun j hj => hno j (by omega))]
        exact SizeMap.get_add_ne _ _ hne

/-- The loop that updates the sizes adds to the size of the entry bound to a fragment
the variable part of that fragment as an `int`, once. -/
theorem Relax.updateSizes_bound (rm : List (Nat × Nat)) (e : Nat)
    (hinj : ∀ (i j : Nat), rm.lookup i = some e → rm.lookup j = some e → i = j) :
    ∀ (fs : List frag) (i d : Nat) (m m1 : SizeMap) (f g : frag),
      Relax.updateSizes rm i fs m = some m1 → rm.lookup (i + d) = some e →
      fs[d]? = some f → fs[d + 1]? = some g →
      m1.get e = m.get e + toInt32 (g.fr_address - f.fr_address - f.fr_fix) := by
  intro fs
  induction fs with
  | nil =>
    intro i d m m1 f g _ _ hf _
    simp at hf
  | cons f0 rest ih =>
    intro i d m m1 f g h hk hf hg
    cases d with
    | zero =>
      simp only [Nat.add_zero] at hk
      simp only [List.getElem?_cons_zero, Option.some.injEq] at hf
      subst hf
      cases rest with
      | nil => simp at hg
      | cons g0 t =>
        simp only [zero_add, List.getElem?_cons_succ, List.getElem?_cons_zero,
          Option.some.injEq] at hg
        subst hg
        simp only [Relax.updateSizes, hk] at h
        rw [Relax.updateSizes_other rm e (g0 :: t) (i + 1)
          (m.add e (toInt32 (g0.fr_address - f0.fr_address - f0.fr_fix))) m1 h
          (fun j hj hl => by have := hinj i j hk hl; omega)]
        exact SizeMap.get_add_self _ _ _
    | succ d1 =>
      simp only [List.getElem?_cons_succ] at hf hg
      have hk1 : rm.lookup (i + 1 + d1) = some e := by
        rw [← hk]
        congr 1
        omega
      cases hl : rm.lookup i with
      | none =>
        simp only [Relax.updateSizes, hl] at h
        exact ih (i + 1) d1 m m1 f g h hk1 hf hg
      | some e0 =>
        cases rest with
        | nil => simp at hf
        | cons g0 t =>
          simp only [Relax.updateSizes, hl] at h
          have hne : e ≠ e0 := by
            intro he
            subst he
            have := hinj i (i + (d1 + 1)) hl hk
            omega
          rw [ih (i + 1) d1 _ m1 f g h hk1 hf hg]
          rw [SizeMap.get_add_ne _ _ hne]

/-! ## Dead blocks (C19) -/

theorem BasicBlockMap.get_set (m : BasicBlockMap) (a x : Nat) (v : Bool) :
    (m.set a v).get x = if x = a then v else m.get x := by
  by_cases h : x = a
  · subst h
    simp [BasicBlockMap.get, BasicBlockMap.set, List.lookup]
  · have hb : (x == a) = false := by simpa using h
    simp [BasicBlockMap.get, BasicBlockMap.set, List.lookup, hb, h]

theorem Reachable.head {cfg : CFG} {a t x : Nat} {blk : BasicBlock}
    (ha : cfg[a]? = some blk) (ht : t ∈ blk.out_edges_) (h : Reachable cfg t x) :
    Reachable cfg a x := by
  induction h with
  | refl => exact Reachable.step blk (Reachable.refl a) ha ht
  | step blk1 _ hb hc ih => exact Reachable.step blk1 ih hb hc

theorem unmarked_mono (cfg : CFG) {m m1 : BasicBlockMap}
    (h : ∀ x, m.get x = true → m1.get x = true) :
    (unmarked cfg m1).card ≤ (unmarked cfg m).card := by
  apply Finset.card_le_card
  intro x hx
  simp only [unmarked, Finset.mem_filter, Finset.mem_range] at hx ⊢
  refine ⟨hx.1, ?_⟩
  cases hm : m.get x with
  | false => rfl
  | true =>
    rw [h x hm] at hx
    exact absurd hx.2 (by decide)

theorem unmarked_set_lt (cfg : CFG) {m : BasicBlockMap} {bb : Nat} (hb : bb < cfg.length)
    (hm : m.get bb = false) :
    (unmarked cfg (m.set bb true)).card < (unmarked cfg m).card := by
  apply Finset.card_lt_card
  rw [Finset.ssubset_iff_of_subset]
  · refine ⟨bb, ?_, ?_⟩
    · simp [unmarked, hb, hm]
    · simp [unmarked, BasicBlockMap.get_set]
  · intro x hx
    simp only [unmarked, Finset.mem_filter, Finset.mem_range, BasicBlockMap.get_set] at hx ⊢
    refine ⟨hx.1, ?_⟩
    by_cases hxb : x = bb
    · rw [hxb]
      exact hm
    · simpa [hxb] using hx.2


/-- The loop of `Visit` over the out-edges `ts`, given that `Visit` itself is correct
with the fuel `k`. -/
theorem Visit.edges_visited (cfg : CFG) (k : Nat)
    (ih : ∀ (bb : Nat) (m : BasicBlockMap), bb < cfg.length → (unmarked cfg m).card < k →
      ∃ m1, Visit cfg k bb m = some m1 ∧ Visited cfg bb m m1) :
    ∀ (ts : List Nat) (m : BasicBlockMap), (∀ t ∈ ts, t < cfg.length) →
      (unmarked cfg m).card < k →
      ∃ m1, ts.foldl (fun acc target =>
            match acc with
            | none => none
            | some m2 => Visit cfg k target m2) (some m) = some m1 ∧
        (∀ x, m.get x = true → m1.get x = true) ∧
        (∀ t ∈ ts, m1.get t = true) ∧
        ∀ x, m1.get x = true → m.get x = false →
          (∃ t ∈ ts, Reachable cfg t x) ∧ x < cfg.length ∧
          ∀ blk, cfg[x]? = some blk → ∀ t ∈ blk.out_edges_, m1.get t = true := by
  intro ts
  induction ts with
  | nil =>
    intro m _ _
    refine ⟨m, rfl, fun _ h => h, by simp, ?_⟩
    intro x h1 h2
    rw [h1] at h2
    cases h2
  | cons t rest iht =>
    intro m hts hc
    obtain ⟨m2, hv, hvis⟩ := ih t m (hts t (by simp)) hc
    have hc2 : (unmarked cfg m2).card < k :=
      lt_of_le_of_lt (unmarked_mono cfg hvis.mono) hc
    obtain ⟨m1, hf, hmono, hmarked, hfresh⟩ :=
      iht m2 (fun t1 h1 => hts t1 (by simp [h1])) hc2
    refine ⟨m1, ?_, fun x h => hmono x (hvis.mono x h), ?_, ?_⟩
    · simp only [List.foldl_cons, hv]
      exact hf
    · intro t1 h1
      rcases List.mem_cons.mp h1 with h2 | h2
      · rw [h2]
        exact hmono t hvis.self
      · exact hmarked t1 h2
    · intro x h1 h2
      cases h3 : m2.get x with
      | true =>
        obtain ⟨hr, hx, hcl⟩ := hvis.fresh x h3 h2
        exact ⟨⟨t, by simp, hr⟩, hx, fun blk hb t1 ht1 => hmono t1 (hcl blk hb t1 ht1)⟩
      | false =>
        obtain ⟨⟨t1, ht1, hr⟩, hx, hcl⟩ := hfresh x h1 h3
        exact ⟨⟨t1, by simp [ht1], hr⟩, hx, hcl⟩

/-- With more fuel than there are unmarked blocks, `Visit` returns; it marks `bb` and
what it newly marks can be reached from `bb` and has its out-edges marked. -/
theorem Visit.visited (cfg : CFG)
    (hedges : ∀ b ∈ cfg, ∀ t ∈ b.out_edges_, t < cfg.length) :
    ∀ (fuel bb : Nat) (m : BasicBlockMap), bb < cfg.length → (unmarked cfg m).card < fuel →
      ∃ m1, Visit cfg fuel bb m = some m1 ∧ Visited cfg bb m m1 := by
  intro fuel
  induction fuel with
  | zero =>
    intro bb m _ h
    simp at h
  | succ k ih =>
    intro bb m hbb hc
    by_cases hm : m.get bb = true
    · refine ⟨m, by simp [Visit, hm], fun _ h => h, hm, ?_⟩
      intro x h1 h2
      rw [h1] at h2
      cases h2
    · have hmf : m.get bb = false := by simpa using hm
      obtain ⟨b, hb⟩ := exists_getElem? hbb
      have hc0 : (unmarked cfg (m.set bb true)).card < k := by
        have := unmarked_set_lt cfg hbb hmf
        omega
      obtain ⟨m1, hf, hmono, hmarked, hfresh⟩ :=
        Visit.edges_visited cfg k ih b.out_edges_ (m.set bb true)
          (hedges b (List.mem_iff_getElem?.mpr ⟨bb, hb⟩)) hc0
      have hself : (m.set bb true).get bb = true := by simp [BasicBlockMap.get_set]
      refine ⟨m1, ?_, ?_, hmono bb hself, ?_⟩
      · simp only [Visit, hm, hb]
        exact hf
      · intro x hx
        apply hmono
        rw [BasicBlockMap.get_set]
        split
        · rfl
        · exact hx
      · intro x h1 h2
        by_cases hxb : x = bb
        · subst hxb
          refine ⟨Reachable.refl x, hbb, ?_⟩
          intro blk hblk t ht
          rw [hb] at hblk
          cases hblk
          exact hmarked t ht
        · have h3 : (m.set bb true).get x = false := by
            rw [BasicBlockMap.get_set, if_neg hxb]
            exact h2
          obtain ⟨⟨t, ht, hr⟩, hx, hcl⟩ := hfresh x h1 h3
          exact ⟨Reachable.head hb ht hr, hx, hcl⟩

theorem DeadCodeElimPass.DoElim.init_get : ∀ (l : List Nat) (m : BasicBlockMap),
    (∀ x, m.get x = false) → ∀ x, (l.foldl (fun m bb => m.set bb false) m).get x = false := by
  intro l
  induction l with
  | nil =>
    intro m h x
    exact h x
  | cons a rest ih =>
    intro m h x
    simp only [List.foldl_cons]
    apply ih
    intro y
    rw [BasicBlockMap.get_set]
    split
    · rfl
    · exact h y

theorem DeadCodeElimPass.DoElim.message_total (heap : List MaoEntry) (b : BasicBlock)
    (h : ∀ p ∈ b.entries_, p < heap.length) :
    ∃ msg, DeadCodeElimPass.DoElim.message heap b = some msg := by
  unfold DeadCodeElimPass.DoElim.message
  simp only []
  by_cases h0 : b.entries_.length = 0
  · exact ⟨.empty_block, by simp only [if_pos h0]⟩
  · simp only [if_neg h0]
    by_cases h1 : b.entries_.length = 1
    · simp only [if_pos h1]
      cases hl : b.entries_ with
      | nil => simp [hl] at h0
      | cons p rest =>
        obtain ⟨e, he⟩ := exists_getElem? (h p (by simp [hl]))
        simp only [List.head?_cons, he]
        cases e.data <;> exact ⟨_, rfl⟩
    · exact ⟨.block b.id_ b.entries_.length, by simp only [if_neg h1]⟩

theorem DeadCodeElimPass.DoElim.report_spec (cfg : CFG) (heap : List MaoEntry)
    (m : BasicBlockMap)
    (hentries : ∀ b ∈ cfg, ∀ p ∈ b.entries_, p < heap.length) :
    ∀ (l : List Nat), (∀ bb ∈ l, bb < cfg.length) →
      ∃ found, DeadCodeElimPass.DoElim.report cfg heap m l = some found ∧
        ∀ bb, (∃ msg, (bb, msg) ∈ found) ↔ bb ∈ l ∧ m.get bb = false := by
  intro l
  induction l with
  | nil =>
    intro _
    exact ⟨[], rfl, by simp⟩
  | cons a rest ih =>
    intro hl
    obtain ⟨found, hf, hiff⟩ := ih (fun bb h => hl bb (by simp [h]))
    cases hm : m.get a with
    | true =>
      refine ⟨found, by simp [DeadCodeElimPass.DoElim.report, hm, hf], ?_⟩
      intro bb
      rw [hiff bb]
      constructor
      · rintro ⟨h1, h2⟩
        exact ⟨by simp [h1], h2⟩
      · rintro ⟨h1, h2⟩
        rcases List.mem_cons.mp h1 with h3 | h3
        · rw [h3, hm] at h2
          cases h2
        · exact ⟨h3, h2⟩
    | false =>
      obtain ⟨b, hb⟩ := exists_getElem? (hl a (by simp))
      obtain ⟨msg, hmsg⟩ :=
        DeadCodeElimPass.DoElim.message_total heap b
          (hentries b (List.mem_iff_getElem?.mpr ⟨a, hb⟩))
      refine ⟨(a, msg) :: found,
        by simp [DeadCodeElimPass.DoElim.report, hm, hb, hmsg, hf], ?_⟩
      intro bb
      constructor
      · rintro ⟨msg1, h1⟩
        rcases List.mem_cons.mp h1 with h2 | h2
        · cases h2
          exact ⟨by simp, hm⟩
        · obtain ⟨h3, h4⟩ := (hiff bb).mp ⟨msg1, h2⟩
          exact ⟨by simp [h3], h4⟩
      · rintro ⟨h1, h2⟩
        rcases List.mem_cons.mp h1 with h3 | h3
        · exact ⟨msg, by simp [h3]⟩
        · obtain ⟨msg1, h4⟩ := (hiff bb).mpr ⟨h3, h2⟩
          exact ⟨msg1, by simp [h4]⟩

/-- C19: on a graph with at least one block, whose out-edges lead to blocks of the
graph and whose blocks hold valid entries, `DoElim` returns (the recursion of `Visit`
is never deeper than the number of blocks), and it reports a block as dead exactly
when the block cannot be reached from the root, the block that `Begin()` returns, by
following out-edges; the root is never reported. -/
theorem C19_dead_iff_unreachable (cfg : CFG) (heap : List MaoEntry) (fuel : Nat)
    (hne : cfg ≠ []) (hfuel : cfg.length < fuel)
    (hedges : ∀ b ∈ cfg, ∀ t ∈ b.out_edges_, t < cfg.length)
    (hentries : ∀ b ∈ cfg, ∀ p ∈ b.entries_, p < heap.length) :
    ∃ dead, DeadCodeElimPass.DoElim cfg heap fuel = some dead ∧
      (∀ bb, (∃ msg, (bb, msg) ∈ dead) ↔ bb < cfg.length ∧ ¬ Reachable cfg 0 bb) ∧
      ∀ msg, (0, msg) ∉ dead := by
  have hpos : 0 < cfg.length := by
    cases cfg with
    | nil => exact absurd rfl hne
    | cons b rest => simp
  have hinit := DeadCodeElimPass.DoElim.init_get (List.range cfg.length) [] (fun x => rfl)
  have hcard : (unmarked cfg ((List.range cfg.length).foldl
      (fun (m : BasicBlockMap) bb => m.set bb false) ([] : BasicBlockMap))).card < fuel := by
    have h1 := Finset.card_filter_le (Finset.range cfg.length)
      (fun bb => ((List.range cfg.length).foldl
        (fun (m : BasicBlockMap) bb => m.set bb false) ([] : BasicBlockMap)).get bb = false)
    simp only [Finset.card_range] at h1
    unfold unmarked
    omega
  obtain ⟨m1, hv, hvis⟩ := Visit.visited cfg hedges fuel 0 _ hpos hcard
  obtain ⟨dead, hd, hiff⟩ := DeadCodeElimPass.DoElim.report_spec cfg heap m1 hentries
    (List.range cfg.length)
    (fun bb h => List.mem_range.mp h)
  have hreach : ∀ x, Reachable cfg 0 x → m1.get x = true := by
    intro x hr
    induction hr with
    | refl => exact hvis.self
    | step blk _ hb hc ih => exact (hvis.fresh _ ih (hinit _)).2.2 blk hb _ hc
  have hmain : ∀ bb, (∃ msg, (bb, msg) ∈ dead) ↔ bb < cfg.length ∧ ¬ Reachable cfg 0 bb := by
    intro bb
    rw [hiff bb, List.mem_range]
    constructor
    · rintro ⟨h1, h2⟩
      refine ⟨h1, fun hr => ?_⟩
      rw [hreach bb hr] at h2
      cases h2
    · rintro ⟨h1, h2⟩
      refine ⟨h1, ?_⟩
      cases h3 : m1.get bb with
      | false => rfl
      | true => exact absurd (hvis.fresh bb h3 (hinit bb)).1 h2
  refine ⟨dead, ?_, hmain, ?_⟩
  · cases cfg with
    | nil => exact absurd rfl hne
    | cons b rest =>
      simp only [DeadCodeElimPass.DoElim]
      rw [hv]
      exact hd
  · intro msg h
    exact ((hmain 0).mp ⟨msg, h⟩).2 (Reachable.refl 0)

/-- C19, witness: in the example graph block 1 has no in-edge and is the one block
reported; blocks 0 and 2, which lie on a loop, are not. -/
theorem C19_dead_iff_unreachable_witness :
    DeadCodeElimPass.DoElim exampleCFG exampleCFGHeap 4 = some [(1, .single_insn)] ∧
    ∃ dead, DeadCodeElimPass.DoElim exampleCFG exampleCFGHeap 4 = some dead ∧
      (∀ bb, (∃ msg, (bb, msg) ∈ dead) ↔
        bb < exampleCFG.length ∧ ¬ Reachable exampleCFG 0 bb) ∧
      ∀ msg, (0, msg) ∉ dead :=
  ⟨rfl, C19_dead_iff_unreachable exampleCFG exampleCFGHeap 4 (by decide) (by decide)
    (by decide) (by decide)⟩

/-! ## Redundant memory moves (C20) -/

/-- The scan only adds to the pairs found so far. -/
theorem RedMemMovElimPass.scan_extends (env : DefsEnv) (heap : List MaoEntry) (fuel : Nat)
    (tracing_level : Int) (mask : Nat) :
    ∀ (remaining insn : Nat) (next : Option Nat) (found result : List (Nat × Nat)),
      RedMemMovElimPass.scan env heap fuel tracing_level mask remaining insn next found =
        some result → ∃ extra, result = found ++ extra := by
  intro remaining
  induction remaining with
  | zero =>
    intro insn next found result h
    simp only [RedMemMovElimPass.scan, Option.some.injEq] at h
    exact ⟨[], by simp [h]⟩
  | succ n ih =>
    intro insn next found result h
    cases next with
    | none =>
      simp only [RedMemMovElimPass.scan, Option.some.injEq] at h
      exact ⟨[], by simp [h]⟩
    | some nx =>
      simp only [RedMemMovElimPass.scan] at h
      cases he : heap[nx]? with
      | none => simp [he] at h
      | some e =>
        simp only [he] at h
        cases hd : e.data with
        | INSTRUCTION ni =>
          simp only [hd] at h
          split at h
          · simp only [Option.some.injEq] at h
            exact ⟨[], by simp [h]⟩
          · split at h
            · simp only [Option.some.injEq] at h
              exact ⟨[], by simp [h]⟩
            · have hpre : ∃ x, (if (RedMemMovElimPass.isLoad env nx &&
                  env.CompareMemOperand insn 0 nx 0) = true then found ++ [(insn, nx)]
                  else found) = found ++ x := by
                split
                · exact ⟨_, rfl⟩
                · exact ⟨[], by simp⟩
              obtain ⟨x, hx⟩ := hpre
              rw [hx] at h
              split at h
              · simp only [Option.some.injEq] at h
                exact ⟨x, h.symm⟩
              · cases hn : nextInstruction heap fuel nx with
                | none => simp [hn] at h
                | some next1 =>
                  simp only [hn] at h
                  obtain ⟨extra, hex⟩ := ih _ _ _ _ h
                  exact ⟨x ++ extra, by rw [hex, List.append_assoc]⟩
        | UNDEFINED => simp [hd] at h
        | LABEL _ => simp [hd] at h
        | DIRECTIVE _ _ => simp [hd] at h
        | DEBUG _ _ => simp [hd] at h

theorem RedMemMovElimPass.examined_spec {env : DefsEnv} {heap : List MaoEntry} {k : Nat}
    (h : RedMemMovElimPass.examined env heap k = true) :
    ∃ e insn, heap[k]? = some e ∧ e.data = .INSTRUCTION insn ∧
      (env.IsControlTransfer k || InstructionEntry.IsCall insn ||
        InstructionEntry.IsReturn insn) = false ∧
      ¬ (env.GetRegisterDefMask k = 0 ∨ env.GetRegisterDefMask k = env.REG_ALL) := by
  unfold RedMemMovElimPass.examined at h
  cases he : heap[k]? with
  | none => simp [he] at h
  | some e =>
    simp only [he] at h
    cases hd : e.data with
    | INSTRUCTION insn =>
      simp only [hd, Bool.and_eq_true, Bool.not_eq_true', decide_eq_true_eq] at h
      exact ⟨e, insn, rfl, hd, h.1, by tauto⟩
    | UNDEFINED => simp [hd] at h
    | LABEL _ => simp [hd] at h
    | DIRECTIVE _ _ => simp [hd] at h
    | DEBUG _ _ => simp [hd] at h

/-- The positive part of the search: a scan that started at the load `I` and still has
`insn = I` finds the pair `(I, J)` when `J` is a load with an equal memory operand that
is examined, lies within the instructions that may still be examined, and every
instruction before it is crossed; with a tracing level above 0 this needs that no
instruction before `J` is itself a match. -/
theorem RedMemMovElimPass.scan_finds (env : DefsEnv) (heap : List MaoEntry) (fuel : Nat)
    (tracing_level : Int) (mask I J : Nat)
    (hJ : RedMemMovElimPass.examined env heap J = true)
    (hload : RedMemMovElimPass.isLoad env J = true)
    (hcmp : env.CompareMemOperand I 0 J 0 = true) :
    ∀ (between : List Nat) (remaining : Nat) (found result : List (Nat × Nat)),
      between.length < remaining → linked heap fuel (between ++ [J]) →
      (∀ k ∈ between, RedMemMovElimPass.crossed env heap mask k = true) →
      (tracing_level ≤ 0 ∨ ∀ k ∈ between,
        (RedMemMovElimPass.isLoad env k && env.CompareMemOperand I 0 k 0) = false) →
      RedMemMovElimPass.scan env heap fuel tracing_level mask remaining I
        (between ++ [J]).head? found = some result →
      (I, J) ∈ result := by
  intro between
  induction between with
  | nil =>
    intro remaining found result hrem _ _ _ h
    obtain ⟨n, rfl⟩ : ∃ n, remaining = n + 1 := ⟨remaining - 1, by simp at hrem; omega⟩
    obtain ⟨e, insn, he, hd, hctl, hdefs⟩ := RedMemMovElimPass.examined_spec hJ
    simp only [List.nil_append, List.head?_cons, RedMemMovElimPass.scan, he, hd, hctl,
      Bool.false_eq_true, if_false, if_neg hdefs, hload, hcmp, Bool.and_self, if_true] at h
    split at h
    · simp only [Option.some.injEq] at h
      rw [← h]
      simp
    · cases hn : nextInstruction heap fuel J with
      | none => simp [hn] at h
      | some next1 =>
        simp only [hn] at h
        obtain ⟨extra, hex⟩ := RedMemMovElimPass.scan_extends _ _ _ _ _ _ _ _ _ _ h
        rw [hex]
        simp
  | cons b rest ih =>
    intro remaining found result hrem hlink hcross htr h
    obtain ⟨n, rfl⟩ : ∃ n, remaining = n + 1 := ⟨remaining - 1, by simp at hrem; omega⟩
    have hb := hcross b (by simp)
    simp only [RedMemMovElimPass.crossed, Bool.and_eq_true, decide_eq_true_eq] at hb
    obtain ⟨e, insn, he, hd, hctl, hdefs⟩ := RedMemMovElimPass.examined_spec hb.1
    obtain ⟨c, tl, hc⟩ : ∃ c tl, rest ++ [J] = c :: tl := by
      cases rest with
      | nil => exact ⟨J, [], rfl⟩
      | cons c tl => exact ⟨c, tl ++ [J], rfl⟩
    have hl : linked heap fuel (b :: c :: tl) := by
      rw [← hc]
      exact hlink
    obtain ⟨hnext, hl2⟩ := hl
    have hinsn : (if ((RedMemMovElimPass.isLoad env b && env.CompareMemOperand I 0 b 0) =
        true) ∧ tracing_level > 0 then b else I) = I := by
      rcases htr with h1 | h1
      · rw [if_neg]
        intro h2
        omega
      · rw [if_neg]
        intro h2
        rw [h1 b (by simp)] at h2
        exact absurd h2.1 (by decide)
    simp only [List.cons_append, List.head?_cons, RedMemMovElimPass.scan, he, hd, hctl,
      Bool.false_eq_true, if_false, if_neg hdefs, hb.2, ne_eq, not_true_eq_false, hnext,
      hinsn] at h
    refine ih n (if (RedMemMovElimPass.isLoad env b && env.CompareMemOperand I 0 b 0) = true
        then found ++ [(I, b)] else found) result (by simp at hrem; omega)
      (by rw [hc]; exact hl2) (fun k hk => hcross k (by simp [hk]))
      (htr.imp id (fun h1 k hk => h1 k (by simp [hk]))) ?_
    rw [hc]
    exact h


/-- The search started at the load `I` finds the pair `(I, J)` under the conditions of
`RedMemMovElimPass.scan_finds`, when the destination mask of `I` is disjoint from its
base and index mask and `J` is among the first `look_ahead_` instructions behind
`I`. -/
theorem RedMemMovElimPass.scanFrom_finds (env : DefsEnv) (heap : List MaoEntry)
    (fuel : Nat) (tracing_level look_ahead_ : Int) (I J : Nat) (between : List Nat)
    (result : List (Nat × Nat)) (e : MaoEntry) (insn : i386_insn)
    (he : heap[I]? = some e) (hd : e.data = .INSTRUCTION insn)
    (hI : RedMemMovElimPass.isLoad env I = true)
    (hMB : env.GetRegisterDefMask I &&&
      (env.GetMaskForRegister (env.GetBaseRegister I) |||
        env.GetMaskForRegister (env.GetIndexRegister I)) = 0)
    (hlink : linked heap fuel (I :: (between ++ [J])))
    (hlook : between.length < look_ahead_.toNat)
    (hcross : ∀ k ∈ between, RedMemMovElimPass.crossed env heap
      (env.GetRegisterDefMask I ||| (env.GetMaskForRegister (env.GetBaseRegister I) |||
        env.GetMaskForRegister (env.GetIndexRegister I))) k = true)
    (hJ : RedMemMovElimPass.examined env heap J = true)
    (hload : RedMemMovElimPass.isLoad env J = true)
    (hcmp : env.CompareMemOperand I 0 J 0 = true)
    (htr : tracing_level ≤ 0 ∨ ∀ k ∈ between,
      (RedMemMovElimPass.isLoad env k && env.CompareMemOperand I 0 k 0) = false)
    (h : RedMemMovElimPass.scanFrom env heap fuel tracing_level look_ahead_ I =
      some result) :
    (I, J) ∈ result := by
  obtain ⟨c, tl, hc⟩ : ∃ c tl, between ++ [J] = c :: tl := by
    cases between with
    | nil => exact ⟨J, [], rfl⟩
    | cons c tl => exact ⟨c, tl ++ [J], rfl⟩
  have hl : linked heap fuel (I :: c :: tl) := by
    rw [← hc]
    exact hlink
  obtain ⟨hnext, hl2⟩ := hl
  simp only [RedMemMovElimPass.scanFrom, he, hd, hI, if_true, hMB, ne_eq, not_true_eq_false,
    if_false, hnext] at h
  refine RedMemMovElimPass.scan_finds env heap fuel tracing_level _ I J hJ hload hcmp between
    look_ahead_.toNat [] result hlook (by rw [hc]; exact hl2) hcross htr ?_
  rw [hc]
  exact h

/-- C20 (the code breaks the claim): in the block `movq 24(%rsp), %rdx; movq 24(%rsp),
%rcx; movq 24(%rsp), %rbx` with lookahead 6 the first load `I` and the third load `J`
meet every condition of the claim (equal memory operands, destination mask of `I`
disjoint from its base mask, the load between them defines only `%rcx`).  With tracing
level 1 `DoElim` finds the pairs (0, 1), (1, 2) and (1, 2), not the pair (0, 2): the
loop that prints the first pair has advanced `insn` to the second load.  With tracing
level 0 the pair (0, 2) is found, as is the pair of the example of the claim at either
tracing level. -/
theorem C20_pair_lost_when_tracing :
    RedMemMovElimPass.isLoad (tableEnv threeLoads) 0 = true ∧
    (tableEnv threeLoads).GetRegisterDefMask 0 &&& exampleRegisterMask (some "rsp") = 0 ∧
    linked threeInstructions 4 [0, 1, 2] ∧
    RedMemMovElimPass.crossed (tableEnv threeLoads) threeInstructions
      ((tableEnv threeLoads).GetRegisterDefMask 0 ||| exampleRegisterMask (some "rsp")) 1 =
        true ∧
    RedMemMovElimPass.examined (tableEnv threeLoads) threeInstructions 2 = true ∧
    RedMemMovElimPass.isLoad (tableEnv threeLoads) 2 = true ∧
    (tableEnv threeLoads).CompareMemOperand 0 0 2 0 = true ∧
    RedMemMovElimPass.DoElim (tableEnv threeLoads) threeInstructions 4 1 6 oneBlock =
      some [(0, 1), (1, 2), (1, 2)] ∧
    (0, 2) ∉ [(0, 1), (1, 2), (1, 2)] ∧
    RedMemMovElimPass.DoElim (tableEnv threeLoads) threeInstructions 4 0 6 oneBlock =
      some [(0, 1), (0, 2), (1, 2)] ∧
    RedMemMovElimPass.DoElim (tableEnv loadAddLoad) threeInstructions 4 0 6 oneBlock =
      some [(0, 2)] ∧
    RedMemMovElimPass.DoElim (tableEnv loadAddLoad) threeInstructions 4 1 6 oneBlock =
      some [(0, 2)] :=
  ⟨rfl, rfl, ⟨rfl, rfl, trivial⟩, rfl, rfl, rfl, rfl, rfl, by decide, rfl, rfl, rfl⟩

/-! ## Instruction classification (C23 to C25) -/

theorem InstructionEntry.IsInList_iff (opcode : Nat) (list : List Nat) :
    InstructionEntry.IsInList opcode list = true ↔ opcode ∈ list := by
  induction list with
  | nil => simp [InstructionEntry.IsInList]
  | cons o rest ih =>
    by_cases h : opcode = o
    · simp [InstructionEntry.IsInList, h]
    · simp [InstructionEntry.IsInList, h, ih]

theorem InstructionEntry.HasTarget_iff (insn : i386_insn) :
    InstructionEntry.HasTarget insn = true ↔ insn.op ∈ [OP_jmp, OP_ljmp] ++ cond_jumps := by
  unfold InstructionEntry.HasTarget
  rw [List.mem_append, ← InstructionEntry.IsInList_iff, ← InstructionEntry.IsInList_iff]
  cases InstructionEntry.IsInList insn.op [OP_jmp, OP_ljmp] <;>
    cases InstructionEntry.IsInList insn.op cond_jumps <;> simp

/-- C24: `HasTarget` returns true exactly for `jmp`, `ljmp` and the conditional jumps
and loop variants of the closed set; it returns false for every call and every
return. -/
theorem C24_has_target (insn : i386_insn) :
    (InstructionEntry.HasTarget insn = true ↔
      insn.op ∈ [OP_jmp, OP_ljmp, OP_jo, OP_jno, OP_jb, OP_jc, OP_jnae, OP_jnb, OP_jnc,
        OP_jae, OP_je, OP_jz, OP_jne, OP_jnz, OP_jbe, OP_jna, OP_jnbe, OP_ja, OP_js, OP_jns,
        OP_jp, OP_jpe, OP_jnp, OP_jpo, OP_jl, OP_jnge, OP_jnl, OP_jge, OP_jle, OP_jng,
        OP_jnle, OP_jg, OP_jcxz, OP_jecxz, OP_jrcxz, OP_loop, OP_loopz, OP_loope,
        OP_loopnz, OP_loopne]) ∧
    ((InstructionEntry.IsCall insn || InstructionEntry.IsReturn insn) = true →
      InstructionEntry.HasTarget insn = false) := by
  have ht := InstructionEntry.HasTarget_iff insn
  constructor
  · rw [ht, ← List.mem_dedup]
    exact Iff.of_eq (congrArg (insn.op ∈ ·) (by decide))
  · intro h
    have hcr : insn.op ∈ [OP_call, OP_lcall, OP_vmcall, OP_syscall, OP_vmmcall] ++
        [OP_ret, OP_lret, OP_retf, OP_iret, OP_sysret] := by
      rw [List.mem_append, ← InstructionEntry.IsInList_iff, ← InstructionEntry.IsInList_iff]
      simpa [InstructionEntry.IsCall, InstructionEntry.IsReturn] using h
    have key : ∀ op ∈ [OP_call, OP_lcall, OP_vmcall, OP_syscall, OP_vmmcall] ++
        [OP_ret, OP_lret, OP_retf, OP_iret, OP_sysret],
        op ∉ [OP_jmp, OP_ljmp] ++ cond_jumps := by decide
    cases hT : InstructionEntry.HasTarget insn with
    | false => rfl
    | true => exact absurd (ht.mp hT) (key _ hcr)

/-- C24, witness: `call` has no target; `jecxz`, listed twice in the table, has one. -/
theorem C24_has_target_witness :
    InstructionEntry.HasTarget
      { op := OP_call, jump := false, base_opcode := 232, data_prefix_slot := 0,
        disps0 := none, reloc0 := 0 } = false ∧
    InstructionEntry.HasTarget
      { op := OP_jecxz, jump := true, base_opcode := 227, data_prefix_slot := 0,
        disps0 := none, reloc0 := 0 } = true :=
  ⟨(C24_has_target _).2 rfl, rfl⟩

/-- C23: `HasFallThrough` returns false exactly for the unconditional jumps `jmp`,
`ljmp` and the returns `ret`, `lret`, `retf`, `iret`, `sysret`; so it returns true for
every call, every conditional jump of the table and every other opcode. -/
theorem C23_has_fall_through (insn : i386_insn) :
    (InstructionEntry.HasFallThrough insn = false ↔
      insn.op ∈ [OP_jmp, OP_ljmp, OP_ret, OP_lret, OP_retf, OP_iret, OP_sysret]) ∧
    (InstructionEntry.IsCall insn = true → InstructionEntry.HasFallThrough insn = true) ∧
    (insn.op ∈ cond_jumps → InstructionEntry.HasFallThrough insn = true) := by
  have ht := InstructionEntry.HasTarget_iff insn
  have hr : InstructionEntry.IsReturn insn = true ↔
      insn.op ∈ [OP_ret, OP_lret, OP_retf, OP_iret, OP_sysret] :=
    InstructionEntry.IsInList_iff _ _
  have hc : InstructionEntry.IsCall insn = true ↔
      insn.op ∈ [OP_call, OP_lcall, OP_vmcall, OP_syscall, OP_vmmcall] :=
    InstructionEntry.IsInList_iff _ _
  have hj := InstructionEntry.IsInList_iff insn.op cond_jumps
  have k1 : ∀ op ∈ [OP_jmp, OP_ljmp],
      op ∉ [OP_call, OP_lcall, OP_vmcall, OP_syscall, OP_vmmcall] ∧ op ∉ cond_jumps := by
    decide
  have k2 : ∀ op ∈ [OP_call, OP_lcall, OP_vmcall, OP_syscall, OP_vmmcall] ++ cond_jumps,
      op ∉ [OP_jmp, OP_ljmp, OP_ret, OP_lret, OP_retf, OP_iret, OP_sysret] := by decide
  have main : InstructionEntry.HasFallThrough insn = false ↔
      insn.op ∈ [OP_jmp, OP_ljmp, OP_ret, OP_lret, OP_retf, OP_iret, OP_sysret] := by
    have hsplit : insn.op ∈ [OP_jmp, OP_ljmp, OP_ret, OP_lret, OP_retf, OP_iret, OP_sysret] ↔
        insn.op ∈ [OP_jmp, OP_ljmp] ∨
          insn.op ∈ [OP_ret, OP_lret, OP_retf, OP_iret, OP_sysret] := by
      rw [← List.mem_append]
      rfl
    rw [hsplit]
    unfold InstructionEntry.HasFallThrough
    cases hR : InstructionEntry.IsReturn insn with
    | true =>
      simp only [if_true]
      exact ⟨fun _ => Or.inr (hr.mp hR), fun _ => trivial⟩
    | false =>
      have hnr : insn.op ∉ [OP_ret, OP_lret, OP_retf, OP_iret, OP_sysret] := fun h => by
        rw [hr.mpr h] at hR
        cases hR
      cases hT : InstructionEntry.HasTarget insn with
      | false =>
        have hnt : insn.op ∉ [OP_jmp, OP_ljmp] := fun h => by
          rw [ht.mpr (List.mem_append_left _ h)] at hT
          cases hT
        simp only [Bool.false_eq_true, if_false, Bool.not_false, if_true]
        exact ⟨(fun h => by cases h), fun h => (h.elim hnt hnr).elim⟩
      | true =>
        simp only [Bool.false_eq_true, if_false, Bool.not_true]
        cases hC : InstructionEntry.IsCall insn with
        | true =>
          simp only [if_true]
          refine ⟨(fun h => by cases h), fun h => ?_⟩
          rcases h with h | h
          · exact ((k1 _ h).1 (hc.mp hC)).elim
          · exact (hnr h).elim
        | false =>
          simp only [Bool.false_eq_true, if_false]
          cases hJ : InstructionEntry.IsInList insn.op cond_jumps with
          | true =>
            simp only [if_true]
            refine ⟨(fun h => by cases h), fun h => ?_⟩
            rcases h with h | h
            · exact ((k1 _ h).2 (hj.mp hJ)).elim
            · exact (hnr h).elim
          | false =>
            simp only [Bool.false_eq_true, if_false, true_iff]
            rcases List.mem_append.mp (ht.mp hT) with h | h
            · exact Or.inl h
            · rw [hj.mpr h] at hJ
              cases hJ
  refine ⟨main, fun h => ?_, fun h => ?_⟩
  · cases hF : InstructionEntry.HasFallThrough insn with
    | true => rfl
    | false => exact absurd (main.mp hF) (k2 _ (List.mem_append_left _ (hc.mp h)))
  · cases hF : InstructionEntry.HasFallThrough insn with
    | true => rfl
    | false => exact absurd (main.mp hF) (k2 _ (List.mem_append_right _ h))

/-- C23, witness: `call` falls through, `jne` falls through, `ret` does not. -/
theorem C23_has_fall_through_witness :
    InstructionEntry.HasFallThrough
      { op := OP_call, jump := false, base_opcode := 232, data_prefix_slot := 0,
        disps0 := none, reloc0 := 0 } = true ∧
    InstructionEntry.HasFallThrough
      { op := OP_jne, jump := true, base_opcode := 117, data_prefix_slot := 0,
        disps0 := none, reloc0 := 0 } = true ∧
    InstructionEntry.HasFallThrough
      { op := OP_ret, jump := false, base_opcode := 195, data_prefix_slot := 0,
        disps0 := none, reloc0 := 0 } = false :=
  ⟨(C23_has_fall_through _).2.1 rfl, (C23_has_fall_through _).2.2 (by decide), rfl⟩

/-- C21: the scan that starts at a load whose destination mask meets the mask of its
base or index register returns at once and finds no pair, whatever the entries behind
it are. -/
theorem C21_overlap_finds_nothing (env : DefsEnv) (heap : List MaoEntry) (fuel : Nat)
    (tracing_level look_ahead_ : Int) (I : Nat) (e : MaoEntry) (insn : i386_insn)
    (he : heap[I]? = some e) (hd : e.data = .INSTRUCTION insn)
    (hI : RedMemMovElimPass.isLoad env I = true)
    (hMB : env.GetRegisterDefMask I &&&
      (env.GetMaskForRegister (env.GetBaseRegister I) |||
        env.GetMaskForRegister (env.GetIndexRegister I)) ≠ 0) :
    RedMemMovElimPass.scanFrom env heap fuel tracing_level look_ahead_ I = some [] := by
  simp only [RedMemMovElimPass.scanFrom, he, hd, hI, if_true, if_pos hMB]

/-- C21, witness: on `movq (%rax), %rax; movq (%rax), %rbx` the scan from the first
load finds nothing, and the pass as a whole finds nothing, at either tracing level. -/
theorem C21_overlap_finds_nothing_witness :
    RedMemMovElimPass.scanFrom (tableEnv overlapLoads) twoInstructions 3 0 6 0 = some [] ∧
    RedMemMovElimPass.DoElim (tableEnv overlapLoads) twoInstructions 3 0 6
      twoInstructionBlock = some [] ∧
    RedMemMovElimPass.DoElim (tableEnv overlapLoads) twoInstructions 3 1 6
      twoInstructionBlock = some [] :=
  ⟨C21_overlap_finds_nothing (tableEnv overlapLoads) twoInstructions 3 0 6 0 _ _ rfl rfl rfl
    (by decide), rfl, rfl⟩

theorem InstructionEntry.GetTarget_sentinel :
    ∀ operands : List i386_operand,
      (∀ t ∈ operands, ∀ d, t.disps = some d → d.X_op ≠ .O_symbol) →
      (∀ t ∈ operands,
        (t.disp8 || t.disp16 || t.disp32 || t.disp32s || t.disp64) = true →
          t.disps ≠ none) →
      InstructionEntry.GetTarget operands = some "<UKNOWN>" := by
  intro operands
  induction operands with
  | nil => intro _ _; rfl
  | cons t rest ih =>
    intro h1 h2
    have hrest := ih (fun t1 ht => h1 t1 (by simp [ht])) (fun t1 ht => h2 t1 (by simp [ht]))
    unfold InstructionEntry.GetTarget
    split
    · split
      · rename_i hb
        cases hdp : t.disps with
        | none => exact absurd hdp (h2 t (by simp) hb)
        | some d =>
          simp only [if_neg (h1 t (by simp) d hdp)]
          exact hrest
      · exact hrest
    · exact hrest

/-- C25 (the code breaks the claim): for the instruction `ret`, which has no operand,
and for an instruction whose only operand is a register, `GetTarget` returns the
string `<UKNOWN>`, which is not the sentinel `<UNKNOWN>`; for a jump to the label `L`
it returns `L`. -/
theorem C25_sentinel_is_misspelled :
    InstructionEntry.GetTarget [] = some "<UKNOWN>" ∧
    InstructionEntry.GetTarget [plainOperand] = some "<UKNOWN>" ∧
    InstructionEntry.GetTarget [] ≠ some "<UNKNOWN>" ∧
    InstructionEntry.GetTarget [plainOperand, labelOperand "L"] = some "L" :=
  ⟨rfl, rfl, by decide, rfl⟩

/-! ## Functions found (C26) -/

theorem FindFunctions.scan_spec (u : MaoUnit) :
    ∀ (fuel entry_tail last : Nat), FindFunctions.scan u fuel entry_tail = some last →
      (last = entry_tail ∨ NextReach u.heap entry_tail last) ∧ endsFunction u last := by
  intro fuel
  induction fuel with
  | zero =>
    intro t last h
    simp [FindFunctions.scan] at h
  | succ k ih =>
    intro t last h
    simp only [FindFunctions.scan] at h
    cases ht : u.heap[t]? with
    | none => simp [ht] at h
    | some te =>
      simp only [ht] at h
      cases hn : te.next_ with
      | none =>
        simp only [hn, Option.some.injEq] at h
        subst h
        exact ⟨Or.inl rfl, te, ht, Or.inl hn⟩
      | some n =>
        simp only [hn] at h
        have hstep : ∀ last1, FindFunctions.scan u k n = some last1 →
            (last1 = t ∨ NextReach u.heap t last1) ∧ endsFunction u last1 := by
          intro last1 h1
          obtain ⟨h2, h3⟩ := ih n last1 h1
          refine ⟨Or.inr ?_, h3⟩
          rcases h2 with h2 | h2
          · rw [h2]
            exact NextReach.one ht hn
          · clear h3 h1 h
            induction h2 with
            | one ha hb => exact NextReach.more (NextReach.one ht hn) ha hb
            | more _ hb hc ih2 => exact NextReach.more ih2 hb hc
        cases hne : u.heap[n]? with
        | none => simp [hne] at h
        | some ne =>
          simp only [hne] at h
          cases hd : ne.data with
          | LABEL label_name =>
            simp only [hd] at h
            cases hs : SymbolTable.Find u.symbol_table_ label_name with
            | none => simp [hs] at h
            | some l_symbol =>
              simp only [hs] at h
              by_cases hf : l_symbol.IsFunction = true
              · simp only [hf, if_true, Option.some.injEq] at h
                subst h
                refine ⟨Or.inl rfl, te, ht, Or.inr ⟨n, hn, ?_⟩⟩
                unfold isFunctionLabel
                rw [hne]
                cases ne with
                | mk id_ next_ prev_ data =>
                  simp only [] at hd
                  subst hd
                  simp only [hs]
                  exact hf
              · simp only [hf, Bool.false_eq_true, if_false] at h
                exact hstep last h
          | UNDEFINED =>
            simp only [hd] at h
            exact hstep last h
          | INSTRUCTION _ =>
            simp only [hd] at h
            exact hstep last h
          | DIRECTIVE _ _ =>
            simp only [hd] at h
            exact hstep last h
          | DEBUG _ _ =>
            simp only [hd] at h
            exact hstep last h

theorem FindFunctions.one_spec (u : MaoUnit) (fuel : Nat) (symbol : Symbol) (fid : Nat)
    (f : Function) (hm : symbol ∈ u.symbol_table_) (hf : symbol.IsFunction = true)
    (h : FindFunctions.one u fuel symbol fid = some f) : foundFunction u f := by
  unfold FindFunctions.one at h
  cases hg : GetLabelEntry u symbol.name with
  | none => simp [hg] at h
  | some entry =>
    simp only [hg] at h
    cases he : u.heap[entry]? with
    | none => simp [he] at h
    | some e =>
      simp only [he] at h
      cases hd : e.data with
      | LABEL label_name =>
        simp only [hd] at h
        cases hn : e.next_ with
        | none => simp [hn] at h
        | some entry_tail =>
          simp only [hn] at h
          cases hp : prev u.heap (some entry_tail) with
          | none => simp [hp] at h
          | some pr =>
            simp only [hp] at h
            by_cases hpe : pr = some entry
            · simp only [if_pos hpe] at h
              cases hs : FindFunctions.scan u fuel entry_tail with
              | none => simp [hs] at h
              | some last =>
                simp only [hs, Option.some.injEq] at h
                subst h
                obtain ⟨h1, h2⟩ := FindFunctions.scan_spec u fuel entry_tail last hs
                refine ⟨symbol, entry, last, e, label_name, hm, hf, rfl, hg, rfl, he, hd, rfl,
                  ?_, h2⟩
                rcases h1 with h1 | h1
                · rw [h1]
                  exact NextReach.one he hn
                · clear h2 hs
                  induction h1 with
                  | one ha hb => exact NextReach.more (NextReach.one he hn) ha hb
                  | more _ hb hc ih2 => exact NextReach.more ih2 hb hc
            · simp only [if_neg hpe] at h
              cases h
      | UNDEFINED => simp [hd] at h
      | INSTRUCTION _ => simp [hd] at h
      | DIRECTIVE _ _ => simp [hd] at h
      | DEBUG _ _ => simp [hd] at h

theorem FindFunctions.loop_found (u : MaoUnit) (fuel : Nat) :
    ∀ (symbols : List Symbol) (fs fs1 : List Function),
      (∀ s ∈ symbols, s ∈ u.symbol_table_) →
      FindFunctions.loop u fuel symbols fs = some fs1 →
      ∀ f ∈ fs1, f ∈ fs ∨ foundFunction u f := by
  intro symbols
  induction symbols with
  | nil =>
    intro fs fs1 _ h f hf
    simp only [FindFunctions.loop, Option.some.injEq] at h
    subst h
    exact Or.inl hf
  | cons symbol rest ih =>
    intro fs fs1 hsub h f hf
    simp only [FindFunctions.loop] at h
    by_cases hfn : symbol.IsFunction = true
    · simp only [hfn, if_true] at h
      cases ho : FindFunctions.one u fuel symbol fs.length with
      | none => simp [ho] at h
      | some g =>
        simp only [ho] at h
        rcases ih (fs ++ [g]) fs1 (fun s hs => hsub s (by simp [hs])) h f hf with h1 | h1
        · rcases List.mem_append.mp h1 with h2 | h2
          · exact Or.inl h2
          · simp only [List.mem_singleton] at h2
            subst h2
            exact Or.inr (FindFunctions.one_spec u fuel symbol _ f (hsub symbol (by simp))
              hfn ho)
        · exact Or.inr h1
    · simp only [hfn, Bool.false_eq_true, if_false] at h
      exact ih fs fs1 (fun s hs => hsub s (by simp [hs])) h f hf

/-- C26: every function that `FindFunctions` adds to the unit belongs to a symbol
flagged as a function; its `first_entry` is the label entry of that name, its
`last_entry` is reached from `first_entry` by following next pointers, and the
successor of `last_entry` is null or a label whose symbol is flagged as a function.
(A defining label without a successor makes `FindFunctions` fail, so every function
found has one.) -/
theorem C26_function_range (u u1 : MaoUnit) (fuel : Nat) (f : Function)
    (h : FindFunctions u fuel = some u1) (hf : f ∈ u1.functions_) :
    f ∈ u.functions_ ∨ foundFunction u f := by
  unfold FindFunctions at h
  cases hl : FindFunctions.loop u fuel u.symbol_table_ u.functions_ with
  | none => simp [hl] at h
  | some fs =>
    simp only [hl, Option.some.injEq] at h
    subst h
    exact FindFunctions.loop_found u fuel _ _ fs (fun _ hs => hs) hl f hf

/-- C26, witness: in `f: nop; g: nop` the function `f` runs from entry 0 to entry 1, the
entry before the label `g`. -/
theorem C26_function_range_witness :
    (FindFunctions twoFunctionUnit 5).map MaoUnit.functions_ = some
      [{ name_ := "f", id_ := 0, first_entry_ := some 0, last_entry_ := some 1 },
       { name_ := "g", id_ := 1, first_entry_ := some 2, last_entry_ := some 3 }] ∧
    isFunctionLabel twoFunctionUnit 2 = true ∧
    foundFunction twoFunctionUnit
      { name_ := "f", id_ := 0, first_entry_ := some 0, last_entry_ := some 1 } := by
  refine ⟨rfl, rfl, ?_⟩
  obtain ⟨u1, hu⟩ : ∃ u1, FindFunctions twoFunctionUnit 5 = some u1 := ⟨_, rfl⟩
  have h := C26_function_range twoFunctionUnit u1 5
    { name_ := "f", id_ := 0, first_entry_ := some 0, last_entry_ := some 1 } hu
    (by cases hu; decide)
  rcases h with h | h
  · exact absurd h (by decide)
  · exact h

/-! ## The command line (C27) and the output of the IR (C28) -/

theorem remove_arg.loop_shifts (argc : Nat) :
    ∀ (n i : Nat) (argv : List String), n + i = argc → argc ≤ argv.length →
      ∃ r, remove_arg.loop argc n i argv = some r ∧ r.length = argv.length ∧
        ∀ j, r[j]? = if i ≤ j ∧ j + 1 < argc then argv[j + 1]? else argv[j]? := by
  intro n
  induction n with
  | zero =>
    intro i argv hn _
    refine ⟨argv, rfl, rfl, fun j => ?_⟩
    rw [if_neg]
    omega
  | succ k ih =>
    intro i argv hn hlen
    by_cases h : i + 1 < argc
    · obtain ⟨a, ha⟩ := exists_getElem? (show i + 1 < argv.length by omega)
      have hi : i < argv.length := by omega
      obtain ⟨r, hr, hrl, hrj⟩ := ih (i + 1) (argv.set i a) (by omega)
        (by rw [List.length_set]; exact hlen)
      refine ⟨r, ?_, ?_, fun j => ?_⟩
      · simp only [remove_arg.loop, if_pos h, ha, if_pos hi]
        exact hr
      · rw [hrl, List.length_set]
      · rw [hrj j]
        by_cases hj : i + 1 ≤ j ∧ j + 1 < argc
        · rw [if_pos hj, if_pos (by omega), List.getElem?_set, if_neg (by omega)]
        · rw [if_neg hj]
          by_cases hij : i = j
          · subst hij
            rw [if_pos (by omega), List.getElem?_set, if_pos rfl, if_pos hi, ha]
          · rw [if_neg (by omega), List.getElem?_set, if_neg hij]
    · obtain ⟨r, hr, hrl, hrj⟩ := ih (i + 1) argv (by omega) hlen
      have hk : k = 0 := by omega
      subst hk
      simp only [remove_arg.loop, Option.some.injEq] at hr
      subst hr
      refine ⟨argv, ?_, rfl, fun j => ?_⟩
      · simp only [remove_arg.loop, if_neg h]
      · rw [if_neg]
        omega

/-- The function `remove_arg` takes the argument at the index out of `argv[0..argc)`
and keeps the order of the others. -/
theorem remove_arg_spec (argc : Nat) (argv : List String) (index : Nat)
    (hi : index < argc) (hlen : argc ≤ argv.length) :
    ∃ argv1, remove_arg argc argv index = some (argc - 1, argv1) ∧
      argv1.length = argv.length ∧
      argv1.take (argc - 1) = (argv.take argc).eraseIdx index := by
  obtain ⟨r, hr, hrl, hrj⟩ := remove_arg.loop_shifts argc (argc - index) index argv (by omega)
    hlen
  refine ⟨r, by simp only [remove_arg, if_pos hi, hr], hrl, ?_⟩
  apply List.ext_getElem?
  intro j
  rw [List.getElem?_take, List.getElem?_eraseIdx, hrj j]
  by_cases h1 : j < argc - 1
  · rw [if_pos h1]
    by_cases h2 : j < index
    · rw [if_pos h2, if_neg (by omega), List.getElem?_take, if_pos (by omega)]
    · rw [if_neg h2, if_pos (by omega), List.getElem?_take, if_pos (by omega)]
  · rw [if_neg h1]
    by_cases h2 : j < index
    · omega
    · rw [if_neg h2, List.getElem?_take, if_neg (by omega)]

theorem forwarded_v (rest : List String) : forwarded ("-mao_v" :: rest) = forwarded rest := by
  cases rest <;> simp [forwarded]

theorem forwarded_value (a b : String) (rest : List String) (hv : a ≠ "-mao_v")
    (ha : a = "-mao_o" ∨ a = "-mao_ir") : forwarded (a :: b :: rest) = forwarded rest := by
  simp [forwarded, hv, ha]

theorem forwarded_other (a : String) (rest : List String) (hv : a ≠ "-mao_v")
    (ho : a ≠ "-mao_o") (hi : a ≠ "-mao_ir") : forwarded (a :: rest) = a :: forwarded rest := by
  cases rest <;> simp [forwarded, hv, ho, hi]

theorem optionsHaveValues_v (rest : List String) :
    optionsHaveValues ("-mao_v" :: rest) = optionsHaveValues rest := by
  cases rest <;> simp [optionsHaveValues]

theorem optionsHaveValues_value (a : String) (rest : List String) (hv : a ≠ "-mao_v")
    (ha : a = "-mao_o" ∨ a = "-mao_ir") (h : optionsHaveValues (a :: rest) = true) :
    ∃ b tl, rest = b :: tl ∧ optionsHaveValues tl = true := by
  cases rest with
  | nil => simp [optionsHaveValues, ha] at h
  | cons b tl => exact ⟨b, tl, rfl, by simpa [optionsHaveValues, hv, ha] using h⟩

theorem optionsHaveValues_other (a : String) (rest : List String) (hv : a ≠ "-mao_v")
    (ho : a ≠ "-mao_o") (hi : a ≠ "-mao_ir") :
    optionsHaveValues (a :: rest) = optionsHaveValues rest := by
  cases rest <;> simp [optionsHaveValues, hv, ho, hi]

theorem forwarded_no_option : ∀ (n : Nat) (args : List String), args.length ≤ n →
    ∀ a ∈ forwarded args, a ≠ "-mao_v" ∧ a ≠ "-mao_o" ∧ a ≠ "-mao_ir" := by
  intro n
  induction n with
  | zero =>
    intro args h a ha
    have : args = [] := List.length_eq_zero.mp (by omega)
    subst this
    simp [forwarded] at ha
  | succ k ih =>
    intro args h a ha
    cases args with
    | nil => simp [forwarded] at ha
    | cons x rest =>
      simp only [List.length_cons] at h
      by_cases hv : x = "-mao_v"
      · subst hv
        rw [forwarded_v] at ha
        exact ih rest (by omega) a ha
      · by_cases ho : x = "-mao_o" ∨ x = "-mao_ir"
        · cases rest with
          | nil => simp [forwarded, ho] at ha
          | cons b tl =>
            rw [forwarded_value x b tl hv ho] at ha
            exact ih tl (by simp at h; omega) a ha
        · rw [forwarded_other x rest hv (fun h1 => ho (Or.inl h1)) (fun h1 => ho (Or.inr h1))]
            at ha
          rcases List.mem_cons.mp ha with h1 | h1
          · subst h1
            exact ⟨hv, fun h1 => ho (Or.inl h1), fun h1 => ho (Or.inr h1)⟩
          · exact ih rest (by omega) a h1

theorem forwarded_sublist : ∀ (n : Nat) (args : List String), args.length ≤ n →
    (forwarded args).Sublist args := by
  intro n
  induction n with
  | zero =>
    intro args h
    have : args = [] := List.length_eq_zero.mp (by omega)
    subst this
    simp [forwarded]
  | succ k ih =>
    intro args h
    cases args with
    | nil => simp [forwarded]
    | cons x rest =>
      simp only [List.length_cons] at h
      by_cases hv : x = "-mao_v"
      · subst hv
        rw [forwarded_v]
        exact (ih rest (by omega)).cons _
      · by_cases ho : x = "-mao_o" ∨ x = "-mao_ir"
        · cases rest with
          | nil => simp [forwarded, ho]
          | cons b tl =>
            rw [forwarded_value x b tl hv ho]
            exact ((ih tl (by simp at h; omega)).cons _).cons _
        · rw [forwarded_other x rest hv (fun h1 => ho (Or.inl h1)) (fun h1 => ho (Or.inr h1))]
          exact (ih rest (by omega)).cons₂ _

theorem remove_arg_at (argc : Nat) (argv pre rest : List String) (a : String)
    (htake : argv.take argc = pre ++ a :: rest) (hlen : argc ≤ argv.length) :
    ∃ argv1, remove_arg argc argv pre.length = some (argc - 1, argv1) ∧
      argv1.length = argv.length ∧ argv1.take (argc - 1) = pre ++ rest ∧
      argc = pre.length + rest.length + 1 := by
  have hc : argc = pre.length + rest.length + 1 := by
    have := congrArg List.length htake
    simp only [List.length_take, List.length_append, List.length_cons] at this
    omega
  obtain ⟨argv1, h1, h2, h3⟩ := remove_arg_spec argc argv pre.length (by omega) hlen
  refine ⟨argv1, h1, h2, ?_, hc⟩
  rw [h3, htake, List.eraseIdx_append_of_length_le (le_refl _)]
  simp

theorem process_command_line_arguments.loop_forwards :
    ∀ (fuel : Nat) (s : ArgState) (pre rest : List String), rest.length < fuel →
      s.argv.take s.argc = pre ++ rest → pre.length = s.current_flag →
      s.argc ≤ s.argv.length → optionsHaveValues rest = true →
      ∃ s1, process_command_line_arguments.loop fuel s = some s1 ∧
        s1.argv.take s1.argc = pre ++ forwarded rest ∧
        s1.argc = pre.length + (forwarded rest).length := by
  intro fuel
  induction fuel with
  | zero =>
    intro s pre rest h
    simp at h
  | succ k ih =>
    intro s pre rest hfuel htake hpre hlen hopt
    have hc : s.argc = pre.length + rest.length := by
      have := congrArg List.length htake
      simp only [List.length_take, List.length_append] at this
      omega
    cases rest with
    | nil =>
      refine ⟨s, ?_, by simpa [forwarded] using htake, by simpa [forwarded] using hc⟩
      simp only [process_command_line_arguments.loop]
      rw [if_neg]
      simp at hc
      omega
    | cons a tl =>
      simp only [List.length_cons] at hc hfuel
      have hcur : s.current_flag < s.argc := by omega
      have hget : ∀ j, j < s.argc → s.argv[j]? = (pre ++ a :: tl)[j]? := by
        intro j hj
        rw [← htake, List.getElem?_take, if_pos hj]
      have ha : s.argv[s.current_flag]? = some a := by
        rw [hget _ hcur, ← hpre, List.getElem?_append_right (le_refl _)]
        simp
      obtain ⟨argv1, hr1, hl1, ht1, _⟩ := remove_arg_at s.argc s.argv pre tl a htake hlen
      rw [hpre] at hr1
      by_cases hv : a = "-mao_v"
      · subst hv
        obtain ⟨s1, h1, h2, h3⟩ := ih { s with argc := s.argc - 1, argv := argv1, v_flag := true }
          pre tl (by omega) ht1 hpre (by simp only []; omega)
          (by rw [← optionsHaveValues_v]; exact hopt)
        refine ⟨s1, ?_, by rw [forwarded_v]; exact h2, by rw [forwarded_v]; exact h3⟩
        simp only [process_command_line_arguments.loop, if_pos hcur, ha, if_true, hr1]
        exact h1
      · by_cases ho : a = "-mao_o" ∨ a = "-mao_ir"
        · obtain ⟨b, tl2, htl, hopt2⟩ := optionsHaveValues_value a tl hv ho hopt
          subst htl
          simp only [List.length_cons] at hc hfuel
          have hcur1 : s.current_flag + 1 < s.argc := by omega
          have hb : s.argv[s.current_flag + 1]? = some b := by
            rw [hget _ hcur1, ← hpre, List.getElem?_append_right (by omega)]
            simp
          obtain ⟨argv2, hr2, hl2, ht2, _⟩ :=
            remove_arg_at (s.argc - 1) argv1 pre tl2 b ht1 (by omega)
          rw [hpre] at hr2
          rcases ho with ho | ho
          · subst ho
            obtain ⟨s1, h1, h2, h3⟩ := ih
              { s with argc := s.argc - 1 - 1, argv := argv2, o_flag := true,
                       o_value := some b }
              pre tl2 (by omega) ht2 hpre (by simp only []; omega) hopt2
            refine ⟨s1, ?_, ?_, ?_⟩
            · simp only [process_command_line_arguments.loop, if_pos hcur, ha, if_neg hv,
                if_true, if_pos hcur1, hb, hr1, hr2]
              exact h1
            · rw [forwarded_value _ b tl2 hv (Or.inl rfl)]
              exact h2
            · rw [forwarded_value _ b tl2 hv (Or.inl rfl)]
              exact h3
          · subst ho
            obtain ⟨s1, h1, h2, h3⟩ := ih
              { s with argc := s.argc - 1 - 1, argv := argv2, ir_flag := true,
                       ir_value := some b }
              pre tl2 (by omega) ht2 hpre (by simp only []; omega) hopt2
            refine ⟨s1, ?_, ?_, ?_⟩
            · simp only [process_command_line_arguments.loop, if_pos hcur, ha, if_neg hv,
                if_true, if_pos hcur1, hb, hr1, hr2]
              rw [if_neg (by decide)]
              exact h1
            · rw [forwarded_value _ b tl2 hv (Or.inr rfl)]
              exact h2
            · rw [forwarded_value _ b tl2 hv (Or.inr rfl)]
              exact h3
        · have ho1 : a ≠ "-mao_o" := fun h1 => ho (Or.inl h1)
          have ho2 : a ≠ "-mao_ir" := fun h1 => ho (Or.inr h1)
          obtain ⟨s1, h1, h2, h3⟩ := ih { s with current_flag := s.current_flag + 1 }
            (pre ++ [a]) tl (by omega) (by simpa using htake) (by simp [hpre]) hlen
            (by rw [← optionsHaveValues_other a tl hv ho1 ho2]; exact hopt)
          refine ⟨s1, ?_, ?_, ?_⟩
          · simp only [process_command_line_arguments.loop, if_pos hcur, ha, if_neg hv,
              if_neg ho1, if_neg ho2]
            exact h1
          · rw [forwarded_other a tl hv ho1 ho2]
            simpa using h2
          · rw [forwarded_other a tl hv ho1 ho2, h3]
            simp
            omega

/-- C27: for an argument vector `args` (with `argc` its length, and anything behind it
in the array) in which every `-mao_o` and `-mao_ir` met as an option is followed by
another argument, `process_command_line_arguments` reaches its end: it leaves in
`argv[0..argc)` the arguments `forwarded args`, that is `args` in the original order
without every `-mao_v` met and without every `-mao_o` / `-mao_ir` met together with
the argument behind it; `argc` is their number, and none of them is `-mao_v`, `-mao_o`
or `-mao_ir`. -/
theorem C27_arguments_forwarded (args behind : List String) (options : MaoOptions)
    (fuel : Nat) (hfuel : args.length < fuel) (hopt : optionsHaveValues args = true) :
    ∃ r, process_command_line_arguments fuel args.length (args ++ behind) options = some r ∧
      r.argv.take r.argc = forwarded args ∧ r.argc = (forwarded args).length ∧
      (forwarded args).Sublist args ∧
      ∀ a ∈ forwarded args, a ≠ "-mao_v" ∧ a ≠ "-mao_o" ∧ a ≠ "-mao_ir" := by
  obtain ⟨s1, h1, h2, h3⟩ := process_command_line_arguments.loop_forwards fuel
    { argc := args.length, argv := args ++ behind, v_flag := false, o_flag := false,
      ir_flag := false, o_value := none, ir_value := none, current_flag := 0 }
    [] args hfuel (by simp) rfl (by simp) hopt
  simp only [process_command_line_arguments, h1]
  refine ⟨_, rfl, ?_, ?_, forwarded_sublist _ args (le_refl _),
    forwarded_no_option _ args (le_refl _)⟩
  · simpa using h2
  · simpa using h3

/-- C27, witness: `mao -mao_o out.s -g -mao_ir -mao_v in.s` leaves `mao -g in.s`; the
`-mao_v` behind `-mao_ir` is taken as the name of the IR file. -/
theorem C27_arguments_forwarded_witness :
    forwarded ["mao", "-mao_o", "out.s", "-g", "-mao_ir", "-mao_v", "in.s"] =
      ["mao", "-g", "in.s"] ∧
    ∃ r, process_command_line_arguments 8 7
        (["mao", "-mao_o", "out.s", "-g", "-mao_ir", "-mao_v", "in.s"] ++ []) MaoOptions.initial =
        some r ∧
      r.argv.take r.argc =
        forwarded ["mao", "-mao_o", "out.s", "-g", "-mao_ir", "-mao_v", "in.s"] ∧
      r.argc = (forwarded ["mao", "-mao_o", "out.s", "-g", "-mao_ir", "-mao_v", "in.s"]).length ∧
      (forwarded ["mao", "-mao_o", "out.s", "-g", "-mao_ir", "-mao_v", "in.s"]).Sublist
        ["mao", "-mao_o", "out.s", "-g", "-mao_ir", "-mao_v", "in.s"] ∧
      ∀ a ∈ forwarded ["mao", "-mao_o", "out.s", "-g", "-mao_ir", "-mao_v", "in.s"],
        a ≠ "-mao_v" ∧ a ≠ "-mao_o" ∧ a ≠ "-mao_ir" :=
  ⟨by decide, C27_arguments_forwarded
    ["mao", "-mao_o", "out.s", "-g", "-mao_ir", "-mao_v", "in.s"] [] MaoOptions.initial 8
    (by decide) (by decide)⟩

/-- C28 (the code breaks the claim): after the command line `mao -mao_ir out.ir in.s`,
`ir_ready` opens `out.ir` for writing and then calls `PrintIR()` without the file: the
dump of the IR is on the standard output and `out.ir` is left empty.  With `-mao_o
out.s` the assembly does go to `out.s`. -/
theorem C28_ir_goes_to_stdout :
    (process_command_line_arguments 5 4 ["mao", "-mao_ir", "out.ir", "in.s"]
        MaoOptions.initial).map
      (fun r => (r.options.write_ir, r.options.ir_output_file_name,
        ir_ready r.options exampleText { files := [], stdout := "" })) =
      some (true, "out.ir", { files := [("out.ir", "")], stdout := "[0] nop\n" }) ∧
    ({ files := [("out.ir", "")], stdout := "[0] nop\n" } : Output).content "out.ir" =
      some "" ∧
    (process_command_line_arguments 5 4 ["mao", "-mao_o", "out.s", "in.s"]
        MaoOptions.initial).map
      (fun r => ((ir_ready r.options exampleText { files := [], stdout := "" }).content
        "out.s",
        (ir_ready r.options exampleText { files := [], stdout := "" }).stdout)) =
      some (some "# MaoUnit:\n\tnop\n# Symbol table:\nf\n# Done\n", "") := by
  refine ⟨by decide, by decide, by decide⟩

/-! ## Printing of expressions (C29) and the symbol of a jump fragment (C30) -/

/-- C29: `OperandExpressionToString` returns a string exactly for the tags `O_constant`,
`O_symbol`, `O_add` and `O_subtract` and is a fatal error for every other tag.  It
appends the decimal `X_add_number`, for `O_constant` alone, for the other three tags
preceded by the symbols that are not null: `A+n` for `O_symbol`, `A+B+n` for `O_add`,
`A-B+n` for `O_subtract`, each symbol shown by `GetDotOrSymbol` (the name `L0\001` as a
dot). -/
theorem C29_expression_text (expr : expressionS) (out : String) :
    ((DirectiveEntry.OperandExpressionToString expr out).isSome = true ↔
      expr.X_op ∈ [operatorT.O_constant, operatorT.O_symbol, operatorT.O_add,
        operatorT.O_subtract]) ∧
    (expr.X_op = .O_constant →
      DirectiveEntry.OperandExpressionToString expr out =
        some (out ++ toString expr.X_add_number)) ∧
    (expr.X_op = .O_symbol →
      DirectiveEntry.OperandExpressionToString expr out =
        some (out ++ (DirectiveEntry.symbolText expr.X_add_symbol "+" ++
          toString expr.X_add_number)) ∧
      ∀ A, expr.X_add_symbol = some A →
        DirectiveEntry.OperandExpressionToString expr out =
          some (out ++ (DirectiveEntry.GetDotOrSymbol A ++ "+" ++
            toString expr.X_add_number))) ∧
    (expr.X_op = .O_add →
      DirectiveEntry.OperandExpressionToString expr out =
        some (out ++ (DirectiveEntry.symbolText expr.X_add_symbol "+" ++
          DirectiveEntry.symbolText expr.X_op_symbol "+" ++ toString expr.X_add_number)) ∧
      ∀ A B, expr.X_add_symbol = some A → expr.X_op_symbol = some B →
        DirectiveEntry.OperandExpressionToString expr out =
          some (out ++ (DirectiveEntry.GetDotOrSymbol A ++ "+" ++
            (DirectiveEntry.GetDotOrSymbol B ++ "+") ++ toString expr.X_add_number))) ∧
    (expr.X_op = .O_subtract →
      DirectiveEntry.OperandExpressionToString expr out =
        some (out ++ (DirectiveEntry.symbolText expr.X_add_symbol "-" ++
          DirectiveEntry.symbolText expr.X_op_symbol "+" ++ toString expr.X_add_number)) ∧
      ∀ A B, expr.X_add_symbol = some A → expr.X_op_symbol = some B →
        DirectiveEntry.OperandExpressionToString expr out =
          some (out ++ (DirectiveEntry.GetDotOrSymbol A ++ "-" ++
            (DirectiveEntry.GetDotOrSymbol B ++ "+") ++ toString expr.X_add_number))) := by
  refine ⟨?_, ?_, ?_, ?_, ?_⟩
  · cases h : expr.X_op <;> simp [DirectiveEntry.OperandExpressionToString, h]
  · intro h
    simp only [DirectiveEntry.OperandExpressionToString, h]
  · intro h
    refine ⟨by simp only [DirectiveEntry.OperandExpressionToString, h], fun A hA => ?_⟩
    simp only [DirectiveEntry.OperandExpressionToString, h, hA, DirectiveEntry.symbolText]
  · intro h
    refine ⟨by simp only [DirectiveEntry.OperandExpressionToString, h], fun A B hA hB => ?_⟩
    simp only [DirectiveEntry.OperandExpressionToString, h, hA, hB, DirectiveEntry.symbolText]
  · intro h
    refine ⟨by simp only [DirectiveEntry.OperandExpressionToString, h], fun A B hA hB => ?_⟩
    simp only [DirectiveEntry.OperandExpressionToString, h, hA, hB, DirectiveEntry.symbolText]

/-- C29, witness: the expression `a - . + 12` of tag `O_subtract` is written `a-.+12`;
an expression of tag `O_big` is a fatal error. -/
theorem C29_expression_text_witness :
    DirectiveEntry.OperandExpressionToString
      { X_op := .O_subtract, X_add_number := 12, X_unsigned := false,
        X_add_symbol := some "a", X_op_symbol := some "L0\x01" } "" = some "a-.+12" ∧
    (DirectiveEntry.OperandExpressionToString
      { X_op := .O_big, X_add_number := 12, X_unsigned := false,
        X_add_symbol := none, X_op_symbol := none } "").isSome = false := by
  have h := C29_expression_text
    { X_op := .O_subtract, X_add_number := 12, X_unsigned := false,
      X_add_symbol := some "a", X_op_symbol := some "L0\x01" } ""
  refine ⟨(((h.2.2.2.2 rfl).2 "a" "L0\x01" rfl rfl).trans (by decide)), by decide⟩

theorem FragVar_fragment (type : relax_stateT) (var : Int) (subtype : Nat)
    (symbol : Option symbolS) (offset : Int) (opcode : Option Nat) (st : BuildState)
    (new_frag : Bool) :
    ∃ f, (if new_frag then
            (FragVar type var subtype symbol offset opcode st new_frag).ended =
              st.ended ++ [f] ∧
            (FragVar type var subtype symbol offset opcode st new_frag).frag = NewFragment
          else
            (FragVar type var subtype symbol offset opcode st new_frag).ended = st.ended ∧
            (FragVar type var subtype symbol offset opcode st new_frag).frag = f) ∧
      f.fr_type = type ∧ f.fr_fix = st.frag.fr_fix ∧ f.fr_symbol = symbol ∧
      f.fr_offset = offset := by
  refine ⟨{ st.frag with fr_var := var, fr_type := type, fr_subtype := subtype,
                         fr_symbol := symbol, fr_offset := offset, fr_opcode := opcode },
    ?_, rfl, rfl, rfl, rfl⟩
  cases new_frag
  · exact ⟨rfl, rfl⟩
  · exact ⟨rfl, rfl⟩

/-- C30: `EndFragmentInstruction` is a fatal assertion for an instruction that is no
jump.  For a jump with the displacement `disps`, every result has the fragment ended as
`rs_machine_dependent` (and, with `new_frag`, a new current fragment); its `fr_symbol`
and `fr_offset` are `disps.X_add_symbol` and `disps.X_add_number` when the tag of
`disps` is `O_constant` or `O_symbol`, and `make_expr_symbol(disps)` and 0 for every
other tag.  There is a result exactly when the symbol so chosen is not null. -/
theorem C30_jump_fragment_symbol (env : Env) (insn : i386_insn) (st : BuildState)
    (new_frag : Bool) :
    (insn.jump = false → EndFragmentInstruction env insn st new_frag = none) ∧
    (∀ disps st1, insn.jump = true → insn.disps0 = some disps →
      EndFragmentInstruction env insn st new_frag = some st1 →
      ∃ f, (if new_frag then st1.ended = st.ended ++ [f] ∧ st1.frag = NewFragment
            else st1.ended = st.ended ∧ st1.frag = f) ∧
        f.fr_type = .rs_machine_dependent ∧ f.fr_fix = st.frag.fr_fix ∧
        ((disps.X_op = .O_constant ∨ disps.X_op = .O_symbol) →
          f.fr_symbol = disps.X_add_symbol.map symbolS.named ∧
          f.fr_offset = disps.X_add_number) ∧
        (¬ (disps.X_op = .O_constant ∨ disps.X_op = .O_symbol) →
          f.fr_symbol = some (symbolS.expr_symbol disps) ∧ f.fr_offset = 0)) ∧
    (∀ disps, insn.jump = true → insn.disps0 = some disps →
      ((∃ st1, EndFragmentInstruction env insn st new_frag = some st1) ↔
        (¬ (disps.X_op = .O_constant ∨ disps.X_op = .O_symbol) ∨
          disps.X_add_symbol ≠ none))) := by
  refine ⟨?_, ?_, ?_⟩
  · intro hj
    simp [EndFragmentInstruction, hj]
  · intro disps st1 hj hd h
    by_cases hcx : disps.X_op ≠ .O_constant ∧ disps.X_op ≠ .O_symbol
    · have hn : ¬ (disps.X_op = .O_constant ∨ disps.X_op = .O_symbol) := by tauto
      simp only [EndFragmentInstruction, hj, hd, if_pos hcx, Bool.true_eq_false, if_false,
        Option.some.injEq] at h
      subst h
      obtain ⟨f, h1, h2, h3, h4, h5⟩ := FragVar_fragment .rs_machine_dependent insn.reloc0
        ((if insn.base_opcode = env.JUMP_PC_RELATIVE then (0 <<< 2) ||| 0
          else if env.cpui386 then (1 <<< 2) ||| 0 else (2 <<< 2) ||| 0) |||
          (if insn.data_prefix_slot ≠ 0 then (if env.flag_code_16bit then 1 else 0) ^^^ 1
           else if env.flag_code_16bit then 1 else 0))
        (some (symbolS.expr_symbol disps)) 0 (some insn.base_opcode) st new_frag
      exact ⟨f, h1, h2, h3, fun h6 => absurd h6 hn, fun _ => ⟨h4, h5⟩⟩
    · have hs : disps.X_op = .O_constant ∨ disps.X_op = .O_symbol := by tauto
      cases hsym : disps.X_add_symbol with
      | none => simp [EndFragmentInstruction, hj, hd, if_neg hcx, hsym] at h
      | some name =>
        simp only [EndFragmentInstruction, hj, hd, if_neg hcx, hsym, Bool.true_eq_false,
          if_false, Option.map_some', Option.some.injEq] at h
        subst h
        obtain ⟨f, h1, h2, h3, h4, h5⟩ := FragVar_fragment .rs_machine_dependent insn.reloc0
          ((if insn.base_opcode = env.JUMP_PC_RELATIVE then (0 <<< 2) ||| 0
            else if env.cpui386 then (1 <<< 2) ||| 0 else (2 <<< 2) ||| 0) |||
            (if insn.data_prefix_slot ≠ 0 then (if env.flag_code_16bit then 1 else 0) ^^^ 1
             else if env.flag_code_16bit then 1 else 0))
          (some (symbolS.named name)) disps.X_add_number (some insn.base_opcode) st new_frag
        exact ⟨f, h1, h2, h3, fun _ => ⟨h4, h5⟩, fun h6 => absurd hs h6⟩
  · intro disps hj hd
    by_cases hcx : disps.X_op ≠ .O_constant ∧ disps.X_op ≠ .O_symbol
    · have hn : ¬ (disps.X_op = .O_constant ∨ disps.X_op = .O_symbol) := by tauto
      simp only [EndFragmentInstruction, hj, hd, if_pos hcx, Bool.true_eq_false, if_false]
      exact ⟨fun _ => Or.inl hn, fun _ => ⟨_, rfl⟩⟩
    · have hs : disps.X_op = .O_constant ∨ disps.X_op = .O_symbol := by tauto
      cases hsym : disps.X_add_symbol with
      | none =>
        simp only [EndFragmentInstruction, hj, hd, if_neg hcx, hsym, Bool.true_eq_false,
          if_false, Option.map_none']
        constructor
        · rintro ⟨st1, h⟩
          cases h
        · intro h
          rcases h with h | h
          · exact absurd hs h
          · exact absurd rfl h
      | some name =>
        simp only [EndFragmentInstruction, hj, hd, if_neg hcx, hsym, Bool.true_eq_false,
          if_false, Option.map_some']
        exact ⟨fun _ => Or.inr (by simp), fun _ => ⟨_, rfl⟩⟩

/-- C30, witness: for `jmp L` the fragment gets the symbol `L` and the offset 0; for a
jump whose displacement is the difference of two symbols it gets the symbol made for
the expression. -/
theorem C30_jump_fragment_symbol_witness :
    (EndFragmentInstruction exampleEnv
      { op := 1, jump := true, base_opcode := 235, data_prefix_slot := 0,
        disps0 := some { X_op := .O_symbol, X_add_number := 0, X_unsigned := false,
                         X_add_symbol := some "L", X_op_symbol := none },
        reloc0 := 0 } (startState []) true).map
      (fun s => s.ended.map (fun f => (f.fr_symbol, f.fr_offset))) =
      some [(some (symbolS.named "L"), 0)] ∧
    ((∃ st1, EndFragmentInstruction exampleEnv
      { op := 1, jump := true, base_opcode := 235, data_prefix_slot := 0,
        disps0 := some { X_op := .O_subtract, X_add_number := 4, X_unsigned := false,
                         X_add_symbol := some "a", X_op_symbol := some "b" },
        reloc0 := 0 } (startState []) true = some st1) ↔
      (¬ (operatorT.O_subtract = operatorT.O_constant ∨
          operatorT.O_subtract = operatorT.O_symbol) ∨
        (some "a" : Option String) ≠ none)) :=
  ⟨rfl, (C30_jump_fragment_symbol exampleEnv _ (startState []) true).2.2 _ rfl rfl⟩

/-! ## The relax subtype of a jump fragment -/

theorem FragVar_subtype (type : relax_stateT) (var : Int) (subtype : Nat)
    (symbol : Option symbolS) (offset : Int) (opcode : Option Nat) (st : BuildState)
    (new_frag : Bool) :
    ∃ f, (if new_frag then
            (FragVar type var subtype symbol offset opcode st new_frag).ended =
              st.ended ++ [f] ∧
            (FragVar type var subtype symbol offset opcode st new_frag).frag = NewFragment
          else
            (FragVar type var subtype symbol offset opcode st new_frag).ended = st.ended ∧
            (FragVar type var subtype symbol offset opcode st new_frag).frag = f) ∧
      f.fr_type = type ∧ f.fr_subtype = subtype ∧ f.fr_var = var ∧ f.fr_opcode = opcode := by
  refine ⟨{ st.frag with fr_var := var, fr_type := type, fr_subtype := subtype,
                         fr_symbol := symbol, fr_offset := offset, fr_opcode := opcode },
    ?_, rfl, rfl, rfl, rfl⟩
  cases new_frag
  · exact ⟨rfl, rfl⟩
  · exact ⟨rfl, rfl⟩

/-- Every result of `EndFragmentInstruction` is the result of `FragVar` on a symbol and
an offset, with the relax subtype computed from the instruction and the flags. -/
theorem EndFragmentInstruction_eq {env : Env} {insn : i386_insn} {st st1 : BuildState}
    {new_frag : Bool} (h : EndFragmentInstruction env insn st new_frag = some st1) :
    ∃ sym off, st1 = FragVar .rs_machine_dependent insn.reloc0
      ((if insn.base_opcode = env.JUMP_PC_RELATIVE then (0 <<< 2) ||| 0
        else if env.cpui386 then (1 <<< 2) ||| 0 else (2 <<< 2) ||| 0) |||
        (if insn.data_prefix_slot ≠ 0 then (if env.flag_code_16bit then 1 else 0) ^^^ 1
         else if env.flag_code_16bit then 1 else 0))
      sym off (some insn.base_opcode) st new_frag := by
  unfold EndFragmentInstruction at h
  by_cases hj : insn.jump = false
  · simp only [if_pos hj] at h
    cases h
  · simp only [if_neg hj] at h
    cases hd : insn.disps0 with
    | none =>
      simp only [hd] at h
      cases h
    | some disps =>
      simp only [hd] at h
      by_cases hcx : disps.X_op ≠ .O_constant ∧ disps.X_op ≠ .O_symbol
      · simp only [if_pos hcx, Option.some.injEq] at h
        exact ⟨_, _, h.symm⟩
      · simp only [if_neg hcx] at h
        cases hx : disps.X_add_symbol with
        | none =>
          simp only [hx, Option.map_none'] at h
          cases h
        | some nm =>
          simp only [hx, Option.map_some', Option.some.injEq] at h
          exact ⟨_, _, h.symm⟩

/-- C31: the fragment that `EndFragmentInstruction` ends for a jump has the relax
subtype `(kind << 2) | code16`: `kind` is 0 when the base opcode is `JUMP_PC_RELATIVE`,
1 for another jump when the CPU has i386, 2 otherwise; `code16` is 1 exactly when one
but not both of 16-bit code mode and a data-size prefix holds.  So the subtype is one
of 0, 1, 4, 5, 8, 9 and its bit of value 2 (`BIG`) is clear. -/
theorem C31_jump_subtype (env : Env) (insn : i386_insn) (st st1 : BuildState)
    (new_frag : Bool) (h : EndFragmentInstruction env insn st new_frag = some st1) :
    ∃ f, (if new_frag then st1.ended = st.ended ++ [f] ∧ st1.frag = NewFragment
          else st1.ended = st.ended ∧ st1.frag = f) ∧
      f.fr_type = .rs_machine_dependent ∧
      f.fr_subtype =
        ((if insn.base_opcode = env.JUMP_PC_RELATIVE then 0
          else if env.cpui386 then 1 else 2) <<< 2) |||
        (if (env.flag_code_16bit != decide (insn.data_prefix_slot ≠ 0)) = true then 1
         else 0) ∧
      f.fr_subtype ∈ [0, 1, 4, 5, 8, 9] ∧ f.fr_subtype &&& 2 = 0 := by
  obtain ⟨sym, off, rfl⟩ := EndFragmentInstruction_eq h
  obtain ⟨f, h1, h2, h3, _, _⟩ := FragVar_subtype .rs_machine_dependent insn.reloc0
    ((if insn.base_opcode = env.JUMP_PC_RELATIVE then (0 <<< 2) ||| 0
      else if env.cpui386 then (1 <<< 2) ||| 0 else (2 <<< 2) ||| 0) |||
      (if insn.data_prefix_slot ≠ 0 then (if env.flag_code_16bit then 1 else 0) ^^^ 1
       else if env.flag_code_16bit then 1 else 0))
    sym off (some insn.base_opcode) st new_frag
  refine ⟨f, h1, h2, ?_, ?_, ?_⟩ <;> rw [h3] <;>
    by_cases hb : insn.base_opcode = env.JUMP_PC_RELATIVE <;>
    by_cases hp : insn.data_prefix_slot = 0 <;>
    cases hc : env.cpui386 <;> cases hf : env.flag_code_16bit <;>
    simp [hb, hp] <;> decide

/-- C31, witness: `jmp L` with base opcode `JUMP_PC_RELATIVE` in 32-bit mode gets the
subtype 0. -/
theorem C31_jump_subtype_witness :
    ∃ st1 f, EndFragmentInstruction exampleEnv
        { op := 1, jump := true, base_opcode := 235, data_prefix_slot := 0,
          disps0 := some { X_op := .O_symbol, X_add_number := 0, X_unsigned := false,
                           X_add_symbol := some "L", X_op_symbol := none },
          reloc0 := 0 } (startState []) true = some st1 ∧
      st1.ended = [f] ∧ f.fr_subtype = 0 ∧ f.fr_subtype ∈ [0, 1, 4, 5, 8, 9] := by
  obtain ⟨st1, hst⟩ : ∃ st1, EndFragmentInstruction exampleEnv
      { op := 1, jump := true, base_opcode := 235, data_prefix_slot := 0,
        disps0 := some { X_op := .O_symbol, X_add_number := 0, X_unsigned := false,
                         X_add_symbol := some "L", X_op_symbol := none },
        reloc0 := 0 } (startState []) true = some st1 := ⟨_, rfl⟩
  obtain ⟨f, h1, _, h3, h4, _⟩ := C31_jump_subtype exampleEnv _ (startState []) st1 true hst
  simp only [if_true] at h1
  exact ⟨st1, f, hst, h1.1, h3, h4⟩

/-! ## The tail fragment and the alignment fragments (C34, C35) -/

theorem EndFragmentAlign_code (code : Bool) (alignment max : Int) (st : BuildState)
    (new_frag : Bool) :
    EndFragmentAlign code alignment max st new_frag =
      FragVar .rs_align_code 1 (max % 4294967296).toNat none alignment none st new_frag := by
  cases code <;> rfl

theorem BuildFragments.p2align_code (a b : Bool) (entry : Nat) (operands : List Operand)
    (st : BuildState) :
    BuildFragments.p2align a entry operands st = BuildFragments.p2align b entry operands st := by
  unfold BuildFragments.p2align
  split
  · simp only [EndFragmentAlign_code]
  · rfl

theorem BuildFragments.step_code (env : Env) (a b : Bool) (st : BuildState) (entry : Nat) :
    BuildFragments.step env a st entry = BuildFragments.step env b st entry := by
  cases a <;> cases b <;> rfl

theorem BuildFragments.loop_code (env : Env) (a b : Bool) (entries : List Nat) :
    ∀ st, BuildFragments.loop env a st entries = BuildFragments.loop env b st entries := by
  induction entries with
  | nil => intro st; rfl
  | cons e rest ih =>
    intro st
    simp only [BuildFragments.loop, BuildFragments.step_code env a b st e]
    cases BuildFragments.step env b st e with
    | none => rfl
    | some st1 => exact ih st1

/-- C35: `EndFragmentAlign` produces the same fragment whether `code` is true or
false: type `rs_align_code`, `fr_var` 1, `fr_subtype` the value of `max` as an unsigned
32-bit number, `fr_offset` the alignment, no symbol and no opcode.  So the state that
`BuildFragments` returns does not depend on the name of the section. -/
theorem C35_align_ignores_code (alignment max : Int) (st : BuildState) (new_frag : Bool) :
    EndFragmentAlign true alignment max st new_frag =
      EndFragmentAlign false alignment max st new_frag ∧
    (∀ code : Bool, ∃ f,
      (if new_frag then
         (EndFragmentAlign code alignment max st new_frag).ended = st.ended ++ [f] ∧
         (EndFragmentAlign code alignment max st new_frag).frag = NewFragment
       else
         (EndFragmentAlign code alignment max st new_frag).ended = st.ended ∧
         (EndFragmentAlign code alignment max st new_frag).frag = f) ∧
      f.fr_type = .rs_align_code ∧ f.fr_var = 1 ∧
      (f.fr_subtype : Int) = max % 4294967296 ∧ f.fr_offset = alignment ∧
      f.fr_symbol = none ∧ f.fr_opcode = none ∧ f.fr_fix = st.frag.fr_fix) ∧
    (∀ (env : Env) (heap : List MaoEntry) (name1 name2 : String) (entries : List Nat)
      (m : SizeMap),
      BuildFragments env heap name1 entries m = BuildFragments env heap name2 entries m) := by
  refine ⟨rfl, ?_, ?_⟩
  · intro code
    rw [EndFragmentAlign_code]
    refine ⟨{ st.frag with fr_var := 1, fr_type := .rs_align_code,
                           fr_subtype := (max % 4294967296).toNat,
                           fr_symbol := none, fr_offset := alignment, fr_opcode := none },
      ?_, rfl, rfl, ?_, rfl, rfl, rfl, rfl⟩
    · cases new_frag
      · exact ⟨rfl, rfl⟩
      · exact ⟨rfl, rfl⟩
    · exact Int.toNat_of_nonneg (Int.emod_nonneg _ (by decide))
  · intro env heap name1 name2 entries m
    unfold BuildFragments
    simp only [EndFragmentAlign_code,
      BuildFragments.loop_code env (decide (name1 = ".text")) (decide (name2 = ".text"))]

/-- C34: after `BuildFragments` on the entries of a section the chain has one fragment
more than were ended; every key of `relax_map` is a fragment with a successor, bound to
an entry of the section, and the keys are exactly the fragments before the tail; no
entry is bound to two fragments; the tail, closed with alignment 0 and max 0, is not a
key; so the loop that updates the sizes returns on every chain of that length. -/
theorem C34_keys_have_successor (env : Env) (u : MaoUnit) (s : Section) (fuel : Nat)
    (entries : List Nat) (m0 : SizeMap) (st : BuildState)
    (he : s.entries u fuel = some entries)
    (hb : BuildFragments env u.heap s.name_ entries m0 = some st) :
    st.fragments.length = st.ended.length + 1 ∧
    (∀ i e, st.relax_map.lookup i = some e →
      e ∈ entries ∧ ∃ f fr_next, st.fragments[i]? = some f ∧
        st.fragments[i + 1]? = some fr_next) ∧
    (∀ i, (∃ e, st.relax_map.lookup i = some e) ↔ i + 1 < st.fragments.length) ∧
    (∀ i j e, st.relax_map.lookup i = some e → st.relax_map.lookup j = some e → i = j) ∧
    st.fragments[st.ended.length]? = some st.frag ∧
    st.relax_map.lookup st.ended.length = none ∧
    st.frag.fr_type = .rs_align_code ∧ st.frag.fr_offset = 0 ∧ st.frag.fr_subtype = 0 ∧
    (∀ (fs : List frag) (m : SizeMap), fs.length = st.fragments.length →
      ∃ m1, Relax.updateSizes st.relax_map 0 fs m = some m1) := by
  have hk := RelaxKeys.of_BuildFragments (Section.entries_nodup he) hb
  have hfl : st.fragments.length = st.ended.length + 1 := by
    simp [BuildState.fragments]
  have hkey : ∀ i e, st.relax_map.lookup i = some e → i < st.ended.length := by
    intro i e h
    by_contra hc
    rw [hk.free i (by omega)] at h
    cases h
  have htail : st.frag.fr_type = .rs_align_code ∧ st.frag.fr_offset = 0 ∧
      st.frag.fr_subtype = 0 := by
    unfold BuildFragments at hb
    simp only [] at hb
    cases hlo : BuildFragments.loop env (decide (s.name_ = ".text"))
        { heap := u.heap, ended := [], frag := NewFragment, size_map := m0,
          relax_map := [] } entries with
    | none => simp [hlo] at hb
    | some st0 =>
      simp only [hlo, Option.some.injEq] at hb
      subst hb
      rw [EndFragmentAlign_code]
      exact ⟨rfl, rfl, rfl⟩
  refine ⟨hfl, ?_, ?_, hk.inj, ?_, hk.free _ (le_refl _), htail.1, htail.2.1, htail.2.2, ?_⟩
  · intro i e h
    have hi := hkey i e h
    obtain ⟨e1, h1, h2⟩ := hk.bound i hi
    rw [h] at h1
    cases h1
    obtain ⟨f, hf⟩ := exists_getElem? (show i < st.fragments.length by omega)
    obtain ⟨g, hg⟩ := exists_getElem? (show i + 1 < st.fragments.length by omega)
    exact ⟨h2, f, g, hf, hg⟩
  · intro i
    rw [hfl]
    constructor
    · rintro ⟨e, h⟩
      have := hkey i e h
      omega
    · intro hi
      obtain ⟨e, h, _⟩ := hk.bound i (by omega)
      exact ⟨e, h⟩
  · simp [BuildState.fragments]
  · intro fs m hlen
    refine Relax.updateSizes_total st.relax_map fs 0 m ?_
    intro j hj
    exact hk.free j (by omega)

/-- C34, witness: in the section `.text` holding one `.byte`, `jmp L` and one `.long`
the only key is fragment 0, ended by the jump; the tail fragment 1 is not a key. -/
theorem C34_keys_have_successor_witness :
    ∃ st, BuildFragments exampleEnv byteJumpLongUnit.heap ".text" [0, 1, 2] [] = some st ∧
      st.relax_map = [(0, 1)] ∧ st.fragments.length = 2 ∧
      st.relax_map.lookup 1 = none ∧
      (∀ (fs : List frag) (m : SizeMap), fs.length = st.fragments.length →
        ∃ m1, Relax.updateSizes st.relax_map 0 fs m = some m1) := by
  obtain ⟨st, hst⟩ :
      ∃ st, BuildFragments exampleEnv byteJumpLongUnit.heap ".text" [0, 1, 2] [] = some st :=
    ⟨_, rfl⟩
  have h := C34_keys_have_successor exampleEnv byteJumpLongUnit
    { name_ := ".text", id_ := 0, subsections_ := [0] } 4 [0, 1, 2] [] st rfl hst
  refine ⟨st, hst, ?_, ?_, ?_, h.2.2.2.2.2.2.2.2.2⟩ <;> (cases hst; rfl)

/-! ## The visit marks each block once (C36) -/

theorem BasicBlockMap.lookup_append_of_not_mem (a m : BasicBlockMap) (k : Nat)
    (h : k ∉ a.map Prod.fst) : (a ++ m).lookup k = m.lookup k := by
  induction a with
  | nil => rfl
  | cons p rest ih =>
    obtain ⟨k1, v⟩ := p
    simp only [List.map_cons, List.mem_cons, not_or] at h
    have hb : (k == k1) = false := by simpa using h.1
    simp only [List.cons_append, List.lookup, hb]
    exact ih h.2

theorem BasicBlockMap.get_append_of_mem (a m : BasicBlockMap) (k : Nat)
    (hv : ∀ p ∈ a, p.2 = true) (h : k ∈ a.map Prod.fst) : (a ++ m).get k = true := by
  induction a with
  | nil => simp at h
  | cons p rest ih =>
    obtain ⟨k1, v⟩ := p
    by_cases hk : k = k1
    · subst hk
      have := hv (k, v) (by simp)
      simp only at this
      subst this
      simp [BasicBlockMap.get, List.lookup]
    · have hb : (k == k1) = false := by simpa using hk
      have hr : k ∈ rest.map Prod.fst := by
        simp only [List.map_cons, List.mem_cons] at h
        rcases h with h | h
        · exact absurd h hk
        · exact h
      have := ih (fun p hp => hv p (by simp [hp])) hr
      simpa [BasicBlockMap.get, List.lookup, hb] using this

theorem Visit.Writes.same (m : BasicBlockMap) : Visit.Writes m m :=
  ⟨[], rfl, by simp, by simp⟩

theorem Visit.Writes.mark {m : BasicBlockMap} {bb : Nat} (h : m.get bb = false) :
    Visit.Writes m (m.set bb true) :=
  ⟨[(bb, true)], rfl, by simp, by simpa using h⟩

theorem Visit.Writes.then {m m2 m1 : BasicBlockMap} (h1 : Visit.Writes m m2)
    (h2 : Visit.Writes m2 m1) : Visit.Writes m m1 := by
  obtain ⟨a1, rfl, hn1, hv1⟩ := h1
  obtain ⟨a2, rfl, hn2, hv2⟩ := h2
  have hdis : ∀ k, k ∈ a2.map Prod.fst → k ∉ a1.map Prod.fst := by
    intro k hk2 hk1
    obtain ⟨p, hp, rfl⟩ := List.mem_map.mp hk2
    have h3 := (hv2 p hp).2
    rw [BasicBlockMap.get_append_of_mem a1 m p.1 (fun q hq => (hv1 q hq).1) hk1] at h3
    cases h3
  refine ⟨a2 ++ a1, by simp, ?_, ?_⟩
  · rw [List.map_append, List.nodup_append]
    exact ⟨hn2, hn1, fun k hk2 hk1 => hdis k hk2 hk1⟩
  · intro p hp
    rcases List.mem_append.mp hp with h | h
    · refine ⟨(hv2 p h).1, ?_⟩
      have h3 := (hv2 p h).2
      have hnot := hdis p.1 (List.mem_map.mpr ⟨p, h, rfl⟩)
      simpa [BasicBlockMap.get, BasicBlockMap.lookup_append_of_not_mem a1 m p.1 hnot] using h3
    · exact hv1 p h

theorem Visit.foldl_none (cfg : CFG) (k : Nat) (ts : List Nat) :
    ts.foldl (fun acc target =>
        match acc with
        | none => none
        | some m2 => Visit cfg k target m2) (none : Option BasicBlockMap) = none := by
  induction ts with
  | nil => rfl
  | cons t rest ih => simpa using ih

/-- Whatever `Visit` returns is its argument with new, distinct marks in front. -/
theorem Visit.writes (cfg : CFG) :
    ∀ (fuel bb : Nat) (m m1 : BasicBlockMap), Visit cfg fuel bb m = some m1 →
      Visit.Writes m m1 := by
  intro fuel
  induction fuel with
  | zero =>
    intro bb m m1 h
    simp [Visit] at h
  | succ k ih =>
    intro bb m m1 h
    by_cases hm : m.get bb = true
    · simp only [Visit, hm, if_true, Option.some.injEq] at h
      subst h
      exact Visit.Writes.same m
    · have hmf : m.get bb = false := by simpa using hm
      simp only [Visit, hm] at h
      cases hb : cfg[bb]? with
      | none => simp [hb] at h
      | some b =>
        simp only [hb] at h
        have hedges : ∀ (ts : List Nat) (m0 : BasicBlockMap),
            ts.foldl (fun acc target =>
              match acc with
              | none => none
              | some m2 => Visit cfg k target m2) (some m0) = some m1 →
            Visit.Writes m0 m1 := by
          intro ts
          induction ts with
          | nil =>
            intro m0 h0
            simp only [List.foldl_nil, Option.some.injEq] at h0
            subst h0
            exact Visit.Writes.same m0
          | cons t rest iht =>
            intro m0 h0
            simp only [List.foldl_cons] at h0
            cases hv : Visit cfg k t m0 with
            | none =>
              rw [hv, Visit.foldl_none] at h0
              cases h0
            | some m2 =>
              rw [hv] at h0
              exact (ih t m0 m2 hv).then (iht m2 h0)
        exact (Visit.Writes.mark hmf).then (hedges b.out_edges_ _ h)

/-- C36: on a graph whose out-edges lead to blocks of the graph, cycles and self-loops
included, `Visit(bb, bbmap)` returns with every recursion depth above the number of
blocks; what it returns is `bbmap` with new marks in front, no block is marked twice,
every block it marks was unmarked, and the binding of a block that was marked is the
one it had. -/
theorem C36_visit_terminates (cfg : CFG)
    (hedges : ∀ b ∈ cfg, ∀ t ∈ b.out_edges_, t < cfg.length)
    (fuel bb : Nat) (m : BasicBlockMap) (hbb : bb < cfg.length) (hfuel : cfg.length < fuel) :
    ∃ m1 added, Visit cfg fuel bb m = some m1 ∧ m1 = added ++ m ∧
      (added.map Prod.fst).Nodup ∧
      (∀ p ∈ added, p.2 = true ∧ m.get p.1 = false) ∧
      (∀ x, m.get x = true → m1.lookup x = m.lookup x) ∧
      m1.get bb = true := by
  have hcard : (unmarked cfg m).card < fuel := by
    have : (unmarked cfg m).card ≤ (Finset.range cfg.length).card :=
      Finset.card_le_card (Finset.filter_subset _ _)
    simp only [Finset.card_range] at this
    omega
  obtain ⟨m1, hv, hvis⟩ := Visit.visited cfg hedges fuel bb m hbb hcard
  obtain ⟨added, rfl, hnd, hadd⟩ := Visit.writes cfg fuel bb m _ hv
  refine ⟨_, added, hv, rfl, hnd, hadd, ?_, hvis.self⟩
  intro x hx
  apply BasicBlockMap.lookup_append_of_not_mem
  intro hmem
  obtain ⟨p, hp, rfl⟩ := List.mem_map.mp hmem
  rw [(hadd p hp).2] at hx
  cases hx

/-- C36, witness: in the graph with the cycle 0 → 2 → 0 and the self-loop at block 2
the visit from block 0 returns having marked block 0 and block 2 once each. -/
theorem C36_visit_terminates_witness :
    Visit exampleCFG 4 0 [(1, false)] = some [(2, true), (0, true), (1, false)] ∧
    ∃ m1 added, Visit exampleCFG 4 0 [(1, false)] = some m1 ∧ m1 = added ++ [(1, false)] ∧
      (added.map Prod.fst).Nodup ∧
      (∀ p ∈ added, p.2 = true ∧ BasicBlockMap.get [(1, false)] p.1 = false) ∧
      (∀ x, BasicBlockMap.get [(1, false)] x = true →
        m1.lookup x = List.lookup x [(1, false)]) ∧
      m1.get 0 = true :=
  ⟨by decide, C36_visit_terminates exampleCFG (by decide) 4 0 [(1, false)] (by decide)
    (by decide)⟩

/-! ## The scan looks at no more than lookahead instructions (C32) -/

/-- One turn of the loop of the scan at the instruction `n`: either `n` is not examined
and the scan stops with what it had found; or `n` is examined, possibly reported as the
second member of a pair, and the scan stops there when `n` defines a register of
`mask`, and goes on behind `n` otherwise. -/
theorem RedMemMovElimPass.scan_turn {env : DefsEnv} {heap : List MaoEntry} {fuel : Nat}
    {tracing_level : Int} {mask r insn n : Nat} {found result : List (Nat × Nat)}
    (h : RedMemMovElimPass.scan env heap fuel tracing_level mask (r + 1) insn (some n)
      found = some result) :
    (RedMemMovElimPass.examined env heap n = false ∧ result = found) ∨
    (RedMemMovElimPass.examined env heap n = true ∧
      ∃ found1, (found1 = found ∨ found1 = found ++ [(insn, n)]) ∧
        ((env.GetRegisterDefMask n &&& mask ≠ 0 ∧ result = found1) ∨
         (env.GetRegisterDefMask n &&& mask = 0 ∧ ∃ next1 insn1,
            nextInstruction heap fuel n = some next1 ∧
            RedMemMovElimPass.scan env heap fuel tracing_level mask r insn1 next1 found1 =
              some result))) := by
  simp only [RedMemMovElimPass.scan] at h
  unfold RedMemMovElimPass.examined
  cases he : heap[n]? with
  | none => simp [he] at h
  | some e =>
    simp only [he] at h ⊢
    cases hd : e.data with
    | INSTRUCTION ni =>
      simp only [hd] at h ⊢
      split at h
      · rename_i hctl
        simp only [Option.some.injEq] at h
        left
        exact ⟨by simp [hctl], h.symm⟩
      · rename_i hctl
        split at h
        · rename_i hdefs
          simp only [Option.some.injEq] at h
          left
          refine ⟨?_, h.symm⟩
          simp only [Bool.and_eq_false_iff, decide_eq_false_iff_not]
          right
          tauto
        · rename_i hdefs
          right
          refine ⟨?_, ?_⟩
          · simp only [Bool.and_eq_true, Bool.not_eq_true', decide_eq_true_eq]
            refine ⟨by simpa using hctl, ?_⟩
            tauto
          · refine ⟨if (RedMemMovElimPass.isLoad env n &&
                env.CompareMemOperand insn 0 n 0) = true then found ++ [(insn, n)]
                else found, ?_, ?_⟩
            · split
              · right; rfl
              · left; rfl
            · split at h
              · rename_i hm
                simp only [Option.some.injEq] at h
                left
                exact ⟨hm, h.symm⟩
              · rename_i hm
                right
                refine ⟨by simpa using hm, ?_⟩
                cases hn : nextInstruction heap fuel n with
                | none => simp [hn] at h
                | some next1 =>
                  simp only [hn] at h
                  exact ⟨next1, _, rfl, h⟩
    | UNDEFINED => simp [hd] at h
    | LABEL _ => simp [hd] at h
    | DIRECTIVE _ _ => simp [hd] at h
    | DEBUG _ _ => simp [hd] at h

/-- The second member of every pair that the scan adds lies on the chain of the next
instructions, within the instructions that may still be examined. -/
theorem RedMemMovElimPass.scan_within (env : DefsEnv) (heap : List MaoEntry) (fuel : Nat)
    (tracing_level : Int) (mask : Nat) :
    ∀ (remaining insn : Nat) (next : Option Nat) (found result : List (Nat × Nat)),
      RedMemMovElimPass.scan env heap fuel tracing_level mask remaining insn next found =
        some result →
      ∀ p ∈ result, p ∈ found ∨ ∃ path : List Nat, path.length ≤ remaining ∧
        path.head? = next ∧ linked heap fuel path ∧ path.getLast? = some p.2 := by
  intro remaining
  induction remaining with
  | zero =>
    intro insn next found result h p hp
    simp only [RedMemMovElimPass.scan, Option.some.injEq] at h
    subst h
    exact Or.inl hp
  | succ r ih =>
    intro insn next found result h p hp
    cases next with
    | none =>
      simp only [RedMemMovElimPass.scan, Option.some.injEq] at h
      subst h
      exact Or.inl hp
    | some n =>
      have hone : ∀ q : Nat × Nat, q = (insn, n) → ∃ path : List Nat, path.length ≤ r + 1 ∧
          path.head? = some n ∧ linked heap fuel path ∧ path.getLast? = some q.2 := by
        intro q hq
        subst hq
        exact ⟨[n], by simp, rfl, trivial, rfl⟩
      rcases RedMemMovElimPass.scan_turn h with ⟨_, rfl⟩ | ⟨_, found1, hf, hrest⟩
      · exact Or.inl hp
      · have hfound1 : ∀ q ∈ found1, q ∈ found ∨ q = (insn, n) := by
          intro q hq
          rcases hf with rfl | rfl
          · exact Or.inl hq
          · simpa using hq
        rcases hrest with ⟨_, rfl⟩ | ⟨_, next1, insn1, hn, hs⟩
        · rcases hfound1 p hp with h1 | h1
          · exact Or.inl h1
          · exact Or.inr (hone p h1)
        · rcases ih insn1 next1 found1 result hs p hp with h1 | ⟨path, hlen, hhead, hlink, hlast⟩
          · rcases hfound1 p h1 with h2 | h2
            · exact Or.inl h2
            · exact Or.inr (hone p h2)
          · right
            cases path with
            | nil => simp at hlast
            | cons c tl =>
              simp only [List.head?_cons] at hhead
              refine ⟨n :: c :: tl, by simp at hlen ⊢; omega, rfl, ⟨?_, hlink⟩, ?_⟩
              · rw [hn, hhead]
              · simpa using hlast

/-- C32: every pair that the scan from `I` finds has its second member among the first
`look_ahead_` instructions behind `I` on the chain of `nextInstruction`; with a
lookahead of 0 or less the scan finds no pair, and neither does the pass on any
graph. -/
theorem C32_lookahead_bound (env : DefsEnv) (heap : List MaoEntry) (fuel : Nat)
    (tracing_level look_ahead_ : Int) (I : Nat) (result : List (Nat × Nat))
    (h : RedMemMovElimPass.scanFrom env heap fuel tracing_level look_ahead_ I =
      some result) :
    (∀ p ∈ result, ∃ path : List Nat, (path.length : Int) ≤ look_ahead_ ∧
      linked heap fuel (I :: path) ∧ path.getLast? = some p.2) ∧
    (look_ahead_ ≤ 0 → result = [] ∧
      ∀ (cfg : CFG) (all : List (Nat × Nat)),
        RedMemMovElimPass.DoElim env heap fuel tracing_level look_ahead_ cfg = some all →
        all = []) := by
  have hscan : ∀ (la : Int) (J : Nat) (res : List (Nat × Nat)),
      RedMemMovElimPass.scanFrom env heap fuel tracing_level la J = some res →
      ∀ p ∈ res, ∃ path : List Nat, path.length ≤ la.toNat ∧
        linked heap fuel (J :: path) ∧ path.getLast? = some p.2 := by
    intro la J res hres p hp
    unfold RedMemMovElimPass.scanFrom at hres
    cases he : heap[J]? with
    | none => simp [he] at hres
    | some e =>
      simp only [he] at hres
      cases hd : e.data with
      | INSTRUCTION insn =>
        simp only [hd] at hres
        split at hres
        · split at hres
          · simp only [Option.some.injEq] at hres
            subst hres
            simp at hp
          · cases hn : nextInstruction heap fuel J with
            | none => simp [hn] at hres
            | some next =>
              simp only [hn] at hres
              rcases RedMemMovElimPass.scan_within env heap fuel tracing_level _ _ _ _ _ _
                hres p hp with h1 | ⟨path, hlen, hhead, hlink, hlast⟩
              · simp at h1
              · cases path with
                | nil => simp at hlast
                | cons c tl =>
                  simp only [List.head?_cons] at hhead
                  exact ⟨c :: tl, hlen, ⟨by rw [hn, hhead], hlink⟩, hlast⟩
        · simp only [Option.some.injEq] at hres
          subst hres
          simp at hp
      | UNDEFINED => simp [hd] at hres; subst hres; simp at hp
      | LABEL _ => simp [hd] at hres; subst hres; simp at hp
      | DIRECTIVE _ _ => simp [hd] at hres; subst hres; simp at hp
      | DEBUG _ _ => simp [hd] at hres; subst hres; simp at hp
  have hnone : ∀ (la : Int), la ≤ 0 → ∀ (J : Nat) (res : List (Nat × Nat)),
      RedMemMovElimPass.scanFrom env heap fuel tracing_level la J = some res → res = [] := by
    intro la hla J res hres
    apply List.eq_nil_iff_forall_not_mem.mpr
    intro p hp
    obtain ⟨path, hlen, _, hlast⟩ := hscan la J res hres p hp
    have h0 : la.toNat = 0 := Int.toNat_eq_zero.mpr hla
    rw [h0] at hlen
    have : path = [] := List.length_eq_zero.mp (by omega)
    subst this
    simp at hlast
  refine ⟨?_, ?_⟩
  · intro p hp
    obtain ⟨path, hlen, hlink, hlast⟩ := hscan look_ahead_ I result h p hp
    refine ⟨path, ?_, hlink, hlast⟩
    have hmax : ((look_ahead_.toNat : Nat) : Int) = max look_ahead_ 0 := Int.toNat_eq_max _
    have hpos : 0 < path.length := by
      cases path with
      | nil => simp at hlast
      | cons c tl => simp
    omega
  · intro hla
    refine ⟨hnone look_ahead_ hla I result h, ?_⟩
    have hblock : ∀ (es : List Nat) (res : List (Nat × Nat)),
        RedMemMovElimPass.block env heap fuel tracing_level look_ahead_ es = some res →
        res = [] := by
      intro es
      induction es with
      | nil =>
        intro res hres
        simp only [RedMemMovElimPass.block, Option.some.injEq] at hres
        exact hres.symm
      | cons a rest ih =>
        intro res hres
        simp only [RedMemMovElimPass.block] at hres
        cases h1 : RedMemMovElimPass.scanFrom env heap fuel tracing_level look_ahead_ a with
        | none => simp [h1] at hres
        | some f1 =>
          simp only [h1] at hres
          cases h2 : RedMemMovElimPass.block env heap fuel tracing_level look_ahead_ rest with
          | none => simp [h2] at hres
          | some f2 =>
            simp only [h2, Option.some.injEq] at hres
            rw [← hres, hnone look_ahead_ hla a f1 h1, ih f2 h2]
            rfl
    intro cfg
    induction cfg with
    | nil =>
      intro all hall
      simp only [RedMemMovElimPass.DoElim, Option.some.injEq] at hall
      exact hall.symm
    | cons b rest ih =>
      intro all hall
      simp only [RedMemMovElimPass.DoElim] at hall
      cases h1 : RedMemMovElimPass.block env heap fuel tracing_level look_ahead_
          b.entries_ with
      | none => simp [h1] at hall
      | some f1 =>
        simp only [h1] at hall
        cases h2 : RedMemMovElimPass.DoElim env heap fuel tracing_level look_ahead_ rest with
        | none => simp [h2] at hall
        | some f2 =>
          simp only [h2, Option.some.injEq] at hall
          rw [← hall, hblock _ f1 h1, ih f2 h2]
          rfl

/-- C32, witness: on three loads of `24(%rsp)` with lookahead 1 the scan from the first
load finds the pair with the second load only; with lookahead 0 and with lookahead -1
the pass finds nothing. -/
theorem C32_lookahead_bound_witness :
    RedMemMovElimPass.scanFrom (tableEnv threeLoads) threeInstructions 4 0 1 0 =
      some [(0, 1)] ∧
    (∀ p ∈ [((0 : Nat), (1 : Nat))], ∃ path : List Nat, (path.length : Int) ≤ 1 ∧
      linked threeInstructions 4 (0 :: path) ∧ path.getLast? = some p.2) ∧
    RedMemMovElimPass.DoElim (tableEnv threeLoads) threeInstructions 4 0 0 oneBlock =
      some [] ∧
    RedMemMovElimPass.DoElim (tableEnv threeLoads) threeInstructions 4 1 (-1) oneBlock =
      some [] :=
  ⟨rfl, (C32_lookahead_bound (tableEnv threeLoads) threeInstructions 4 0 1 0 [(0, 1)] rfl).1,
    rfl, rfl⟩

/-! ## Where the scan stops (C33) and the tracing level (C37) -/

/-- The scan does not go past an instruction `K` that is not crossed: the second
member of every pair it adds lies on the chain up to `K`, and is `K` itself only when
`K` is examined. -/
theorem RedMemMovElimPass.scan_stops (env : DefsEnv) (heap : List MaoEntry) (fuel : Nat)
    (tracing_level : Int) (mask K : Nat)
    (hK : RedMemMovElimPass.crossed env heap mask K = false) :
    ∀ (pre : List Nat) (remaining insn : Nat) (found result : List (Nat × Nat)),
      linked heap fuel (pre ++ [K]) →
      RedMemMovElimPass.scan env heap fuel tracing_level mask remaining insn
        (pre ++ [K]).head? found = some result →
      ∀ p ∈ result, p ∈ found ∨ ∃ a b : List Nat, pre ++ [K] = a ++ p.2 :: b ∧
        (b = [] → RedMemMovElimPass.examined env heap K = true) := by
  intro pre
  induction pre with
  | nil =>
    intro remaining insn found result _ h p hp
    cases remaining with
    | zero =>
      simp only [RedMemMovElimPass.scan, Option.some.injEq] at h
      subst h
      exact Or.inl hp
    | succ r =>
      simp only [List.nil_append, List.head?_cons] at h
      rcases RedMemMovElimPass.scan_turn h with ⟨_, rfl⟩ | ⟨hex, found1, hf, hrest⟩
      · exact Or.inl hp
      · rcases hrest with ⟨_, rfl⟩ | ⟨hm, _⟩
        · rcases hf with rfl | rfl
          · exact Or.inl hp
          · rcases List.mem_append.mp hp with h1 | h1
            · exact Or.inl h1
            · right
              simp only [List.mem_singleton] at h1
              subst h1
              exact ⟨[], [], rfl, fun _ => hex⟩
        · simp [RedMemMovElimPass.crossed, hex, hm] at hK
  | cons c tl ih =>
    intro remaining insn found result hlink h p hp
    cases remaining with
    | zero =>
      simp only [RedMemMovElimPass.scan, Option.some.injEq] at h
      subst h
      exact Or.inl hp
    | succ r =>
      simp only [List.cons_append, List.head?_cons] at h
      have hone : ∀ q : Nat × Nat, q = (insn, c) →
          ∃ a b : List Nat, c :: tl ++ [K] = a ++ q.2 :: b ∧
            (b = [] → RedMemMovElimPass.examined env heap K = true) := by
        intro q hq
        subst hq
        exact ⟨[], tl ++ [K], rfl, fun hb => by simp at hb⟩
      rcases RedMemMovElimPass.scan_turn h with ⟨_, rfl⟩ | ⟨_, found1, hf, hrest⟩
      · exact Or.inl hp
      · have hfound1 : ∀ q ∈ found1, q ∈ found ∨ q = (insn, c) := by
          intro q hq
          rcases hf with rfl | rfl
          · exact Or.inl hq
          · simpa using hq
        rcases hrest with ⟨_, rfl⟩ | ⟨_, next1, insn1, hn, hs⟩
        · rcases hfound1 p hp with h1 | h1
          · exact Or.inl h1
          · exact Or.inr (hone p h1)
        · obtain ⟨c2, tl2, hc⟩ : ∃ c2 tl2, tl ++ [K] = c2 :: tl2 := by
            cases tl with
            | nil => exact ⟨K, [], rfl⟩
            | cons c2 tl2 => exact ⟨c2, tl2 ++ [K], rfl⟩
          have hl : linked heap fuel (c :: c2 :: tl2) := by
            rw [← hc]
            exact hlink
          obtain ⟨hnext, hl2⟩ := hl
          rw [hn] at hnext
          simp only [Option.some.injEq] at hnext
          subst hnext
          have hs2 : RedMemMovElimPass.scan env heap fuel tracing_level mask r insn1
              (tl ++ [K]).head? found1 = some result := by
            rw [hc]
            exact hs
          rcases ih r insn1 found1 result (by rw [hc]; exact hl2) hs2 p hp with
            h1 | ⟨a, b, hab, hb⟩
          · rcases hfound1 p h1 with h2 | h2
            · exact Or.inl h2
            · exact Or.inr (hone p h2)
          · exact Or.inr ⟨c :: a, b, by simp [hab], hb⟩

/-- C33: let `K` be an instruction on the chain behind the load `I`, with the
instructions `pre` between them, that is a control transfer, a call or a return, or
whose definition mask is 0 or `REG_ALL`, or meets the mask of `I` joined with its base
and index mask.  Then every pair that the scan from `I` finds has its second member on
the chain `pre ++ [K]`, none behind `K`; and `K` is the second member only when it is
none of the first kinds, that is, when its definition mask meets the mask. -/
theorem C33_scan_stops_at (env : DefsEnv) (heap : List MaoEntry) (fuel : Nat)
    (tracing_level look_ahead_ : Int) (I K : Nat) (pre : List Nat)
    (result : List (Nat × Nat)) (eK : MaoEntry) (insnK : i386_insn)
    (hlink : linked heap fuel (I :: (pre ++ [K])))
    (heK : heap[K]? = some eK) (hdK : eK.data = .INSTRUCTION insnK)
    (hK : (env.IsControlTransfer K || InstructionEntry.IsCall insnK ||
        InstructionEntry.IsReturn insnK) = true ∨
      env.GetRegisterDefMask K = 0 ∨ env.GetRegisterDefMask K = env.REG_ALL ∨
      env.GetRegisterDefMask K &&&
        (env.GetRegisterDefMask I ||| (env.GetMaskForRegister (env.GetBaseRegister I) |||
          env.GetMaskForRegister (env.GetIndexRegister I))) ≠ 0)
    (h : RedMemMovElimPass.scanFrom env heap fuel tracing_level look_ahead_ I =
      some result) :
    ∀ p ∈ result, ∃ a b : List Nat, pre ++ [K] = a ++ p.2 :: b ∧
      (b = [] →
        (env.IsControlTransfer K || InstructionEntry.IsCall insnK ||
          InstructionEntry.IsReturn insnK) = false ∧
        env.GetRegisterDefMask K ≠ 0 ∧ env.GetRegisterDefMask K ≠ env.REG_ALL ∧
        env.GetRegisterDefMask K &&&
          (env.GetRegisterDefMask I ||| (env.GetMaskForRegister (env.GetBaseRegister I) |||
            env.GetMaskForRegister (env.GetIndexRegister I))) ≠ 0) := by
  intro p hp
  have hex : RedMemMovElimPass.examined env heap K = true →
      (env.IsControlTransfer K || InstructionEntry.IsCall insnK ||
        InstructionEntry.IsReturn insnK) = false ∧
      env.GetRegisterDefMask K ≠ 0 ∧ env.GetRegisterDefMask K ≠ env.REG_ALL := by
    intro hx
    obtain ⟨e, insn, he, hd, hctl, hdefs⟩ := RedMemMovElimPass.examined_spec hx
    rw [heK] at he
    cases he
    rw [hdK] at hd
    cases hd
    exact ⟨hctl, fun h0 => hdefs (Or.inl h0), fun h0 => hdefs (Or.inr h0)⟩
  have hcross : RedMemMovElimPass.crossed env heap
      (env.GetRegisterDefMask I ||| (env.GetMaskForRegister (env.GetBaseRegister I) |||
        env.GetMaskForRegister (env.GetIndexRegister I))) K = false := by
    cases hx : RedMemMovElimPass.examined env heap K with
    | false => simp [RedMemMovElimPass.crossed, hx]
    | true =>
      obtain ⟨h1, h2, h3⟩ := hex hx
      rcases hK with h0 | h0 | h0 | h0
      · rw [h1] at h0
        cases h0
      · exact absurd h0 h2
      · exact absurd h0 h3
      · simp [RedMemMovElimPass.crossed, hx, h0]
  unfold RedMemMovElimPass.scanFrom at h
  cases he : heap[I]? with
  | none => simp [he] at h
  | some e =>
    simp only [he] at h
    have hempty : some ([] : List (Nat × Nat)) = some result → False := by
      intro h0
      simp only [Option.some.injEq] at h0
      subst h0
      simp at hp
    cases hd : e.data with
    | INSTRUCTION insn =>
      simp only [hd] at h
      split at h
      · split at h
        · exact (hempty h).elim
        · obtain ⟨c, tl, hc⟩ : ∃ c tl, pre ++ [K] = c :: tl := by
            cases pre with
            | nil => exact ⟨K, [], rfl⟩
            | cons c tl => exact ⟨c, tl ++ [K], rfl⟩
          have hl : linked heap fuel (I :: c :: tl) := by
            rw [← hc]
            exact hlink
          obtain ⟨hnext, hl2⟩ := hl
          simp only [hnext] at h
          have hs : RedMemMovElimPass.scan env heap fuel tracing_level
              (env.GetRegisterDefMask I ||| (env.GetMaskForRegister (env.GetBaseRegister I) |||
                env.GetMaskForRegister (env.GetIndexRegister I))) look_ahead_.toNat I
              (pre ++ [K]).head? [] = some result := by
            rw [hc]
            exact h
          rcases RedMemMovElimPass.scan_stops env heap fuel tracing_level _ K hcross pre _ _ _ _
            (by rw [hc]; exact hl2) hs p hp with h1 | ⟨a, b, hab, hb⟩
          · simp at h1
          · refine ⟨a, b, hab, fun hbn => ?_⟩
            have hx := hb hbn
            obtain ⟨h1, h2, h3⟩ := hex hx
            refine ⟨h1, h2, h3, ?_⟩
            rcases hK with h0 | h0 | h0 | h0
            · rw [h1] at h0
              cases h0
            · exact absurd h0 h2
            · exact absurd h0 h3
            · exact h0
      · exact (hempty h).elim
    | UNDEFINED => simp only [hd] at h; exact (hempty h).elim
    | LABEL _ => simp only [hd] at h; exact (hempty h).elim
    | DIRECTIVE _ _ => simp only [hd] at h; exact (hempty h).elim
    | DEBUG _ _ => simp only [hd] at h; exact (hempty h).elim

/-- C33, witness: in `movq 24(%rsp), %rdx; movq 24(%rsp), %rdx; movq 24(%rsp), %rcx`
the second load defines `%rdx` again: the scan from the first load reports the pair
with the second load and stops, so the third load is not reported. -/
theorem C33_scan_stops_at_witness :
    RedMemMovElimPass.scanFrom (tableEnv redefinedLoads) threeInstructions 4 0 6 0 =
      some [(0, 1)] ∧
    linked threeInstructions 4 [0, 1, 2] ∧
    (tableEnv redefinedLoads).GetRegisterDefMask 1 &&&
      ((tableEnv redefinedLoads).GetRegisterDefMask 0 ||| exampleRegisterMask (some "rsp")) =
        4 ∧
    ∀ p ∈ [((0 : Nat), (1 : Nat))], ∃ a b : List Nat, [1] = a ++ p.2 :: b ∧
      (b = [] → (tableEnv redefinedLoads).GetRegisterDefMask 1 ≠ 0 ∧
        (tableEnv redefinedLoads).GetRegisterDefMask 1 ≠ (tableEnv redefinedLoads).REG_ALL) :=
  ⟨rfl, ⟨rfl, rfl, trivial⟩, rfl, fun p hp =>
    let ⟨a, b, h1, h2⟩ :=
      C33_scan_stops_at (tableEnv redefinedLoads) threeInstructions 4 0 6 0 1 [] [(0, 1)]
        _ _ ⟨rfl, trivial⟩ rfl rfl (Or.inr (Or.inr (Or.inr (by decide)))) rfl p hp
    ⟨a, b, h1, fun hb => ⟨(h2 hb).2.1, (h2 hb).2.2.1⟩⟩⟩

/-- C37 (the code breaks the claim): on three loads of `24(%rsp)` into `%rdx`, `%rcx`
and `%rbx` with lookahead 6 the scan from the first load finds the pairs (0, 1) and
(0, 2) at tracing level 0, and the pairs (0, 1) and (1, 2) at tracing level 1: the
pairs depend on the tracing level, and the first member of the pair (1, 2) is not the
load 0 at which the scan started.  The pass as a whole differs in the same way. -/
theorem C37_pairs_depend_on_tracing :
    RedMemMovElimPass.scanFrom (tableEnv threeLoads) threeInstructions 4 0 6 0 =
      some [(0, 1), (0, 2)] ∧
    RedMemMovElimPass.scanFrom (tableEnv threeLoads) threeInstructions 4 1 6 0 =
      some [(0, 1), (1, 2)] ∧
    (∃ p ∈ [((0 : Nat), (1 : Nat)), (1, 2)], p.1 ≠ 0) ∧
    RedMemMovElimPass.DoElim (tableEnv threeLoads) threeInstructions 4 0 6 oneBlock ≠
      RedMemMovElimPass.DoElim (tableEnv threeLoads) threeInstructions 4 1 6 oneBlock :=
  ⟨rfl, rfl, by decide, by decide⟩

/-! ## The chain of a section right after a SECTION directive (C38) -/

/-- An entry that is its own successor is never left by the iteration to the null
end: no amount of steps ends it. -/
theorem iterate_self_loop {heap : List MaoEntry} {p : Nat} {e : MaoEntry}
    (he : heap[p]? = some e) (hn : e.next_ = some p) :
    ∀ fuel, iterate heap fuel (some p) none = none := by
  intro fuel
  induction fuel with
  | zero => rfl
  | succ k ih =>
    simp only [iterate, he, hn, ih]
    simp

/-- C38 (the code breaks the claim): after the single call `AddEntry(.section .text,
true)` on a new unit the directive, entry 0, is its own successor: the unit has the one
section `.text`, whose iteration from `EntryBegin()` to `EntryEnd()` starts at entry 0
and does not end, whatever the number of steps. -/
theorem C38_section_chain_has_cycle :
    (build [(sectionDirective ".text", true)]).map
      (fun u => (u.sections_.map (fun s => (s.name_, s.EntryBegin u, s.EntryEnd)),
        next u.heap (some 0))) =
      some ([(".text", some (some 0), none)], some (some 0)) ∧
    ∀ fuel, (build [(sectionDirective ".text", true)]).map
      (fun u => u.sections_.map (fun s => s.entries u fuel)) = some [none] := by
  refine ⟨rfl, fun fuel => ?_⟩
  obtain ⟨u, hu, s, hs, hb, e, he, hn⟩ :
      ∃ u, build [(sectionDirective ".text", true)] = some u ∧
        ∃ s, u.sections_ = [s] ∧ s.EntryBegin u = some (some 0) ∧
        ∃ e, u.heap[0]? = some e ∧ e.next_ = some 0 :=
    ⟨_, rfl, _, rfl, rfl, _, rfl, rfl⟩
  rw [hu]
  simp only [Option.map_some', hs, List.map_cons, List.map_nil, Section.entries, hb,
    Section.EntryEnd, iterate_self_loop he hn fuel]

/-! ## The current subsection after AddEntry (C40) -/

/-- C40: a call of `AddEntry` on a new entry, with either value of
`create_default_section` and every kind of entry, either stops at one of its two
assertions (a label whose name is taken, a SECTION directive without a string operand)
or returns a unit with a non-null current subsection whose last entry is the entry
just added.  The `switch` on the entry type, and so the Label branch, runs in a unit
whose current subsection is non-null. -/
theorem C40_current_subsection_after_add (u : MaoUnit) (data : EntryData) (cds : Bool)
    (hwf : WF u) :
    (∃ u2 c ss, AddEntry.openDefault
        { u with heap := u.heap ++
            [{ id_ := u.entry_vector_.length, next_ := none, prev_ := none, data := data }] }
        u.heap.length cds = some u2 ∧
      u2.current_subsection_ = some c ∧ u2.sub_sections_[c]? = some ss) ∧
    ((AddEntry.fatal u data = true ∧ addNew u data cds = none) ∨
     (AddEntry.fatal u data = false ∧ ∃ u1 c ss, addNew u data cds = some u1 ∧
        u1.current_subsection_ = some c ∧ u1.sub_sections_[c]? = some ss ∧
        ss.last_entry_ = some u.heap.length)) := by
  constructor
  · have hwf0 := WF.alloc hwf
      ({ id_ := u.entry_vector_.length, next_ := none, prev_ := none, data := data } :
        MaoEntry)
    rcases openDefault_spec _ u.heap.length cds hwf0 (by simp) with
      ⟨u2, sec, nm, st, ho, hpost, _⟩ | ⟨ho, c, ss, hc, hss, _⟩
    · obtain ⟨ss, hsub⟩ : ∃ ss, u2.sub_sections_[u.sub_sections_.length]? = some ss := by
        rw [hpost.subs]
        exact ⟨_, List.getElem?_concat_length _ _⟩
      exact ⟨u2, u.sub_sections_.length, ss, ho, hpost.current, hsub⟩
    · exact ⟨_, c, ss, ho, hc, hss⟩
  · cases hf : AddEntry.fatal u data with
    | true => exact Or.inl ⟨rfl, addNew_fatal u data cds hwf hf⟩
    | false =>
      obtain ⟨u1, h1, hp⟩ := addNew_ok u data cds hwf hf
      obtain ⟨c, ss, hc, hss, hl⟩ := hp.current
      exact Or.inr ⟨rfl, u1, c, ss, h1, hc, hss, hl⟩

/-- C40, witness: the label `f` added to the empty unit with
`create_default_section = false` leaves a current subsection whose last entry is the
label, entry 0. -/
theorem C40_current_subsection_after_add_witness :
    AddEntry.fatal MaoUnit.empty (EntryData.LABEL "f") = false ∧
    ∃ u1 c ss, addNew MaoUnit.empty (EntryData.LABEL "f") false = some u1 ∧
      u1.current_subsection_ = some c ∧ u1.sub_sections_[c]? = some ss ∧
      ss.last_entry_ = some 0 := by
  rcases (C40_current_subsection_after_add MaoUnit.empty (EntryData.LABEL "f") false
    Built.empty_unit.wf).2 with h | h
  · exact absurd h.1 (by decide)
  · exact h

/-! ## Common symbols (C39) -/

theorem SymbolTable.Find_name {t : List Symbol} {n : String} {s : Symbol}
    (h : SymbolTable.Find t n = some s) : s.name = n := by
  induction t with
  | nil => simp [SymbolTable.Find] at h
  | cons x rest ih =>
    by_cases hx : x.name = n
    · simp only [SymbolTable.Find, if_pos hx, Option.some.injEq] at h
      rw [← h]
      exact hx
    · simp only [SymbolTable.Find, if_neg hx] at h
      exact ih h

theorem SymbolTable.Find_store {t : List Symbol} {n : String} {old s : Symbol}
    (h : SymbolTable.Find t n = some old) (hs : s.name = n) :
    SymbolTable.Find (SymbolTable.store t n s) n = some s := by
  induction t with
  | nil => simp [SymbolTable.Find] at h
  | cons x rest ih =>
    by_cases hx : x.name = n
    · simp [SymbolTable.store, SymbolTable.Find, hx, hs]
    · simp only [SymbolTable.Find, if_neg hx] at h
      simp [SymbolTable.store, SymbolTable.Find, hx, ih h]

theorem SymbolTable.Find_store_other {t : List Symbol} {n m : String} {s : Symbol}
    (hs : s.name = n) (hm : m ≠ n) :
    SymbolTable.Find (SymbolTable.store t n s) m = SymbolTable.Find t m := by
  induction t with
  | nil => rfl
  | cons x rest ih =>
    have h1 : ¬ s.name = m := fun h => hm (by rw [← h, hs])
    by_cases hx : x.name = n
    · have h2 : ¬ x.name = m := fun h => hm (by rw [← h, hx])
      simp only [SymbolTable.store, if_pos hx, SymbolTable.Find, if_neg h1, if_neg h2]
    · simp only [SymbolTable.store, if_neg hx, SymbolTable.Find, ih]

theorem SymbolTable.store_same {t : List Symbol} {n : String} {s : Symbol}
    (h : SymbolTable.Find t n = some s) : SymbolTable.store t n s = t := by
  induction t with
  | nil => rfl
  | cons x rest ih =>
    by_cases hx : x.name = n
    · simp only [SymbolTable.Find, if_pos hx, Option.some.injEq] at h
      subst h
      simp only [SymbolTable.store, if_pos hx]
    · simp only [SymbolTable.Find, if_neg hx] at h
      simp only [SymbolTable.store, if_neg hx, ih h]

theorem SymbolTable.Find_Add {t : List Symbol} {n : String} {s : Symbol}
    (h : SymbolTable.Find t n = none) (hs : s.name = n) :
    SymbolTable.Find (SymbolTable.Add t s) n = some s ∧
    ∀ m, m ≠ n → SymbolTable.Find (SymbolTable.Add t s) m = SymbolTable.Find t m := by
  induction t with
  | nil =>
    refine ⟨by simp [SymbolTable.Add, SymbolTable.Find, hs], fun m hm => ?_⟩
    have h1 : ¬ s.name = m := fun h => hm (by rw [← h, hs])
    simp [SymbolTable.Add, SymbolTable.Find, h1]
  | cons x rest ih =>
    by_cases hx : x.name = n
    · simp [SymbolTable.Find, hx] at h
    · simp only [SymbolTable.Find, if_neg hx] at h
      obtain ⟨h1, h2⟩ := ih h
      simp only [SymbolTable.Add] at h1 h2 ⊢
      refine ⟨by simp [SymbolTable.Find, hx, h1], fun m hm => ?_⟩
      by_cases hxm : x.name = m
      · simp [SymbolTable.Find, hxm]
      · simp [SymbolTable.Find, hxm, h2 m hm]

/-- The setters of `AddCommSymbol` fail exactly when the common size is raised to a
value that the size of the symbol has reached already; else they leave the symbol
common, with the larger common size and alignment, and the size follows a raised
common size. -/
theorem AddCommSymbol.update_eq (sym0 : Symbol) (s a : Nat) :
    AddCommSymbol.update sym0 s a =
      if sym0.common_size < s ∧ s ≤ sym0.size then none
      else some { sym0 with common := true, common_size := max sym0.common_size s,
                            common_align := max sym0.common_align a,
                            size := if sym0.common_size < s then s else sym0.size } := by
  obtain ⟨nm, id, sec, ty, size, common, cs, ca⟩ := sym0
  simp only [AddCommSymbol.update]
  by_cases h1 : cs < s
  · by_cases h2 : size < s
    · have h3 : ¬ (cs < s ∧ s ≤ size) := by omega
      by_cases h4 : ca < a
      · simp [h1, h2, h3, h4, Nat.max_eq_right (Nat.le_of_lt h1),
          Nat.max_eq_right (Nat.le_of_lt h4)]
      · simp [h1, h2, h3, h4, Nat.max_eq_right (Nat.le_of_lt h1),
          Nat.max_eq_left (Nat.le_of_not_lt h4)]
    · have h3 : cs < s ∧ s ≤ size := by omega
      simp [h1, h2, h3]
  · have h3 : ¬ (cs < s ∧ s ≤ size) := by omega
    by_cases h4 : ca < a
    · simp [h1, h3, h4, Nat.max_eq_left (Nat.le_of_not_lt h1),
        Nat.max_eq_right (Nat.le_of_lt h4)]
    · simp [h1, h3, h4, Nat.max_eq_left (Nat.le_of_not_lt h1),
        Nat.max_eq_left (Nat.le_of_not_lt h4)]


/-- C39 (as amended): on a unit whose current subsection, if any, is a subsection,
`AddCommSymbol(name, s, a)` stops at its assertion exactly when the symbol exists with
a common size below `s` and a size of `s` or more.  Otherwise it returns; the symbol
then exists (created as an object with the next id when it was absent), is flagged
common, has the larger of the old common size and `s` and the larger of the old
alignment and `a`; its size is `s` when the common size was raised and the old size
otherwise; every other symbol is as before; and a second call with the same arguments
returns the unit unchanged. -/
theorem C39_add_comm_symbol (u : MaoUnit) (name : String) (s a : Nat)
    (hcur : ∀ c, u.current_subsection_ = some c → c < u.sub_sections_.length) :
    (∀ o, SymbolTable.Find u.symbol_table_ name = some o → o.common_size < s → s ≤ o.size →
      AddCommSymbol u name s a = none) ∧
    ((∀ o, SymbolTable.Find u.symbol_table_ name = some o → o.common_size < s → o.size < s) →
      ∃ u1 sym, AddCommSymbol u name s a = some u1 ∧
        SymbolTable.Find u1.symbol_table_ name = some sym ∧
        sym.common = true ∧
        sym.common_size =
          max ((SymbolTable.Find u.symbol_table_ name).elim 0 Symbol.common_size) s ∧
        sym.common_align =
          max ((SymbolTable.Find u.symbol_table_ name).elim 0 Symbol.common_align) a ∧
        sym.size =
          (if (SymbolTable.Find u.symbol_table_ name).elim 0 Symbol.common_size < s then s
           else (SymbolTable.Find u.symbol_table_ name).elim 0 Symbol.size) ∧
        (SymbolTable.Find u.symbol_table_ name = none →
          sym.symbol_type = .OBJECT_SYMBOL ∧ sym.id = u.symbol_table_.length) ∧
        (∀ m, m ≠ name →
          SymbolTable.Find u1.symbol_table_ m = SymbolTable.Find u.symbol_table_ m) ∧
        AddCommSymbol u1 name s a = some u1) := by
  have hagain : ∀ (t : List Symbol) (sym0 sym : Symbol),
      SymbolTable.Find t name = some sym0 →
      AddCommSymbol.update sym0 s a = some sym →
      AddCommSymbol { u with symbol_table_ := SymbolTable.store t name sym } name s a =
        some { u with symbol_table_ := SymbolTable.store t name sym } := by
    intro t sym0 sym hfind hup
    have hname0 := SymbolTable.Find_name hfind
    rw [AddCommSymbol.update_eq] at hup
    split at hup
    · cases hup
    · simp only [Option.some.injEq] at hup
      have hname : sym.name = name := by rw [← hup]; exact hname0
      have hf1 := SymbolTable.Find_store hfind hname
      have hup2 : AddCommSymbol.update sym s a = some sym := by
        rw [AddCommSymbol.update_eq, ← hup]
        simp only
        have hnot : ¬ (max sym0.common_size s < s ∧
            s ≤ if sym0.common_size < s then s else sym0.size) := by
          intro h
          have := le_max_right sym0.common_size s
          omega
        rw [if_neg hnot]
        have h1 : ¬ max sym0.common_size s < s := by
          have := le_max_right sym0.common_size s
          omega
        simp only [if_neg h1, max_self, max_eq_left (le_max_right sym0.common_size s),
          max_eq_left (le_max_right sym0.common_align a)]
      simp only [AddCommSymbol, SymbolTable.Exists, hf1, Option.isSome_some,
        Bool.true_eq_false, if_false, hup2, SymbolTable.store_same hf1]
  have hupd : ∀ sym0 : Symbol, ¬ (sym0.common_size < s ∧ s ≤ sym0.size) →
      ∃ sym, AddCommSymbol.update sym0 s a = some sym ∧ sym.name = sym0.name ∧
        sym.id = sym0.id ∧ sym.symbol_type = sym0.symbol_type ∧ sym.common = true ∧
        sym.common_size = max sym0.common_size s ∧
        sym.common_align = max sym0.common_align a ∧
        sym.size = (if sym0.common_size < s then s else sym0.size) := by
    intro sym0 hnot
    rw [AddCommSymbol.update_eq, if_neg hnot]
    exact ⟨_, rfl, rfl, rfl, rfl, rfl, rfl, rfl, rfl⟩
  cases hfind : SymbolTable.Find u.symbol_table_ name with
  | some o =>
    have hname := SymbolTable.Find_name hfind
    constructor
    · intro o1 ho1 h1 h2
      cases ho1
      simp only [AddCommSymbol, SymbolTable.Exists, hfind, Option.isSome_some,
        Bool.true_eq_false, if_false, AddCommSymbol.update_eq, if_pos (And.intro h1 h2)]
    · intro hok
      have hnot : ¬ (o.common_size < s ∧ s ≤ o.size) := by
        intro h
        have := hok o rfl h.1
        omega
      obtain ⟨sym, hup, hn, _, _, h1, h2, h3, h4⟩ := hupd o hnot
      have hcall : AddCommSymbol u name s a =
          some { u with symbol_table_ := SymbolTable.store u.symbol_table_ name sym } := by
        simp only [AddCommSymbol, SymbolTable.Exists, hfind, Option.isSome_some,
          Bool.true_eq_false, if_false, hup]
      refine ⟨_, sym, hcall, SymbolTable.Find_store hfind (hn.trans hname), h1, h2, h3, h4,
        ?_, ?_, ?_⟩
      · intro h
        cases h
      · intro m hm
        exact SymbolTable.Find_store_other (hn.trans hname) hm
      · exact hagain _ _ _ hfind hup
  | none =>
    constructor
    · intro o1 ho1
      cases ho1
    · intro _
      obtain ⟨sec, hsec⟩ : ∃ sec : Option Nat,
          (u.current_subsection_ = none ∧ sec = none) ∨
          (∃ c ss, u.current_subsection_ = some c ∧ u.sub_sections_[c]? = some ss ∧
            sec = some ss.section_) := by
        cases hc : u.current_subsection_ with
        | none => exact ⟨none, Or.inl ⟨rfl, rfl⟩⟩
        | some c =>
          obtain ⟨ss, hss⟩ := exists_getElem? (hcur c hc)
          exact ⟨some ss.section_, Or.inr ⟨c, ss, rfl, hss, rfl⟩⟩
      obtain ⟨sym0, hsym0⟩ : ∃ sym0 : Symbol, sym0 =
          (Symbol.new name (SymbolTable.Size u.symbol_table_) sec).set_symbol_type
            .OBJECT_SYMBOL := ⟨_, rfl⟩
      have hn0 : sym0.name = name := by rw [hsym0]; rfl
      have hcs0 : sym0.common_size = 0 := by rw [hsym0]; rfl
      have hca0 : sym0.common_align = 0 := by rw [hsym0]; rfl
      have hsz0 : sym0.size = 0 := by rw [hsym0]; rfl
      have hty0 : sym0.symbol_type = .OBJECT_SYMBOL := by rw [hsym0]; rfl
      have hid0 : sym0.id = u.symbol_table_.length := by rw [hsym0]; rfl
      obtain ⟨t1, ht1⟩ : ∃ t1, t1 = SymbolTable.Add u.symbol_table_ sym0 := ⟨_, rfl⟩
      obtain ⟨hf1, hf2⟩ := SymbolTable.Find_Add hfind hn0
      rw [← ht1] at hf1 hf2
      have hnot : ¬ (sym0.common_size < s ∧ s ≤ sym0.size) := by
        rw [hcs0, hsz0]
        omega
      obtain ⟨sym, hup, hn, hid, hty, h1, h2, h3, h4⟩ := hupd sym0 hnot
      have hcall : AddCommSymbol u name s a =
          some { u with symbol_table_ := SymbolTable.store t1 name sym } := by
        rcases hsec with ⟨hc, hs⟩ | ⟨c, ss, hc, hss, hs⟩
        · subst hs
          simp only [AddCommSymbol, SymbolTable.Exists, hfind, Option.isSome_none, if_true,
            hc, Option.map_some', ← hsym0, ← ht1, hf1, hup]
        · subst hs
          simp only [AddCommSymbol, SymbolTable.Exists, hfind, Option.isSome_none, if_true,
            hc, hss, Option.map_some', ← hsym0, ← ht1, hf1, hup]
      rw [hcs0] at h2 h4
      rw [hca0] at h3
      rw [hsz0] at h4
      refine ⟨_, sym, hcall, SymbolTable.Find_store hf1 (hn.trans hn0), h1, h2, h3, h4,
        fun _ => ⟨hty.trans hty0, hid.trans hid0⟩, ?_, ?_⟩
      · intro m hm
        rw [← hf2 m hm]
        exact SymbolTable.Find_store_other (hn.trans hn0) hm
      · exact hagain _ _ _ hf1 hup

/-- C39, witness: `.comm x, 8, 4` on the empty unit creates the common object `x` with
common size 8, alignment 4 and size 8; `.comm x, 4, 16` after it keeps the common size
and the size and raises the alignment. -/
theorem C39_add_comm_symbol_witness :
    (AddCommSymbol MaoUnit.empty "x" 8 4).map MaoUnit.symbol_table_ =
      some [{ name := "x", id := 0, section_ := none, symbol_type := .OBJECT_SYMBOL,
              size := 8, common := true, common_size := 8, common_align := 4 }] ∧
    ((AddCommSymbol MaoUnit.empty "x" 8 4).bind
        (fun u => AddCommSymbol u "x" 4 16)).map MaoUnit.symbol_table_ =
      some [{ name := "x", id := 0, section_ := none, symbol_type := .OBJECT_SYMBOL,
              size := 8, common := true, common_size := 8, common_align := 16 }] ∧
    ∃ u1 sym, AddCommSymbol MaoUnit.empty "x" 8 4 = some u1 ∧
      SymbolTable.Find u1.symbol_table_ "x" = some sym ∧ sym.common = true ∧
      AddCommSymbol u1 "x" 8 4 = some u1 := by
  refine ⟨by decide, by decide, ?_⟩
  obtain ⟨u1, sym, h1, h2, h3, _, _, _, _, _, h4⟩ :=
    (C39_add_comm_symbol MaoUnit.empty "x" 8 4 (fun c hc => by cases hc)).2
      (fun o ho => by cases ho)
  exact ⟨u1, sym, h1, h2, h3, h4⟩

/-- C39, counterexample: the symbol `x` has size 16 and common size 0; then
`AddCommSymbol("x", 8, 4)` raises the common size to 8 and stops at the assertion
`size < common_size`: the size does not become the new common size. -/
theorem C39_size_at_least_common_size :
    SymbolTable.Find sizedSymbolUnit.symbol_table_ "x" =
      some { name := "x", id := 0, section_ := none, symbol_type := .NOTYPE_SYMBOL,
             size := 16, common := false, common_size := 0, common_align := 0 } ∧
    AddCommSymbol sizedSymbolUnit "x" 8 4 = none := by
  decide

/-! ## Sizes of the entries that end a fragment (C12) -/

theorem BuildFragments.convert_spec (env : Env) (entry : Nat) (e : MaoEntry) (op : Opcode)
    (expr : expressionS) (is_signed : Bool) (st : BuildState) :
    (BuildFragments.convert env entry e op expr is_signed st).1 =
      BuildFragments.converted env expr is_signed ∧
    ∀ k, k ≠ entry →
      (BuildFragments.convert env entry e op expr is_signed st).2.heap[k]? = st.heap[k]? := by
  unfold BuildFragments.convert BuildFragments.converted
  split
  · refine ⟨rfl, fun k hk => ?_⟩
    simp only []
    rw [List.getElem?_set_ne (Ne.symm hk)]
  · exact ⟨rfl, fun _ _ => rfl⟩

theorem HandleSpace_binds {entry : Nat} {operands : List Operand} {mult : Int}
    {st st1 : BuildState} (h : HandleSpace entry operands mult st true = some st1) :
    st1.relax_map = (if HandleSpace.varies operands = true then
        (st.ended.length, entry) :: st.relax_map else st.relax_map) ∧
    st1.heap = st.heap := by
  rcases operands with _ | ⟨o1, _ | ⟨o2, _ | ⟨o3, r⟩⟩⟩ <;>
    try (solve | simp [HandleSpace] at h)
  cases o1 <;> try (solve | simp [HandleSpace] at h)
  rename_i size
  unfold HandleSpace at h
  simp only [] at h
  by_cases hc : size.X_op = .O_constant
  · simp only [hc, if_true] at h
    by_cases hpos : toInt32 (size.X_add_number * (if mult ≠ 0 then mult else 1)) > 0
    · simp only [hpos, if_true, Option.some.injEq] at h
      subst h
      simp [HandleSpace.varies, hc]
    · simp only [hpos, if_false] at h
      cases h
  · simp only [hc, if_false] at h
    by_cases hm : mult = 0 ∨ mult = 1
    · simp only [hm, if_true, Option.some.injEq] at h
      subst h
      simp [HandleSpace.varies, hc, FragVar]
    · simp only [hm, if_false] at h
      cases h

theorem leb128_binds {env : Env} {entry : Nat} {e : MaoEntry} {op : Opcode}
    {operands : List Operand} {st st1 : BuildState}
    (h : BuildFragments.leb128 env entry e op operands st = some st1) :
    st1.relax_map = (if BuildFragments.leb128Varies env op operands = true then
        (st.ended.length, entry) :: st.relax_map else st.relax_map) ∧
    ∀ k, k ≠ entry → st1.heap[k]? = st.heap[k]? := by
  rcases operands with _ | ⟨o1, _ | ⟨o2, r⟩⟩ <;>
    try (solve | simp [BuildFragments.leb128] at h)
  cases o1 <;> try (solve | simp [BuildFragments.leb128] at h)
  rename_i expr0
  unfold BuildFragments.leb128 at h
  simp only [] at h
  obtain ⟨h1, h2, h3, h4⟩ :=
    convert_same env entry e op expr0 (decide (op = Opcode.SLEB128)) st
  obtain ⟨h5, h6⟩ :=
    BuildFragments.convert_spec env entry e op expr0 (decide (op = Opcode.SLEB128)) st
  rcases hcv : BuildFragments.convert env entry e op expr0 (decide (op = Opcode.SLEB128)) st
    with ⟨expr, st2⟩
  rw [hcv] at h h1 h2 h3 h4 h5 h6
  simp only [] at h h1 h2 h3 h4 h5 h6
  simp only [BuildFragments.leb128Varies, ← h5]
  by_cases hc : expr.X_op = .O_constant
  · simp only [hc, if_true, Option.some.injEq] at h
    subst h
    simp [BuildState.addFixed, hc, h4]
    exact h6
  · simp only [hc, if_false] at h
    by_cases hb : expr.X_op = .O_big
    · simp only [hb, if_true, Option.some.injEq] at h
      subst h
      simp [BuildState.addFixed, hb, h4]
      exact h6
    · simp only [hb, if_false, Option.some.injEq] at h
      subst h
      simp [EndFragmentLeb128, FragVar, hc, hb, h1, h4]
      exact h6

theorem p2align_binds {is_text : Bool} {entry : Nat} {operands : List Operand}
    {st st1 : BuildState} (h : BuildFragments.p2align is_text entry operands st = some st1) :
    st1.relax_map = (st.ended.length, entry) :: st.relax_map ∧ st1.heap = st.heap := by
  unfold BuildFragments.p2align at h
  split at h
  · injection h with h
    subst h
    simp [EndFragmentAlign, FragVar]
  · cases h

theorem HandleString_binds {entry : Nat} {operands : List Operand} {m : Int} {t : Bool}
    {st st1 : BuildState} (h : HandleString entry operands m t st = some st1) :
    st1.relax_map = st.relax_map ∧ st1.heap = st.heap := by
  unfold HandleString at h
  cases hs : StringSize operands m t with
  | none => simp [hs] at h
  | some size =>
    simp only [hs, Option.some.injEq] at h
    subst h
    exact ⟨rfl, rfl⟩

/-- The body of the loop of `BuildFragments` binds the entry in `relax_map`, to the
current fragment, exactly when the payload of the entry is of a kind that ends a
fragment; it changes no entry object but that of the entry itself. -/
theorem BuildFragments.step_binds {env : Env} {is_text : Bool} {st st1 : BuildState}
    {entry : Nat} {en : MaoEntry} (he : st.heap[entry]? = some en)
    (h : BuildFragments.step env is_text st entry = some st1) :
    st1.relax_map = (if BuildFragments.endsFragment env en.data = true then
        (st.ended.length, entry) :: st.relax_map else st.relax_map) ∧
    ∀ k, k ≠ entry → st1.heap[k]? = st.heap[k]? := by
  unfold BuildFragments.step at h
  simp only [he] at h
  cases hd : en.data with
  | UNDEFINED => simp [hd] at h
  | LABEL n =>
    simp only [hd, Option.some.injEq] at h
    subst h
    exact ⟨by simp [BuildFragments.endsFragment], fun _ _ => rfl⟩
  | DEBUG k v =>
    simp only [hd, Option.some.injEq] at h
    subst h
    exact ⟨by simp [BuildFragments.endsFragment], fun _ _ => rfl⟩
  | INSTRUCTION insn =>
    simp only [hd] at h
    by_cases hv : (env.SizeOfInstruction insn).2 = true
    · simp only [if_pos hv] at h
      obtain ⟨sym, off, rfl⟩ := EndFragmentInstruction_eq h
      exact ⟨by simp [BuildFragments.endsFragment, hv, FragVar, BuildState.addFixed],
        fun _ _ => by simp [FragVar, BuildState.addFixed]⟩
    · simp only [if_neg hv, Option.some.injEq] at h
      subst h
      exact ⟨by simp [BuildFragments.endsFragment, hv, BuildState.addFixed],
        fun _ _ => by simp [BuildState.addFixed]⟩
  | DIRECTIVE op ops =>
    simp only [hd] at h
    cases op <;> simp only [] at h <;>
      first
      | (refine (fun hb => ?_) (HandleString_binds h)
         exact ⟨by simp [BuildFragments.endsFragment, hb.1], fun _ _ => by rw [hb.2]⟩)
      | (refine (fun hb => ?_) (HandleSpace_binds h)
         exact ⟨by simpa [BuildFragments.endsFragment] using hb.1, fun _ _ => by rw [hb.2]⟩)
      | (refine (fun hb => ?_) (leb128_binds h)
         exact ⟨by simpa [BuildFragments.endsFragment] using hb.1, hb.2⟩)
      | (refine (fun hb => ?_) (p2align_binds h)
         exact ⟨by simp [BuildFragments.endsFragment, hb.1], fun _ _ => by rw [hb.2]⟩)
      | (injection h with h
         subst h
         exact ⟨by simp [BuildFragments.endsFragment, BuildState.addFixed],
           fun _ _ => by simp [BuildState.addFixed]⟩)

/-- The loop of `BuildFragments` binds in `relax_map` exactly the entries it has seen
whose payload is of a kind that ends a fragment. -/
theorem BuildFragments.loop_binds {env : Env} {is_text : Bool} (heap0 : List MaoEntry) :
    ∀ (es : List Nat) {st st1 : BuildState} {P : List Nat}, RelaxKeys st P →
      (P ++ es).Nodup → (∀ k, k ∉ P → st.heap[k]? = heap0[k]?) →
      (∀ e, (∃ i, st.relax_map.lookup i = some e) ↔
        e ∈ P ∧ ∃ en, heap0[e]? = some en ∧ BuildFragments.endsFragment env en.data = true) →
      BuildFragments.loop env is_text st es = some st1 →
      ∀ e, (∃ i, st1.relax_map.lookup i = some e) ↔
        e ∈ P ++ es ∧ ∃ en, heap0[e]? = some en ∧
          BuildFragments.endsFragment env en.data = true := by
  intro es
  induction es with
  | nil =>
    intro st st1 P _ _ _ hval h
    simp only [BuildFragments.loop, Option.some.injEq] at h
    subst h
    simpa using hval
  | cons a rest ih =>
    intro st st1 P hinv hnd hheap hval h
    simp only [BuildFragments.loop] at h
    cases hs : BuildFragments.step env is_text st a with
    | none => simp [hs] at h
    | some st2 =>
      simp only [hs] at h
      have hnot : a ∉ P := by
        intro hm
        have := List.nodup_append.mp hnd
        exact this.2.2 hm (by simp)
      obtain ⟨en, hen⟩ : ∃ en, st.heap[a]? = some en := by
        cases hh : st.heap[a]? with
        | none => simp [BuildFragments.step, hh] at hs
        | some en => exact ⟨en, rfl⟩
      have hen0 : heap0[a]? = some en := by
        rw [← hheap a hnot]
        exact hen
      obtain ⟨hrm, hhp⟩ := BuildFragments.step_binds hen hs
      have h2 := ih (P := P ++ [a]) (hinv.step_keys hnot hs) (by simpa using hnd)
        (fun k hk => by
          simp only [List.mem_append, List.mem_singleton, not_or] at hk
          rw [hhp k hk.2]
          exact hheap k hk.1)
        (fun e => by
          by_cases hends : BuildFragments.endsFragment env en.data = true
          · rw [hrm, if_pos hends]
            have hlook : ∀ i, ((st.ended.length, a) :: st.relax_map).lookup i =
                if i = st.ended.length then some a else st.relax_map.lookup i := by
              intro i
              by_cases hin : i = st.ended.length
              · subst hin
                simp [List.lookup]
              · have hb : (i == st.ended.length) = false := by simpa using hin
                simp only [List.lookup, hb, if_neg hin]
            constructor
            · rintro ⟨i, hi⟩
              rw [hlook] at hi
              by_cases hin : i = st.ended.length
              · simp only [if_pos hin, Option.some.injEq] at hi
                subst hi
                exact ⟨by simp, en, hen0, hends⟩
              · simp only [if_neg hin] at hi
                obtain ⟨h3, h4⟩ := (hval e).mp ⟨i, hi⟩
                exact ⟨List.mem_append_left _ h3, h4⟩
            · rintro ⟨hmem, hk⟩
              rcases List.mem_append.mp hmem with h3 | h3
              · obtain ⟨i, hi⟩ := (hval e).mpr ⟨h3, hk⟩
                have hne : i ≠ st.ended.length := by
                  intro hc
                  rw [hc, hinv.free _ (le_refl _)] at hi
                  cases hi
                exact ⟨i, by rw [hlook, if_neg hne]; exact hi⟩
              · simp only [List.mem_singleton] at h3
                subst h3
                exact ⟨st.ended.length, by rw [hlook, if_pos rfl]⟩
          · rw [hrm, if_neg hends]
            constructor
            · intro hi
              obtain ⟨h3, h4⟩ := (hval e).mp hi
              exact ⟨List.mem_append_left _ h3, h4⟩
            · rintro ⟨hmem, en1, hk1, hk2⟩
              rcases List.mem_append.mp hmem with h3 | h3
              · exact (hval e).mpr ⟨h3, en1, hk1, hk2⟩
              · simp only [List.mem_singleton] at h3
                subst h3
                rw [hen0] at hk1
                cases hk1
                exact absurd hk2 hends)
        h
      simpa using h2

/-- After `BuildFragments` an entry of the section is bound to a fragment in
`relax_map` exactly when its payload is of a kind that ends a fragment. -/
theorem BuildFragments.binds {env : Env} {heap : List MaoEntry} {section_name : String}
    {entries : List Nat} {m0 : SizeMap} {st : BuildState} (hnd : entries.Nodup)
    (hb : BuildFragments env heap section_name entries m0 = some st) :
    ∀ e ∈ entries, ∀ en, heap[e]? = some en →
      ((∃ i, st.relax_map.lookup i = some e) ↔
        BuildFragments.endsFragment env en.data = true) := by
  unfold BuildFragments at hb
  simp only [] at hb
  cases hlo : BuildFragments.loop env (decide (section_name = ".text"))
      { heap := heap, ended := [], frag := NewFragment, size_map := m0,
        relax_map := [] } entries with
  | none => simp [hlo] at hb
  | some st0 =>
    simp only [hlo, Option.some.injEq] at hb
    have hinit : RelaxKeys
        { heap := heap, ended := [], frag := NewFragment, size_map := m0,
          relax_map := [] } [] := by
      refine { bound := ?_, free := ?_, inj := ?_ }
      · intro i hi
        simp at hi
      · intro i _
        simp [List.lookup]
      · intro i j e hi
        simp [List.lookup] at hi
    have h0 := BuildFragments.loop_binds heap entries hinit (by simpa using hnd)
      (fun _ _ => rfl) (fun e => by simp [List.lookup]) hlo
    have hrm : st.relax_map = st0.relax_map := by
      subst hb
      rw [EndFragmentAlign_code]
      rfl
    intro e he en hen
    rw [hrm, h0 e]
    simp only [List.nil_append]
    constructor
    · rintro ⟨_, en1, h1, h2⟩
      rw [hen] at h1
      cases h1
      exact h2
    · intro h2
      exact ⟨he, en, hen, h2⟩

/-- C12 (as stated, fails): in the section `.text` holding one `.byte`, `jmp L` and one
`.long` let `relax_segment` put the tail fragment 4 GiB + 4 bytes behind the fixed part
of the fragment that the jump ended.  The Phase-A size of the jump is 2 and
`fr_next.fr_address - fr_address - fr_fix` is 4294967300, but `Relax` leaves the size
6: it holds the variable part in an `int`. -/
theorem C12_variable_part_is_narrowed :
    ∃ st r f fr_next,
      BuildFragments exampleEnv byteJumpLongUnit.heap ".text" [0, 1, 2] [] = some st ∧
      Relax exampleEnv farRelax 4 byteJumpLongUnit 0 [] = some r ∧
      st.relax_map = [(0, 1)] ∧ r.fragments[0]? = some f ∧
      r.fragments[1]? = some fr_next ∧ st.size_map.get 1 = 2 ∧
      fr_next.fr_address - f.fr_address - f.fr_fix = 4294967300 ∧
      r.size_map.get 1 = 6 ∧
      r.size_map.get 1 ≠
        st.size_map.get 1 + (fr_next.fr_address - f.fr_address - f.fr_fix) :=
  ⟨_, _, _, _, rfl, rfl, rfl, rfl, rfl, rfl, rfl, rfl, by decide⟩

/-- C12, amended: let `st` be the state that `BuildFragments` (Phase A) returns for the
section and `r` the result of `Relax`, with an external `relax_segment` that keeps the
number of fragments.  An entry `e` that ended the fragment `f` is an entry of the
section and has `size_map[e]` = its Phase-A size + the value of
`f.fr_next.fr_address - f.fr_address - f.fr_fix` as an `int`, which is that difference
itself when it lies between -2^31 and 2^31 - 1.  The entries of the section that ended
a fragment are exactly those whose payload is an instruction reported as variable, a
`.p2align*`, a LEB128 directive whose expression is neither a constant nor a bignum,
or a `.space` / `.ds.*` whose count is not a constant.  Every entry that ended no
fragment keeps exactly its Phase-A size; the tail fragment is the one fragment that is
no key of `relax_map`, so it adds to no entry. -/
theorem C12_sizes_after_relax (env : Env)
    (relax_segment : List frag → Nat → List frag × Bool)
    (hlen : ∀ fs pass, (relax_segment fs pass).1.length = fs.length)
    (fuel : Nat) (u : MaoUnit) (sec : Nat) (s : Section) (entries : List Nat)
    (m0 : SizeMap) (st : BuildState) (r : RelaxResult)
    (hs : u.sections_[sec]? = some s) (he : s.entries u fuel = some entries)
    (hb : BuildFragments env u.heap s.name_ entries m0 = some st)
    (hr : Relax env relax_segment fuel u sec m0 = some r) :
    (∀ i e, st.relax_map.lookup i = some e →
      e ∈ entries ∧ ∃ f fr_next, r.fragments[i]? = some f ∧
        r.fragments[i + 1]? = some fr_next ∧
        r.size_map.get e =
          st.size_map.get e + toInt32 (fr_next.fr_address - f.fr_address - f.fr_fix) ∧
        (-2147483648 ≤ fr_next.fr_address - f.fr_address - f.fr_fix →
          fr_next.fr_address - f.fr_address - f.fr_fix < 2147483648 →
          r.size_map.get e =
            st.size_map.get e + (fr_next.fr_address - f.fr_address - f.fr_fix))) ∧
    (∀ e ∈ entries, ∀ en, u.heap[e]? = some en →
      ((∃ i, st.relax_map.lookup i = some e) ↔
        BuildFragments.endsFragment env en.data = true)) ∧
    (∀ e, (∀ i, st.relax_map.lookup i ≠ some e) → r.size_map.get e = st.size_map.get e) ∧
    r.fragments.length = st.ended.length + 1 ∧
    (∀ i, (∃ e, st.relax_map.lookup i = some e) ↔ i + 1 < r.fragments.length) := by
  unfold Relax at hr
  simp only [hs, he] at hr
  unfold Relax.onEntries at hr
  simp only [hb] at hr
  have hk := RelaxKeys.of_BuildFragments (Section.entries_nodup he) hb
  cases hl : Relax.loop relax_segment fuel 0 st.fragments with
  | none => simp [hl] at hr
  | some fs =>
    simp only [hl] at hr
    cases hu : Relax.updateSizes st.relax_map 0 fs st.size_map with
    | none => simp [hu] at hr
    | some m =>
      simp only [hu, Option.some.injEq] at hr
      subst hr
      simp only []
      have hfl : fs.length = st.ended.length + 1 := by
        rw [Relax.loop_length hlen fuel 0 _ _ hl]
        simp [BuildState.fragments]
      have hkey : ∀ i e, st.relax_map.lookup i = some e → i < st.ended.length := by
        intro i e h
        by_contra hc
        rw [hk.free i (by omega)] at h
        cases h
      refine ⟨?_, BuildFragments.binds (Section.entries_nodup he) hb, ?_, hfl, ?_⟩
      · intro i e h
        have hi := hkey i e h
        obtain ⟨e1, h1, h2⟩ := hk.bound i hi
        rw [h] at h1
        cases h1
        obtain ⟨f, hf⟩ := exists_getElem? (show i < fs.length by omega)
        obtain ⟨g, hg⟩ := exists_getElem? (show i + 1 < fs.length by omega)
        have hsize := Relax.updateSizes_bound st.relax_map e (fun a b => hk.inj a b e) fs 0 i
          _ m f g hu (by simpa using h) hf hg
        refine ⟨h2, f, g, hf, hg, hsize, fun h3 h4 => ?_⟩
        rw [hsize, toInt32_id h3 h4]
      · intro e hno
        exact Relax.updateSizes_other st.relax_map e fs 0 _ m hu (fun j _ => hno j)
      · intro i
        rw [hfl]
        constructor
        · rintro ⟨e, h⟩
          have := hkey i e h
          omega
        · intro hi
          obtain ⟨e, h, _⟩ := hk.bound i (by omega)
          exact ⟨e, h⟩

/-- C12, witness: in the section `.text` holding one `.byte`, `jmp L` and one `.long`
the jump, a variable instruction, ended fragment 0; its size 2 of Phase A grows by the
4 variable bytes of the fragment; the two directives ended no fragment and keep the
sizes 1 and 4. -/
theorem C12_sizes_after_relax_witness :
    ∃ st r, BuildFragments exampleEnv byteJumpLongUnit.heap ".text" [0, 1, 2] [] = some st ∧
      Relax exampleEnv exampleRelax 4 byteJumpLongUnit 0 [] = some r ∧
      st.relax_map = [(0, 1)] ∧ st.size_map.get 1 = 2 ∧ r.size_map.get 1 = 6 ∧
      r.size_map.get 0 = 1 ∧ r.size_map.get 2 = 4 ∧
      BuildFragments.endsFragment exampleEnv jumpInstruction = true ∧
      BuildFragments.endsFragment exampleEnv (.DIRECTIVE .BYTE [.INT 144]) = false ∧
      (∀ e ∈ [0, 1, 2], ∀ en, byteJumpLongUnit.heap[e]? = some en →
        ((∃ i, st.relax_map.lookup i = some e) ↔
          BuildFragments.endsFragment exampleEnv en.data = true)) ∧
      (∀ e, (∀ i, st.relax_map.lookup i ≠ some e) →
        r.size_map.get e = st.size_map.get e) := by
  obtain ⟨st, hst⟩ :
      ∃ st, BuildFragments exampleEnv byteJumpLongUnit.heap ".text" [0, 1, 2] [] = some st :=
    ⟨_, rfl⟩
  obtain ⟨r, hr⟩ : ∃ r, Relax exampleEnv exampleRelax 4 byteJumpLongUnit 0 [] = some r :=
    ⟨_, rfl⟩
  have h := C12_sizes_after_relax exampleEnv exampleRelax
    (fun fs _ => by simpa using congrArg List.length (layout_fix fs 0)) 4 byteJumpLongUnit 0
    { name_ := ".text", id_ := 0, subsections_ := [0] } [0, 1, 2] [] st r rfl rfl hst hr
  refine ⟨st, r, hst, hr, ?_, ?_, ?_, ?_, ?_, rfl, rfl, h.2.1, h.2.2.1⟩ <;>
    (cases hst; cases hr; rfl)

end Mao
